import Mathlib

/-!
# Properties of the puzzle solvers

Shallow embeddings of the solvers under `src/solutions` and the properties proved of them.
All definitions come first, day by day; the lemmas and the theorems follow.

## The C++ standard library functions the solutions call
-/

namespace Cpp

/-- The constant `std::string::npos`, the largest `size_t`. -/
def npos : Nat := 2 ^ 64 - 1

/-- How a call ends: it returns a value, it throws a C++ exception, or it runs into undefined
behaviour (an index outside a vector). -/
inductive Outcome (α : Type) where
  | returned (value : α)
  | thrown
  | undefined
deriving DecidableEq

/-- The value of a string of decimal digits. -/
def digits_value (digits : List Char) : Int :=
  digits.foldl (fun acc c => 10 * acc + ((c.toNat : Int) - 48)) 0

/-- Modelled from the C++ standard: `std::from_chars(first, last, value)` for a `long` in base
10, seen as the new content of `value`. The longest start of the text that is an optional
minus sign followed by decimal digits is converted; when there is no digit, or the number does
not fit a `long`, `value` is left as it was (the error code is what the callers drop). -/
def from_chars_long (sv : List Char) (value : Int) : Int :=
  let negative := decide (sv.head? = some '-')
  let body := if negative then sv.tail else sv
  let digits := body.takeWhile Char.isDigit
  if digits = [] then value
  else
    let parsed := if negative then -(digits_value digits) else digits_value digits
    if -(2 ^ 63) ≤ parsed ∧ parsed ≤ 2 ^ 63 - 1 then parsed else value

/-- The position of the first `ch` in `s`, the first character of which has position `i`;
`npos` when there is none. -/
def find_from : List Char → Char → Nat → Nat
  | [], _, _ => npos
  | c :: rest, ch, i => if c = ch then i else find_from rest ch (i + 1)

/-- Modelled from the C++ standard: `s.find(ch, pos)`. -/
def find (s : List Char) (ch : Char) (pos : Nat) : Nat :=
  find_from (s.drop pos) ch pos

/-- Modelled from the C++ standard: `sv.substr(pos, count)`, which throws `std::out_of_range`
when `pos > sv.size()`. -/
def substr (sv : List Char) (pos count : Nat) : Outcome (List Char) :=
  if pos > sv.length then Outcome.thrown else Outcome.returned ((sv.drop pos).take count)

/-- Modelled from the C++ standard: `std::to_string` of a `long`. -/
def to_string (value : Int) : List Char :=
  if value < 0 then '-' :: Nat.toDigits 10 value.natAbs else Nat.toDigits 10 value.natAbs

/-- The conversion of a `long` to `int` (modulo `2^32`, into `[-2^31, 2^31)`). -/
def long_to_int (value : Int) : Int :=
  (value + 2 ^ 31) % 2 ^ 32 - 2 ^ 31

/-- The `int` that holds an arithmetic result of exact value `value`: the wrap-around of
two's complement, modulo `2^32` into `[-2^31, 2^31)`. (Signed overflow is undefined behaviour
in the source; below `2^31` in size the result is exact.) -/
def wrap_int (value : Int) : Int :=
  (value + 2 ^ 31) % 2 ^ 32 - 2 ^ 31

/-- The `long` that holds an arithmetic result of exact value `value`: modulo `2^64` into
`[-2^63, 2^63)`. -/
def wrap_long (value : Int) : Int :=
  (value + 2 ^ 63) % 2 ^ 64 - 2 ^ 63

/-- Modelled from the C++ standard: `std::from_chars(first, last, value)` for an `int`; as
`from_chars_long`, with the range of `int`. -/
def from_chars_int (sv : List Char) (value : Int) : Int :=
  let negative := decide (sv.head? = some '-')
  let body := if negative then sv.tail else sv
  let digits := body.takeWhile Char.isDigit
  if digits = [] then value
  else
    let parsed := if negative then -(digits_value digits) else digits_value digits
    if -(2 ^ 31) ≤ parsed ∧ parsed ≤ 2 ^ 31 - 1 then parsed else value

/-- The `long` that `std::pow(10, n)` is converted to, taken as the exact power (the `double`
result is exact as long as it stays below `2^53`). -/
def pow10 (n : Nat) : Int := 10 ^ n

/-! ### `double` values

Every `double` that occurs in the solutions has an integer value: a converted `long`, a square
or a power of ten, and sums, differences and products of such. It is modelled as that `Int`,
and an operation on `double`s as the exact operation followed by `round_double` (IEEE 754
binary64, round to nearest, ties to even). `std::pow` is taken as correctly rounded. -/

/-- The number of low bits of `n` that the 53 bits of a `double` cannot hold: 0 for
`n < 2^53`, else the `e` with `2^(52+e) ≤ n < 2^(53+e)`, for `n < 2^(53+fuel)`. -/
def dropped_bits : Nat → Nat → Nat
  | 0, _ => 0
  | fuel + 1, n => if n < 2 ^ 53 then 0 else dropped_bits fuel (n / 2) + 1

/-- The `double` nearest to the natural number `n`, ties going to the even significand
(for `n` below `2^1024`, where the finite `double`s end). -/
def round_double_nat (n : Nat) : Nat :=
  let e := dropped_bits 1024 n
  let q := n / 2 ^ e
  let r := n % 2 ^ e
  if 2 * r < 2 ^ e ∨ (2 * r = 2 ^ e ∧ q % 2 = 0) then q * 2 ^ e else (q + 1) * 2 ^ e

/-- The `double` nearest to the integer `x`: the conversion of a `long` to `double`, and the
rounding of an exact result. -/
def round_double (x : Int) : Int :=
  if x < 0 then -((round_double_nat x.natAbs : Nat) : Int)
  else ((round_double_nat x.natAbs : Nat) : Int)

/-- The conversion of a `double` of integer value `x` to `long`. Outside the range of `long`
it is undefined behaviour in the source; the embedding takes the result of the x86-64
conversion instruction, the smallest `long`. -/
def double_to_long (x : Int) : Int :=
  if -(2 ^ 63) ≤ x ∧ x < 2 ^ 63 then x else -(2 ^ 63)

/-- Modelled from the C++ standard: `std::pow(base, exponent)` for two non-negative integers,
as a `double`. -/
def pow_double (base exponent : Nat) : Int :=
  round_double ((base : Int) ^ exponent)

end Cpp

/-! ## Day 01 (`src/solutions/01/common.cpp`, `solve_b.cpp`, `solve_a.cpp`)

The dial position and the counters are `int`: every arithmetic result is passed through
`wrap_int`. Part B comes first, part A is in the namespace `SolveA`. -/

namespace Day01

open Cpp

/-- Function `string_view_to_int` of `common.cpp`: `int result{}`, then `from_chars`. -/
def string_view_to_int (string_view : List Char) : Int :=
  from_chars_int string_view 0

/-- Function `parse_line`: the parsed number for a line starting with `R`, minus that number
otherwise (`front()` of an empty line is undefined: `none`). -/
def parse_line (line : List Char) : Option Int :=
  match line with
  | [] => none
  | front :: value_string =>
    let direction : Int := if front = 'R' then 1 else -1
    some (wrap_int (direction * string_view_to_int value_string))

/-- Function `get_cycle`; `/` of C++ truncates. -/
def get_cycle (position : Int) : Int :=
  if position ≥ 0 then Int.tdiv position 100
  else wrap_int (Int.tdiv (wrap_int (position + 1)) 100 - 1)

/-- Function `count_zeros_pos`. -/
def count_zeros_pos (start end_ : Int) : Int :=
  let start_cycle := get_cycle start
  let end_cycle := get_cycle end_
  wrap_int (end_cycle - start_cycle)

/-- Function `count_zeros_neg`. -/
def count_zeros_neg (start end_ : Int) : Int :=
  let start_cycle := get_cycle (wrap_int (start - 1))
  let end_cycle := get_cycle (wrap_int (end_ - 1))
  wrap_int (start_cycle - end_cycle)

/-- The variables `current` and `zeros` of `solve`. -/
structure Dial where
  current : Int
  zeros : Int
deriving DecidableEq

/-- The lambda `count_zeros` of `solve`. -/
def count_zeros (st : Dial) (value : Int) : Dial :=
  let next := wrap_int (st.current + value)
  { zeros := wrap_int (st.zeros +
      (if value ≥ 0 then count_zeros_pos st.current next
       else count_zeros_neg st.current next)),
    current := next }

/-- One step of the `for_each` of `solve`: parse the line and pass the value to
`count_zeros`. -/
def process_line (st : Dial) (line : List Char) : Option Dial :=
  match parse_line line with
  | some value => some (count_zeros st value)
  | none => none

/-- Part B `solve(lines, input_name)`: every line is parsed and passed to `count_zeros`. -/
def solve (lines : List (List Char)) (_input_name : String) : Outcome Int :=
  match lines.foldlM process_line ({ current := 50, zeros := 0 } : Dial) with
  | some st => Outcome.returned st.zeros
  | none => Outcome.undefined

/-- The naive simulation, one click: turn the dial by `direction` (`1` or `-1`) and count the
click when the new position is a multiple of 100. -/
def click (direction : Int) (st : Int × Nat) : Int × Nat :=
  let position := st.1 + direction
  (position, st.2 + (if position % 100 = 0 then 1 else 0))

/-- The naive simulation of one move: `|value|` clicks to the right for a positive, to the
left for a negative value. -/
def turn (st : Int × Nat) (value : Int) : Int × Nat :=
  Nat.iterate (click (if value ≥ 0 then 1 else -1)) value.natAbs st

/-- The naive simulation of a sequence of moves from position 50: the number of clicks after
which the dial is at a multiple of 100. -/
def naive_zeros (moves : List Int) : Nat :=
  (moves.foldl turn (50, 0)).2

/-- The dial positions after each move of a sequence, from position `start`. -/
def positions (start : Int) : List Int → List Int
  | [] => []
  | value :: rest => (start + value) :: positions (start + value) rest

namespace SolveA

/-- The lambda `count_zeros` of part A `solve`; `%` of C++ truncates. -/
def count_zeros (st : Dial) (value : Int) : Dial :=
  let current := Int.tmod (wrap_int (st.current + value)) 100
  { current := current,
    zeros := if current = 0 then wrap_int (st.zeros + 1) else st.zeros }

/-- One step of the `for_each` of part A `solve`: parse the line and pass the value to
`count_zeros`. -/
def process_line (st : Dial) (line : List Char) : Option Dial :=
  match parse_line line with
  | some value => some (count_zeros st value)
  | none => none

/-- Part A `solve(lines, input_name)`. -/
def solve (lines : List (List Char)) (_input_name : String) : Outcome Int :=
  match lines.foldlM process_line ({ current := 50, zeros := 0 } : Dial) with
  | some st => Outcome.returned st.zeros
  | none => Outcome.undefined

end SolveA

/-- The number of moves of a sequence after which 50 plus the sum of the moves so far is
divisible by 100. -/
def zero_stops (moves : List Int) : Nat :=
  (positions 50 moves).countP (fun position => decide (position % 100 = 0))

end Day01

/-! ## Day 02, part A (`src/solutions/02/common.cpp`, `solve_a.cpp`) -/

namespace Day02

open Cpp

/-- Function `string_view_to_long` of `common.cpp`: `long result{}`, then `from_chars`. -/
def string_view_to_long (string_view : List Char) : Int :=
  from_chars_long string_view 0

/-- The information about a limit: its value, the value of its left half, and the multiplier
that creates invalid ids. -/
structure LimitInfo where
  value : Int
  lh_value : Int
  multiplier : Int
deriving DecidableEq

/-- Function `LimitInfo::parse`. -/
def LimitInfo.parse (sv : List Char) : LimitInfo :=
  let lh_digits := sv.length / 2
  let multiplier := pow10 (sv.length - lh_digits)
  let lh_value := string_view_to_long (sv.take lh_digits)
  let value := string_view_to_long sv
  { value := value, lh_value := lh_value, multiplier := multiplier }

/-- Function `compute_invalid_id`. -/
def compute_invalid_id (lh_value multiplier : Int) : Int :=
  lh_value * multiplier + lh_value

/-- Function `solve_range`; the first argument bounds the depth of the recursion of case D
(`none` when it is exhausted). -/
def solve_range : Nat → List Char → List Char → Option Int
  | 0, _, _ => none
  | fuel + 1, min_sv, max_sv =>
    if min_sv.length = max_sv.length ∧ min_sv.length % 2 ≠ 0 then
      -- Case A
      some 0
    else
      let min_limit := LimitInfo.parse min_sv
      let max_limit := LimitInfo.parse max_sv
      if min_sv.length = max_sv.length ∧ min_limit.lh_value = max_limit.lh_value then
        -- Case B: `int invalid_id`
        let invalid_id :=
          long_to_int (compute_invalid_id min_limit.lh_value min_limit.multiplier)
        let in_range :=
          decide (invalid_id ≥ min_limit.value) && decide (invalid_id ≤ max_limit.value)
        some (if in_range then invalid_id else 0)
      else if min_sv.length = max_sv.length then
        -- Case C
        let min_invalid_id := compute_invalid_id min_limit.lh_value min_limit.multiplier
        let max_invalid_id := compute_invalid_id max_limit.lh_value max_limit.multiplier
        let sum0 := 0 + (if min_invalid_id ≥ min_limit.value then min_invalid_id else 0)
        let sum1 := sum0 + (if max_invalid_id ≤ max_limit.value then max_invalid_id else 0)
        some ((List.range (max_limit.lh_value - (min_limit.lh_value + 1)).toNat).foldl
          (fun invalid_id_sum (k : Nat) =>
            invalid_id_sum +
              compute_invalid_id (min_limit.lh_value + 1 + (k : Int)) min_limit.multiplier)
          sum1)
      else
        -- Case D
        (List.range' min_sv.length (max_sv.length + 1 - min_sv.length)).foldlM
          (fun invalid_id_sum length =>
            let min_value :=
              if length = min_sv.length then min_limit.value else pow10 (length - 1)
            let max_value :=
              if length = max_sv.length then max_limit.value else pow10 length - 1
            match solve_range fuel (to_string min_value) (to_string max_value) with
            | some r => some (invalid_id_sum + r)
            | none => none)
          0

/-- A number whose decimal representation is a block of digits written twice. -/
def is_doubled (n : Nat) : Prop :=
  ∃ block : List Char, block ≠ [] ∧ Nat.toDigits 10 n = block ++ block

end Day02

/-! ## Day 02, part B (`src/solutions/02/solve_b.cpp`)

The set `std::set<long>` is the ascending list of its elements. Sums and products of `long`
values are passed through `wrap_long`. Three computations of the source run in `double`
(`Cpp.round_double`, `Cpp.pow_double`, `Cpp.double_to_long`): the product
`multiplier *= std::pow(10, prefix_length)`, and the two limits of a sub-range in
`solve_range`, where the conditional operator has the type `double` of its third operand, so
that also `range.min.value` and `range.max.value` are converted to `double` and back. The
recursion of `solve_range` carries a bound on its depth as first argument; the result is
`none` when the bound is exhausted, and a call that is `none` for every bound never
returns. -/

namespace Day02

namespace SolveB

open Cpp

/-- Struct `Limit`. -/
structure Limit where
  sv : List Char
  value : Int
deriving DecidableEq

/-- Function `Limit::parse`. -/
def Limit.parse (sv : List Char) : Limit :=
  { sv := sv, value := string_view_to_long sv }

/-- Struct `Range`. -/
structure Range where
  min : Limit
  max : Limit
deriving DecidableEq

/-- Method `Range::contains`. -/
def Range.contains (range : Range) (value : Int) : Bool :=
  decide (value ≥ range.min.value) && decide (value ≤ range.max.value)

/-- Function `Range::parse`. -/
def Range.parse (min_sv max_sv : List Char) : Range :=
  { min := Limit.parse min_sv, max := Limit.parse max_sv }

/-- One iteration of the loop of `compute_invalid_id` on the pair of `multiplier` and
`output`: `output += multiplier * prefix_value` in `long`, then
`multiplier *= std::pow(10, prefix_length)` in `double`. -/
def repeat_step (prefix_value : Int) (prefix_length : Nat) (st : Int × Int) : Int × Int :=
  (double_to_long (round_double (round_double st.1 * pow_double 10 prefix_length)),
    wrap_long (st.2 + wrap_long (st.1 * prefix_value)))

/-- Function `compute_invalid_id`. -/
def compute_invalid_id (prefix_value : Int) (prefix_length repeat_count : Nat) : Int :=
  ((List.range repeat_count).foldl (fun st _ => repeat_step prefix_value prefix_length st)
    (1, 0)).2

/-- The method `insert` of `std::set<long>`. -/
def set_insert (invalid_ids : List Int) (invalid_id : Int) : List Int :=
  if invalid_id ∈ invalid_ids then invalid_ids
  else List.orderedInsert (fun a b => a ≤ b) invalid_id invalid_ids

/-- The body of the loop of `solve_for_prefix_length` for the prefix value `v`. -/
def visit_prefix (range : Range) (prefix_length repeat_count : Nat)
    (min_prefix_value max_prefix_value : Int) (invalid_ids : List Int) (v : Int) : List Int :=
  let invalid_id := compute_invalid_id v prefix_length repeat_count
  let is_first_or_last := decide (v = min_prefix_value) || decide (v = max_prefix_value)
  if !is_first_or_last || range.contains invalid_id then set_insert invalid_ids invalid_id
  else invalid_ids

/-- Function `solve_for_prefix_length`: the set `invalid_ids` on return (`substr(0, n)` does
not throw). -/
def solve_for_prefix_length (range : Range) (prefix_length repeat_count : Nat)
    (invalid_ids : List Int) : List Int :=
  let min_prefix_sv := range.min.sv.take prefix_length
  let max_prefix_sv := range.max.sv.take prefix_length
  let min_prefix_value := string_view_to_long min_prefix_sv
  let max_prefix_value := string_view_to_long max_prefix_sv
  ((List.range (max_prefix_value + 1 - min_prefix_value).toNat).map
      (fun (k : Nat) => min_prefix_value + (k : Int))).foldl
    ( visit_prefix range prefix_length repeat_count min_prefix_value max_prefix_value)
    invalid_ids

/-- The body of the loop over the prefix lengths in `solve_range`. -/
def consider_prefix_length (range : Range) (length : Nat) (invalid_ids : List Int)
    (prefix_length : Nat) : List Int :=
  if length % prefix_length = 0 then
    solve_for_prefix_length range prefix_length (length / prefix_length) invalid_ids
  else invalid_ids

/-- The set of invalid ids that `solve_range` collects for a range whose limits have the same
length. -/
def collect_invalid_ids (range : Range) : List Int :=
  let length := range.min.sv.length
  (List.range' 1 (length / 2)).foldl (consider_prefix_length range length) []

/-- The sum `std::ranges::fold_left(invalid_ids, 0, std::plus {})`. -/
def sum_invalid_ids (invalid_ids : List Int) : Int :=
  invalid_ids.foldl (fun acc invalid_id => wrap_long (acc + invalid_id)) 0

/-- The body of the loop over the lengths in `solve_range`, `call` being the recursive
call. -/
def solve_sub_range (call : Range → Option Int) (range : Range) (invalid_id_sum : Int)
    (length : Nat) : Option Int :=
  let min_value := double_to_long
    (if length = range.min.sv.length then round_double range.min.value
      else pow_double 10 (length - 1))
  let max_value := double_to_long
    (if length = range.max.sv.length then round_double range.max.value
      else round_double (pow_double 10 length - 1))
  let min_limit : Limit := { sv := to_string min_value, value := min_value }
  let max_limit : Limit := { sv := to_string max_value, value := max_value }
  match call { min := min_limit, max := max_limit } with
  | some sub_sum => some (wrap_long (invalid_id_sum + sub_sum))
  | none => none

/-- Function `solve_range`. -/
def solve_range : Nat → Range → Option Int
  | 0, _ => none
  | fuel + 1, range =>
    if range.min.sv.length ≠ range.max.sv.length then
      (List.range' range.min.sv.length
          (range.max.sv.length + 1 - range.min.sv.length)).foldlM
        (solve_sub_range (fun sub_range => solve_range fuel sub_range) range) 0
    else some (sum_invalid_ids (collect_invalid_ids range))

/-- A number whose decimal representation is a block of digits written two or more times. -/
def is_repeated (n : Nat) : Prop :=
  ∃ (block : List Char) (count : Nat), block ≠ [] ∧ 2 ≤ count ∧
    Nat.toDigits 10 n = (List.replicate count block).flatten

instance is_repeated_decidable (n : Nat) : Decidable (is_repeated n) :=
  have h : (∃ p ∈ List.range ((Nat.toDigits 10 n).length + 1),
      ∃ count ∈ List.range ((Nat.toDigits 10 n).length + 1),
        (Nat.toDigits 10 n).take p ≠ [] ∧ 2 ≤ count ∧
          Nat.toDigits 10 n = (List.replicate count ((Nat.toDigits 10 n).take p)).flatten)
      ↔ is_repeated n := by
    unfold is_repeated
    constructor
    · rintro ⟨p, _, count, _, h1, h2, h3⟩
      exact ⟨_, count, h1, h2, h3⟩
    · rintro ⟨block, count, h1, h2, h3⟩
      have hlen : (Nat.toDigits 10 n).length = count * block.length := by
        rw [h3, List.length_flatten]
        simp
      have hb : 1 ≤ block.length := List.length_pos.mpr h1
      have htake : (Nat.toDigits 10 n).take block.length = block := by
        obtain ⟨c, rfl⟩ : ∃ c, count = c + 1 := ⟨count - 1, by omega⟩
        rw [h3, List.replicate_succ, List.flatten_cons]
        exact List.take_left' rfl
      refine ⟨block.length, ?_, count, ?_, ?_, h2, ?_⟩
      · rw [List.mem_range, hlen]
        have := Nat.le_mul_of_pos_left block.length (show 0 < count by omega)
        omega
      · rw [List.mem_range, hlen]
        have := Nat.le_mul_of_pos_right count (show 0 < block.length by omega)
        omega
      · rw [htake]
        exact h1
      · rw [htake]
        exact h3
  decidable_of_iff _ h

/-- The number whose decimal representation is `count` blocks `0...01` of `length` digits:
the factor that repeats a block of `length` digits `count` times. -/
def repunit (length count : Nat) : Nat :=
  ((List.range count).map (fun i => 10 ^ (length * i))).sum

end SolveB

end Day02

/-! ## Day 03 (`src/solutions/03/solve_a.cpp`, `solve_b.cpp`)

The helper `digit_to_int` is declared in `common.hpp`, which is not part of the sources at
hand: the embedding takes it as a parameter. Characters are compared by their code, as
`std::max` does for the digits `'0'` to `'9'`.

In part B the test `step < OUTPUT_DIGITS` before the push holds in every iteration, so that
the last iteration reads `digits_tail[11]`, one element past the end of the vector of
`TAIL_LENGTH = 11` digits, and pushes what it has read onto the heap. By then `output_value`
is complete, and the heap is not looked at again. The embedding takes the element that this
read yields as a parameter `past_end`; the results hold for every value of it. -/

namespace Day03

open Cpp

namespace SolveA

/-- The state of the first loop of `solve_line`. -/
structure Scan where
  max_fw : Char
  max_bw : Char
  max_digits_fw : List Char
  max_digits_bw : List Char
deriving DecidableEq

/-- One iteration of the first loop of `solve_line`, at `fw_i` and
`bw_i = line.length() - 1 - fw_i`. -/
def populate_step (line : List Char) (st : Scan) (fw_i : Nat) : Option Scan :=
  let bw_i := line.length - 1 - fw_i
  match (line)[fw_i]?, (line)[bw_i]? with
  | some c_fw, some c_bw =>
    let max_fw := max st.max_fw c_fw
    let max_bw := max st.max_bw c_bw
    if fw_i < st.max_digits_fw.length ∧ bw_i < st.max_digits_bw.length then
      some { max_fw := max_fw, max_bw := max_bw,
             max_digits_fw := st.max_digits_fw.set fw_i max_fw,
             max_digits_bw := st.max_digits_bw.set bw_i max_bw }
    else none
  | _, _ => none

/-- The first loop of `solve_line`: populate the forward and backward vectors. -/
def populate (line : List Char) : Option Scan :=
  (List.range line.length).foldlM (populate_step line)
    { max_fw := '0', max_bw := '0',
      max_digits_fw := List.replicate line.length '0',
      max_digits_bw := List.replicate line.length '0' }

/-- One iteration of the second loop of `solve_line`. -/
def combine_step (digit_to_int : Char → Int) (max_digits_fw max_digits_bw : List Char)
    (max_value : Int) (i : Nat) : Option Int :=
  match max_digits_fw[i]?, max_digits_bw[i + 1]? with
  | some c_fw, some c_bw =>
    let digit_fw := digit_to_int c_fw
    let digit_bw := digit_to_int c_bw
    let combined := 10 * digit_fw + digit_bw
    some (max max_value combined)
  | _, _ => none

/-- Part A `solve_line(line)`. For the empty line the bound `line.length() - 1` of the second
loop wraps around and position 0 of the empty vectors is read: `none`. -/
def solve_line (digit_to_int : Char → Int) (line : List Char) : Option Int :=
  match populate line with
  | none => none
  | some st =>
    if line.length = 0 then none
    else
      (List.range (line.length - 1)).foldlM
        (combine_step digit_to_int st.max_digits_fw st.max_digits_bw) 0

/-- Character `m` is the largest of `'0'` and the characters of `l`. -/
def IsMaxOf (m : Char) (l : List Char) : Prop :=
  (m = '0' ∨ m ∈ l) ∧ ∀ c ∈ l, c ≤ m

/-- The state of the first loop of `solve_line` after `k` iterations: the entries written so
far are the running maxima from the left and from the right. -/
structure PInv (line : List Char) (k : Nat) (st : Scan) : Prop where
  len_fw : st.max_digits_fw.length = line.length
  len_bw : st.max_digits_bw.length = line.length
  max_fw : IsMaxOf st.max_fw (line.take k)
  max_bw : IsMaxOf st.max_bw (line.drop (line.length - k))
  fw : ∀ i, i < k → ∃ m, st.max_digits_fw[i]? = some m ∧ IsMaxOf m (line.take (i + 1))
  bw : ∀ j, line.length - k ≤ j → j < line.length →
    ∃ m, st.max_digits_bw[j]? = some m ∧ IsMaxOf m (line.drop j)

end SolveA

namespace SolveB

/-- The number of digits of the output. -/
def OUTPUT_DIGITS : Nat := 12

/-- The number of digits at the end of the line that are kept out of the initial heap. -/
def TAIL_LENGTH : Nat := 11

/-- The character value and the position of a digit. -/
structure Digit where
  value : Char
  pos : Nat
deriving DecidableEq, Inhabited

/-- Function `Digit::compare`: `a` is below `b` in the heap order. -/
def Digit.compare (a b : Digit) : Bool :=
  if a.value = b.value then decide (a.pos > b.pos) else decide (a.value < b.value)

/-- Modelled from the C++ standard: the heap functions. A heap is taken as the list of its
elements; `front()` is an element that does not compare below any other (`none` for the empty
heap), `pop_heap` followed by `pop_back` removes it, `push_back` followed by `push_heap` adds
an element, and `make_heap` keeps the elements. -/
def heap_front (heap : List Digit) : Option Digit :=
  heap.foldl
    (fun best d =>
      match best with
      | none => some d
      | some b => if Digit.compare b d then some d else some b)
    none

/-- Function `get_max_digit(digits_heap, min_pos)`: the digit returned and the heap it leaves.
The first argument bounds the number of iterations of the loop. -/
def get_max_digit : Nat → List Digit → Nat → Option (Digit × List Digit)
  | 0, _, _ => none
  | fuel + 1, digits_heap, min_pos =>
    match heap_front digits_heap with
    | none => none
    | some front =>
      if front.pos < min_pos then get_max_digit fuel (digits_heap.erase front) min_pos
      else some (front, digits_heap.erase front)

/-- The state of the loop of `solve_line`. -/
structure Selection where
  digits_heap : List Digit
  multiplier : Int
  output_value : Int
  pos : Nat
deriving DecidableEq

/-- One iteration of the loop of `solve_line`. The test `step < OUTPUT_DIGITS` holds in every
iteration, so that `digits_tail[step]` is read in each of them; `past_end` is what a read
outside the vector yields. -/
def select_step (digit_to_int : Char → Int) (past_end : Digit) (digits_tail : List Digit)
    (st : Selection) (step : Nat) : Option Selection :=
  match get_max_digit (st.digits_heap.length + 1) st.digits_heap st.pos with
  | none => none
  | some (max_digit, digits_heap) =>
    let output_value :=
      wrap_long (st.output_value + wrap_long (digit_to_int max_digit.value * st.multiplier))
    let pos := max_digit.pos
    let multiplier := st.multiplier / 10
    if step < OUTPUT_DIGITS then
      some { digits_heap := digits_tail.getD step past_end :: digits_heap,
             multiplier := multiplier, output_value := output_value, pos := pos }
    else
      some { digits_heap := digits_heap, multiplier := multiplier,
             output_value := output_value, pos := pos }

/-- The digits of the line from position `from_pos` on, with their positions. -/
def digits_from (from_pos : Nat) (chars : List Char) : List Digit :=
  chars.enum.map (fun (ic : Nat × Char) => { value := ic.2, pos := from_pos + ic.1 })

/-- The state of `solve_line` just before the loop, for a line of at least `TAIL_LENGTH`
characters. -/
def initial_selection (line : List Char) : Selection :=
  { digits_heap := digits_from 0 (line.take (line.length - TAIL_LENGTH)),
    multiplier := double_to_long (pow_double 10 (OUTPUT_DIGITS - 1)),
    output_value := 0,
    pos := 0 }

/-- The vector `digits_tail`: the last `TAIL_LENGTH` digits of the line. -/
def digits_tail_of (line : List Char) : List Digit :=
  digits_from (line.length - TAIL_LENGTH) (line.drop (line.length - TAIL_LENGTH))

/-- Part B `solve_line(line)`. For a line of fewer than `TAIL_LENGTH` characters the size
`line.length() - TAIL_LENGTH` wraps around and the vector constructor throws; `front()` of an
empty heap is undefined behaviour. -/
def solve_line (digit_to_int : Char → Int) (past_end : Digit) (line : List Char) :
    Outcome Int :=
  if line.length < TAIL_LENGTH then Outcome.thrown
  else
    match (List.range OUTPUT_DIGITS).foldlM
        (select_step digit_to_int past_end (digits_tail_of line)) (initial_selection line) with
    | some st => Outcome.returned st.output_value
    | none => Outcome.undefined

/-- The strict order of `Digit::compare`: a smaller value, or the same value further right. -/
def Digit.lt (a b : Digit) : Prop :=
  a.value < b.value ∨ (a.value = b.value ∧ b.pos < a.pos)

/-- The digits picked in the first `s` iterations of the loop of `solve_line`, as the list `P`
of their characters, `lo` being the first position behind the last of them: every
continuation of `P` inside the rest of the line is a subsequence of the line, every
subsequence `t` of twelve characters starts with a smaller number than `P` or starts with `P`
and continues inside the rest of the line, and `output_value` holds `P` followed by zeros. -/
structure PickInv (line : List Char) (s : Nat) (P : List Char) (lo : Nat)
    (st : Selection) : Prop where
  len : P.length = s
  room : lo + (OUTPUT_DIGITS - s) ≤ line.length
  sub : ∀ u : List Char, u.Sublist (line.drop lo) → (P ++ u).Sublist line
  best : ∀ t : List Char, t.Sublist line → t.length = OUTPUT_DIGITS →
    digits_value (t.take s) < digits_value P ∨
      (t.take s = P ∧ (t.drop s).Sublist (line.drop lo))
  out : st.output_value = digits_value P * 10 ^ (OUTPUT_DIGITS - s)

/-- The heap before iteration `s` of the loop of `solve_line`: it holds digits of the line up
to position `line.length() - 12 + s`, among them all from position `lo` on, no digit twice,
and none at the current position unless that is `lo`. -/
structure HeapInv (line : List Char) (s : Nat) (lo : Nat) (st : Selection) : Prop where
  mult : st.multiplier = 10 ^ (OUTPUT_DIGITS - 1 - s)
  nodup : st.digits_heap.Nodup
  sound : ∀ d ∈ st.digits_heap,
    d.pos ≤ line.length - OUTPUT_DIGITS + s ∧ (line)[d.pos]? = some d.value
  complete : ∀ (q : Nat) (c : Char), lo ≤ q → q ≤ line.length - OUTPUT_DIGITS + s →
    (line)[q]? = some c → ({ value := c, pos := q } : Digit) ∈ st.digits_heap
  fresh : ∀ d ∈ st.digits_heap, st.pos ≤ d.pos → lo ≤ d.pos
  pos_le : st.pos ≤ lo

end SolveB

end Day03

/-! ## Day 04 (`src/solutions/04/common.hpp`, `common.cpp`, `solve_b.cpp`)

The vector `cells` is a list of `Cell`; row, column and cell indices are `Nat`, the neighbour
offsets are `Int`, and an index computed as `index + offset` is looked up only if it is not
negative (`none`, as for every index outside a vector, otherwise). `neighbor_count` and
`rolls_removed` are counters bounded by 8 and by the number of cells and are kept exact. The
`while` loop over the removal queue carries a bound on its number of iterations as first
argument (`none` when it is exhausted). -/

namespace Day04

open Cpp

/-- Struct `Cell`. -/
structure Cell where
  is_roll : Bool
  neighbor_count : Int
deriving DecidableEq

/-- Constructor `Cell()`. -/
def Cell.empty : Cell := { is_roll := false, neighbor_count := 0 }

/-- Method `Cell::is_accessible()`. -/
def Cell.is_accessible (cell : Cell) : Bool :=
  cell.is_roll && decide (cell.neighbor_count < 4)

/-- Function `get_neighbor_offsets(col_count)`. -/
def get_neighbor_offsets (col_count : Int) : List Int :=
  let padded_col_count := col_count + 2
  [-padded_col_count - 1, -padded_col_count, -padded_col_count + 1, -1, 1,
   padded_col_count - 1, padded_col_count, padded_col_count + 1]

/-- The expression `line[col]` on a `std::string`: the position `size()` holds the null
character, a larger one is outside the string. -/
def char_at (line : List Char) (col : Nat) : Option Char :=
  if col < line.length then (line)[col]?
  else if col = line.length then some (Char.ofNat 0)
  else none

/-- The body of the inner loop of `initialize_rolls`. -/
def set_roll (line : List Char) (base_index : Nat) (cells : List Cell) (col : Nat) :
    Option (List Cell) :=
  let index := base_index + col + 1
  match char_at line col, cells[index]? with
  | some cell_char, some cell =>
    some (cells.set index { cell with is_roll := decide (cell_char = '@') })
  | _, _ => none

/-- The body of the outer loop of `initialize_rolls`. -/
def set_rolls_of_row (lines : List (List Char)) (col_count : Nat) (cells : List Cell)
    (row : Nat) : Option (List Cell) :=
  let base_index := (row + 1) * (col_count + 2)
  match (lines)[row]? with
  | none => none
  | some line => (List.range col_count).foldlM (set_roll line base_index) cells

/-- Function `initialize_rolls(lines, cells, row_count, col_count)`: the vector `cells` on
return. -/
def initialize_rolls (lines : List (List Char)) (cells : List Cell)
    (row_count col_count : Nat) : Option (List Cell) :=
  (List.range row_count).foldlM (set_rolls_of_row lines col_count) cells

/-- The body of the innermost loop of `initialize_counts`:
`cells[index + offset].neighbor_count++`. -/
def count_neighbor (index : Nat) (cells : List Cell) (offset : Int) : Option (List Cell) :=
  let neighbor_index : Int := (index : Int) + offset
  if 0 ≤ neighbor_index then
    match cells[neighbor_index.toNat]? with
    | some cell =>
      some (cells.set neighbor_index.toNat
        { cell with neighbor_count := cell.neighbor_count + 1 })
    | none => none
  else none

/-- The body of the loop over the columns in `initialize_counts`. -/
def count_cell (neighbor_offsets : List Int) (base_index : Nat) (cells : List Cell)
    (col : Nat) : Option (List Cell) :=
  let index := base_index + col + 1
  match cells[index]? with
  | none => none
  | some cell =>
    if cell.is_roll then neighbor_offsets.foldlM (count_neighbor index) cells
    else some cells

/-- The body of the loop over the rows in `initialize_counts`. -/
def count_row (neighbor_offsets : List Int) (col_count : Nat) (cells : List Cell)
    (row : Nat) : Option (List Cell) :=
  let base_index := (row + 1) * (col_count + 2)
  (List.range col_count).foldlM (count_cell neighbor_offsets base_index) cells

/-- Function `initialize_counts(cells, row_count, col_count)`: the vector `cells` on
return. -/
def initialize_counts (cells : List Cell) (row_count col_count : Nat) : Option (List Cell) :=
  let neighbor_offsets := get_neighbor_offsets col_count
  (List.range row_count).foldlM (count_row neighbor_offsets col_count) cells

/-- The state of the loops of part B `solve`. -/
structure Removal where
  cells : List Cell
  remove_index_queue : List Nat
  queue_index : Nat
  rolls_removed : Int

/-- The body of the loop of `solve` that fills the queue. -/
def push_if_accessible (cells : List Cell) (remove_index_queue : List Nat) (index : Nat) :
    List Nat :=
  match cells[index]? with
  | some cell =>
    if cell.is_accessible then remove_index_queue ++ [index] else remove_index_queue
  | none => remove_index_queue

/-- The loop of `solve` that fills the queue with the indices of the accessible cells. -/
def initial_queue (cells : List Cell) : List Nat :=
  (List.range cells.length).foldl (push_if_accessible cells) []

/-- The body of the loop over the offsets in the `while` loop of `solve`: the neighbour count
is reduced, and the neighbour is pushed onto the queue if it is accessible now. -/
def visit_neighbor (index_to_remove : Nat) (acc : List Cell × List Nat) (offset : Int) :
    Option (List Cell × List Nat) :=
  let neighbor_index : Int := (index_to_remove : Int) + offset
  if 0 ≤ neighbor_index then
    match acc.1[neighbor_index.toNat]? with
    | some cell =>
      let neighbor_cell : Cell := { cell with neighbor_count := cell.neighbor_count - 1 }
      let cells := acc.1.set neighbor_index.toNat neighbor_cell
      if neighbor_cell.is_accessible then some (cells, acc.2 ++ [neighbor_index.toNat])
      else some (cells, acc.2)
    | none => none
  else none

/-- The body of the `while` loop of `solve`. -/
def remove_step (neighbor_offsets : List Int) (st : Removal) : Option Removal :=
  match st.remove_index_queue[st.queue_index]? with
  | none => none
  | some index_to_remove =>
    match st.cells[index_to_remove]? with
    | none => none
    | some cell_to_remove =>
      if cell_to_remove.is_roll = false then
        some { st with queue_index := st.queue_index + 1 }
      else
        match neighbor_offsets.foldlM (visit_neighbor index_to_remove)
            (st.cells.set index_to_remove { cell_to_remove with is_roll := false },
             st.remove_index_queue) with
        | none => none
        | some result =>
          some { cells := result.1, remove_index_queue := result.2,
                 queue_index := st.queue_index + 1,
                 rolls_removed := st.rolls_removed + 1 }

/-- The `while` loop of `solve`; the first argument bounds the number of iterations. -/
def remove_loop (neighbor_offsets : List Int) : Nat → Removal → Option Removal
  | 0, _ => none
  | fuel + 1, st =>
    if st.queue_index < st.remove_index_queue.length then
      match remove_step neighbor_offsets st with
      | none => none
      | some st2 => remove_loop neighbor_offsets fuel st2
    else some st

/-- Part B `solve(lines, input_name)` up to the end of the `while` loop: the state in which
the loop is left. -/
def remove_rolls (fuel : Nat) (lines : List (List Char)) : Outcome Removal :=
  match lines.head? with
  | none => Outcome.undefined
  | some front =>
    let row_count := lines.length
    let col_count := front.length
    let cells := List.replicate ((row_count + 2) * (col_count + 2)) Cell.empty
    match initialize_rolls lines cells row_count col_count with
    | none => Outcome.undefined
    | some cells1 =>
      match initialize_counts cells1 row_count col_count with
      | none => Outcome.undefined
      | some cells2 =>
        match remove_loop (get_neighbor_offsets col_count) fuel
            { cells := cells2, remove_index_queue := initial_queue cells2,
              queue_index := 0, rolls_removed := 0 } with
        | none => Outcome.undefined
        | some st => Outcome.returned st

/-- Part B `solve(lines, input_name)`: the value `rolls_removed`. -/
def solve (fuel : Nat) (lines : List (List Char)) (_input_name : String) : Outcome Int :=
  match remove_rolls fuel lines with
  | Outcome.returned st => Outcome.returned st.rolls_removed
  | Outcome.thrown => Outcome.thrown
  | Outcome.undefined => Outcome.undefined

/-! ### The claim's side: positions of the grid -/

/-- The positions `(row, col)` of the grid. -/
def grid_positions (row_count col_count : Nat) : Finset (Nat × Nat) :=
  Finset.range row_count ×ˢ Finset.range col_count

/-- The positions of the grid that hold a roll (`@`) in the input. -/
def roll_positions (lines : List (List Char)) : Finset (Nat × Nat) :=
  (grid_positions lines.length (lines.headD []).length).filter
    (fun pos => (lines.getD pos.1 []).getD pos.2 '.' = '@')

/-- Position `other` is one of the eight neighbours of position `pos`. -/
def adjacent (pos other : Nat × Nat) : Prop :=
  pos ≠ other ∧ pos.1 ≤ other.1 + 1 ∧ other.1 ≤ pos.1 + 1 ∧
    pos.2 ≤ other.2 + 1 ∧ other.2 ≤ pos.2 + 1

instance adjacent_decidable (pos other : Nat × Nat) : Decidable (adjacent pos other) := by
  unfold adjacent
  infer_instance

/-- Every roll of the set has at least four of its eight neighbours in the set. -/
def Stable (rolls : Finset (Nat × Nat)) : Prop :=
  ∀ pos ∈ rolls, 4 ≤ (rolls.filter (fun other => adjacent pos other)).card

instance stable_decidable (rolls : Finset (Nat × Nat)) : Decidable (Stable rolls) := by
  unfold Stable
  infer_instance

/-- The index of the cell of a position in the padded grid. -/
def cell_index (col_count : Nat) (pos : Nat × Nat) : Nat :=
  (pos.1 + 1) * (col_count + 2) + pos.2 + 1

/-- The cell `index` holds a roll. -/
def has_roll (cells : List Cell) (index : Nat) : Bool :=
  match cells[index]? with
  | some cell => cell.is_roll
  | none => false

/-- The neighbour count of the cell `index`. -/
def count_of (cells : List Cell) (index : Nat) : Int :=
  match cells[index]? with
  | some cell => cell.neighbor_count
  | none => 0

/-- The positions of the grid whose cell holds a roll. -/
def remaining (cells : List Cell) (row_count col_count : Nat) : Finset (Nat × Nat) :=
  (grid_positions row_count col_count).filter
    (fun pos => has_roll cells (cell_index col_count pos) = true)

/-! ### The cells by their indices -/

/-- The indices of the eight neighbours of the cell `index` of the padded grid, in the order
of `get_neighbor_offsets`. -/
def neighbor_indices (padded_col_count index : Nat) : List Nat :=
  [index - padded_col_count - 1, index - padded_col_count, index - padded_col_count + 1,
   index - 1, index + 1, index + padded_col_count - 1, index + padded_col_count,
   index + padded_col_count + 1]

/-- The indices of the cells that hold a roll. -/
def roll_indices (cells : List Cell) : Finset Nat :=
  (Finset.range cells.length).filter (fun index => has_roll cells index = true)

/-- The number of pairs of a roll of `rolls` and one of its neighbours that is the cell
`index`: the value that `initialize_counts` gives to `neighbor_count`. -/
def weight (padded_col_count : Nat) (rolls : Finset Nat) (index : Nat) : Nat :=
  ∑ roll ∈ rolls, (neighbor_indices padded_col_count roll).count index

/-- Every index of the set has at least four of its eight neighbours in the set. -/
def IndexStable (padded_col_count : Nat) (rolls : Finset Nat) : Prop :=
  ∀ index ∈ rolls,
    4 ≤ (rolls.filter (fun other => other ∈ neighbor_indices padded_col_count index)).card

/-- The cell `index` is the cell of a position of the grid. -/
def InGrid (row_count col_count index : Nat) : Prop :=
  ∃ row col, row < row_count ∧ col < col_count ∧ index = (row + 1) * (col_count + 2) + col + 1

/-- The invariant of the `while` loop of `solve`, for the padded column count, the number of
cells and the indices of the rolls of the input. -/
structure QueueInv (padded_col_count cell_count : Nat) (rolls0 : Finset Nat)
    (st : Removal) : Prop where
  length : st.cells.length = cell_count
  rolls : roll_indices st.cells ⊆ rolls0
  counts : ∀ index ∈ rolls0,
    count_of st.cells index = (weight padded_col_count (roll_indices st.cells) index : Nat)
  pending : ∀ index, has_roll st.cells index = true → count_of st.cells index < 4 →
    index ∈ st.remove_index_queue.drop st.queue_index
  queued : ∀ index ∈ st.remove_index_queue.drop st.queue_index,
    has_roll st.cells index = true → count_of st.cells index < 4
  bounded : ∀ index ∈ st.remove_index_queue.drop st.queue_index, index < cell_count
  removed : st.rolls_removed + ((roll_indices st.cells).card : Nat) = (rolls0.card : Nat)
  largest : ∀ rolls, rolls ⊆ rolls0 → IndexStable padded_col_count rolls →
    rolls ⊆ roll_indices st.cells

end Day04

/-! ## Day 05 (`src/solutions/05/common.cpp`, `solve_a.cpp`, `solve_b.cpp`)

Ids are `long`; the count of part B, a sum of differences of ids, is passed through
`wrap_long`. The counters of nodes (`depth`, and the count of part A) are exact.

`std::ranges::sort` requires a strict weak ordering. Function `compare_nodes` is none: it holds
in both directions between two start nodes of one id, and between two ingredient nodes of one
id. On a vector that holds two such nodes the call is undefined behaviour (the partition loops
of an introsort, which rely on the pivot to stop them, then run over the ends of the vector),
and the two `solve` report `Outcome.undefined`. On a vector without such a pair every
comparison of two of its nodes is that of the strict order by id and then type, and the call
is taken as a parameter `S : NodeSorter` that is only known to return a permutation of its
argument in which every node is equal to, or compares before, every later node. -/

namespace Day05

open Cpp

/-- The enumeration `Node::NodeType`. -/
inductive NodeType where
  | RangeStart
  | RangeEnd
  | Ingredient
deriving DecidableEq, Inhabited

/-- The start of a range, the end of a range, or an ingredient, with its id. -/
structure Node where
  node_type : NodeType
  id : Int
deriving DecidableEq, Inhabited

/-- Function `string_view_to_long` of `common.cpp`: `long result{}`, then `from_chars`. -/
def string_view_to_long (string_view : List Char) : Int :=
  from_chars_long string_view 0

/-- The two nodes that `create_nodes_from_ranges` appends for one line. Neither `substr`
starts behind the end of the line (`npos + 1` wraps to 0). -/
def range_line_nodes (line : List Char) : List Node :=
  let dash_pos := find line '-' 0
  let start_sv := line.take dash_pos
  let end_sv := line.drop ((dash_pos + 1) % 2 ^ 64)
  let start_id := string_view_to_long start_sv
  let end_id := string_view_to_long end_sv
  [{ node_type := NodeType.RangeStart, id := start_id },
   { node_type := NodeType.RangeEnd, id := end_id }]

/-- The loop of `create_nodes_from_ranges` from `line_index` on, `rest` being the lines not
yet read: the index returned and the node vector. -/
def create_nodes_from : List (List Char) → Nat → List Node → Nat × List Node
  | [], line_index, nodes => (line_index, nodes)
  | line :: rest, line_index, nodes =>
    if line = [] then (line_index + 1, nodes)
    else create_nodes_from rest (line_index + 1) (nodes ++ range_line_nodes line)

/-- Function `create_nodes_from_ranges(lines, nodes)`. -/
def create_nodes_from_ranges (lines : List (List Char)) (nodes : List Node) : Nat × List Node :=
  create_nodes_from lines 0 nodes

/-- Function `compare_nodes`. -/
def compare_nodes (a b : Node) : Bool :=
  if a.id = b.id then
    match a.node_type with
    | NodeType.RangeStart => true
    | NodeType.Ingredient => decide (b.node_type ≠ NodeType.RangeStart)
    | NodeType.RangeEnd => false
  else decide (a.id < b.id)

/-- No two nodes of the vector are ordered by `compare_nodes` in both directions. -/
def sortable (nodes : List Node) : Prop :=
  nodes.Pairwise (fun a b => ¬ (compare_nodes a b = true ∧ compare_nodes b a = true))

instance sortable_decidable (nodes : List Node) : Decidable (sortable nodes) := by
  unfold sortable
  infer_instance

/-- What is known of `std::ranges::sort(nodes, compare_nodes)` on a sortable vector. -/
structure NodeSorter where
  sort : List Node → List Node
  perm : ∀ l, sortable l → (sort l).Perm l
  sorted : ∀ l, sortable l → (sort l).Pairwise (fun a b => a = b ∨ compare_nodes a b = true)

/-- The call `std::ranges::sort(nodes, compare_nodes)`: the sorted vector, or undefined
behaviour when `compare_nodes` orders two of the nodes in both directions. -/
def sort_nodes (S : NodeSorter) (nodes : List Node) : Outcome (List Node) :=
  if sortable nodes then Outcome.returned (S.sort nodes) else Outcome.undefined

namespace SolveA

/-- Function `create_nodes_from_ingredients(lines, nodes, line_index)`. -/
def create_nodes_from_ingredients (lines : List (List Char)) (nodes : List Node)
    (line_index : Nat) : List Node :=
  nodes ++ (lines.drop line_index).map
    (fun line => { node_type := NodeType.Ingredient, id := string_view_to_long line })

/-- The variables `count` and `depth` of `solve`. -/
structure Sweep where
  count : Int
  depth : Int
deriving DecidableEq

/-- One iteration of the loop of `solve`. -/
def sweep_step (st : Sweep) (node : Node) : Sweep :=
  match node.node_type with
  | NodeType.RangeStart => { st with depth := st.depth + 1 }
  | NodeType.RangeEnd => { st with depth := st.depth - 1 }
  | NodeType.Ingredient => { st with count := st.count + (if st.depth > 0 then 1 else 0) }

/-- The loop of `solve` over the sorted nodes. -/
def count_fresh (nodes : List Node) : Int :=
  (nodes.foldl sweep_step { count := 0, depth := 0 }).count

/-- Part A `solve(lines, input_name)`. -/
def solve (S : NodeSorter) (lines : List (List Char)) (_input_name : String) :
    Outcome Int :=
  let (line_index, nodes) := create_nodes_from_ranges lines []
  let nodes := create_nodes_from_ingredients lines nodes line_index
  match sort_nodes S nodes with
  | Outcome.returned nodes => Outcome.returned (count_fresh nodes)
  | Outcome.thrown => Outcome.thrown
  | Outcome.undefined => Outcome.undefined

end SolveA

namespace SolveB

/-- The variables `start`, `count` and `depth` of `solve`. -/
structure Sweep where
  start : Int
  count : Int
  depth : Int
deriving DecidableEq

/-- One iteration of the loop of `solve`. -/
def sweep_step (st : Sweep) (node : Node) : Sweep :=
  if node.node_type = NodeType.RangeStart then
    let st1 := if st.depth = 0 then { st with start := node.id } else st
    { st1 with depth := st1.depth + 1 }
  else
    let st1 :=
      if st.depth = 1 then
        { st with count := wrap_long (st.count + wrap_long (wrap_long (node.id - st.start) + 1)) }
      else st
    { st1 with depth := st1.depth - 1 }

/-- The loop of `solve` over the sorted nodes. -/
def count_union (nodes : List Node) : Int :=
  (nodes.foldl sweep_step { start := 0, count := 0, depth := 0 }).count

/-- Part B `solve(lines, input_name)`. -/
def solve (S : NodeSorter) (lines : List (List Char)) (_input_name : String) :
    Outcome Int :=
  let nodes := (create_nodes_from_ranges lines []).2
  match sort_nodes S nodes with
  | Outcome.returned nodes => Outcome.returned (count_union nodes)
  | Outcome.thrown => Outcome.thrown
  | Outcome.undefined => Outcome.undefined

end SolveB

/-- The nodes of a list of ranges: a start node and an end node for each. -/
def range_nodes (ranges : List (Int × Int)) : List Node :=
  ranges.flatMap (fun r =>
    [{ node_type := NodeType.RangeStart, id := r.1 },
     { node_type := NodeType.RangeEnd, id := r.2 }])

/-- The nodes of a list of ingredient ids. -/
def ingredient_nodes (ids : List Int) : List Node :=
  ids.map (fun v => { node_type := NodeType.Ingredient, id := v })

/-- The id lies in at least one of the ranges, both ends included. -/
def in_some_range (ranges : List (Int × Int)) (v : Int) : Bool :=
  ranges.any (fun r => decide (r.1 ≤ v ∧ v ≤ r.2))

/-- The set of the integers that lie in at least one of the ranges. -/
def covered (ranges : List (Int × Int)) : Finset Int :=
  ranges.foldr (fun r acc => Finset.Icc r.1 r.2 ∪ acc) ∅

/-- The position of a node type in the sorted vector among nodes of the same id. -/
def type_rank : NodeType → Nat
  | NodeType.RangeStart => 0
  | NodeType.Ingredient => 1
  | NodeType.RangeEnd => 2

/-- The number of ranges that have started at or before `x`, minus the number of ranges that
have ended before `x`, counted on a list of nodes. -/
def cov (nodes : List Node) (x : Int) : Int :=
  (nodes.countP (fun n => decide (n.node_type = NodeType.RangeStart ∧ n.id ≤ x)) : Int)
    - (nodes.countP (fun n => decide (n.node_type = NodeType.RangeEnd ∧ n.id < x)) : Int)

/-- The number of start nodes minus the number of end nodes. -/
def open_ranges (nodes : List Node) : Int :=
  (nodes.countP (fun n => decide (n.node_type = NodeType.RangeStart)) : Int)
    - (nodes.countP (fun n => decide (n.node_type = NodeType.RangeEnd)) : Int)

/-- The state of the loop of part B `solve` after the nodes `P` of the sorted vector, counted
on the window of integers from `lo` to `hi`: while no range is open the count is the number of
integers covered so far; while a range is open it is the number of those below `start`, and
everything from `start` on is covered. -/
structure UnionInv (P : List Node) (lo hi : Int) (st : SolveB.Sweep) : Prop where
  depth : st.depth = open_ranges P
  nonneg : 0 ≤ st.depth
  closed : st.depth = 0 →
    st.count = (((Finset.Icc lo hi).filter (fun x => 0 < cov P x)).card : Nat)
  opened : 0 < st.depth →
    st.count
        = (((Finset.Icc lo hi).filter (fun x => 0 < cov P x ∧ x < st.start)).card : Nat) ∧
      (∀ x, st.start ≤ x → 0 < cov P x) ∧ ∃ p ∈ P, p.id = st.start

/-- Insertion sort by `compare_nodes`, an instance of `NodeSorter`. -/
def insertion_sorter : NodeSorter where
  sort := fun l => l.insertionSort
    (fun a b => a.id < b.id ∨ (a.id = b.id ∧ type_rank a.node_type ≤ type_rank b.node_type))
  perm := fun l _ => List.perm_insertionSort _ l
  sorted := fun l _ => by
    have h := @List.sorted_insertionSort Node
      (fun a b => a.id < b.id ∨ (a.id = b.id ∧ type_rank a.node_type ≤ type_rank b.node_type)) _
      ⟨fun a b => by
        rcases lt_trichotomy a.id b.id with h | h | h
        · exact Or.inl (Or.inl h)
        · rcases le_total (type_rank a.node_type) (type_rank b.node_type) with h2 | h2
          · exact Or.inl (Or.inr ⟨h, h2⟩)
          · exact Or.inr (Or.inr ⟨h.symm, h2⟩)
        · exact Or.inr (Or.inl h)⟩
      ⟨fun a b c hab hbc => by
        rcases hab with h1 | ⟨h1, h2⟩ <;> rcases hbc with h3 | ⟨h3, h4⟩
        · exact Or.inl (lt_trans h1 h3)
        · exact Or.inl (h3 ▸ h1)
        · exact Or.inl (h1 ▸ h3)
        · exact Or.inr ⟨h1.trans h3, le_trans h2 h4⟩⟩ l
    refine List.Pairwise.imp ?_ h
    intro a b hab
    obtain ⟨ta, ia⟩ := a
    obtain ⟨tb, ib⟩ := b
    rcases hab with h1 | ⟨h1, h2⟩
    · right
      simp only at h1
      simp [compare_nodes, ne_of_lt h1, h1]
    · simp only at h1 h2
      subst h1
      cases ta <;> cases tb <;> simp [compare_nodes, type_rank] at h2 ⊢

end Day05

/-!
## Day 08: point clustering (`src/solutions/08`)

A shallow embedding of `common.cpp`, `solve_a.cpp` and `solve_b.cpp` together with the
properties of the edge selection, the group tracker and the two result aggregators.

Modelling conventions.
* `std::vector<T>` is a `List T`. `size_t` values (sizes, indices, the two counters of
  `find_last_edge`) are `Nat`: none of them exceeds the number of edges the source holds in
  memory, and the counters are only decremented where they are large enough
  (`SolveB.connect_counters`), so that truncated and wrapping subtraction agree. The positions
  in `Point::parse`, where `npos + 1` wraps to `0`, are computed modulo `2^64`.
* `long` coordinates and squared distances are `Int`, the results of `long` arithmetic are
  passed through `Cpp.wrap_long`; group ids (`int`, only ever `0` or a value of the group
  counter) and group sizes are `Nat`. The `int` product of variant A `solve` stays below
  `2^31` (`SolveA.largest_groups_product_fits_int`).
* `compute_distance2` squares with `std::pow`, that is in `double`: each difference is
  converted to `double`, its square is rounded to `double` and converted back to `long`
  (`Cpp.round_double`, `Cpp.double_to_long`). `squared_distance` is the exact sum of squares.
* An index outside a vector (undefined behaviour in the source, which never checks a bound)
  makes the embedded function return `none`; the two `solve` report it as
  `Outcome.undefined`, apart from `Outcome.thrown` for a C++ exception.
* `std::ranges::sort(edges, compare_edges)` leaves the order of edges of equal squared
  distance unspecified: the embedding takes the sorting routine as a parameter `S : EdgeSorter`
  that is only known to return an ascending permutation of its argument.
* A `std::string` is the list of its characters.
-/

namespace Day08

/-! ## `common.hpp` / `common.cpp` -/

/-- A 3D point; `i` is the position of its line in the input (`Point::parse` stores it). -/
structure Point where
  i : Nat
  x : Int
  y : Int
  z : Int
deriving DecidableEq, Inhabited

/-- An edge between the points with ids `index_a` and `index_b`. -/
structure Edge where
  distance2 : Int
  index_a : Nat
  index_b : Nat
deriving DecidableEq, Inhabited

/-- The initialisation `long d2 = std::pow(d, 2)` for a `long` argument `d`: the argument is
converted to `double`, squared in `double`, and the square converted to `long`. -/
def pow2_long (d : Int) : Int :=
  Cpp.double_to_long (Cpp.round_double (Cpp.round_double d * Cpp.round_double d))

/-- Function `compute_distance2`: the square of the distance between two points. -/
def compute_distance2 (a b : Point) : Int :=
  let dx2 := pow2_long (Cpp.wrap_long (a.x - b.x))
  let dy2 := pow2_long (Cpp.wrap_long (a.y - b.y))
  let dz2 := pow2_long (Cpp.wrap_long (a.z - b.z))
  Cpp.wrap_long (Cpp.wrap_long (dx2 + dy2) + dz2)

/-- Method `Edge::initialize`: overwrite an existing edge from two points. -/
def Edge.initialize (_self : Edge) (a b : Point) : Edge :=
  { distance2 := compute_distance2 a b, index_a := a.i, index_b := b.i }

/-- Function `create_edge`: a new edge from two points. -/
def create_edge (a b : Point) : Edge :=
  { distance2 := compute_distance2 a b, index_a := a.i, index_b := b.i }

/-- Comparator `compare_edges`: strictly smaller squared distance. -/
def compare_edges (a b : Edge) : Bool :=
  decide (a.distance2 < b.distance2)

/-- Function `string_view_to_long` of `common.cpp`: `long result{}`, then `from_chars`. -/
def string_view_to_long (string_view : List Char) : Int :=
  Cpp.from_chars_long string_view 0

/-- Method `Point::parse(index, line)`: the point it leaves in `*this`. The arithmetic on the
comma positions is that of `size_t`. -/
def Point.parse (index : Nat) (line : List Char) : Cpp.Outcome Point :=
  let comma_pos1 := Cpp.find line ',' 0
  let comma_pos2 := Cpp.find line ',' ((comma_pos1 + 1) % 2 ^ 64)
  match Cpp.substr line 0 comma_pos1 with
  | Cpp.Outcome.returned x_sv =>
    match Cpp.substr line ((comma_pos1 + 1) % 2 ^ 64)
        ((comma_pos2 + 2 ^ 64 - comma_pos1 + 2 ^ 64 - 1) % 2 ^ 64) with
    | Cpp.Outcome.returned y_sv =>
      match Cpp.substr line ((comma_pos2 + 1) % 2 ^ 64) Cpp.npos with
      | Cpp.Outcome.returned z_sv =>
        Cpp.Outcome.returned
          { i := index, x := string_view_to_long x_sv, y := string_view_to_long y_sv,
            z := string_view_to_long z_sv }
      | Cpp.Outcome.thrown => Cpp.Outcome.thrown
      | Cpp.Outcome.undefined => Cpp.Outcome.undefined
    | Cpp.Outcome.thrown => Cpp.Outcome.thrown
    | Cpp.Outcome.undefined => Cpp.Outcome.undefined
  | Cpp.Outcome.thrown => Cpp.Outcome.thrown
  | Cpp.Outcome.undefined => Cpp.Outcome.undefined

/-- The loop of `parse_points` from position `index` on: `points[index].parse(index, line)`
for every remaining line. -/
def parse_points_from : Nat → List (List Char) → List Point → Cpp.Outcome (List Point)
  | _, [], points => Cpp.Outcome.returned points
  | index, line :: rest, points =>
    if index < points.length then
      match Point.parse index line with
      | Cpp.Outcome.returned point => parse_points_from (index + 1) rest (points.set index point)
      | Cpp.Outcome.thrown => Cpp.Outcome.thrown
      | Cpp.Outcome.undefined => Cpp.Outcome.undefined
    else Cpp.Outcome.undefined

/-- Function `parse_points(lines, points)`. -/
def parse_points (lines : List (List Char)) (points : List Point) : Cpp.Outcome (List Point) :=
  parse_points_from 0 lines points

/-- The points vector as `parse_points` leaves it: the point at position `k` carries id `k`. -/
def WellIndexed (points : List Point) : Prop :=
  ∀ k (h : k < points.length), (points.get ⟨k, h⟩).i = k

/-- What is known of `std::ranges::sort(edges, compare_edges)`: the result is a permutation
of the argument in which no later edge compares strictly smaller than an earlier one. -/
structure EdgeSorter where
  sort : List Edge → List Edge
  perm : ∀ l, (sort l).Perm l
  sorted : ∀ l, (sort l).Pairwise (fun a b => compare_edges b a = false)

/-- Ascending order of squared distance. -/
def edge_le (a b : Edge) : Prop := a.distance2 ≤ b.distance2

instance edge_le_decidable : DecidableRel edge_le :=
  fun a b => inferInstanceAs (Decidable (a.distance2 ≤ b.distance2))

instance edge_le_total : IsTotal Edge edge_le := ⟨fun a b => le_total a.distance2 b.distance2⟩

instance edge_le_trans : IsTrans Edge edge_le :=
  ⟨fun a b c (h₁ : a.distance2 ≤ b.distance2) (h₂ : b.distance2 ≤ c.distance2) => le_trans h₁ h₂⟩

/-- One admissible sorting routine: the stable insertion sort by squared distance. -/
def stable_sorter : EdgeSorter where
  sort := fun l => l.insertionSort edge_le
  perm := fun l => List.perm_insertionSort edge_le l
  sorted := fun l => by
    have h : (l.insertionSort edge_le).Pairwise edge_le := List.sorted_insertionSort edge_le l
    refine h.imp ?_
    intro a b hab
    have hab2 : a.distance2 ≤ b.distance2 := hab
    simp [compare_edges, hab2]

/-- The pairs `(points[i], points[j])`, `i < j`, in the order in which the nested loops
`for i … for j = i + 1 …` of both `initialize_edges` visit them. -/
def point_pairs : List Point → List (Point × Point)
  | [] => []
  | p :: rest => rest.map (fun q => (p, q)) ++ point_pairs rest

/-- The edges `create_edge(points[i], points[j])` in loop order. -/
def edge_stream (points : List Point) : List Edge :=
  (point_pairs points).map (fun pq => create_edge pq.1 pq.2)

/-! ## Group tracking shared by both variants -/

/-- The loop state of `find_point_groups`: the group id of every point and the id the next
new group receives. -/
structure Groups where
  point_groups : List Nat
  group_counter : Nat
deriving DecidableEq

/-- One iteration of the loop of `find_point_groups`: connect one edge. -/
def connect (st : Groups) (edge : Edge) : Option Groups :=
  let index_a := edge.index_a
  let index_b := edge.index_b
  match st.point_groups[index_a]?, st.point_groups[index_b]? with
  | some group_a, some group_b =>
    if group_a = 0 ∧ group_b = 0 then
      some ⟨(st.point_groups.set index_a st.group_counter).set index_b st.group_counter,
        st.group_counter + 1⟩
    else if group_a = 0 then
      some ⟨st.point_groups.set index_a group_b, st.group_counter⟩
    else if group_b = 0 then
      some ⟨st.point_groups.set index_b group_a, st.group_counter⟩
    else if group_a ≠ group_b then
      some ⟨st.point_groups.map (fun g => if g = group_b then group_a else g), st.group_counter⟩
    else
      some st
  | _, _ => none

namespace SolveA

def NR_CONNECTIONS_SAMPLE : Nat := 10
def NR_CONNECTIONS_INPUT : Nat := 1000

/-- The loop state of `initialize_edges`: the edge buffer and the rejection threshold. -/
structure Selection where
  edges : List Edge
  max_distance2 : Int

/-- The edge buffer right after the `push_back` of one iteration (the buffer as it was when
the edge is rejected), before any sort or resize. -/
def after_push (max_connections : Nat) (st : Selection) (edge : Edge) : List Edge :=
  if st.edges.length < max_connections then st.edges ++ [edge]
  else if edge.distance2 < st.max_distance2 then st.edges ++ [edge]
  else st.edges

/-- One iteration of the inner loop of `initialize_edges`. -/
def offer (S : EdgeSorter) (max_connections sort_margin : Nat) (st : Selection) (edge : Edge) :
    Selection :=
  if st.edges.length < max_connections then
    let edges := st.edges ++ [edge]
    if edges.length = max_connections then
      let edges := S.sort edges
      ⟨edges, (edges.getD (max_connections - 1) default).distance2⟩
    else ⟨edges, st.max_distance2⟩
  else if edge.distance2 < st.max_distance2 then
    let edges := st.edges ++ [edge]
    if edges.length = max_connections + sort_margin then
      let edges := S.sort edges
      ⟨edges.take max_connections, (edges.getD (max_connections - 1) default).distance2⟩
    else ⟨edges, st.max_distance2⟩
  else st

/-- The loop state of `initialize_edges` after the whole edge stream. -/
def select (S : EdgeSorter) (points : List Point) (edges : List Edge) (max_connections : Nat) :
    Selection :=
  let sort_margin := max_connections / 10
  (edge_stream points).foldl (offer S max_connections sort_margin) ⟨edges, 0⟩

/-- Variant A `initialize_edges(points, edges, max_connections)`: the buffer on return. -/
def initialize_edges (S : EdgeSorter) (points : List Point) (edges : List Edge)
    (max_connections : Nat) : List Edge :=
  S.sort (select S points edges max_connections).edges

/-- Every size the edge buffer takes during `initialize_edges`: after each `push_back` and at
the end of each iteration of the inner loop. -/
def buffer_sizes (S : EdgeSorter) (max_connections sort_margin : Nat) :
    Selection → List Edge → List Nat
  | _, [] => []
  | st, edge :: rest =>
    (after_push max_connections st edge).length ::
      (offer S max_connections sort_margin st edge).edges.length ::
        buffer_sizes S max_connections sort_margin (offer S max_connections sort_margin st edge) rest

/-- The body of the loop of `find_point_groups` at index `connection_count`. -/
def connect_at (edges : List Edge) (st : Groups) (connection_count : Nat) : Option Groups :=
  match edges[connection_count]? with
  | some edge => connect st edge
  | none => none

/-- Variant A `find_point_groups`: connect `edges[0 .. max_connections)`; returns the final
`point_groups` and the number of groups created (`group_counter - 1`). -/
def find_point_groups (edges : List Edge) (point_groups : List Nat) (max_connections : Nat) :
    Option (List Nat × Nat) :=
  match (List.range max_connections).foldlM (connect_at edges) ⟨point_groups, 1⟩ with
  | some st => some (st.point_groups, st.group_counter - 1)
  | none => none

/-- The action `group_sizes[group_id - 1]++` of `find_group_sizes`. -/
def bump (group_sizes : List Nat) (group_id : Nat) : Option (List Nat) :=
  match group_sizes[group_id - 1]? with
  | some count => some (group_sizes.set (group_id - 1) (count + 1))
  | none => none

/-- Variant A `find_group_sizes`: count the points of every positive group id `g` in slot
`g - 1`. -/
def find_group_sizes (point_groups : List Nat) (group_sizes : List Nat) : Option (List Nat) :=
  (point_groups.filter (fun group_id => decide (group_id > 0))).foldlM bump group_sizes

/-- The choice of `max_connections` in `solve`. -/
def max_connections_of (input_name : String) : Nat :=
  if input_name = "sample" then NR_CONNECTIONS_SAMPLE else NR_CONNECTIONS_INPUT

/-- Steps 3 to 5 of variant A `solve`: connect the first `max_connections` edges, count the
group sizes, sort them in descending order and multiply the first three. -/
def largest_groups_product (edges : List Edge) (point_count max_connections : Nat) :
    Option Nat :=
  match find_point_groups edges (List.replicate point_count 0) max_connections with
  | none => none
  | some (point_groups, group_count) =>
    match find_group_sizes point_groups (List.replicate group_count 0) with
    | none => none
    | some group_sizes =>
      let group_sizes := group_sizes.insertionSort (fun a b => a ≥ b)
      match group_sizes[0]?, group_sizes[1]?, group_sizes[2]? with
      | some s0, some s1, some s2 => some (s0 * s1 * s2)
      | _, _, _ => none

/-- Steps 2 to 5 of variant A `solve` for a given number of connections. -/
def solve_with (S : EdgeSorter) (points : List Point) (max_connections : Nat) : Option Nat :=
  largest_groups_product (initialize_edges S points [] max_connections) points.length
    max_connections

/-- Variant A `solve` on the parsed points. -/
def solve_points (S : EdgeSorter) (points : List Point) (input_name : String) : Option Nat :=
  solve_with S points (max_connections_of input_name)

/-- Variant A `solve(lines, input_name)`. -/
def solve (S : EdgeSorter) (lines : List (List Char)) (input_name : String) :
    Cpp.Outcome Nat :=
  match parse_points lines (List.replicate lines.length default) with
  | Cpp.Outcome.returned points =>
    match solve_points S points input_name with
    | some result => Cpp.Outcome.returned result
    | none => Cpp.Outcome.undefined
  | Cpp.Outcome.thrown => Cpp.Outcome.thrown
  | Cpp.Outcome.undefined => Cpp.Outcome.undefined

end SolveA

namespace SolveB

/-- One iteration of the nested loops of `initialize_edges`:
`edges[edge_index++].initialize(points[i], points[j])`. -/
def write_edge (st : List Edge × Nat) (pq : Point × Point) : Option (List Edge × Nat) :=
  match st.1[st.2]? with
  | some edge => some (st.1.set st.2 ( Edge.initialize edge pq.1 pq.2), st.2 + 1)
  | none => none

/-- The pre-sized edge vector after the nested loops of `initialize_edges`, before the sort. -/
def fill_edges (points : List Point) (edges : List Edge) : Option (List Edge) :=
  ((point_pairs points).foldlM write_edge (edges, 0)).map (fun (st : List Edge × Nat) => st.1)

/-- Variant B `initialize_edges(points, edges)`. -/
def initialize_edges (S : EdgeSorter) (points : List Point) (edges : List Edge) :
    Option (List Edge) :=
  (fill_edges points edges).map S.sort

/-- The loop state of `find_last_edge`. -/
structure Tracker where
  point_groups : List Nat
  unassigned_points : Nat
  unique_group_count : Nat
  group_counter : Nat
deriving DecidableEq

/-- One iteration of the loop of `find_last_edge`, up to the termination test: the step of
`find_point_groups` together with the updates of the two counters. -/
def connect (st : Tracker) (edge : Edge) : Option Tracker :=
  let index_a := edge.index_a
  let index_b := edge.index_b
  match st.point_groups[index_a]?, st.point_groups[index_b]? with
  | some group_a, some group_b =>
    if group_a = 0 ∧ group_b = 0 then
      some { point_groups :=
               (st.point_groups.set index_a st.group_counter).set index_b st.group_counter,
             unassigned_points := st.unassigned_points - 2,
             unique_group_count := st.unique_group_count + 1,
             group_counter := st.group_counter + 1 }
    else if group_a = 0 then
      some { st with point_groups := st.point_groups.set index_a group_b,
                     unassigned_points := st.unassigned_points - 1 }
    else if group_b = 0 then
      some { st with point_groups := st.point_groups.set index_b group_a,
                     unassigned_points := st.unassigned_points - 1 }
    else if group_a ≠ group_b then
      some { st with point_groups :=
                       st.point_groups.map (fun g => if g = group_b then group_a else g),
                     unique_group_count := st.unique_group_count - 1 }
    else
      some st
  | _, _ => none

/-- The loop of `find_last_edge` from `edge_index` on, `rest` being `edges[edge_index ..]`:
returns the index and the edge at which the loop returns, with the final state. -/
def scan : List Edge → Nat → Tracker → Option (Nat × Edge × Tracker)
  | [], _, _ => none
  | edge :: rest, edge_index, st =>
    match connect st edge with
    | none => none
    | some st1 =>
      if st1.unassigned_points = 0 ∧ st1.unique_group_count = 1 then
        some (edge_index, edge, st1)
      else scan rest (edge_index + 1) st1

/-- Variant B `find_last_edge(edges, point_groups)`. -/
def find_last_edge (edges : List Edge) (point_groups : List Nat) : Option (Nat × Edge × Tracker) :=
  scan edges 0
    { point_groups := point_groups, unassigned_points := point_groups.length,
      unique_group_count := 0, group_counter := 1 }

/-- The last steps of variant B `solve`: find the last edge in the sorted edge vector and
multiply the x coordinates of its two endpoints, as `long`s. -/
def last_edge_product (points : List Point) (edges : List Edge) : Option Int :=
  match find_last_edge edges (List.replicate points.length 0) with
  | none => none
  | some (_, last_edge, _) =>
    match points[last_edge.index_a]?, points[last_edge.index_b]? with
    | some last_point_a, some last_point_b =>
      some (Cpp.wrap_long (last_point_a.x * last_point_b.x))
    | _, _ => none

/-- Variant B `solve` on the parsed points. -/
def solve_points (S : EdgeSorter) (points : List Point) : Option Int :=
  let point_count := points.length
  let edge_count := (point_count * (point_count - 1)) / 2
  match initialize_edges S points (List.replicate edge_count default) with
  | none => none
  | some edges => last_edge_product points edges

/-- Variant B `solve(lines, input_name)`. -/
def solve (S : EdgeSorter) (lines : List (List Char)) (_input_name : String) :
    Cpp.Outcome Int :=
  match parse_points lines (List.replicate lines.length default) with
  | Cpp.Outcome.returned points =>
    match solve_points S points with
    | some result => Cpp.Outcome.returned result
    | none => Cpp.Outcome.undefined
  | Cpp.Outcome.thrown => Cpp.Outcome.thrown
  | Cpp.Outcome.undefined => Cpp.Outcome.undefined

end SolveB

/-! ## Notions used to state the properties -/

/-- The `K` smallest values of a list, ascending. -/
def smallest (K : Nat) (l : List Int) : List Int :=
  (l.insertionSort (· ≤ ·)).take K

/-- The squared distances of a list of edges. -/
def dists (l : List Edge) : List Int := l.map (fun e => e.distance2)

/-- The point at position `k` of the list carries id `off + k`. -/
def IndexedFrom (off : Nat) (l : List Point) : Prop :=
  ∀ k p, l[k]? = some p → p.i = off + k

namespace SolveA

/-- The invariant of the loop of `initialize_edges` once `seen` has been streamed. -/
def SelInv (K : Nat) (st : Selection) (seen : List Edge) : Prop :=
  (st.edges.length < K → st.edges = seen) ∧
  (K ≤ st.edges.length →
    K ≤ seen.length ∧ smallest K (dists st.edges) = smallest K (dists seen) ∧
      ∀ y ∈ smallest K (dists st.edges), y ≤ st.max_distance2)

end SolveA

/-- Two point ids are the two endpoints of one of the edges. -/
def Adjacent (edges : List Edge) (p q : Nat) : Prop :=
  ∃ e ∈ edges, (e.index_a = p ∧ e.index_b = q) ∨ (e.index_a = q ∧ e.index_b = p)

/-- Two point ids are joined by a path of one or more of the edges. -/
def Joined (edges : List Edge) : Nat → Nat → Prop :=
  Relation.TransGen (Adjacent edges)

/-- The graph on the point ids `0 .. n-1` with the given edges is connected. -/
def Connected (n : Nat) (edges : List Edge) : Prop :=
  ∀ p q, p < n → q < n → Relation.ReflTransGen (Adjacent edges) p q

/-- The group id of point `p` (`0` for an id outside the vector). -/
def group_of (point_groups : List Nat) (p : Nat) : Nat := point_groups.getD p 0

/-- Two points hold the same non-zero label. -/
def SameGroup (L : Nat → Nat) (p q : Nat) : Prop := L p ≠ 0 ∧ L p = L q

/-- Relation `R2` is `R` with the pair `a`, `b` added and closed under symmetry and
transitivity again. -/
structure Extends (R R2 : Nat → Nat → Prop) (a b : Nat) : Prop where
  mono : ∀ p q, R p q → R2 p q
  edge : R2 a b
  symm : ∀ p q, R2 p q → R2 q p
  trans : ∀ p q r, R2 p q → R2 q r → R2 p r
  least : ∀ T : Nat → Nat → Prop, (∀ p q, R p q → T p q) → T a b → T b a →
    (∀ p q r, T p q → T q r → T p r) → ∀ p q, R2 p q → T p q

/-- The labels describe the relation: same non-zero label exactly for related points. -/
def Labels (L : Nat → Nat) (R : Nat → Nat → Prop) : Prop :=
  ∀ p q, SameGroup L p q ↔ R p q

/-- The invariant of the group tracker after the edges `E` were connected. -/
structure GInv (n : Nat) (E : List Edge) (st : Groups) : Prop where
  length : st.point_groups.length = n
  fresh : ∀ p, group_of st.point_groups p < st.group_counter
  labels : Labels (group_of st.point_groups) (Joined E)

/-- The two edges have no endpoint in common. -/
def NoCommonEndpoint (e f : Edge) : Prop :=
  e.index_a ≠ f.index_a ∧ e.index_a ≠ f.index_b ∧ e.index_b ≠ f.index_a ∧
    e.index_b ≠ f.index_b

/-- The state of the group tracker after the edges `M`, no two of which share an endpoint:
every edge made a group of its own with exactly two members. -/
structure MInv (n : Nat) (M : List Edge) (st : Groups) : Prop where
  counter : st.group_counter = M.length + 1
  length : st.point_groups.length = n
  grouped : ∀ p, group_of st.point_groups p ≠ 0 ↔ ∃ e ∈ M, e.index_a = p ∨ e.index_b = p
  bound : ∀ g ∈ st.point_groups, g ≤ M.length
  pairs : ∀ i, i < M.length → st.point_groups.count (i + 1) = 2

/-- Four points forming two well-separated pairs on a line. -/
def two_pairs : List Point :=
  [⟨0, 0, 0, 0⟩, ⟨1, 1, 0, 0⟩, ⟨2, 100, 0, 0⟩, ⟨3, 101, 0, 0⟩]

/-- The non-zero group ids held by at least one point. -/
def group_ids (point_groups : List Nat) : Finset Nat := point_groups.toFinset.erase 0

/-- The group-size table `find_group_sizes` fills: slot `g - 1` counts the points of id `g`. -/
def size_table (point_groups : List Nat) (group_count : Nat) : List Nat :=
  (List.range group_count).map (fun i => point_groups.count (i + 1))

/-- Eight points on a line: three pairs at distance 1 and two further points, such that the
edges `(0,6)` and `(6,7)` both have squared distance 25. -/
def tie_points : List Point :=
  [⟨0, 0, 0, 0⟩, ⟨1, 1, 0, 0⟩, ⟨2, 10, 0, 0⟩, ⟨3, 11, 0, 0⟩, ⟨4, 20, 0, 0⟩, ⟨5, 21, 0, 0⟩,
    ⟨6, -5, 0, 0⟩, ⟨7, -10, 0, 0⟩]

/-- The edges of `tie_points` of squared distance above 25, in ascending order. -/
def tie_order_rest : List Edge :=
  [⟨36, 1, 6⟩, ⟨81, 1, 2⟩, ⟨81, 3, 4⟩, ⟨100, 0, 2⟩, ⟨100, 0, 7⟩, ⟨100, 1, 3⟩, ⟨100, 2, 4⟩,
    ⟨100, 3, 5⟩, ⟨121, 0, 3⟩, ⟨121, 1, 7⟩, ⟨121, 2, 5⟩, ⟨225, 2, 6⟩, ⟨256, 3, 6⟩, ⟨361, 1, 4⟩,
    ⟨400, 0, 4⟩, ⟨400, 1, 5⟩, ⟨400, 2, 7⟩, ⟨441, 0, 5⟩, ⟨441, 3, 7⟩, ⟨625, 4, 6⟩, ⟨676, 5, 6⟩,
    ⟨900, 4, 7⟩, ⟨961, 5, 7⟩]

/-- An ascending ordering of the edges of `tie_points` with edge `(0,6)` in fourth place. -/
def tie_order_first : List Edge :=
  [⟨1, 0, 1⟩, ⟨1, 2, 3⟩, ⟨1, 4, 5⟩, ⟨25, 0, 6⟩, ⟨25, 6, 7⟩] ++ tie_order_rest

/-- The same ordering with the two edges of squared distance 25 exchanged. -/
def tie_order_second : List Edge :=
  [⟨1, 0, 1⟩, ⟨1, 2, 3⟩, ⟨1, 4, 5⟩, ⟨25, 6, 7⟩, ⟨25, 0, 6⟩] ++ tie_order_rest

/-- The first point of its group: labelled, and no earlier point carries the same label. -/
def IsFirstOfGroup (L : Nat → Nat) (p : Nat) : Prop :=
  L p ≠ 0 ∧ ∀ q, q < p → L q ≠ L p

instance isFirstOfGroup_decidable (L : Nat → Nat) (p : Nat) : Decidable (IsFirstOfGroup L p) := by
  unfold IsFirstOfGroup
  infer_instance

/-- Every pair of the point ids `0 .. n-1` (a point with itself included) is joined by a path
of one or more edges. -/
def AllJoined (n : Nat) (edges : List Edge) : Prop :=
  ∀ p q, p < n → q < n → Joined edges p q

namespace SolveB

/-- The part of the state of `find_last_edge` it shares with `find_point_groups`. -/
def Tracker.groups (st : Tracker) : Groups := ⟨st.point_groups, st.group_counter⟩

/-- The state of the loop of `find_last_edge` after its body ran for the given edges, the
termination test left aside. -/
def run (edges : List Edge) (st : Tracker) : Option Tracker :=
  edges.foldlM connect st

/-- The state in which `find_last_edge` enters its loop. -/
def start (point_groups : List Nat) : Tracker :=
  { point_groups := point_groups, unassigned_points := point_groups.length,
    unique_group_count := 0, group_counter := 1 }

/-- The two counters of `find_last_edge` agree with the vector of group ids. -/
structure CInv (st : Tracker) : Prop where
  unassigned : st.unassigned_points = st.point_groups.count 0
  unique : st.unique_group_count = (group_ids st.point_groups).card

end SolveB

end Day08

/-! ## Day 09, part A (`src/solutions/09/common.cpp`, `solve_a.cpp`)

`std::ranges::sort(points, compare_points)` is taken as a parameter `S : PointSorter` that is
only known to return a permutation of its argument in ascending order of `x`. -/

namespace Day09

open Cpp

/-- A 2D point. -/
structure Point where
  x : Int
  y : Int
deriving DecidableEq, Inhabited

/-- Function `string_view_to_long` of `common.cpp`: `long result{}`, then `from_chars`. -/
def string_view_to_long (string_view : List Char) : Int :=
  from_chars_long string_view 0

/-- Method `Point::parse(line)`: the point it leaves in `*this`. -/
def Point.parse (line : List Char) : Outcome Point :=
  let comma_pos := find line ',' 0
  match substr line 0 comma_pos with
  | Outcome.returned x_sv =>
    match substr line ((comma_pos + 1) % 2 ^ 64) npos with
    | Outcome.returned y_sv =>
      Outcome.returned { x := string_view_to_long x_sv, y := string_view_to_long y_sv }
    | Outcome.thrown => Outcome.thrown
    | Outcome.undefined => Outcome.undefined
  | Outcome.thrown => Outcome.thrown
  | Outcome.undefined => Outcome.undefined

/-- The loop of `parse_points` from position `index` on. -/
def parse_points_from : Nat → List (List Char) → List Point → Outcome (List Point)
  | _, [], points => Outcome.returned points
  | index, line :: rest, points =>
    if index < points.length then
      match Point.parse line with
      | Outcome.returned point => parse_points_from (index + 1) rest (points.set index point)
      | Outcome.thrown => Outcome.thrown
      | Outcome.undefined => Outcome.undefined
    else Outcome.undefined

/-- Function `parse_points(lines, points)`. -/
def parse_points (lines : List (List Char)) (points : List Point) : Outcome (List Point) :=
  parse_points_from 0 lines points

/-- Function `compare_points`, used to sort the points by `x`. -/
def compare_points (a b : Point) : Bool :=
  decide (a.x ≤ b.x)

/-- What is known of `std::ranges::sort(points, compare_points)`: the result is a permutation
of the argument in which every point compares before every later one. -/
structure PointSorter where
  sort : List Point → List Point
  perm : ∀ l, (sort l).Perm l
  sorted : ∀ l, (sort l).Pairwise (fun a b => compare_points a b = true)

/-- The state of the loop of `get_left_corners` and of `get_right_corners`: the two corner
lists and the two `y` thresholds (`tl_max_y`, `bl_min_y`; `tr_max_y`, `br_min_y`). -/
structure Corners where
  t_corners : List Point
  t_max_y : Int
  b_corners : List Point
  b_min_y : Int
deriving DecidableEq

/-- One iteration of the loop of `get_left_corners` / `get_right_corners`. -/
def corner_step (st : Corners) (point : Point) : Corners :=
  let st1 :=
    if point.y < st.t_max_y then
      { st with t_corners := st.t_corners ++ [point], t_max_y := point.y }
    else st
  if point.y > st1.b_min_y then
    { st1 with b_corners := st1.b_corners ++ [point], b_min_y := point.y }
  else st1

/-- Function `get_left_corners(points, tl_corners, bl_corners)`: the two corner lists on
return (`front()` of an empty corner list is undefined). -/
def get_left_corners (points tl_corners bl_corners : List Point) :
    Option (List Point × List Point) :=
  match tl_corners.head?, bl_corners.head? with
  | some tl_front, some bl_front =>
    let st := points.foldl corner_step
      { t_corners := tl_corners, t_max_y := tl_front.y,
        b_corners := bl_corners, b_min_y := bl_front.y }
    some (st.t_corners, st.b_corners)
  | _, _ => none

/-- Function `get_right_corners(points, tr_corners, br_corners)`: the same loop, from the last
point down to the first. -/
def get_right_corners (points tr_corners br_corners : List Point) :
    Option (List Point × List Point) :=
  match tr_corners.head?, br_corners.head? with
  | some tr_front, some br_front =>
    let st := points.reverse.foldl corner_step
      { t_corners := tr_corners, t_max_y := tr_front.y,
        b_corners := br_corners, b_min_y := br_front.y }
    some (st.t_corners, st.b_corners)
  | _, _ => none

/-- The area of the rectangle with corners `a` and `b`, both included. -/
def area (a b : Point) : Int :=
  let dx := |a.x - b.x| + 1
  let dy := |a.y - b.y| + 1
  dx * dy

/-- Function `find_max_area(corners_a, corners_b, max_area)`: the new value of `max_area`. -/
def find_max_area (corners_a corners_b : List Point) (max_area : Int) : Int :=
  corners_a.foldl (fun acc a => corners_b.foldl (fun acc2 b => max acc2 (area a b)) acc) max_area

/-- Part A `solve` on the parsed points: the corner lists are seeded with the first and the
last point of the input, then the points are sorted. -/
def solve_points (S : PointSorter) (points : List Point) : Option Int :=
  match points.head?, points.getLast? with
  | some front, some back =>
    let tl_corners := [front]
    let bl_corners := [front]
    let tr_corners := [back]
    let br_corners := [back]
    let points := S.sort points
    match get_left_corners points tl_corners bl_corners,
        get_right_corners points tr_corners br_corners with
    | some (tl_corners, bl_corners), some (tr_corners, br_corners) =>
      let max_area := 0
      let max_area := find_max_area tl_corners br_corners max_area
      let max_area := find_max_area tr_corners bl_corners max_area
      some max_area
    | _, _ => none
  | _, _ => none

/-- Part A `solve(lines, input_name)`. -/
def solve (S : PointSorter) (lines : List (List Char)) (_input_name : String) : Outcome Int :=
  match parse_points lines (List.replicate lines.length default) with
  | Outcome.returned points =>
    match solve_points S points with
    | some result => Outcome.returned result
    | none => Outcome.undefined
  | Outcome.thrown => Outcome.thrown
  | Outcome.undefined => Outcome.undefined

/-- The largest rectangle by comparing all points to all other points: the maximum of
`(|a.x - b.x| + 1) * (|a.y - b.y| + 1)` over all pairs of points. -/
def all_pairs_max_area (points : List Point) : Int :=
  ((points.product points).map (fun ab => area ab.1 ab.2)).foldl max 0

/-- Insertion sort by `x`, an instance of `PointSorter`. -/
def insertion_sorter : PointSorter where
  sort := fun l => l.insertionSort (fun a b => a.x ≤ b.x)
  perm := fun l => List.perm_insertionSort _ l
  sorted := fun l => by
    have h : (l.insertionSort (fun a b => a.x ≤ b.x)).Pairwise (fun a b => a.x ≤ b.x) :=
      @List.sorted_insertionSort Point (fun a b => a.x ≤ b.x) _
        ⟨fun a b => le_total a.x b.x⟩ ⟨fun a b c hab hbc => le_trans hab hbc⟩ l
    exact h.imp (fun hab => by simpa [compare_points] using hab)

end Day09

/-! ## Day 11 (`src/solutions/11/common.cpp`, `solve_a.cpp`, `solve_b.cpp`)

Node indices are `Nat`; `std::map<std::string, size_t>` is the list of its entries. Path
counts are `int` in part A and `long` in part B (with an `int` memo vector in both): sums and
products are passed through `wrap_int` / `wrap_long`, a `long` stored in the memo vector
through `long_to_int`. The recursion carries a bound on its depth as first argument (`none`
when it is exhausted, as for an index outside a vector). -/

namespace Day11

open Cpp

/-- Function `get_index(label, label_to_index)`: the index and the map on return. -/
def get_index (label : List Char) (label_to_index : List (List Char × Nat)) :
    Nat × List (List Char × Nat) :=
  match label_to_index.find? (fun entry => decide (entry.1 = label)) with
  | some entry => (entry.2, label_to_index)
  | none =>
    let new_index := label_to_index.length
    (new_index, label_to_index ++ [(label, new_index)])

/-- The state of `initialize`. -/
structure Graph where
  node_to_inputs : List (List Nat)
  label_to_index : List (List Char × Nat)
deriving DecidableEq

/-- The inner loop of `initialize` for one line, from `start_pos` on; the first argument
bounds the number of iterations. -/
def add_outputs (line : List Char) (source_index : Nat) : Nat → Nat → Graph → Option Graph
  | 0, _, _ => none
  | fuel + 1, start_pos, g =>
    if start_pos < line.length then
      let output_label := (line.drop start_pos).take 3
      let (output_index, label_to_index) := get_index output_label g.label_to_index
      match g.node_to_inputs[output_index]? with
      | none => none
      | some inputs =>
        add_outputs line source_index fuel (start_pos + 4)
          { node_to_inputs := g.node_to_inputs.set output_index (inputs ++ [source_index]),
            label_to_index := label_to_index }
    else some g

/-- The body of the loop of `initialize` for one line. -/
def add_line (g : Graph) (line : List Char) : Option Graph :=
  let source_label := line.take 3
  let (source_index, label_to_index) := get_index source_label g.label_to_index
  add_outputs line source_index (line.length + 1) 5 { g with label_to_index := label_to_index }

/-- Function `initialize(lines, node_to_inputs, label_to_index)` (the name is a keyword of
Lean). -/
def initialize_graph (lines : List (List Char)) (g : Graph) : Option Graph :=
  lines.foldlM add_line g

/-- The expression `label_to_index[label]`: a missing label is entered with index 0. -/
def index_of (label : List Char) (label_to_index : List (List Char × Nat)) : Nat :=
  match label_to_index.find? (fun entry => decide (entry.1 = label)) with
  | some entry => entry.2
  | none => 0

/-- A three-letter label: a letter and two decimal digits. -/
def label (letter : Char) (k : Nat) : List Char :=
  [letter] ++ Nat.toDigits 10 (k / 10) ++ Nat.toDigits 10 (k % 10)

/-- The label of the `k`-th junction of a doubling chain of `n` stages from `first` to
`last`. -/
def junction (first last : List Char) (n k : Nat) : List Char :=
  if k = 0 then first else if k = n then last else label 'c' k

/-- The input lines of a doubling chain of `n` stages: junction `k` outputs to the two nodes
`a` and `b` of stage `k + 1`, both of which output to junction `k + 1`, so that each stage
doubles the number of paths. -/
def doubling_lines (first last : List Char) (n : Nat) : List (List Char) :=
  (List.range n).flatMap (fun k =>
    [junction first last n k ++ ": ".toList ++ label 'a' (k + 1) ++ " ".toList
        ++ label 'b' (k + 1),
     label 'a' (k + 1) ++ ": ".toList ++ junction first last n (k + 1),
     label 'b' (k + 1) ++ ": ".toList ++ junction first last n (k + 1)])

/-- The vector `node_to_inputs` of a doubling chain of `n` stages: junction `k` has index
`3 * k`, the two nodes of stage `k + 1` have the indices `3 * k + 1` and `3 * k + 2`. -/
def doubling_graph (n : Nat) : List (List Nat) :=
  [] :: (List.range n).flatMap (fun k => [[3 * k], [3 * k], [3 * k + 1, 3 * k + 2]])

/-- The map `label_to_index` of a doubling chain of `n` stages, in the order in which
`initialize` enters the labels. -/
def doubling_labels (first last : List Char) (n : Nat) : List (List Char × Nat) :=
  (List.range n).flatMap (fun k =>
    [(junction first last n k, 3 * k), (label 'a' (k + 1), 3 * k + 1),
     (label 'b' (k + 1), 3 * k + 2)])
    ++ [(junction first last n n, 3 * n)]

namespace SolveA

/-- One iteration of the loop of `recurse`: `nr_paths += recurse(...)` for one input, where
`call` is the recursive call (it may write to the memo vector). -/
def add_paths (call : List Int → Nat → Option (Int × List Int)) (acc : Int × List Int)
    (input_index : Nat) : Option (Int × List Int) :=
  match call acc.2 input_index with
  | some (paths, memo2) => some (wrap_int (acc.1 + paths), memo2)
  | none => none

/-- Part A `recurse(node_to_inputs, memo, current_node, target_node)`: the value returned and
the memo vector on return. -/
def recurse (node_to_inputs : List (List Nat)) :
    Nat → List Int → Nat → Nat → Option (Int × List Int)
  | 0, _, _, _ => none
  | fuel + 1, memo, current_node, target_node =>
    if current_node = target_node then some (1, memo)
    else
      match memo[current_node]? with
      | none => none
      | some memoized =>
        if memoized ≠ -1 then some (memoized, memo)
        else
          match node_to_inputs[current_node]? with
          | none => none
          | some inputs =>
            match inputs.foldlM
                (add_paths (fun memo2 input_index =>
                  recurse node_to_inputs fuel memo2 input_index target_node))
                (0, memo) with
            | none => none
            | some (nr_paths, memo2) =>
              if current_node < memo2.length then
                some (nr_paths, memo2.set current_node nr_paths)
              else none

/-- Part A `solve` after `initialize`: the recursion from `out` back to `you`, with a memo
vector of `-1`. -/
def solve_graph (fuel : Nat) (g : Graph) : Option Int :=
  let memo := List.replicate g.node_to_inputs.length (-1 : Int)
  let out_node_index := index_of "out".toList g.label_to_index
  let you_node_index := index_of "you".toList g.label_to_index
  (recurse g.node_to_inputs fuel memo out_node_index you_node_index).map (fun r => r.1)

/-- Part A `solve(lines, input_name)`. -/
def solve (fuel : Nat) (lines : List (List Char)) (_input_name : String) : Outcome Int :=
  match initialize_graph lines
      { node_to_inputs := List.replicate (lines.length + 1) [], label_to_index := [] } with
  | none => Outcome.undefined
  | some g =>
    match solve_graph fuel g with
    | some nr_paths => Outcome.returned nr_paths
    | none => Outcome.undefined

/-- The recursion without memoisation, in exact arithmetic: the number of directed paths from
`target_node` to `current_node` (by the inputs of `current_node`, their inputs, and so on). -/
def path_count (node_to_inputs : List (List Nat)) : Nat → Nat → Nat → Nat
  | 0, _, _ => 0
  | fuel + 1, current_node, target_node =>
    if current_node = target_node then 1
    else
      ((node_to_inputs.getD current_node []).map
        (fun input_index => path_count node_to_inputs fuel input_index target_node)).sum

/-- Every entry of the memo vector is `-1` or the number of paths to its node. -/
def MemoOK (node_to_inputs : List (List Nat)) (rank : Nat → Nat) (target_node : Nat)
    (memo : List Int) : Prop :=
  memo.length = node_to_inputs.length ∧
    ∀ (v : Nat) (m : Int), memo[v]? = some m →
      m = -1 ∨ m = (path_count node_to_inputs (rank v + 1) v target_node : Nat)

end SolveA

namespace SolveB

/-- One iteration of the loop of `recurse`: `nr_paths += recurse(...)` for one input, where
`call` is the recursive call. -/
def add_paths (call : List Int → Nat → Option (Int × List Int)) (acc : Int × List Int)
    (input_index : Nat) : Option (Int × List Int) :=
  match call acc.2 input_index with
  | some (paths, memo2) => some (wrap_long (acc.1 + paths), memo2)
  | none => none

/-- Part B `recurse`: as in part A with two forbidden nodes; the path counts are `long`, the
memo vector holds `int`. -/
def recurse (node_to_inputs : List (List Nat)) :
    Nat → List Int → Nat → Nat → Nat → Nat → Option (Int × List Int)
  | 0, _, _, _, _, _ => none
  | fuel + 1, memo, current_node, target_node, forbidden_node_a, forbidden_node_b =>
    if current_node = target_node then some (1, memo)
    else if current_node = forbidden_node_a then some (0, memo)
    else if current_node = forbidden_node_b then some (0, memo)
    else
      match memo[current_node]? with
      | none => none
      | some memoized =>
        if memoized ≠ -1 then some (memoized, memo)
        else
          match node_to_inputs[current_node]? with
          | none => none
          | some inputs =>
            match inputs.foldlM
                (add_paths (fun memo2 input_index =>
                  recurse node_to_inputs fuel memo2 input_index target_node
                    forbidden_node_a forbidden_node_b))
                (0, memo) with
            | none => none
            | some (nr_paths, memo2) =>
              if current_node < memo2.length then
                some (nr_paths, memo2.set current_node (long_to_int nr_paths))
              else none

/-- Function `find_path_count`: `recurse` with a fresh memo vector of `-1`. -/
def find_path_count (node_to_inputs : List (List Nat)) (fuel : Nat)
    (current_node target_node forbidden_node_a forbidden_node_b : Nat) : Option Int :=
  let memo := List.replicate node_to_inputs.length (-1 : Int)
  (recurse node_to_inputs fuel memo current_node target_node forbidden_node_a
    forbidden_node_b).map (fun r => r.1)

/-- Part B `solve` after `initialize`, for the indices of the four nodes of interest. -/
def solve_nodes (node_to_inputs : List (List Nat)) (fuel : Nat) (out svr dac fft : Nat) :
    Option Int :=
  match find_path_count node_to_inputs fuel dac svr out fft,
      find_path_count node_to_inputs fuel fft svr out dac,
      find_path_count node_to_inputs fuel fft dac out svr,
      find_path_count node_to_inputs fuel dac fft out svr,
      find_path_count node_to_inputs fuel out dac fft svr,
      find_path_count node_to_inputs fuel out fft dac svr with
  | some nr_paths_svr_to_dac, some nr_paths_svr_to_fft, some nr_paths_dac_to_fft,
      some nr_paths_fft_to_dac, some nr_paths_dac_to_out, some nr_paths_fft_to_out =>
    let nr_paths_dac_fft :=
      wrap_long (wrap_long (nr_paths_svr_to_dac * nr_paths_dac_to_fft) * nr_paths_fft_to_out)
    let nr_paths_fft_dac :=
      wrap_long (wrap_long (nr_paths_svr_to_fft * nr_paths_fft_to_dac) * nr_paths_dac_to_out)
    some (wrap_long (nr_paths_dac_fft + nr_paths_fft_dac))
  | _, _, _, _, _, _ => none

/-- Part B `solve(lines, input_name)`. -/
def solve (fuel : Nat) (lines : List (List Char)) (_input_name : String) : Outcome Int :=
  match initialize_graph lines
      { node_to_inputs := List.replicate (lines.length + 1) [], label_to_index := [] } with
  | none => Outcome.undefined
  | some g =>
    let out := index_of "out".toList g.label_to_index
    let svr := index_of "svr".toList g.label_to_index
    let dac := index_of "dac".toList g.label_to_index
    let fft := index_of "fft".toList g.label_to_index
    match solve_nodes g.node_to_inputs fuel out svr dac fft with
    | some nr_paths => Outcome.returned nr_paths
    | none => Outcome.undefined

end SolveB

end Day11

/-! ## Lemmas -/

namespace Cpp

theorem find_from_bounds : ∀ (s : List Char) (ch : Char) (i : Nat),
    find_from s ch i = npos ∨ (i ≤ find_from s ch i ∧ find_from s ch i < i + s.length) := by
  intro s
  induction s with
  | nil => intro ch i; exact Or.inl rfl
  | cons c rest ih =>
    intro ch i
    unfold find_from
    by_cases hc : c = ch
    · rw [if_pos hc]; right; simp
    · rw [if_neg hc]
      rcases ih ch (i + 1) with h | ⟨h1, h2⟩
      · exact Or.inl h
      · right
        simp only [List.length_cons]
        omega

/-- A position returned by `find` is `npos` or lies inside the string. -/
theorem find_bounds (s : List Char) (ch : Char) (pos : Nat) :
    find s ch pos = npos ∨ find s ch pos < s.length := by
  unfold find
  rcases find_from_bounds (s.drop pos) ch pos with h | ⟨h1, h2⟩
  · exact Or.inl h
  · right
    have hlen : (s.drop pos).length = s.length - pos := List.length_drop pos s
    omega

theorem find_from_append (ch : Char) : ∀ (f : List Char) (rest : List Char) (i : Nat),
    ch ∉ f → find_from (f ++ ch :: rest) ch i = i + f.length := by
  intro f
  induction f with
  | nil => intro rest i _; simp [find_from]
  | cons c f ih =>
    intro rest i hnot
    have hc : c ≠ ch := fun h => hnot (by simp [h])
    have hf : ch ∉ f := fun h => hnot (by simp [h])
    rw [List.cons_append, find_from, if_neg hc, ih rest (i + 1) hf, List.length_cons]
    omega

theorem find_from_none (ch : Char) : ∀ (f : List Char) (i : Nat),
    ch ∉ f → find_from f ch i = npos := by
  intro f
  induction f with
  | nil => intro i _; rfl
  | cons c f ih =>
    intro i hnot
    have hc : c ≠ ch := fun h => hnot (by simp [h])
    have hf : ch ∉ f := fun h => hnot (by simp [h])
    simp only [find_from, if_neg hc, ih (i + 1) hf]

theorem substr_returned (sv : List Char) (pos count : Nat) (h : pos ≤ sv.length) :
    substr sv pos count = Outcome.returned ((sv.drop pos).take count) := by
  unfold substr
  rw [if_neg (by omega)]

/-- A text that does not start with a digit, or a minus sign and a digit, leaves the value of
`from_chars` as it was. -/
theorem from_chars_long_no_digit (sv : List Char) (value : Int)
    (h1 : ∀ c rest, sv = c :: rest → c.isDigit = false)
    (h2 : ∀ c rest, sv = '-' :: c :: rest → c.isDigit = false) :
    from_chars_long sv value = value := by
  unfold from_chars_long
  have hnil : (if decide (sv.head? = some '-') = true then sv.tail else sv).takeWhile Char.isDigit
      = [] := by
    cases sv with
    | nil => simp
    | cons c rest =>
      by_cases hc : c = '-'
      · subst hc
        cases rest with
        | nil => simp
        | cons c2 rest2 =>
          have := h2 c2 rest2 rfl
          simp [List.takeWhile, this]
      · have := h1 c rest rfl
        simp [hc, List.takeWhile, this]
  simp only [hnil, if_true]

/-- Two lists with the same image under `f` are equal when `f` tells their elements apart. -/
theorem eq_of_map_eq_of_inj {α β : Type} (f : α → β) : ∀ (l1 l2 : List α),
    (∀ x ∈ l1, ∀ y ∈ l2, f x = f y → x = y) → l1.map f = l2.map f → l1 = l2 := by
  intro l1
  induction l1 with
  | nil =>
    intro l2 _ h
    cases l2 with
    | nil => rfl
    | cons y l2 => simp at h
  | cons x l1 ih =>
    intro l2 hinj h
    cases l2 with
    | nil => simp at h
    | cons y l2 =>
      simp only [List.map_cons, List.cons.injEq] at h
      have hxy : x = y := hinj x (by simp) y (by simp) h.1
      rw [hxy, ih l2 (fun a ha b hb => hinj a (by simp [ha]) b (by simp [hb])) h.2]

theorem wrap_long_of_range {v : Int} (h1 : -(2 ^ 63) ≤ v) (h2 : v < 2 ^ 63) :
    wrap_long v = v := by
  unfold wrap_long
  omega

theorem dropped_bits_of_lt (fuel n : Nat) (h : n < 2 ^ 53) : dropped_bits fuel n = 0 := by
  cases fuel with
  | zero => rfl
  | succ f =>
    unfold dropped_bits
    rw [if_pos h]

/-- The bits that are dropped leave 53 significant bits. -/
theorem dropped_bits_spec : ∀ (fuel n : Nat), n < 2 ^ (53 + fuel) → 2 ^ 53 ≤ n →
    1 ≤ dropped_bits fuel n ∧ 2 ^ (52 + dropped_bits fuel n) ≤ n ∧
      n < 2 ^ (53 + dropped_bits fuel n) := by
  intro fuel
  induction fuel with
  | zero => intro n h1 h2; simp at h1; omega
  | succ f ih =>
    intro n h1 h2
    have hn : ¬ n < 2 ^ 53 := by omega
    simp only [dropped_bits, if_neg hn]
    by_cases h3 : n / 2 < 2 ^ 53
    · rw [dropped_bits_of_lt f _ h3]
      refine ⟨le_refl _, ?_, ?_⟩
      · show 2 ^ 53 ≤ n
        exact h2
      · show n < 2 ^ 54
        omega
    · have h4 : n / 2 < 2 ^ (53 + f) := by
        have e : 2 ^ (53 + (f + 1)) = 2 * 2 ^ (53 + f) := by
          rw [← Nat.add_assoc, Nat.pow_succ, Nat.mul_comm]
        rw [e] at h1
        omega
      obtain ⟨_, i2, i3⟩ := ih (n / 2) h4 (by omega)
      refine ⟨by omega, ?_, ?_⟩
      · have e : 2 ^ (52 + (dropped_bits f (n / 2) + 1))
            = 2 * 2 ^ (52 + dropped_bits f (n / 2)) := by
          rw [← Nat.add_assoc, Nat.pow_succ, Nat.mul_comm]
        rw [e]
        omega
      · have e : 2 ^ (53 + (dropped_bits f (n / 2) + 1))
            = 2 * 2 ^ (53 + dropped_bits f (n / 2)) := by
          rw [← Nat.add_assoc, Nat.pow_succ, Nat.mul_comm]
        rw [e]
        omega

/-- Integers up to `2^53` are `double`s. -/
theorem round_double_nat_of_le (n : Nat) (h : n ≤ 2 ^ 53) : round_double_nat n = n := by
  rcases Nat.lt_or_ge n (2 ^ 53) with h1 | h1
  · unfold round_double_nat
    simp only [dropped_bits_of_lt 1024 n h1, Nat.pow_zero, Nat.mod_one, Nat.div_one,
      Nat.mul_zero, Nat.mul_one]
    rw [if_pos (Or.inl (by decide))]
  · have e : n = 2 ^ 53 := by omega
    rw [e]
    decide

/-- Below `2^63` a `double` is off by at most 512. -/
theorem round_double_nat_close (n : Nat) (h : n < 2 ^ 63) :
    round_double_nat n ≤ n + 512 ∧ n ≤ round_double_nat n + 512 := by
  rcases Nat.lt_or_ge n (2 ^ 53) with h1 | h1
  · rw [round_double_nat_of_le n (by omega)]
    omega
  · have hbig : ∀ k, 63 ≤ k → (2 : Nat) ^ 63 ≤ 2 ^ k :=
      fun k hk => Nat.pow_le_pow_right (by decide) hk
    obtain ⟨i1, i2, _⟩ := dropped_bits_spec 1024 n
      (lt_of_lt_of_le h (hbig _ (by omega))) h1
    have he : dropped_bits 1024 n ≤ 10 := by
      by_contra hc
      have : 2 ^ 63 ≤ 2 ^ (52 + dropped_bits 1024 n) :=
        Nat.pow_le_pow_right (by decide) (by omega)
      omega
    unfold round_double_nat
    generalize dropped_bits 1024 n = e at i1 he
    simp only
    interval_cases e <;> split <;> omega

theorem round_double_natAbs (x : Int) :
    round_double x = if x < 0 then -((round_double_nat x.natAbs : Nat) : Int)
      else ((round_double_nat x.natAbs : Nat) : Int) := rfl

/-- Integers up to `2^53` in absolute value are `double`s. -/
theorem round_double_of_abs_le (x : Int) (h1 : -(2 ^ 53) ≤ x) (h2 : x ≤ 2 ^ 53) :
    round_double x = x := by
  unfold round_double
  rw [round_double_nat_of_le x.natAbs (by omega)]
  split <;> omega

theorem round_double_nat_zero : round_double_nat 0 = 0 := by decide

/-- Rounding commutes with the change of sign. -/
theorem round_double_neg (x : Int) : round_double (-x) = -round_double x := by
  unfold round_double
  rcases lt_trichotomy x 0 with h | h | h
  · rw [if_neg (by omega), if_pos h, Int.natAbs_neg, neg_neg]
  · subst h
    simp [round_double_nat_zero]
  · rw [if_pos (by omega), if_neg (by omega), Int.natAbs_neg]

theorem round_double_nonneg (x : Int) (h : 0 ≤ x) : 0 ≤ round_double x := by
  unfold round_double
  rw [if_neg (by omega)]
  exact Int.natCast_nonneg _

/-- Below `2^63` a `double` is off by at most 512. -/
theorem round_double_close (x : Int) (h1 : 0 ≤ x) (h2 : x < 2 ^ 63) :
    round_double x ≤ x + 512 ∧ x ≤ round_double x + 512 := by
  unfold round_double
  rw [if_neg (by omega)]
  have h := round_double_nat_close x.natAbs (by omega)
  omega

theorem double_to_long_of_range (x : Int) (h1 : -(2 ^ 63) ≤ x) (h2 : x < 2 ^ 63) :
    double_to_long x = x := by
  unfold double_to_long
  rw [if_pos ⟨h1, h2⟩]

/-- The powers of ten up to `10^22` are `double`s. -/
theorem pow_double_ten (j : Nat) (h : j ≤ 22) : pow_double 10 j = 10 ^ j := by
  interval_cases j <;> decide!

theorem pow_ten_lt_long (j : Nat) (h : 10 ^ j < 2 ^ 63) : j ≤ 18 := by
  by_contra hc
  have : 10 ^ 19 ≤ 10 ^ j := Nat.pow_le_pow_right (by norm_num) (by omega)
  omega

/-- Sums of `long`s wrap around once. -/
theorem wrap_long_add (x y : Int) : wrap_long (wrap_long x + wrap_long y) = wrap_long (x + y) := by
  unfold wrap_long
  omega

theorem wrap_long_idem (x : Int) : wrap_long (wrap_long x) = wrap_long x := by
  unfold wrap_long
  omega

end Cpp

namespace Day01

open Cpp

theorem wrap_int_of_range {v : Int} (h1 : -(2 ^ 31) ≤ v) (h2 : v < 2 ^ 31) : wrap_int v = v := by
  unfold wrap_int
  omega

/-- Within the range of `int`, `get_cycle` is the division by 100 that rounds down. -/
theorem get_cycle_eq {p : Int} (h1 : -(2 ^ 31) ≤ p) (h2 : p < 2 ^ 31) : get_cycle p = p / 100 := by
  unfold get_cycle
  by_cases hp : p ≥ 0
  · rw [if_pos hp, Int.tdiv_eq_ediv hp (by norm_num)]
  · rw [if_neg hp]
    have hp1 : p + 1 ≤ 0 := by omega
    rw [wrap_int_of_range (v := p + 1) (by omega) (by omega)]
    have ht : Int.tdiv (p + 1) 100 = -((-(p + 1)) / 100) := by
      have := Int.neg_tdiv (-(p + 1)) 100
      rw [neg_neg] at this
      rw [this, Int.tdiv_eq_ediv (by omega) (by norm_num)]
    rw [ht, wrap_int_of_range (by omega) (by omega)]
    omega

/-- The number of multiples of 100 met by `value` clicks from position `start`, the start
itself left out. -/
theorem zeros_nonneg (start value : Int) :
    0 ≤ (if value ≥ 0 then (start + value) / 100 - start / 100
         else (start - 1) / 100 - (start + value - 1) / 100) := by
  split <;> omega

theorem iterate_click_right (n : Nat) : ∀ (s : Int) (c : Nat),
    Nat.iterate (click 1) n (s, c) = (s + n, c + ((s + n) / 100 - s / 100).toNat) := by
  induction n with
  | zero => intro s c; simp
  | succ n ih =>
    intro s c
    rw [Function.iterate_succ_apply', ih]
    unfold click
    simp only [Prod.mk.injEq]
    refine ⟨by push_cast; ring, ?_⟩
    have e : s + ((n + 1 : Nat) : Int) = s + n + 1 := by push_cast; ring
    rw [e]
    by_cases h : (s + n + 1) % 100 = 0
    · rw [if_pos h]; omega
    · rw [if_neg h]; omega

theorem iterate_click_left (n : Nat) : ∀ (s : Int) (c : Nat),
    Nat.iterate (click (-1)) n (s, c)
      = (s - n, c + ((s - 1) / 100 - (s - n - 1) / 100).toNat) := by
  induction n with
  | zero => intro s c; simp
  | succ n ih =>
    intro s c
    rw [Function.iterate_succ_apply', ih]
    unfold click
    simp only [Prod.mk.injEq]
    refine ⟨by push_cast; ring, ?_⟩
    have e : s - ((n + 1 : Nat) : Int) - 1 = s - n - 1 - 1 := by push_cast; ring
    rw [e]
    have e2 : s - (n : Int) + -1 = s - n - 1 := by ring
    rw [e2]
    by_cases h : (s - n - 1) % 100 = 0
    · rw [if_pos h]; omega
    · rw [if_neg h]; omega

/-- The naive simulation of one move in closed form. -/
theorem turn_eq (s : Int) (c : Nat) (value : Int) :
    turn (s, c) value = (s + value, c +
      (if value ≥ 0 then (s + value) / 100 - s / 100
       else (s - 1) / 100 - (s + value - 1) / 100).toNat) := by
  unfold turn
  by_cases hv : value ≥ 0
  · rw [if_pos hv, if_pos hv, iterate_click_right]
    have : ((value.natAbs : Nat) : Int) = value := by omega
    rw [this]
  · rw [if_neg hv, if_neg hv, iterate_click_left]
    have : ((value.natAbs : Nat) : Int) = -value := by omega
    rw [this]
    have e1 : s - -value = s + value := by ring
    rw [e1]

theorem turn_count_le (st : Int × Nat) (value : Int) : st.2 ≤ (turn st value).2 := by
  obtain ⟨s, c⟩ := st
  rw [turn_eq]
  simp

theorem foldl_turn_count_le : ∀ (moves : List Int) (st : Int × Nat),
    st.2 ≤ (moves.foldl turn st).2 := by
  intro moves
  induction moves with
  | nil => intro st; exact le_refl _
  | cons v rest ih =>
    intro st
    exact le_trans (turn_count_le st v) (ih (turn st v))

/-- One call of the lambda `count_zeros`, when nothing overflows, is one move of the naive
simulation. -/
theorem count_zeros_eq_turn (s : Int) (c : Nat) (value : Int)
    (hs1 : -(2 ^ 31) < s) (hs2 : s < 2 ^ 31) (hn1 : -(2 ^ 31) < s + value)
    (hn2 : s + value < 2 ^ 31) (hc : ((turn (s, c) value).2 : Int) < 2 ^ 31) :
    count_zeros { current := s, zeros := c } value
      = { current := (turn (s, c) value).1, zeros := ((turn (s, c) value).2 : Nat) } := by
  rw [turn_eq] at hc ⊢
  have hz := zeros_nonneg s value
  simp only at hc ⊢
  unfold count_zeros
  simp only [wrap_int_of_range (le_of_lt hn1) hn2]
  by_cases hv : value ≥ 0
  · simp only [if_pos hv] at hz hc ⊢
    unfold count_zeros_pos
    simp only [get_cycle_eq (le_of_lt hs1) hs2, get_cycle_eq (le_of_lt hn1) hn2]
    rw [wrap_int_of_range (v := (s + value) / 100 - s / 100) (by omega) (by omega),
      wrap_int_of_range (by omega) (by omega)]
    congr 1
    omega
  · simp only [if_neg hv] at hz hc ⊢
    unfold count_zeros_neg
    rw [wrap_int_of_range (v := s - 1) (by omega) (by omega),
      wrap_int_of_range (v := s + value - 1) (by omega) (by omega)]
    simp only [get_cycle_eq (p := s - 1) (by omega) (by omega),
      get_cycle_eq (p := s + value - 1) (by omega) (by omega)]
    rw [wrap_int_of_range (v := (s - 1) / 100 - (s + value - 1) / 100) (by omega) (by omega),
      wrap_int_of_range (by omega) (by omega)]
    congr 1
    omega

/-- The loop of `solve` on parsed moves, when nothing overflows. -/
theorem foldl_count_zeros : ∀ (moves : List Int) (s : Int) (c : Nat),
    -(2 ^ 31) < s → s < 2 ^ 31 →
    (∀ p ∈ positions s moves, -(2 ^ 31) < p ∧ p < 2 ^ 31) →
    ((moves.foldl turn (s, c)).2 : Int) < 2 ^ 31 →
    moves.foldl count_zeros { current := s, zeros := c }
      = { current := (moves.foldl turn (s, c)).1, zeros := ((moves.foldl turn (s, c)).2 : Nat) } := by
  intro moves
  induction moves with
  | nil => intro s c _ _ _ _; rfl
  | cons v rest ih =>
    intro s c hs1 hs2 hpos hcount
    have hp := hpos (s + v) (by simp [positions])
    have hle := foldl_turn_count_le rest (turn (s, c) v)
    simp only [List.foldl_cons] at hcount ⊢
    have hc1 : ((turn (s, c) v).2 : Int) < 2 ^ 31 := by
      have : ((turn (s, c) v).2 : Int) ≤ ((rest.foldl turn (turn (s, c) v)).2 : Int) := by
        exact_mod_cast hle
      omega
    rw [count_zeros_eq_turn s c v hs1 hs2 hp.1 hp.2 hc1]
    have ht : turn (s, c) v = ((turn (s, c) v).1, (turn (s, c) v).2) := rfl
    have h1 : (turn (s, c) v).1 = s + v := by rw [turn_eq]
    rw [ht] at hcount ⊢
    rw [ih (turn (s, c) v).1 (turn (s, c) v).2 (by rw [h1]; exact hp.1) (by rw [h1]; exact hp.2)
      (by
        intro p hp2
        rw [h1] at hp2
        exact hpos p (by simp [positions, hp2]))
      hcount]

/-- The count of the naive simulation for a single move from position 50. -/
theorem naive_zeros_single (value : Int) :
    naive_zeros [value] =
      (if value ≥ 0 then (50 + value) / 100 - 50 / 100
       else (50 - 1) / 100 - (50 + value - 1) / 100).toNat := by
  unfold naive_zeros
  rw [List.foldl_cons, List.foldl_nil, turn_eq]
  simp

theorem foldlM_parse : ∀ (lines : List (List Char)) (moves : List Int) (st : Dial),
    lines.map parse_line = moves.map some →
    lines.foldlM process_line st = some (moves.foldl count_zeros st) := by
  intro lines
  induction lines with
  | nil =>
    intro moves st h
    cases moves with
    | nil => rfl
    | cons v rest => simp at h
  | cons line lines ih =>
    intro moves st h
    cases moves with
    | nil => simp at h
    | cons v rest =>
      simp only [List.map_cons, List.cons.injEq] at h
      rw [List.foldlM_cons]
      unfold process_line
      rw [h.1]
      exact ih rest _ h.2

theorem naive_zeros_eq_sample :
    naive_zeros [-68, -30, 48, -5, 60, -55, -1, -99, 14, -82] = 6 := by
  simp only [naive_zeros, List.foldl_cons, List.foldl_nil, turn_eq]
  decide

namespace SolveA

/-- The truncating remainder by 100: congruent to the number, below 100 in size, and zero
exactly for the multiples of 100. -/
theorem tmod_hundred (x : Int) :
    (Int.tmod x 100) % 100 = x % 100 ∧ -100 < Int.tmod x 100 ∧ Int.tmod x 100 < 100 ∧
      (Int.tmod x 100 = 0 ↔ x % 100 = 0) := by
  by_cases hx : 0 ≤ x
  · rw [Int.tmod_eq_emod hx (by norm_num)]
    omega
  · have h := Int.neg_tdiv (-x) 100
    have h2 : (-x).tdiv 100 = (-x) / 100 := Int.tdiv_eq_ediv (by omega) (by norm_num)
    rw [neg_neg, h2] at h
    rw [Int.tmod_def, h]
    omega

theorem foldlM_parse_a : ∀ (lines : List (List Char)) (moves : List Int) (st : Dial),
    lines.map parse_line = moves.map some →
    lines.foldlM process_line st = some (moves.foldl count_zeros st) := by
  intro lines
  induction lines with
  | nil =>
    intro moves st h
    cases moves with
    | nil => rfl
    | cons v rest => simp at h
  | cons line lines ih =>
    intro moves st h
    cases moves with
    | nil => simp at h
    | cons v rest =>
      simp only [List.map_cons, List.cons.injEq] at h
      rw [List.foldlM_cons, List.foldl_cons]
      unfold process_line
      rw [h.1]
      exact ih rest _ h.2

/-- The loop of part A `solve` from a reduced position congruent to the position `pos`. -/
theorem foldl_count_zeros_a : ∀ (moves : List Int) (st : Dial) (pos : Int) (z : Nat),
    st.current % 100 = pos % 100 → -100 < st.current → st.current < 100 →
    st.zeros = (z : Int) →
    (∀ v ∈ moves, -(2 ^ 31 - 100) ≤ v ∧ v ≤ 2 ^ 31 - 100) →
    ((z + (positions pos moves).countP (fun p => decide (p % 100 = 0)) : Nat) : Int)
      < 2 ^ 31 →
    (moves.foldl count_zeros st).zeros
      = ((z + (positions pos moves).countP (fun p => decide (p % 100 = 0)) : Nat) : Int) := by
  intro moves
  induction moves with
  | nil =>
    intro st pos z _ _ _ hz _ _
    simpa [positions] using hz
  | cons v rest ih =>
    intro st pos z hcong hlo hhi hz hv hcount
    obtain ⟨hv1, hv2⟩ := hv v (List.mem_cons_self _ _)
    rw [List.foldl_cons]
    have hw : wrap_int (st.current + v) = st.current + v :=
      wrap_int_of_range (by omega) (by omega)
    obtain ⟨t1, t2, t3, t4⟩ := tmod_hundred (st.current + v)
    have hcur : (count_zeros st v).current = Int.tmod (st.current + v) 100 := by
      unfold count_zeros
      simp only [hw]
    have hcong2 : (count_zeros st v).current % 100 = (pos + v) % 100 := by
      rw [hcur, t1]
      omega
    simp only [positions, List.countP_cons] at hcount ⊢
    by_cases hzero : (pos + v) % 100 = 0
    · have htm : Int.tmod (st.current + v) 100 = 0 := t4.2 (by omega)
      have hzs : (count_zeros st v).zeros = ((z + 1 : Nat) : Int) := by
        unfold count_zeros
        simp only [hw, htm, if_true, hz]
        rw [wrap_int_of_range (by omega) (by
          simp only [hzero, decide_True, if_true] at hcount
          push_cast at hcount ⊢
          omega)]
        push_cast
        ring
      have := ih (count_zeros st v) (pos + v) (z + 1) hcong2 (by rw [hcur]; exact t2)
        (by rw [hcur]; exact t3) hzs (fun x hx => hv x (List.mem_cons_of_mem _ hx)) (by
          simp only [hzero, decide_True, if_true] at hcount
          have e : z + 1 + List.countP (fun p => decide (p % 100 = 0)) (positions (pos + v) rest)
              = z + (List.countP (fun p => decide (p % 100 = 0)) (positions (pos + v) rest)
                  + 1) := by omega
          rw [e]
          exact hcount)
      rw [this]
      simp only [hzero, decide_True, if_true]
      congr 1
      omega
    · have htm : ¬ Int.tmod (st.current + v) 100 = 0 := fun h => hzero (by
        have := t4.1 h
        omega)
      have hzs : (count_zeros st v).zeros = (z : Int) := by
        unfold count_zeros
        simp only [hw, htm, if_false, hz]
      have hdec : decide ((pos + v) % 100 = 0) = false := by simpa using hzero
      simp only [hdec] at hcount ⊢
      have := ih (count_zeros st v) (pos + v) z hcong2 (by rw [hcur]; exact t2)
        (by rw [hcur]; exact t3) hzs (fun x hx => hv x (List.mem_cons_of_mem _ hx)) (by
          simpa using hcount)
      rw [this]
      simp

end SolveA

end Day01

namespace Cpp

/-! ### Decimal digits: `Nat.toDigits 10`, `digits_value`, `from_chars_long` -/

theorem digitChar_toNat (d : Nat) (h : d < 10) : (Nat.digitChar d).toNat = 48 + d := by
  interval_cases d <;> rfl

theorem digitChar_isDigit (d : Nat) (h : d < 10) : (Nat.digitChar d).isDigit = true := by
  interval_cases d <;> rfl

theorem toDigitsCore_eq : ∀ (n fuel : Nat) (ds : List Char), n < fuel →
    Nat.toDigitsCore 10 fuel n ds = Nat.toDigits 10 n ++ ds := by
  intro n
  induction n using Nat.strong_induction_on with
  | _ n ih =>
    intro fuel ds hfuel
    obtain ⟨f, rfl⟩ : ∃ f, fuel = f + 1 := ⟨fuel - 1, by omega⟩
    unfold Nat.toDigits
    rw [Nat.toDigitsCore, Nat.toDigitsCore]
    by_cases h0 : n / 10 = 0
    · simp only [h0, if_true]
      rfl
    · simp only [h0, if_false]
      have hlt : n / 10 < n := by omega
      rw [ih (n / 10) hlt f _ (by omega), ih (n / 10) hlt n _ hlt]
      simp

theorem toDigits_lt (n : Nat) (h : n < 10) : Nat.toDigits 10 n = [Nat.digitChar n] := by
  unfold Nat.toDigits
  rw [Nat.toDigitsCore]
  have h0 : n / 10 = 0 := by omega
  have h1 : n % 10 = n := by omega
  simp only [h0, if_true, h1]

theorem toDigits_ge (n : Nat) (h : 10 ≤ n) :
    Nat.toDigits 10 n = Nat.toDigits 10 (n / 10) ++ [Nat.digitChar (n % 10)] := by
  have h0 : ¬ n / 10 = 0 := by omega
  conv_lhs => unfold Nat.toDigits
  rw [Nat.toDigitsCore]
  simp only [h0, if_false]
  exact toDigitsCore_eq (n / 10) n _ (by omega)

theorem toDigits_ne_nil (n : Nat) : Nat.toDigits 10 n ≠ [] := by
  by_cases h : n < 10
  · rw [toDigits_lt n h]
    simp
  · rw [toDigits_ge n (by omega)]
    simp

theorem toDigits_length_pos (n : Nat) : 0 < (Nat.toDigits 10 n).length :=
  List.length_pos.mpr (toDigits_ne_nil n)

theorem toDigits_length_ge (n : Nat) (h : 10 ≤ n) :
    (Nat.toDigits 10 n).length = (Nat.toDigits 10 (n / 10)).length + 1 := by
  rw [toDigits_ge n h]
  simp

/-- A positive number of `L` decimal digits lies between `10^(L-1)` and `10^L`. -/
theorem toDigits_bounds : ∀ (n : Nat), 1 ≤ n →
    10 ^ ((Nat.toDigits 10 n).length - 1) ≤ n ∧ n < 10 ^ (Nat.toDigits 10 n).length := by
  intro n
  induction n using Nat.strong_induction_on with
  | _ n ih =>
    intro hn
    by_cases h : n < 10
    · rw [toDigits_lt n h]
      simp
      omega
    · have h10 : 10 ≤ n := by omega
      obtain ⟨h1, h2⟩ := ih (n / 10) (by omega) (by omega)
      rw [toDigits_length_ge n h10]
      have hpos := toDigits_length_pos (n / 10)
      obtain ⟨m, hm⟩ : ∃ m, (Nat.toDigits 10 (n / 10)).length = m + 1 :=
        ⟨(Nat.toDigits 10 (n / 10)).length - 1, by omega⟩
      rw [hm] at h1 h2 ⊢
      simp only [Nat.add_sub_cancel] at h1 ⊢
      rw [pow_succ] at h2 ⊢
      constructor
      · omega
      · rw [pow_succ]
        omega

/-- The number of decimal digits is determined by the powers of ten around the number. -/
theorem toDigits_length_eq (n L : Nat) (h1 : 10 ^ (L - 1) ≤ n) (h2 : n < 10 ^ L) (hL : 1 ≤ L) :
    (Nat.toDigits 10 n).length = L := by
  have hn : 1 ≤ n := le_trans (Nat.one_le_pow _ _ (by norm_num)) h1
  obtain ⟨b1, b2⟩ := toDigits_bounds n hn
  have hpos := toDigits_length_pos n
  by_contra hne
  rcases Nat.lt_or_gt_of_ne hne with hlt | hgt
  · have : 10 ^ (Nat.toDigits 10 n).length ≤ 10 ^ (L - 1) :=
      Nat.pow_le_pow_right (by norm_num) (by omega)
    omega
  · have : 10 ^ L ≤ 10 ^ ((Nat.toDigits 10 n).length - 1) :=
      Nat.pow_le_pow_right (by norm_num) (by omega)
    omega

theorem toDigits_isDigit : ∀ (n : Nat), ∀ c ∈ Nat.toDigits 10 n, c.isDigit = true := by
  intro n
  induction n using Nat.strong_induction_on with
  | _ n ih =>
    intro c hc
    by_cases h : n < 10
    · rw [toDigits_lt n h] at hc
      rw [List.mem_singleton.1 hc]
      exact digitChar_isDigit n h
    · rw [toDigits_ge n (by omega)] at hc
      rcases List.mem_append.1 hc with hc | hc
      · exact ih (n / 10) (by omega) c hc
      · rw [List.mem_singleton.1 hc]
        exact digitChar_isDigit _ (Nat.mod_lt _ (by norm_num))

theorem digits_value_snoc (xs : List Char) (c : Char) :
    digits_value (xs ++ [c]) = 10 * digits_value xs + ((c.toNat : Int) - 48) := by
  unfold digits_value
  rw [List.foldl_append]
  rfl

theorem digits_value_toDigits : ∀ (n : Nat), digits_value (Nat.toDigits 10 n) = (n : Int) := by
  intro n
  induction n using Nat.strong_induction_on with
  | _ n ih =>
    by_cases h : n < 10
    · rw [toDigits_lt n h]
      have := digits_value_snoc [] (Nat.digitChar n)
      simp only [List.nil_append] at this
      rw [this, digitChar_toNat n h]
      simp [digits_value]
    · rw [toDigits_ge n (by omega), digits_value_snoc, ih (n / 10) (by omega),
        digitChar_toNat _ (Nat.mod_lt _ (by norm_num))]
      push_cast
      omega

theorem toDigits_injective (n m : Nat) (h : Nat.toDigits 10 n = Nat.toDigits 10 m) : n = m := by
  have h1 := digits_value_toDigits n
  rw [h, digits_value_toDigits m] at h1
  exact_mod_cast h1.symm

/-- What `from_chars` reads back from the decimal representation of a number that fits a
`long`. -/
theorem from_chars_long_toDigits (n : Nat) (hn : n < 2 ^ 63) (value : Int) :
    from_chars_long (Nat.toDigits 10 n) value = (n : Int) := by
  have hall := toDigits_isDigit n
  have hne := toDigits_ne_nil n
  have hhead : ¬ ((Nat.toDigits 10 n).head? = some '-') := by
    intro h
    have hmem : '-' ∈ Nat.toDigits 10 n := List.mem_of_mem_head? h
    have := hall '-' hmem
    exact absurd this (by decide)
  have htake : (Nat.toDigits 10 n).takeWhile Char.isDigit = Nat.toDigits 10 n := by
    rw [List.takeWhile_eq_self_iff]
    exact hall
  unfold from_chars_long
  simp only [hhead, decide_False, Bool.false_eq_true, if_false, htake, hne,
    digits_value_toDigits]
  rw [if_pos (by constructor <;> omega)]

/-- The first `p` digits of a number of `L` digits are the digits of its quotient by
`10^(L-p)`. -/
theorem toDigits_take : ∀ (n : Nat) (p : Nat), 1 ≤ p → p ≤ (Nat.toDigits 10 n).length →
    (Nat.toDigits 10 n).take p
      = Nat.toDigits 10 (n / 10 ^ ((Nat.toDigits 10 n).length - p)) := by
  intro n
  induction n using Nat.strong_induction_on with
  | _ n ih =>
    intro p hp hpl
    by_cases hfull : p = (Nat.toDigits 10 n).length
    · rw [hfull, List.take_length, Nat.sub_self, pow_zero, Nat.div_one]
    · by_cases h : n < 10
      · rw [toDigits_lt n h] at hpl hfull
        simp at hpl hfull
        omega
      · have h10 : 10 ≤ n := by omega
        have hlen := toDigits_length_ge n h10
        have hp2 : p ≤ (Nat.toDigits 10 (n / 10)).length := by omega
        rw [toDigits_ge n h10, List.take_append_of_le_length hp2,
          ih (n / 10) (by omega) p hp hp2]
        congr 1
        have hlen2 : (Nat.toDigits 10 (n / 10) ++ [Nat.digitChar (n % 10)]).length
            = (Nat.toDigits 10 (n / 10)).length + 1 := by simp
        rw [hlen2, Nat.div_div_eq_div_mul]
        congr 1
        have : (Nat.toDigits 10 (n / 10)).length + 1 - p
            = ((Nat.toDigits 10 (n / 10)).length - p) + 1 := by omega
        rw [this, pow_succ]
        ring

/-- The digits of `a * 10^L + v`, where `v` has `L` digits and `a` is positive, are the digits
of `a` followed by those of `v`. -/
theorem toDigits_append : ∀ (v a : Nat), 1 ≤ a →
    Nat.toDigits 10 (a * 10 ^ (Nat.toDigits 10 v).length + v)
      = Nat.toDigits 10 a ++ Nat.toDigits 10 v := by
  intro v
  induction v using Nat.strong_induction_on with
  | _ v ih =>
    intro a ha
    by_cases h : v < 10
    · rw [toDigits_lt v h]
      simp only [List.length_singleton, pow_one]
      rw [toDigits_ge (a * 10 + v) (by omega)]
      have h1 : (a * 10 + v) / 10 = a := by omega
      have h2 : (a * 10 + v) % 10 = v := by omega
      rw [h1, h2]
    · have h10 : 10 ≤ v := by omega
      have hlen := toDigits_length_ge v h10
      rw [hlen, pow_succ]
      have hpos : 0 < 10 ^ (Nat.toDigits 10 (v / 10)).length := by positivity
      have hbig : 10 ≤ a * (10 ^ (Nat.toDigits 10 (v / 10)).length * 10) + v := by
        have : 1 * (1 * 10) ≤ a * (10 ^ (Nat.toDigits 10 (v / 10)).length * 10) :=
          Nat.mul_le_mul ha (Nat.mul_le_mul hpos (le_refl _))
        omega
      rw [toDigits_ge _ hbig]
      have h1 : (a * (10 ^ (Nat.toDigits 10 (v / 10)).length * 10) + v) / 10
          = a * 10 ^ (Nat.toDigits 10 (v / 10)).length + v / 10 := by
        have : a * (10 ^ (Nat.toDigits 10 (v / 10)).length * 10)
            = (a * 10 ^ (Nat.toDigits 10 (v / 10)).length) * 10 := by ring
        rw [this]
        omega
      have h2 : (a * (10 ^ (Nat.toDigits 10 (v / 10)).length * 10) + v) % 10 = v % 10 := by
        have : a * (10 ^ (Nat.toDigits 10 (v / 10)).length * 10)
            = (a * 10 ^ (Nat.toDigits 10 (v / 10)).length) * 10 := by ring
        rw [this]
        omega
      rw [h1, h2, ih (v / 10) (by omega) a ha, toDigits_ge v h10, List.append_assoc]

end Cpp

namespace Day02

namespace SolveB

open Cpp

theorem repunit_zero (p : Nat) : repunit p 0 = 0 := rfl

theorem repunit_succ (p k : Nat) : repunit p (k + 1) = repunit p k + 10 ^ (p * k) := by
  unfold repunit
  rw [List.range_succ, List.map_append, List.sum_append]
  simp

theorem repunit_one (p : Nat) : repunit p 1 = 1 := by
  rw [repunit_succ, repunit_zero]
  simp

/-- A block below `10^p` repeated `k` times stays below `10^(p*k)`. -/
theorem mul_repunit_lt (p v : Nat) (hv : v < 10 ^ p) : ∀ k, v * repunit p k < 10 ^ (p * k) := by
  intro k
  induction k with
  | zero => simp [repunit_zero]
  | succ k ih =>
    rw [repunit_succ, Nat.mul_add]
    have h1 : v * 10 ^ (p * k) ≤ (10 ^ p - 1) * 10 ^ (p * k) :=
      Nat.mul_le_mul_right _ (by omega)
    have h2 : 10 ^ (p * (k + 1)) = 10 ^ p * 10 ^ (p * k) := by
      rw [← pow_add]
      congr 1
      ring
    have h3 : (10 ^ p - 1) * 10 ^ (p * k) = 10 ^ p * 10 ^ (p * k) - 10 ^ (p * k) := by
      rw [Nat.sub_mul, Nat.one_mul]
    have h4 : 10 ^ (p * k) ≤ 10 ^ p * 10 ^ (p * k) :=
      Nat.le_mul_of_pos_left _ (by positivity)
    omega

theorem le_mul_repunit (p v k : Nat) : v * 10 ^ (p * k) ≤ v * repunit p (k + 1) := by
  rw [repunit_succ, Nat.mul_add]
  omega

/-- The digits of a block times `repunit` are the digits of the block, repeated. -/
theorem toDigits_mul_repunit (v : Nat) (hv : 1 ≤ v) : ∀ k,
    Nat.toDigits 10 (v * repunit (Nat.toDigits 10 v).length (k + 1))
      = (List.replicate (k + 1) (Nat.toDigits 10 v)).flatten := by
  intro k
  induction k with
  | zero =>
    rw [repunit_one, Nat.mul_one]
    simp
  | succ k ih =>
    have hlen : (Nat.toDigits 10 (v * repunit (Nat.toDigits 10 v).length (k + 1))).length
        = (Nat.toDigits 10 v).length * (k + 1) := by
      rw [ih, List.length_flatten]
      simp
      ring
    rw [repunit_succ, Nat.mul_add, Nat.add_comm]
    have happ := toDigits_append (v * repunit (Nat.toDigits 10 v).length (k + 1)) v hv
    rw [hlen] at happ
    rw [happ, ih, List.replicate_succ (Nat.toDigits 10 v) (k + 1), List.flatten_cons]

theorem length_flatten_replicate (block : List Char) (count : Nat) :
    (List.replicate count block).flatten.length = count * block.length := by
  rw [List.length_flatten]
  simp

/-- A number is a digit block written two or more times exactly if it is a number `v` times
the factor that repeats the digits of `v`. -/
theorem is_repeated_iff (n : Nat) :
    is_repeated n ↔ ∃ v k, 1 ≤ v ∧ 2 ≤ k ∧ n = v * repunit (Nat.toDigits 10 v).length k := by
  constructor
  · rintro ⟨block, count, hblock, hcount, hd⟩
    have hp : 1 ≤ block.length := List.length_pos.mpr hblock
    have hL : (Nat.toDigits 10 n).length = count * block.length := by
      rw [hd, length_flatten_replicate]
    have hple : block.length ≤ (Nat.toDigits 10 n).length := by
      rw [hL]
      exact Nat.le_mul_of_pos_left _ (by omega)
    have h2p : 2 * block.length ≤ (Nat.toDigits 10 n).length := by
      rw [hL]
      exact Nat.mul_le_mul_right _ hcount
    have hn : 1 ≤ n := by
      by_contra h0
      have : n = 0 := by omega
      subst this
      have : (Nat.toDigits 10 0).length = 1 := rfl
      omega
    obtain ⟨count2, rfl⟩ : ∃ c, count = c + 1 := ⟨count - 1, by omega⟩
    have htake : (Nat.toDigits 10 n).take block.length = block := by
      rw [hd, List.replicate_succ, List.flatten_cons]
      exact List.take_left' rfl
    have htd := toDigits_take n block.length hp hple
    rw [htake] at htd
    obtain ⟨b1, _⟩ := toDigits_bounds n hn
    have hv : 1 ≤ n / 10 ^ ((Nat.toDigits 10 n).length - block.length) := by
      apply (Nat.one_le_div_iff (by positivity)).mpr
      exact le_trans (Nat.pow_le_pow_right (by norm_num) (by omega)) b1
    have hblen : (Nat.toDigits 10 (n / 10 ^ ((Nat.toDigits 10 n).length - block.length))).length
        = block.length := by rw [← htd]
    refine ⟨n / 10 ^ ((Nat.toDigits 10 n).length - block.length), count2 + 1, hv, hcount, ?_⟩
    apply toDigits_injective
    rw [toDigits_mul_repunit _ hv count2, ← htd, hd]
  · rintro ⟨v, k, hv, hk, rfl⟩
    obtain ⟨k2, rfl⟩ : ∃ c, k = c + 1 := ⟨k - 1, by omega⟩
    exact ⟨Nat.toDigits 10 v, k2 + 1, toDigits_ne_nil v, hk, toDigits_mul_repunit v hv k2⟩

/-- The number of digits of a repeated block. -/
theorem toDigits_mul_repunit_length (v : Nat) (hv : 1 ≤ v) (k : Nat) (hk : 1 ≤ k) :
    (Nat.toDigits 10 (v * repunit (Nat.toDigits 10 v).length k)).length
      = k * (Nat.toDigits 10 v).length := by
  obtain ⟨k2, rfl⟩ : ∃ c, k = c + 1 := ⟨k - 1, by omega⟩
  rw [toDigits_mul_repunit v hv k2, length_flatten_replicate]

/-- The loop of `compute_invalid_id`, as long as the multiplier fits a `long`. -/
theorem repeat_loop (v : Int) (p : Nat) : ∀ k, 10 ^ (p * k) < 2 ^ 63 →
    (List.range k).foldl (fun st _ => repeat_step v p st) (1, 0)
      = (((10 ^ (p * k) : Nat) : Int), wrap_long (v * ((repunit p k : Nat) : Int))) := by
  intro k
  induction k with
  | zero =>
    intro _
    simp [repunit_zero, wrap_long]
  | succ k ih =>
    intro hk
    have hpow : 10 ^ (p * (k + 1)) = 10 ^ (p * k) * 10 ^ p := by
      rw [← pow_add]
      congr 1
    have hle : 10 ^ (p * k) ≤ 10 ^ (p * (k + 1)) :=
      Nat.pow_le_pow_right (by norm_num) (by
        rw [Nat.mul_succ]
        omega)
    have hk1 : 10 ^ (p * k) < 2 ^ 63 := by omega
    have hj := pow_ten_lt_long _ hk
    have hj1 : p * k ≤ 18 := pow_ten_lt_long _ hk1
    have hp : p ≤ 18 := by
      rw [Nat.mul_succ] at hj
      omega
    rw [List.range_succ, List.foldl_append, ih hk1]
    simp only [List.foldl_cons, List.foldl_nil, repeat_step]
    have e0 : round_double ((10 ^ (p * k) : Nat) : Int) = ((10 ^ (p * k) : Nat) : Int) := by
      have := pow_double_ten (p * k) (by omega)
      unfold pow_double at this
      push_cast
      exact_mod_cast this
    have e1 : ((10 ^ (p * k) : Nat) : Int) * pow_double 10 p
        = (((10 : Nat) : Int)) ^ (p * (k + 1)) := by
      rw [pow_double_ten p (by omega), Nat.mul_succ, pow_add]
      push_cast
      rfl
    have e2 : round_double ((((10 : Nat) : Int)) ^ (p * (k + 1)))
        = ((10 ^ (p * (k + 1)) : Nat) : Int) := by
      have := pow_double_ten (p * (k + 1)) (by omega)
      unfold pow_double at this
      rw [this]
      push_cast
      rfl
    rw [e0, e1, e2, double_to_long_of_range _ (by omega) (by exact_mod_cast hk),
      wrap_long_add, repunit_succ]
    congr 2
    push_cast
    ring

/-- Function `compute_invalid_id` repeats the block, in `long` arithmetic, as long as the
multiplier of the last block fits. -/
theorem compute_invalid_id_wrap (v : Int) (p k : Nat) (hk : 10 ^ (p * k) < 2 ^ 63) :
    compute_invalid_id v p (k + 1) = wrap_long (v * ((repunit p (k + 1) : Nat) : Int)) := by
  unfold compute_invalid_id
  rw [List.range_succ, List.foldl_append, repeat_loop v p k hk]
  simp only [List.foldl_cons, List.foldl_nil, repeat_step]
  rw [wrap_long_add, repunit_succ]
  congr 1
  push_cast
  ring

/-- Function `compute_invalid_id` repeats the block, as long as the result fits a `long`. -/
theorem compute_invalid_id_eq (v p k : Nat) (hk : 10 ^ (p * k) < 2 ^ 63)
    (hfit : v * repunit p (k + 1) < 2 ^ 63) :
    compute_invalid_id (v : Int) p (k + 1) = ((v * repunit p (k + 1) : Nat) : Int) := by
  rw [compute_invalid_id_wrap (v : Int) p k hk, wrap_long_of_range (by
      have : (0 : Int) ≤ (v : Int) * ((repunit p (k + 1) : Nat) : Int) := by positivity
      omega) (by exact_mod_cast hfit)]
  push_cast
  rfl

/-! ### The set of invalid ids as a list -/

theorem mem_set_insert (s : List Int) (x y : Int) : y ∈ set_insert s x ↔ y = x ∨ y ∈ s := by
  unfold set_insert
  by_cases h : x ∈ s
  · rw [if_pos h]
    constructor
    · exact fun hy => Or.inr hy
    · rintro (hy | hy)
      · rw [hy]; exact h
      · exact hy
  · rw [if_neg h, (List.perm_orderedInsert _ x s).mem_iff, List.mem_cons]

theorem nodup_set_insert (s : List Int) (x : Int) (h : s.Nodup) : (set_insert s x).Nodup := by
  unfold set_insert
  by_cases hx : x ∈ s
  · rw [if_pos hx]
    exact h
  · rw [if_neg hx, (List.perm_orderedInsert _ x s).nodup_iff]
    exact List.nodup_cons.mpr ⟨hx, h⟩

/-- A loop that inserts into the set: the elements on return. -/
theorem mem_foldl_insert {α : Type} (f : List Int → α → List Int) (P : α → Int → Prop)
    (hf : ∀ s a y, y ∈ f s a ↔ y ∈ s ∨ P a y) :
    ∀ (l : List α) (s : List Int) (y : Int),
      y ∈ l.foldl f s ↔ y ∈ s ∨ ∃ a ∈ l, P a y := by
  intro l
  induction l with
  | nil => intro s y; simp
  | cons a rest ih =>
    intro s y
    rw [List.foldl_cons, ih, hf]
    constructor
    · rintro ((h | h) | ⟨b, hb, h⟩)
      · exact Or.inl h
      · exact Or.inr ⟨a, List.mem_cons_self _ _, h⟩
      · exact Or.inr ⟨b, List.mem_cons_of_mem _ hb, h⟩
    · rintro (h | ⟨b, hb, h⟩)
      · exact Or.inl (Or.inl h)
      · rcases List.mem_cons.1 hb with hb | hb
        · subst hb
          exact Or.inl (Or.inr h)
        · exact Or.inr ⟨b, hb, h⟩

theorem nodup_foldl_insert {α : Type} (f : List Int → α → List Int)
    (hf : ∀ s a, s.Nodup → (f s a).Nodup) :
    ∀ (l : List α) (s : List Int), s.Nodup → (l.foldl f s).Nodup := by
  intro l
  induction l with
  | nil => intro s h; exact h
  | cons a rest ih =>
    intro s h
    rw [List.foldl_cons]
    exact ih _ (hf s a h)

/-- The sum of a set of ids that are not negative, when it fits a `long`. -/
theorem foldl_wrap_sum : ∀ (l : List Int) (acc : Int), 0 ≤ acc → (∀ x ∈ l, 0 ≤ x) →
    acc + l.sum < 2 ^ 63 →
    l.foldl (fun acc invalid_id => wrap_long (acc + invalid_id)) acc = acc + l.sum := by
  intro l
  induction l with
  | nil => intro acc _ _ _; simp
  | cons x rest ih =>
    intro acc hacc hpos hsum
    have hx := hpos x (List.mem_cons_self _ _)
    have hrest : 0 ≤ rest.sum := List.sum_nonneg (fun y hy => hpos y (List.mem_cons_of_mem _ hy))
    rw [List.sum_cons] at hsum
    rw [List.foldl_cons, wrap_long_of_range (by omega) (by omega),
      ih (acc + x) (by omega) (fun y hy => hpos y (List.mem_cons_of_mem _ hy)) (by omega),
      List.sum_cons]
    ring

theorem mem_visit_prefix (range : Range) (p k : Nat) (minp maxp : Int) (s : List Int)
    (v y : Int) :
    y ∈ visit_prefix range p k minp maxp s v ↔
      y ∈ s ∨ (y = compute_invalid_id v p k ∧
        ((v ≠ minp ∧ v ≠ maxp) ∨ range.contains (compute_invalid_id v p k) = true)) := by
  unfold visit_prefix
  by_cases hcond : (!(decide (v = minp) || decide (v = maxp))
      || range.contains (compute_invalid_id v p k)) = true
  · simp only [hcond, if_true]
    rw [mem_set_insert]
    have hc2 : (v ≠ minp ∧ v ≠ maxp) ∨ range.contains (compute_invalid_id v p k) = true := by
      simpa [not_or] using hcond
    constructor
    · rintro (h | h)
      · exact Or.inr ⟨h, hc2⟩
      · exact Or.inl h
    · rintro (h | ⟨h, _⟩)
      · exact Or.inr h
      · exact Or.inl h
  · simp only [hcond]
    have hc2 : ¬ ((v ≠ minp ∧ v ≠ maxp) ∨ range.contains (compute_invalid_id v p k) = true) := by
      simpa [not_or] using hcond
    constructor
    · exact fun h => Or.inl h
    · rintro (h | ⟨_, h⟩)
      · exact h
      · exact absurd h hc2

theorem nodup_visit_prefix (range : Range) (p k : Nat) (minp maxp : Int) (s : List Int)
    (v : Int) (h : s.Nodup) : ( visit_prefix range p k minp maxp s v).Nodup := by
  unfold visit_prefix
  dsimp only
  split
  · exact nodup_set_insert _ _ h
  · exact h

theorem mem_prefix_values (minp maxp v : Int) :
    v ∈ (List.range (maxp + 1 - minp).toNat).map (fun (k : Nat) => minp + (k : Int))
      ↔ minp ≤ v ∧ v ≤ maxp := by
  rw [List.mem_map]
  constructor
  · rintro ⟨k, hk, rfl⟩
    rw [List.mem_range] at hk
    omega
  · rintro ⟨h1, h2⟩
    refine ⟨(v - minp).toNat, ?_, ?_⟩
    · rw [List.mem_range]
      omega
    · omega

theorem mem_solve_for_prefix_length (range : Range) (p k : Nat) (s : List Int) (y : Int) :
    y ∈ solve_for_prefix_length range p k s ↔
      y ∈ s ∨ ∃ v : Int, string_view_to_long (range.min.sv.take p) ≤ v ∧
        v ≤ string_view_to_long (range.max.sv.take p) ∧ y = compute_invalid_id v p k ∧
        ((v ≠ string_view_to_long (range.min.sv.take p) ∧
            v ≠ string_view_to_long (range.max.sv.take p)) ∨
          range.contains (compute_invalid_id v p k) = true) := by
  unfold solve_for_prefix_length
  dsimp only
  rw [mem_foldl_insert _ _ (fun s a y => mem_visit_prefix range p k _ _ s a y)]
  constructor
  · rintro (h | ⟨v, hv, h⟩)
    · exact Or.inl h
    · rw [mem_prefix_values] at hv
      exact Or.inr ⟨v, hv.1, hv.2, h.1, h.2⟩
  · rintro (h | ⟨v, h1, h2, h3, h4⟩)
    · exact Or.inl h
    · exact Or.inr ⟨v, (mem_prefix_values _ _ v).2 ⟨h1, h2⟩, h3, h4⟩

theorem nodup_solve_for_prefix_length (range : Range) (p k : Nat) (s : List Int)
    (h : s.Nodup) : (solve_for_prefix_length range p k s).Nodup := by
  unfold solve_for_prefix_length
  dsimp only
  exact nodup_foldl_insert _ (fun s a hs => nodup_visit_prefix range p k _ _ s a hs) _ _ h

theorem mem_consider_prefix_length (range : Range) (length : Nat) (s : List Int) (p : Nat)
    (y : Int) :
    y ∈ consider_prefix_length range length s p ↔
      y ∈ s ∨ (length % p = 0 ∧
        ∃ v : Int, string_view_to_long (range.min.sv.take p) ≤ v ∧
          v ≤ string_view_to_long (range.max.sv.take p) ∧
          y = compute_invalid_id v p (length / p) ∧
          ((v ≠ string_view_to_long (range.min.sv.take p) ∧
              v ≠ string_view_to_long (range.max.sv.take p)) ∨
            range.contains (compute_invalid_id v p (length / p)) = true)) := by
  unfold consider_prefix_length
  by_cases h : length % p = 0
  · rw [if_pos h, mem_solve_for_prefix_length]
    simp only [h, true_and]
  · rw [if_neg h]
    simp only [h, false_and, or_false]

theorem nodup_consider_prefix_length (range : Range) (length : Nat) (s : List Int) (p : Nat)
    (h : s.Nodup) : (consider_prefix_length range length s p).Nodup := by
  unfold consider_prefix_length
  split
  · exact nodup_solve_for_prefix_length _ _ _ _ h
  · exact h

/-- The elements of the set collected for a range whose limits have the same length. -/
theorem mem_collect_invalid_ids (range : Range) (y : Int) :
    y ∈ collect_invalid_ids range ↔
      ∃ p, 1 ≤ p ∧ p ≤ range.min.sv.length / 2 ∧ range.min.sv.length % p = 0 ∧
        ∃ v : Int, string_view_to_long (range.min.sv.take p) ≤ v ∧
          v ≤ string_view_to_long (range.max.sv.take p) ∧
          y = compute_invalid_id v p (range.min.sv.length / p) ∧
          ((v ≠ string_view_to_long (range.min.sv.take p) ∧
              v ≠ string_view_to_long (range.max.sv.take p)) ∨
            range.contains (compute_invalid_id v p (range.min.sv.length / p)) = true) := by
  unfold collect_invalid_ids
  dsimp only
  rw [mem_foldl_insert _ _
    (fun s a y => mem_consider_prefix_length range range.min.sv.length s a y)]
  simp only [List.not_mem_nil, false_or, List.mem_range'_1]
  constructor
  · rintro ⟨p, ⟨h1, h2⟩, h3, h4⟩
    exact ⟨p, h1, by omega, h3, h4⟩
  · rintro ⟨p, h1, h2, h3, h4⟩
    exact ⟨p, ⟨h1, by omega⟩, h3, h4⟩

theorem nodup_collect_invalid_ids (range : Range) : (collect_invalid_ids range).Nodup := by
  unfold collect_invalid_ids
  dsimp only
  exact nodup_foldl_insert _
    (fun s a hs => nodup_consider_prefix_length range _ s a hs) _ _ List.nodup_nil

/-- The value of the first `p` digits of a number of `L` digits, and its size. -/
theorem prefix_value (a L p : Nat) (ha : 1 ≤ a) (hLa : (Nat.toDigits 10 a).length = L)
    (hL : a < 2 ^ 63) (hp : 1 ≤ p) (hpL : p ≤ L) :
    string_view_to_long ((Nat.toDigits 10 a).take p) = ((a / 10 ^ (L - p) : Nat) : Int) ∧
      10 ^ (p - 1) ≤ a / 10 ^ (L - p) ∧ a / 10 ^ (L - p) < 10 ^ p := by
  obtain ⟨b1, b2⟩ := toDigits_bounds a ha
  rw [hLa] at b1 b2
  have hM : 0 < 10 ^ (L - p) := by positivity
  have hle : a / 10 ^ (L - p) ≤ a := Nat.div_le_self _ _
  refine ⟨?_, ?_, ?_⟩
  · unfold string_view_to_long
    rw [toDigits_take a p hp (by omega), hLa]
    exact from_chars_long_toDigits _ (by omega) 0
  · rw [Nat.le_div_iff_mul_le hM, ← pow_add]
    have : p - 1 + (L - p) = L - 1 := by omega
    rw [this]
    exact b1
  · rw [Nat.div_lt_iff_lt_mul hM, ← pow_add]
    have : p + (L - p) = L := by omega
    rw [this]
    exact b2

/-- A block of `p` digits repeated `k + 1` times lies between the block followed by zeros and
the next block followed by zeros. -/
theorem mul_repunit_between (p v k : Nat) (hv : v < 10 ^ p) :
    v * 10 ^ (p * k) ≤ v * repunit p (k + 1) ∧
      v * repunit p (k + 1) < (v + 1) * 10 ^ (p * k) := by
  refine ⟨le_mul_repunit p v k, ?_⟩
  have h := mul_repunit_lt p v hv k
  rw [repunit_succ, Nat.mul_add, Nat.add_mul, Nat.one_mul]
  omega

/-- The set collected for a range whose limits have the same number of digits holds exactly
the repeated numbers of the range. -/
theorem mem_collect_same_length (a b L : Nat) (range : Range)
    (hmin : range.min = { sv := Nat.toDigits 10 a, value := (a : Int) })
    (hmax : range.max = { sv := Nat.toDigits 10 b, value := (b : Int) })
    (ha : 1 ≤ a) (hab : a ≤ b) (hLa : (Nat.toDigits 10 a).length = L)
    (hLb : (Nat.toDigits 10 b).length = L) (hL : b < 2 ^ 63) (y : Int) :
    y ∈ collect_invalid_ids range ↔
      ∃ n : Nat, y = (n : Int) ∧ a ≤ n ∧ n ≤ b ∧ is_repeated n := by
  have hb1 : 1 ≤ b := by omega
  obtain ⟨a1, a2⟩ := toDigits_bounds a ha
  obtain ⟨b1, b2⟩ := toDigits_bounds b hb1
  rw [hLa] at a1 a2
  rw [hLb] at b1 b2
  have hcontains : ∀ n : Nat, range.contains (n : Int) = true ↔ a ≤ n ∧ n ≤ b := by
    intro n
    unfold Range.contains
    rw [hmin, hmax]
    simp only [Bool.and_eq_true, decide_eq_true_eq, ge_iff_le]
    constructor
    · rintro ⟨h1, h2⟩
      exact ⟨by exact_mod_cast h1, by exact_mod_cast h2⟩
    · rintro ⟨h1, h2⟩
      exact ⟨by exact_mod_cast h1, by exact_mod_cast h2⟩
  rw [mem_collect_invalid_ids]
  simp only [hmin, hmax, hLa]
  constructor
  · rintro ⟨p, hp1, hp2, hmod, v, hv1, hv2, hy, hcond⟩
    have hpL : p ≤ L := by
      have := Nat.div_le_self L 2
      omega
    obtain ⟨ea, la, ua⟩ := prefix_value a L p ha hLa (by omega) hp1 hpL
    obtain ⟨eb, lb, ub⟩ := prefix_value b L p hb1 hLb hL hp1 hpL
    rw [ea] at hv1 hcond
    rw [eb] at hv2 hcond
    obtain ⟨vn, rfl⟩ := Int.eq_ofNat_of_zero_le (le_trans (Int.ofNat_nonneg _) hv1)
    have hv1n : a / 10 ^ (L - p) ≤ vn := by exact_mod_cast hv1
    have hv2n : vn ≤ b / 10 ^ (L - p) := by exact_mod_cast hv2
    have hvlt : vn < 10 ^ p := by omega
    have hpk : p * (L / p) = L := Nat.mul_div_cancel' (Nat.dvd_of_mod_eq_zero hmod)
    have hk2 : 2 ≤ L / p := by
      rw [Nat.le_div_iff_mul_le (by omega)]
      have := Nat.div_mul_le_self L 2
      have : p * 2 ≤ L / 2 * 2 := Nat.mul_le_mul_right 2 hp2
      omega
    obtain ⟨k, hk⟩ : ∃ k, L / p = k + 1 := ⟨L / p - 1, by omega⟩
    rw [hk] at hpk hy hcond
    have hM : L - p = p * k := by
      rw [Nat.mul_succ] at hpk
      omega
    have hMle : 10 ^ (p * k) ≤ 10 ^ (L - 1) :=
      Nat.pow_le_pow_right (by norm_num) (by omega)
    have hfits : 10 ^ (p * k) < 2 ^ 63 := by omega
    have hL19 : L ≤ 19 := by
      have := pow_ten_lt_long (L - 1) (by omega)
      omega
    have hlt64 : vn * repunit p (k + 1) < 2 ^ 64 := by
      have h1 := mul_repunit_lt p vn hvlt (k + 1)
      rw [hpk] at h1
      have h2 : 10 ^ L ≤ 10 ^ 19 := Nat.pow_le_pow_right (by norm_num) hL19
      have h3 : (10 : Nat) ^ 19 < 2 ^ 64 := by norm_num
      omega
    have hcid := compute_invalid_id_wrap (vn : Int) p k hfits
    rw [hcid] at hy hcond
    have hlen : (Nat.toDigits 10 vn).length = p :=
      toDigits_length_eq vn p (by omega) hvlt hp1
    have hvn1 : 1 ≤ vn := le_trans (Nat.one_le_pow _ _ (by norm_num)) (le_trans la hv1n)
    have hrep : is_repeated (vn * repunit p (k + 1)) :=
      (is_repeated_iff _).2 ⟨vn, k + 1, hvn1, by omega, by rw [hlen]⟩
    have hbounds : a ≤ vn * repunit p (k + 1) ∧ vn * repunit p (k + 1) ≤ b := by
      rcases hcond with ⟨hne1, hne2⟩ | hc
      · have hne1n : vn ≠ a / 10 ^ (L - p) := fun h => hne1 (by rw [h])
        have hne2n : vn ≠ b / 10 ^ (L - p) := fun h => hne2 (by rw [h])
        rw [hM] at hv1n hv2n hne1n hne2n
        obtain ⟨m1, m2⟩ := mul_repunit_between p vn k hvlt
        have hMpos : 0 < 10 ^ (p * k) := by positivity
        have hlow := Nat.lt_mul_div_succ a hMpos
        have hhigh := Nat.div_mul_le_self b (10 ^ (p * k))
        have h1 : (a / 10 ^ (p * k) + 1) * 10 ^ (p * k) ≤ vn * 10 ^ (p * k) :=
          Nat.mul_le_mul_right _ (by omega)
        have h2 : (vn + 1) * 10 ^ (p * k) ≤ b / 10 ^ (p * k) * 10 ^ (p * k) :=
          Nat.mul_le_mul_right _ (by omega)
        rw [Nat.mul_comm] at hlow
        omega
      · unfold Range.contains at hc
        rw [hmin, hmax] at hc
        simp only [Bool.and_eq_true, decide_eq_true_eq, ge_iff_le] at hc
        have hcast : (vn : Int) * ((repunit p (k + 1) : Nat) : Int)
            = ((vn * repunit p (k + 1) : Nat) : Int) := by push_cast; rfl
        rw [hcast] at hc
        generalize vn * repunit p (k + 1) = X at hc hlt64 ⊢
        unfold wrap_long at hc
        omega
    have hw : wrap_long ((vn : Int) * ((repunit p (k + 1) : Nat) : Int))
        = ((vn * repunit p (k + 1) : Nat) : Int) := by
      have hcast : (vn : Int) * ((repunit p (k + 1) : Nat) : Int)
          = ((vn * repunit p (k + 1) : Nat) : Int) := by push_cast; rfl
      rw [hcast]
      exact wrap_long_of_range (by omega) (by omega)
    rw [hw] at hy
    exact ⟨vn * repunit p (k + 1), hy, hbounds.1, hbounds.2, hrep⟩
  · rintro ⟨n, hy, hn1, hn2, hrep⟩
    obtain ⟨v, k, hv1, hk2, hn⟩ := (is_repeated_iff n).1 hrep
    have hpos := toDigits_length_pos v
    obtain ⟨p, hp⟩ : ∃ p, p = (Nat.toDigits 10 v).length := ⟨_, rfl⟩
    rw [← hp] at hn hpos
    have hnL : (Nat.toDigits 10 n).length = L := toDigits_length_eq n L (by omega) (by omega)
      (by rw [← hLa]; exact toDigits_length_pos a)
    have hkp : L = k * p := by
      rw [← hnL, hn, hp]
      exact toDigits_mul_repunit_length v hv1 k (by omega)
    obtain ⟨v1, v2⟩ := toDigits_bounds v hv1
    rw [← hp] at v1 v2
    have hp2 : p ≤ L / 2 := by
      rw [Nat.le_div_iff_mul_le (by norm_num), hkp, Nat.mul_comm]
      exact Nat.mul_le_mul_right p hk2
    have hmod : L % p = 0 := by rw [hkp]; exact Nat.mul_mod_left _ _
    have hdiv : L / p = k := by rw [hkp]; exact Nat.mul_div_cancel _ hpos
    have hpL : p ≤ L := by
      have := Nat.div_le_self L 2
      omega
    obtain ⟨ea, la, ua⟩ := prefix_value a L p ha hLa (by omega) hpos hpL
    obtain ⟨eb, lb, ub⟩ := prefix_value b L p hb1 hLb hL hpos hpL
    obtain ⟨k2, hk2e⟩ : ∃ k2, k = k2 + 1 := ⟨k - 1, by omega⟩
    have hM : L - p = p * k2 := by
      rw [hkp, hk2e, Nat.add_mul, Nat.one_mul, Nat.mul_comm]
      omega
    obtain ⟨m1, m2⟩ := mul_repunit_between p v k2 v2
    rw [← hk2e, ← hn] at m1 m2
    have hnv : n / 10 ^ (L - p) = v := by
      rw [hM]
      exact Nat.div_eq_of_lt_le m1 m2
    have hva : a / 10 ^ (L - p) ≤ v := by
      rw [← hnv]
      exact Nat.div_le_div_right hn1
    have hvb : v ≤ b / 10 ^ (L - p) := by
      rw [← hnv]
      exact Nat.div_le_div_right hn2
    have hcid : compute_invalid_id (v : Int) p (L / p) = (n : Int) := by
      have hMle : 10 ^ (p * k2) ≤ 10 ^ (L - 1) :=
        Nat.pow_le_pow_right (by norm_num) (by omega)
      rw [hdiv, hk2e, compute_invalid_id_eq v p k2 (by omega) (by
        rw [← hk2e, ← hn]
        omega), ← hk2e, ← hn]
    refine ⟨p, hpos, hp2, hmod, (v : Int), ?_, ?_, ?_, Or.inr ?_⟩
    · rw [ea]
      exact_mod_cast hva
    · rw [eb]
      exact_mod_cast hvb
    · rw [hcid, hy]
    · rw [hcid]
      exact (hcontains n).2 ⟨hn1, hn2⟩

/-- The sum of the set collected for a range whose limits have the same number of digits is
the sum of the repeated numbers of the range. -/
theorem list_sum_collect_same_length (a b L : Nat) (range : Range)
    (hmin : range.min = { sv := Nat.toDigits 10 a, value := (a : Int) })
    (hmax : range.max = { sv := Nat.toDigits 10 b, value := (b : Int) })
    (ha : 1 ≤ a) (hab : a ≤ b) (hLa : (Nat.toDigits 10 a).length = L)
    (hLb : (Nat.toDigits 10 b).length = L) (hL : b < 2 ^ 63) (S : Finset Nat)
    (hS : ∀ n, n ∈ S ↔ a ≤ n ∧ n ≤ b ∧ is_repeated n) :
    (collect_invalid_ids range).sum = ((∑ n ∈ S, n : Nat) : Int) := by
  have hmem := mem_collect_same_length a b L range hmin hmax ha hab hLa hLb hL
  have hfin : (collect_invalid_ids range).toFinset = S.image (fun n : Nat => (n : Int)) := by
    ext y
    rw [List.mem_toFinset, hmem, Finset.mem_image]
    constructor
    · rintro ⟨n, hy, h⟩
      exact ⟨n, (hS n).2 h, hy.symm⟩
    · rintro ⟨n, hn, hy⟩
      exact ⟨n, hy.symm, (hS n).1 hn⟩
  have h1 := List.sum_toFinset (fun x : Int => x) (nodup_collect_invalid_ids range)
  rw [List.map_id'] at h1
  rw [← h1, hfin, Finset.sum_image (fun x _ y _ h => by exact_mod_cast h), Nat.cast_sum]

/-- The sum that `solve_range` returns for a range whose limits have the same number of
digits, when the sum of the repeated numbers of the range fits a `long`. -/
theorem sum_collect_same_length (a b L : Nat) (range : Range)
    (hmin : range.min = { sv := Nat.toDigits 10 a, value := (a : Int) })
    (hmax : range.max = { sv := Nat.toDigits 10 b, value := (b : Int) })
    (ha : 1 ≤ a) (hab : a ≤ b) (hLa : (Nat.toDigits 10 a).length = L)
    (hLb : (Nat.toDigits 10 b).length = L) (hL : b < 2 ^ 63) (S : Finset Nat)
    (hS : ∀ n, n ∈ S ↔ a ≤ n ∧ n ≤ b ∧ is_repeated n) (hsum : ∑ n ∈ S, n < 2 ^ 63) :
    sum_invalid_ids (collect_invalid_ids range) = ((∑ n ∈ S, n : Nat) : Int) := by
  have hmem := mem_collect_same_length a b L range hmin hmax ha hab hLa hLb hL
  have hlist := list_sum_collect_same_length a b L range hmin hmax ha hab hLa hLb hL S hS
  unfold sum_invalid_ids
  rw [foldl_wrap_sum _ 0 (le_refl _) (fun x hx => by
      obtain ⟨n, hn, _⟩ := (hmem x).1 hx
      rw [hn]
      exact Int.ofNat_nonneg _) (by
      rw [hlist, Int.zero_add]
      exact_mod_cast hsum), hlist, Int.zero_add]

theorem to_string_nat (n : Nat) : to_string (n : Int) = Nat.toDigits 10 n := by
  unfold to_string
  rw [if_neg (by omega), Int.natAbs_ofNat]

theorem length_le_sixteen (b L : Nat) (hb1 : 1 ≤ b) (hb : b < 10 ^ 16)
    (hLb : (Nat.toDigits 10 b).length = L) : L ≤ 16 := by
  obtain ⟨b1, _⟩ := toDigits_bounds b hb1
  rw [hLb] at b1
  by_contra h
  have : 10 ^ 16 ≤ 10 ^ (L - 1) := Nat.pow_le_pow_right (by norm_num) (by omega)
  omega

theorem pow_lt_long (L : Nat) (h : L ≤ 16) : 10 ^ L < 2 ^ 63 :=
  calc 10 ^ L ≤ 10 ^ 16 := Nat.pow_le_pow_right (by norm_num) h
    _ < 2 ^ 63 := by norm_num

/-- Function `solve_range` on a range whose limits have the same number of digits. -/
theorem solve_range_same_length (a b L : Nat) (range : Range)
    (hmin : range.min = { sv := Nat.toDigits 10 a, value := (a : Int) })
    (hmax : range.max = { sv := Nat.toDigits 10 b, value := (b : Int) })
    (ha : 1 ≤ a) (hab : a ≤ b) (hLa : (Nat.toDigits 10 a).length = L)
    (hLb : (Nat.toDigits 10 b).length = L) (hL : b < 2 ^ 63) (S : Finset Nat)
    (hS : ∀ n, n ∈ S ↔ a ≤ n ∧ n ≤ b ∧ is_repeated n) (hsum : ∑ n ∈ S, n < 2 ^ 63)
    (fuel : Nat) :
    solve_range (fuel + 1) range = some ((∑ n ∈ S, n : Nat) : Int) := by
  rw [solve_range, if_neg (by rw [hmin, hmax]; simp only [hLa, hLb]; simp),
    sum_collect_same_length a b L range hmin hmax ha hab hLa hLb hL S hS hsum]

/-- One iteration of the loop of `solve_range` over the lengths: the repeated numbers of
`length` digits are added. -/
theorem solve_sub_range_eq (a b La Lb : Nat) (range : Range)
    (hmin : range.min = { sv := Nat.toDigits 10 a, value := (a : Int) })
    (hmax : range.max = { sv := Nat.toDigits 10 b, value := (b : Int) })
    (ha : 1 ≤ a) (hab : a ≤ b) (hLa : (Nat.toDigits 10 a).length = La)
    (hLb : (Nat.toDigits 10 b).length = Lb) (hlt : La < Lb) (hLb16 : Lb ≤ 16)
    (hb53 : b ≤ 2 ^ 53)
    (S : Finset Nat) (hS : ∀ n, n ∈ S ↔ a ≤ n ∧ n ≤ b ∧ is_repeated n)
    (hsum : ∑ n ∈ S, n < 2 ^ 63) (fuel l : Nat) (h1 : La ≤ l) (h2 : l ≤ Lb) :
    solve_sub_range (fun sub_range => solve_range (fuel + 1) sub_range) range
        ((∑ n ∈ S.filter (fun n => n < 10 ^ (l - 1)), n : Nat) : Int) l
      = some ((∑ n ∈ S.filter (fun n => n < 10 ^ l), n : Nat) : Int) := by
  have hb1 : 1 ≤ b := by omega
  have hLapos : 1 ≤ La := by rw [← hLa]; exact toDigits_length_pos a
  have hl1 : 1 ≤ l := by omega
  obtain ⟨a1, a2⟩ := toDigits_bounds a ha
  obtain ⟨b1, b2⟩ := toDigits_bounds b hb1
  rw [hLa] at a1 a2
  rw [hLb] at b1 b2
  have hpl : 10 ^ (l - 1) < 10 ^ l := Nat.pow_lt_pow_right (by norm_num) (by omega)
  have hpl1 : 1 ≤ 10 ^ (l - 1) := Nat.one_le_pow _ _ (by norm_num)
  have hpa : La < l → 10 ^ La ≤ 10 ^ (l - 1) := fun h =>
    Nat.pow_le_pow_right (by norm_num) (by omega)
  have hpb : l < Lb → 10 ^ l ≤ 10 ^ (Lb - 1) := fun h =>
    Nat.pow_le_pow_right (by norm_num) (by omega)
  obtain ⟨al, hal⟩ : ∃ al : Nat, al = if l = La then a else 10 ^ (l - 1) := ⟨_, rfl⟩
  obtain ⟨bl, hbl⟩ : ∃ bl : Nat, bl = if l = Lb then b else 10 ^ l - 1 := ⟨_, rfl⟩
  have h15 : (10 : Nat) ^ 15 < 2 ^ 53 := by norm_num
  have emin : double_to_long (if l = La then round_double (a : Int)
      else pow_double 10 (l - 1)) = (al : Int) := by
    rw [hal]
    split
    · rw [round_double_of_abs_le _ (by omega) (by exact_mod_cast (by omega : a ≤ 2 ^ 53)),
        double_to_long_of_range _ (by omega) (by omega)]
    · rw [pow_double_ten (l - 1) (by omega)]
      have hlt63 : (10 : Nat) ^ (l - 1) < 2 ^ 63 :=
        lt_of_le_of_lt (Nat.pow_le_pow_right (by norm_num) (by omega : l - 1 ≤ 15))
          (by norm_num)
      have hcast : ((10 : Int)) ^ (l - 1) = ((10 ^ (l - 1) : Nat) : Int) := by
        push_cast
        rfl
      rw [hcast, double_to_long_of_range _ (by omega) (by exact_mod_cast hlt63)]
  have emax : double_to_long (if l = Lb then round_double (b : Int)
      else round_double (pow_double 10 l - 1)) = (bl : Int) := by
    rw [hbl]
    split
    · rw [round_double_of_abs_le _ (by omega) (by exact_mod_cast hb53),
        double_to_long_of_range _ (by omega) (by omega)]
    · have hl15 : l ≤ 15 := by omega
      have hle15 : (10 : Nat) ^ l ≤ 10 ^ 15 := Nat.pow_le_pow_right (by norm_num) hl15
      have hpos : 1 ≤ (10 : Nat) ^ l := Nat.one_le_pow _ _ (by norm_num)
      have e : pow_double 10 l - 1 = ((10 ^ l - 1 : Nat) : Int) := by
        rw [pow_double_ten l (by omega), Nat.cast_pred (by positivity)]
        push_cast
        rfl
      rw [e, round_double_of_abs_le _ (by omega) (by omega),
        double_to_long_of_range _ (by omega) (by omega)]
  -- the sub-range
  have hfacts : 1 ≤ al ∧ al ≤ bl ∧ 10 ^ (l - 1) ≤ al ∧ al < 10 ^ l ∧ 10 ^ (l - 1) ≤ bl ∧
      bl < 10 ^ l ∧
      ∀ n, (a ≤ n ∧ n ≤ b ∧ ¬ n < 10 ^ (l - 1) ∧ n < 10 ^ l) ↔ (al ≤ n ∧ n ≤ bl) := by
    by_cases hla : l = La
    · have hlb : ¬ l = Lb := by omega
      have := hpb (by omega)
      rw [if_pos hla] at hal
      rw [if_neg hlb] at hbl
      subst hla
      refine ⟨by omega, by omega, by omega, by omega, by omega, by omega, fun n => by omega⟩
    · have := hpa (by omega)
      rw [if_neg hla] at hal
      by_cases hlb : l = Lb
      · rw [if_pos hlb] at hbl
        subst hlb
        refine ⟨by omega, by omega, by omega, by omega, by omega, by omega, fun n => by omega⟩
      · have := hpb (by omega)
        rw [if_neg hlb] at hbl
        refine ⟨by omega, by omega, by omega, by omega, by omega, by omega, fun n => by omega⟩
  obtain ⟨f1, f2, f3, f4, f5, f6, f7⟩ := hfacts
  have hsub : ∀ (T : Finset Nat), T ⊆ S → ∑ n ∈ T, n < 2 ^ 63 := fun T hT =>
    lt_of_le_of_lt (Finset.sum_le_sum_of_subset hT) hsum
  have hcall : solve_range (fuel + 1)
      { min := { sv := Nat.toDigits 10 al, value := (al : Int) },
        max := { sv := Nat.toDigits 10 bl, value := (bl : Int) } }
      = some ((∑ n ∈ (S.filter (fun n => n < 10 ^ l)).filter
          (fun n => ¬ n < 10 ^ (l - 1)), n : Nat) : Int) := by
    apply solve_range_same_length al bl l _ rfl rfl f1 f2
      (toDigits_length_eq al l f3 f4 hl1) (toDigits_length_eq bl l f5 f6 hl1)
      (lt_trans f6 (pow_lt_long l (by omega)))
    · intro n
      rw [Finset.mem_filter, Finset.mem_filter, hS n]
      constructor
      · rintro ⟨⟨⟨h3, h4, h5⟩, h6⟩, h7⟩
        have := (f7 n).1 ⟨h3, h4, h7, h6⟩
        exact ⟨this.1, this.2, h5⟩
      · rintro ⟨h3, h4, h5⟩
        have := (f7 n).2 ⟨h3, h4⟩
        exact ⟨⟨⟨this.1, this.2.1, h5⟩, this.2.2.2⟩, this.2.2.1⟩
    · exact hsub _ (fun n hn => Finset.mem_of_mem_filter n (Finset.mem_of_mem_filter n hn))
  have hsplit : S.filter (fun n => n < 10 ^ (l - 1))
      = (S.filter (fun n => n < 10 ^ l)).filter (fun n => n < 10 ^ (l - 1)) := by
    ext n
    simp only [Finset.mem_filter]
    constructor
    · rintro ⟨h3, h4⟩
      exact ⟨⟨h3, by omega⟩, h4⟩
    · rintro ⟨⟨h3, _⟩, h4⟩
      exact ⟨h3, h4⟩
  have hadd := Finset.sum_filter_add_sum_filter_not (S.filter (fun n => n < 10 ^ l))
    (fun n => n < 10 ^ (l - 1)) (fun n => n)
  rw [← hsplit] at hadd
  unfold solve_sub_range
  simp only [hmin, hmax, hLa, hLb, emin, emax, to_string_nat, hcall]
  rw [wrap_long_of_range (by
      have h0 : (0 : Int) ≤ ((∑ n ∈ S.filter (fun n => n < 10 ^ (l - 1)), n : Nat) : Int) :=
        Int.ofNat_nonneg _
      have h0b : (0 : Int) ≤ ((∑ n ∈ (S.filter (fun n => n < 10 ^ l)).filter
          (fun n => ¬ n < 10 ^ (l - 1)), n : Nat) : Int) := Int.ofNat_nonneg _
      omega) (by
      have := hsub (S.filter (fun n => n < 10 ^ l)) (Finset.filter_subset _ _)
      rw [← hadd] at this
      exact_mod_cast this)]
  rw [← hadd]
  push_cast
  rfl

/-- The loop of `solve_range` over the lengths, after `m` of them. -/
theorem foldlM_solve_sub_range (a b La Lb : Nat) (range : Range)
    (hmin : range.min = { sv := Nat.toDigits 10 a, value := (a : Int) })
    (hmax : range.max = { sv := Nat.toDigits 10 b, value := (b : Int) })
    (ha : 1 ≤ a) (hab : a ≤ b) (hLa : (Nat.toDigits 10 a).length = La)
    (hLb : (Nat.toDigits 10 b).length = Lb) (hlt : La < Lb) (hLb16 : Lb ≤ 16)
    (hb53 : b ≤ 2 ^ 53)
    (S : Finset Nat) (hS : ∀ n, n ∈ S ↔ a ≤ n ∧ n ≤ b ∧ is_repeated n)
    (hsum : ∑ n ∈ S, n < 2 ^ 63) (fuel : Nat) :
    ∀ m, m ≤ Lb + 1 - La →
      (List.range' La m).foldlM
          (solve_sub_range (fun sub_range => solve_range (fuel + 1) sub_range) range) 0
        = some ((∑ n ∈ S.filter (fun n => n < 10 ^ (La - 1 + m)), n : Nat) : Int) := by
  have hLapos : 1 ≤ La := by rw [← hLa]; exact toDigits_length_pos a
  obtain ⟨a1, _⟩ := toDigits_bounds a ha
  rw [hLa] at a1
  intro m
  induction m with
  | zero =>
    intro _
    have : S.filter (fun n => n < 10 ^ (La - 1 + 0)) = ∅ := by
      apply Finset.filter_false_of_mem
      intro n hn
      have := ((hS n).1 hn).1
      simp only [Nat.add_zero]
      omega
    rw [this]
    rfl
  | succ m ih =>
    intro hm
    rw [List.range'_concat, List.foldlM_append, ih (by omega)]
    simp only [Option.bind_eq_bind, Option.some_bind, List.foldlM_cons, List.foldlM_nil,
      Nat.one_mul]
    have e1 : La - 1 + m = La + m - 1 := by omega
    have e2 : La - 1 + (m + 1) = La + m := by omega
    rw [e1, e2, solve_sub_range_eq a b La Lb range hmin hmax ha hab hLa hLb hlt hLb16 hb53 S hS
      hsum
      fuel (La + m) (by omega) (by omega)]
    rfl

theorem repunit_eight_two : repunit 8 2 = 100000001 := by decide

/-- A range that reaches from a number of at most 15 digits beyond `2^53` holds repeated
numbers of a sum that does not fit a `long`. -/
theorem limit_le_of_sum (a b : Nat) (ha15 : a < 10 ^ 15) (S : Finset Nat)
    (hS : ∀ n, n ∈ S ↔ a ≤ n ∧ n ≤ b ∧ is_repeated n) (hsum : ∑ n ∈ S, n < 2 ^ 63) :
    b ≤ 2 ^ 53 := by
  by_contra hb
  have hsub : (Finset.Icc 10000000 10009999).image (fun v => v * 100000001) ⊆ S := by
    intro n hn
    obtain ⟨v, hv, rfl⟩ := Finset.mem_image.mp hn
    rw [Finset.mem_Icc] at hv
    have hlen : (Nat.toDigits 10 v).length = 8 :=
      toDigits_length_eq v 8 (by omega) (by omega) (by omega)
    refine (hS _).2 ⟨by omega, by omega, (is_repeated_iff _).2 ⟨v, 2, by omega, le_refl _, ?_⟩⟩
    rw [hlen, repunit_eight_two]
  have h1 := Finset.sum_le_sum_of_subset (f := fun n => n) hsub
  have hinj : Set.InjOn (fun v : Nat => v * 100000001)
      (Finset.Icc 10000000 10009999 : Finset Nat) := by
    intro x _ y _ hxy
    simp only at hxy
    omega
  rw [Finset.sum_image hinj] at h1
  have h2 : ∑ v ∈ Finset.Icc 10000000 10009999, 1000000000000000
      ≤ ∑ v ∈ Finset.Icc 10000000 10009999, v * 100000001 := by
    apply Finset.sum_le_sum
    intro v hv
    rw [Finset.mem_Icc] at hv
    omega
  rw [Finset.sum_const, Nat.card_Icc, smul_eq_mul] at h2
  simp only at h1
  omega

/-- Function `solve_range` on the range of two positive `long` numbers, given by their decimal
representations, the larger one below `10^16` when they differ in length: the sum of the
repeated numbers of the range, when it fits a `long`. -/
theorem solve_range_eq (a b : Nat) (range : Range)
    (hmin : range.min = { sv := Nat.toDigits 10 a, value := (a : Int) })
    (hmax : range.max = { sv := Nat.toDigits 10 b, value := (b : Int) })
    (ha : 1 ≤ a) (hab : a ≤ b) (hb : b < 2 ^ 63)
    (hsplit : (Nat.toDigits 10 a).length ≠ (Nat.toDigits 10 b).length → b < 10 ^ 16)
    (S : Finset Nat)
    (hS : ∀ n, n ∈ S ↔ a ≤ n ∧ n ≤ b ∧ is_repeated n) (hsum : ∑ n ∈ S, n < 2 ^ 63)
    (fuel : Nat) (hfuel : 2 ≤ fuel) :
    solve_range fuel range = some ((∑ n ∈ S, n : Nat) : Int) := by
  have hb1 : 1 ≤ b := by omega
  obtain ⟨La, hLa⟩ : ∃ La, (Nat.toDigits 10 a).length = La := ⟨_, rfl⟩
  obtain ⟨Lb, hLb⟩ : ∃ Lb, (Nat.toDigits 10 b).length = Lb := ⟨_, rfl⟩
  rw [hLa, hLb] at hsplit
  obtain ⟨a1, a2⟩ := toDigits_bounds a ha
  obtain ⟨b1, b2⟩ := toDigits_bounds b hb1
  rw [hLa] at a1 a2
  rw [hLb] at b1 b2
  have hLapos : 1 ≤ La := by rw [← hLa]; exact toDigits_length_pos a
  have hle : La ≤ Lb := by
    by_contra h
    have : 10 ^ Lb ≤ 10 ^ (La - 1) := Nat.pow_le_pow_right (by norm_num) (by omega)
    omega
  obtain ⟨f, rfl⟩ : ∃ f, fuel = f + 2 := ⟨fuel - 2, by omega⟩
  by_cases heq : La = Lb
  · subst heq
    exact solve_range_same_length a b La range hmin hmax ha hab hLa hLb hb S hS hsum (f + 1)
  · have hb16 := hsplit heq
    have hLb16 := length_le_sixteen b Lb hb1 hb16 hLb
    have ha15 : a < 10 ^ 15 :=
      lt_of_lt_of_le a2 (Nat.pow_le_pow_right (by norm_num) (by omega))
    have hb53 := limit_le_of_sum a b ha15 S hS hsum
    rw [solve_range, if_pos (by rw [hmin, hmax]; simp only [hLa, hLb]; exact heq)]
    simp only [hmin, hmax, hLa, hLb]
    have h := foldlM_solve_sub_range a b La Lb range hmin hmax ha hab hLa hLb (by omega)
      hLb16 hb53 S hS hsum f (Lb + 1 - La) (le_refl _)
    rw [h]
    have e : La - 1 + (Lb + 1 - La) = Lb := by omega
    rw [e]
    have : S.filter (fun n => n < 10 ^ Lb) = S := by
      apply Finset.filter_true_of_mem
      intro n hn
      have := ((hS n).1 hn).2.1
      omega
    rw [this]

end SolveB

end Day02

namespace Day03

open Cpp

theorem isDigit_iff (c : Char) : c.isDigit = true ↔ 48 ≤ c.toNat ∧ c.toNat ≤ 57 := by
  unfold Char.isDigit
  simp only [Bool.and_eq_true, decide_eq_true_eq, ge_iff_le]
  constructor
  · rintro ⟨h1, h2⟩
    exact ⟨h1, h2⟩
  · rintro ⟨h1, h2⟩
    exact ⟨h1, h2⟩

theorem zero_le_of_isDigit {c : Char} (h : c.isDigit = true) : '0' ≤ c :=
  ((isDigit_iff c).mp h).1

namespace SolveA

theorem isMaxOf_nil : IsMaxOf '0' [] :=
  ⟨Or.inl rfl, fun c hc => by simp at hc⟩

theorem isMaxOf_snoc {m : Char} {l : List Char} (h : IsMaxOf m l) (c : Char) :
    IsMaxOf (max m c) (l ++ [c]) := by
  refine ⟨?_, ?_⟩
  · rcases le_total m c with hmc | hmc
    · rw [max_eq_right hmc]; right; simp
    · rw [max_eq_left hmc]
      rcases h.1 with h0 | hmem
      · exact Or.inl h0
      · right; simp [hmem]
  · intro x hx
    rcases List.mem_append.mp hx with h1 | h1
    · exact le_trans (h.2 x h1) (le_max_left _ _)
    · have : x = c := by simpa using h1
      rw [this]; exact le_max_right _ _

theorem isMaxOf_cons {m : Char} {l : List Char} (h : IsMaxOf m l) (c : Char) :
    IsMaxOf (max m c) (c :: l) := by
  refine ⟨?_, ?_⟩
  · rcases le_total m c with hmc | hmc
    · rw [max_eq_right hmc]; right; simp
    · rw [max_eq_left hmc]
      rcases h.1 with h0 | hmem
      · exact Or.inl h0
      · right; simp [hmem]
  · intro x hx
    rcases List.mem_cons.mp hx with h1 | h1
    · rw [h1]; exact le_max_right _ _
    · exact le_trans (h.2 x h1) (le_max_left _ _)

/-- The largest of a non-empty list of digits is one of them. -/
theorem isMaxOf_mem {m : Char} {l : List Char} (h : IsMaxOf m l) (hne : l ≠ [])
    (hd : ∀ c ∈ l, c.isDigit = true) : m ∈ l := by
  rcases h.1 with h0 | hmem
  · obtain ⟨c, rest, rfl⟩ := List.exists_cons_of_ne_nil hne
    have h1 : c ≤ m := h.2 c (by simp)
    have h2 : '0' ≤ c := zero_le_of_isDigit (hd c (by simp))
    have : c = m := le_antisymm h1 (h0 ▸ h2)
    rw [← this]; simp
  · exact hmem

theorem pinv_init (line : List Char) :
    PInv line 0
      { max_fw := '0', max_bw := '0',
        max_digits_fw := List.replicate line.length '0',
        max_digits_bw := List.replicate line.length '0' } where
  len_fw := by simp
  len_bw := by simp
  max_fw := by simpa using isMaxOf_nil
  max_bw := by simpa using isMaxOf_nil
  fw := fun i hi => by omega
  bw := fun j h1 h2 => by omega

theorem populate_step_inv {line : List Char} {k : Nat} {st : Scan} (h : PInv line k st)
    (hk : k < line.length) :
    ∃ st2, populate_step line st k = some st2 ∧ PInv line (k + 1) st2 := by
  have hb : line.length - 1 - k < line.length := by omega
  have e1 : (line)[k]? = some (line.get ⟨k, hk⟩) := List.getElem?_eq_getElem hk
  have e2 : (line)[line.length - 1 - k]? = some (line.get ⟨line.length - 1 - k, hb⟩) :=
    List.getElem?_eq_getElem hb
  have htake : line.take (k + 1) = line.take k ++ [line.get ⟨k, hk⟩] := by
    rw [List.take_succ, e1]; rfl
  have hdrop : line.drop (line.length - (k + 1))
      = line.get ⟨line.length - 1 - k, hb⟩ :: line.drop (line.length - k) := by
    have h1 : line.length - (k + 1) = line.length - 1 - k := by omega
    have h2 : line.length - k = line.length - 1 - k + 1 := by omega
    rw [h1, h2]
    exact List.drop_eq_getElem_cons hb
  refine ⟨{ max_fw := max st.max_fw (line.get ⟨k, hk⟩),
            max_bw := max st.max_bw (line.get ⟨line.length - 1 - k, hb⟩),
            max_digits_fw := st.max_digits_fw.set k (max st.max_fw (line.get ⟨k, hk⟩)),
            max_digits_bw := st.max_digits_bw.set (line.length - 1 - k)
              (max st.max_bw (line.get ⟨line.length - 1 - k, hb⟩)) }, ?_, ?_⟩
  · unfold populate_step
    simp only [e1, e2]
    rw [if_pos ⟨by rw [h.len_fw]; exact hk, by rw [h.len_bw]; exact hb⟩]
  · refine ⟨by simp [h.len_fw], by simp [h.len_bw], ?_, ?_, ?_, ?_⟩
    · rw [htake]; exact isMaxOf_snoc h.max_fw _
    · rw [hdrop]; exact isMaxOf_cons h.max_bw _
    · intro i hi
      by_cases hik : i = k
      · subst hik
        refine ⟨max st.max_fw (line.get ⟨i, hk⟩), ?_, ?_⟩
        · simp only
          rw [List.getElem?_set_self (by rw [h.len_fw]; exact hk)]
        · rw [htake]; exact isMaxOf_snoc h.max_fw _
      · obtain ⟨m, hm1, hm2⟩ := h.fw i (by omega)
        refine ⟨m, ?_, hm2⟩
        simp only
        rw [List.getElem?_set_ne (fun hh => hik hh.symm)]
        exact hm1
    · intro j hj1 hj2
      by_cases hjk : j = line.length - 1 - k
      · subst hjk
        refine ⟨max st.max_bw (line.get ⟨line.length - 1 - k, hb⟩), ?_, ?_⟩
        · simp only
          rw [List.getElem?_set_self (by rw [h.len_bw]; exact hb)]
        · have := isMaxOf_cons h.max_bw (line.get ⟨line.length - 1 - k, hb⟩)
          rw [← hdrop] at this
          have h1 : line.length - (k + 1) = line.length - 1 - k := by omega
          rw [h1] at this
          exact this
      · obtain ⟨m, hm1, hm2⟩ := h.bw j (by omega) hj2
        refine ⟨m, ?_, hm2⟩
        simp only
        rw [List.getElem?_set_ne (fun hh => hjk hh.symm)]
        exact hm1

theorem populate_prefix (line : List Char) : ∀ k, k ≤ line.length →
    ∃ st, (List.range k).foldlM (populate_step line)
        { max_fw := '0', max_bw := '0',
          max_digits_fw := List.replicate line.length '0',
          max_digits_bw := List.replicate line.length '0' } = some st ∧ PInv line k st := by
  intro k
  induction k with
  | zero => intro _; exact ⟨_, rfl, pinv_init line⟩
  | succ k ih =>
    intro hk
    obtain ⟨st, hst, hinv⟩ := ih (by omega)
    obtain ⟨st2, hst2, hinv2⟩ := populate_step_inv hinv (by omega)
    refine ⟨st2, ?_, hinv2⟩
    rw [List.range_succ, List.foldlM_append, hst]
    simp [hst2]

theorem populate_spec (line : List Char) :
    ∃ st, populate line = some st ∧ PInv line line.length st :=
  populate_prefix line line.length (le_refl _)

/-- The second loop of `solve_line` keeps the largest combined value seen so far. -/
theorem combine_prefix (digit_to_int : Char → Int) (fw bw : List Char) (C : Nat → Int)
    (n : Nat) (hC : ∀ i, i < n → ∃ a b, fw[i]? = some a ∧ bw[i + 1]? = some b ∧
      C i = 10 * digit_to_int a + digit_to_int b) :
    ∀ k, k ≤ n → ∃ v, (List.range k).foldlM (combine_step digit_to_int fw bw) 0 = some v ∧
      (∀ i, i < k → C i ≤ v) ∧ (v = 0 ∨ ∃ i, i < k ∧ v = C i) := by
  intro k
  induction k with
  | zero => intro _; exact ⟨0, rfl, fun i hi => by omega, Or.inl rfl⟩
  | succ k ih =>
    intro hk
    obtain ⟨v, hv, hle, hatt⟩ := ih (by omega)
    obtain ⟨a, b, ha, hb, hc⟩ := hC k (by omega)
    refine ⟨max v (C k), ?_, ?_, ?_⟩
    · rw [List.range_succ, List.foldlM_append, hv]
      simp [combine_step, ha, hb, hc]
    · intro i hi
      by_cases hik : i = k
      · rw [hik]; exact le_max_right _ _
      · exact le_trans (hle i (by omega)) (le_max_left _ _)
    · rcases le_total v (C k) with h1 | h1
      · right; exact ⟨k, by omega, max_eq_right h1⟩
      · rw [max_eq_left h1]
        rcases hatt with h0 | ⟨i, hi, hvi⟩
        · exact Or.inl h0
        · exact Or.inr ⟨i, by omega, hvi⟩

theorem mem_take_index {l : List Char} {k : Nat} {a : Char} (h : a ∈ l.take k) :
    ∃ i, i < k ∧ i < l.length ∧ l.getD i '0' = a := by
  obtain ⟨i, hi⟩ := List.mem_iff_getElem?.mp h
  rw [List.getElem?_take] at hi
  by_cases hik : i < k
  · rw [if_pos hik] at hi
    obtain ⟨hlt, _⟩ := List.getElem?_eq_some_iff.mp hi
    exact ⟨i, hik, hlt, by rw [List.getD_eq_getElem?_getD, hi]; rfl⟩
  · rw [if_neg hik] at hi
    exact absurd hi (by simp)

theorem mem_drop_index {l : List Char} {k : Nat} {a : Char} (h : a ∈ l.drop k) :
    ∃ j, k ≤ j ∧ j < l.length ∧ l.getD j '0' = a := by
  obtain ⟨i, hi⟩ := List.mem_iff_getElem?.mp h
  rw [List.getElem?_drop] at hi
  obtain ⟨hlt, _⟩ := List.getElem?_eq_some_iff.mp hi
  exact ⟨k + i, by omega, hlt, by rw [List.getD_eq_getElem?_getD, hi]; rfl⟩

theorem getD_mem_take {l : List Char} {i k : Nat} (hik : i < k) (hi : i < l.length) :
    l.getD i '0' ∈ l.take k := by
  apply List.mem_iff_getElem?.mpr
  refine ⟨i, ?_⟩
  rw [List.getElem?_take, if_pos hik, List.getD_eq_getElem?_getD,
    List.getElem?_eq_getElem hi]
  rfl

theorem getD_mem_drop {l : List Char} {j k : Nat} (hkj : k ≤ j) (hj : j < l.length) :
    l.getD j '0' ∈ l.drop k := by
  apply List.mem_iff_getElem?.mpr
  refine ⟨j - k, ?_⟩
  rw [List.getElem?_drop, List.getD_eq_getElem?_getD, show k + (j - k) = j by omega,
    List.getElem?_eq_getElem hj]
  rfl

end SolveA

namespace SolveB

theorem digits_tail_length (line : List Char) (h : TAIL_LENGTH ≤ line.length) :
    (digits_tail_of line).length = TAIL_LENGTH := by
  unfold digits_tail_of digits_from
  simp only [List.length_map, List.enum_length, List.length_drop]
  omega

end SolveB

namespace SolveB

theorem compare_iff (a b : Digit) : Digit.compare a b = true ↔ Digit.lt a b := by
  unfold Digit.compare Digit.lt
  by_cases h : a.value = b.value
  · rw [if_pos h, decide_eq_true_iff]
    constructor
    · exact fun hp => Or.inr ⟨h, hp⟩
    · rintro (hv | ⟨_, hp⟩)
      · rw [h] at hv
        exact absurd hv (lt_irrefl _)
      · exact hp
  · rw [if_neg h, decide_eq_true_iff]
    constructor
    · exact fun hv => Or.inl hv
    · rintro (hv | ⟨he, _⟩)
      · exact hv
      · exact absurd he h

theorem digit_lt_irrefl (a : Digit) : ¬ Digit.lt a a := by
  rintro (h | ⟨_, h⟩)
  · exact lt_irrefl _ h
  · exact lt_irrefl _ h

theorem digit_lt_trans {a b c : Digit} (h1 : Digit.lt a b) (h2 : Digit.lt b c) :
    Digit.lt a c := by
  rcases h1 with h1 | ⟨e1, p1⟩ <;> rcases h2 with h2 | ⟨e2, p2⟩
  · exact Or.inl (lt_trans h1 h2)
  · exact Or.inl (e2 ▸ h1)
  · exact Or.inl (e1 ▸ h2)
  · exact Or.inr ⟨e1.trans e2, lt_trans p2 p1⟩

theorem digit_lt_total {a b : Digit} (h : a ≠ b) : Digit.lt a b ∨ Digit.lt b a := by
  obtain ⟨va, pa⟩ := a
  obtain ⟨vb, pb⟩ := b
  unfold Digit.lt
  simp only
  rcases lt_trichotomy va vb with hv | hv | hv
  · exact Or.inl (Or.inl hv)
  · rcases lt_trichotomy pa pb with hp | hp | hp
    · exact Or.inr (Or.inr ⟨hv.symm, hp⟩)
    · exact absurd (by rw [hv, hp]) h
    · exact Or.inl (Or.inr ⟨hv, hp⟩)
  · exact Or.inr (Or.inl hv)

/-- What is not above the largest so far is not above anything below it. -/
theorem digit_not_lt_trans {m b x : Digit} (h1 : ¬ Digit.lt m b) (h2 : ¬ Digit.lt b x) :
    ¬ Digit.lt m x := by
  intro h3
  by_cases e : b = m
  · subst e
    exact h2 h3
  · rcases digit_lt_total e with h | h
    · exact h2 (digit_lt_trans h h3)
    · exact h1 h

/-- The fold of `heap_front` returns a largest element. -/
theorem heap_front_fold : ∀ (heap : List Digit) (b : Digit),
    ∃ m, heap.foldl
        (fun best d =>
          match best with
          | none => some d
          | some b => if Digit.compare b d then some d else some b)
        (some b) = some m ∧ m ∈ b :: heap ∧ ∀ d ∈ b :: heap, ¬ Digit.lt m d := by
  intro heap
  induction heap with
  | nil =>
    intro b
    refine ⟨b, rfl, List.mem_singleton.mpr rfl, ?_⟩
    intro d hd
    rw [List.mem_singleton.mp hd]
    exact digit_lt_irrefl b
  | cons x rest ih =>
    intro b
    rw [List.foldl_cons]
    by_cases hc : Digit.compare b x = true
    · simp only [hc, if_true]
      obtain ⟨m, hm, hmem, hmax⟩ := ih x
      refine ⟨m, hm, List.mem_cons_of_mem _ hmem, ?_⟩
      intro d hd
      rcases List.mem_cons.mp hd with e | hd
      · rw [e]
        intro hlt
        exact hmax x (List.mem_cons_self _ _) (digit_lt_trans hlt ((compare_iff b x).mp hc))
      · exact hmax d hd
    · simp only [hc]
      obtain ⟨m, hm, hmem, hmax⟩ := ih b
      refine ⟨m, hm, ?_, ?_⟩
      · rcases List.mem_cons.mp hmem with e | h
        · exact e ▸ List.mem_cons_self _ _
        · exact List.mem_cons_of_mem _ (List.mem_cons_of_mem _ h)
      · intro d hd
        rcases List.mem_cons.mp hd with e | hd
        · exact e ▸ hmax b (List.mem_cons_self _ _)
        · rcases List.mem_cons.mp hd with e | hd
          · rw [e]
            exact digit_not_lt_trans (hmax b (List.mem_cons_self _ _))
              (fun h => hc ((compare_iff b x).mpr h))
          · exact hmax d (List.mem_cons_of_mem _ hd)

/-- Function `heap_front` returns a largest element of a heap that is not empty. -/
theorem heap_front_spec (heap : List Digit) (h : heap ≠ []) :
    ∃ m, heap_front heap = some m ∧ m ∈ heap ∧ ∀ d ∈ heap, ¬ Digit.lt m d := by
  cases heap with
  | nil => exact absurd rfl h
  | cons x rest =>
    unfold heap_front
    rw [List.foldl_cons]
    exact heap_front_fold rest x

/-- Function `get_max_digit` on a heap without duplicates that holds a digit at or behind
`min_pos`: it returns the largest of these digits and removes it, and it keeps all others of
them. -/
theorem get_max_digit_spec (min_pos : Nat) : ∀ (fuel : Nat) (heap : List Digit),
    heap.length < fuel → heap.Nodup → (∃ d ∈ heap, min_pos ≤ d.pos) →
    ∃ f rest, get_max_digit fuel heap min_pos = some (f, rest) ∧ f ∈ heap ∧ min_pos ≤ f.pos ∧
      f ∉ rest ∧ rest.Nodup ∧ (∀ d ∈ rest, d ∈ heap) ∧
      (∀ d ∈ heap, min_pos ≤ d.pos → d ≠ f → d ∈ rest) ∧
      (∀ d ∈ heap, min_pos ≤ d.pos → ¬ Digit.lt f d) := by
  intro fuel
  induction fuel with
  | zero => intro heap h; omega
  | succ fuel ih =>
    intro heap hlen hnd hex
    obtain ⟨d0, hd0, hp0⟩ := hex
    have hne : heap ≠ [] := List.ne_nil_of_mem hd0
    obtain ⟨front, hfront, hmem, hmax⟩ := heap_front_spec heap hne
    unfold get_max_digit
    simp only [hfront]
    by_cases hstale : front.pos < min_pos
    · rw [if_pos hstale]
      have hne0 : d0 ≠ front := by
        intro e
        rw [e] at hp0
        omega
      have hlen2 : (heap.erase front).length < fuel := by
        rw [List.length_erase_of_mem hmem]
        have := List.length_pos_of_mem hmem
        omega
      obtain ⟨f, rest, hget, h1, h2, h3, h4, h5, h6, h7⟩ := ih (heap.erase front) hlen2
        (hnd.erase front) ⟨d0, (List.mem_erase_of_ne hne0).mpr hd0, hp0⟩
      refine ⟨f, rest, hget, List.mem_of_mem_erase h1, h2, h3, h4,
        fun d hd => List.mem_of_mem_erase (h5 d hd), ?_, ?_⟩
      · intro d hd hp hdf
        have hdfront : d ≠ front := by
          intro e
          rw [e] at hp
          omega
        exact h6 d ((List.mem_erase_of_ne hdfront).mpr hd) hp hdf
      · intro d hd hp
        have hdfront : d ≠ front := by
          intro e
          rw [e] at hp
          omega
        exact h7 d ((List.mem_erase_of_ne hdfront).mpr hd) hp
    · rw [if_neg hstale]
      refine ⟨front, heap.erase front, rfl, hmem, by omega, ?_, hnd.erase front,
        fun d hd => List.mem_of_mem_erase hd, ?_, fun d hd _ => hmax d hd⟩
      · intro h
        exact ((hnd.mem_erase_iff).mp h).1 rfl
      · intro d hd _ hdf
        exact (List.mem_erase_of_ne hdf).mpr hd

end SolveB

namespace SolveB

theorem getElem?_digits_from (from_pos : Nat) (chars : List Char) (k : Nat) :
    (digits_from from_pos chars)[k]?
      = (chars[k]?).map (fun c => ({ value := c, pos := from_pos + k } : Digit)) := by
  unfold digits_from
  rw [List.getElem?_map, List.getElem?_enum]
  cases chars[k]? <;> rfl

theorem mem_digits_from (from_pos : Nat) (chars : List Char) (d : Digit) :
    d ∈ digits_from from_pos chars
      ↔ ∃ k, chars[k]? = some d.value ∧ d.pos = from_pos + k := by
  rw [List.mem_iff_getElem?]
  constructor
  · rintro ⟨k, hk⟩
    rw [getElem?_digits_from] at hk
    cases hc : chars[k]? with
    | none => rw [hc] at hk; exact absurd hk (by simp)
    | some c =>
      rw [hc] at hk
      simp only [Option.map_some', Option.some.injEq] at hk
      rw [← hk]
      exact ⟨k, hc, rfl⟩
  · rintro ⟨k, hk, hp⟩
    refine ⟨k, ?_⟩
    rw [getElem?_digits_from, hk]
    obtain ⟨v, p⟩ := d
    simp only at hp
    simp [hp]

theorem digits_from_nodup (from_pos : Nat) (chars : List Char) :
    (digits_from from_pos chars).Nodup := by
  apply List.Nodup.of_map (fun d : Digit => d.pos)
  have e : (digits_from from_pos chars).map (fun d : Digit => d.pos)
      = (List.range chars.length).map (fun k => from_pos + k) := by
    unfold digits_from
    rw [List.map_map, ← List.enum_map_fst chars, List.map_map]
    rfl
  rw [e]
  exact List.Nodup.map (fun a b h => by simpa using h) (List.nodup_range _)

/-- The tail digit that iteration `step < 11` of the loop reads. -/
theorem getD_digits_tail (line : List Char) (past_end : Digit) (step : Nat) (c : Char)
    (h : (line)[line.length - TAIL_LENGTH + step]? = some c) :
    (digits_tail_of line).getD step past_end
      = { value := c, pos := line.length - TAIL_LENGTH + step } := by
  unfold digits_tail_of
  rw [List.getD_eq_getElem?_getD, getElem?_digits_from, List.getElem?_drop, h]
  rfl

/-- The first element of a subsequence sits at a position behind which the rest of the
subsequence fits. -/
theorem sublist_cons_position {a : Char} {t : List Char} : ∀ {R : List Char},
    (a :: t).Sublist R → ∃ j, R[j]? = some a ∧ t.Sublist (R.drop (j + 1)) := by
  intro R
  induction R with
  | nil => intro h; cases h
  | cons r R ih =>
    intro h
    cases h with
    | cons _ h =>
      obtain ⟨j, hj, hs⟩ := ih h
      exact ⟨j + 1, by simpa using hj, by simpa using hs⟩
    | cons₂ _ h =>
      exact ⟨0, by simp, by simpa using h⟩

theorem digits_value_nil : digits_value [] = 0 := rfl

/-- The value of a string of `k` digits lies in `[0, 10^k)`. -/
theorem digits_value_bounds : ∀ (k : Nat) (s : List Char), s.length = k →
    (∀ c ∈ s, c.isDigit = true) → 0 ≤ digits_value s ∧ digits_value s < 10 ^ k := by
  intro k
  induction k with
  | zero =>
    intro s hs _
    rw [List.length_eq_zero.mp hs, digits_value_nil]
    exact ⟨le_refl _, by norm_num⟩
  | succ k ih =>
    intro s hs hd
    have hne : s ≠ [] := by
      intro e
      rw [e] at hs
      exact absurd hs (by simp)
    obtain ⟨xs, c, rfl⟩ : ∃ xs c, s = xs ++ [c] :=
      ⟨s.dropLast, s.getLast hne, (List.dropLast_append_getLast hne).symm⟩
    have hxs : xs.length = k := by
      rw [List.length_append, List.length_singleton] at hs
      omega
    obtain ⟨h1, h2⟩ := ih xs hxs (fun x hx => hd x (List.mem_append_left _ hx))
    have hc := (isDigit_iff c).mp (hd c (List.mem_append_right _ (List.mem_singleton.mpr rfl)))
    rw [digits_value_snoc, pow_succ]
    constructor
    · omega
    · omega

end SolveB

namespace SolveB

theorem pickInv_init (line : List Char) (hlen : OUTPUT_DIGITS ≤ line.length) :
    PickInv line 0 [] 0 (initial_selection line) where
  len := rfl
  room := by simpa using hlen
  sub := fun u hu => by simpa using hu
  best := fun t ht _ => Or.inr ⟨rfl, by simpa using ht⟩
  out := by simp [initial_selection, digits_value_nil]

theorem heapInv_init (line : List Char) (hlen : OUTPUT_DIGITS ≤ line.length) :
    HeapInv line 0 0 (initial_selection line) where
  mult := by
    show double_to_long (pow_double 10 (OUTPUT_DIGITS - 1)) = 10 ^ (OUTPUT_DIGITS - 1 - 0)
    decide!
  nodup := digits_from_nodup _ _
  sound := by
    intro d hd
    have h12 : OUTPUT_DIGITS = 12 := rfl
    have h11 : TAIL_LENGTH = 11 := rfl
    obtain ⟨k, hk, hp⟩ := (mem_digits_from _ _ d).mp hd
    rw [List.getElem?_take] at hk
    by_cases hkn : k < line.length - TAIL_LENGTH
    · rw [if_pos hkn] at hk
      rw [hp, Nat.zero_add]
      exact ⟨by omega, hk⟩
    · rw [if_neg hkn] at hk
      exact absurd hk (by simp)
  complete := by
    intro q c _ hq hc
    have h12 : OUTPUT_DIGITS = 12 := rfl
    have h11 : TAIL_LENGTH = 11 := rfl
    refine (mem_digits_from _ _ _).mpr ⟨q, ?_, by simp⟩
    rw [List.getElem?_take, if_pos (by omega)]
    exact hc
  fresh := fun _ _ _ => Nat.zero_le _
  pos_le := Nat.le_refl _

end SolveB

namespace SolveB

theorem digit_value_le {a c : Char} (ha : a.isDigit = true) (hc : c.isDigit = true) :
    0 ≤ (a.toNat : Int) - 48 ∧ (a.toNat : Int) - 48 ≤ 9 ∧
      (a < c → (a.toNat : Int) - 48 < (c.toNat : Int) - 48) := by
  have h1 := (isDigit_iff a).mp ha
  have h2 := (isDigit_iff c).mp hc
  refine ⟨by omega, by omega, ?_⟩
  intro h
  have : a.toNat < c.toNat := h
  omega

/-- One iteration of the loop of `solve_line` picks the first of the largest digits that leave
enough digits behind them. -/
theorem select_step_inv (digit_to_int : Char → Int)
    (hdigit : ∀ c : Char, c.isDigit = true → digit_to_int c = (c.toNat : Int) - 48)
    (past_end : Digit) (line : List Char) (hlen : OUTPUT_DIGITS ≤ line.length)
    (hd : ∀ c ∈ line, c.isDigit = true)
    (s : Nat) (P : List Char) (lo : Nat) (st : Selection) (hs : s < OUTPUT_DIGITS)
    (hp : PickInv line s P lo st) (hh : HeapInv line s lo st) :
    ∃ c i st', select_step digit_to_int past_end (digits_tail_of line) st s = some st' ∧
      PickInv line (s + 1) (P ++ [c]) (i + 1) st' ∧
      (s + 1 < OUTPUT_DIGITS → HeapInv line (s + 1) (i + 1) st') := by
  have h12 : OUTPUT_DIGITS = 12 := rfl
  have h11 : TAIL_LENGTH = 11 := rfl
  have hroom := hp.room
  rw [h12] at hroom hs hlen
  have hlo : lo < line.length := by omega
  -- the heap holds the digit at `lo`
  have hlo0 : ({ value := (line)[lo], pos := lo } : Digit) ∈ st.digits_heap :=
    hh.complete lo _ (le_refl _) (by rw [h12]; omega) (List.getElem?_eq_getElem hlo)
  obtain ⟨f, rest, hget, hf1, hf2, hf3, hf4, hf5, hf6, hf7⟩ :=
    get_max_digit_spec st.pos (st.digits_heap.length + 1) st.digits_heap (Nat.lt_succ_self _)
      hh.nodup ⟨_, hlo0, hh.pos_le⟩
  obtain ⟨hfpos, hfval⟩ := hh.sound f hf1
  rw [h12] at hfpos
  have hflo : lo ≤ f.pos := hh.fresh f hf1 hf2
  have hfn : f.pos < line.length := by omega
  have hfget : (line)[f.pos] = f.value := by
    rw [List.getElem?_eq_getElem hfn] at hfval
    exact Option.some.inj hfval
  have hfmem : f.value ∈ line := List.getElem?_mem hfval
  have hfd := hd _ hfmem
  -- the step
  have hstep : select_step digit_to_int past_end (digits_tail_of line) st s
      = some { digits_heap := (digits_tail_of line).getD s past_end :: rest,
               multiplier := st.multiplier / 10,
               output_value := wrap_long
                 (st.output_value + wrap_long (digit_to_int f.value * st.multiplier)),
               pos := f.pos } := by
    unfold select_step
    simp only [hget]
    rw [if_pos (by rw [h12]; exact hs)]
  refine ⟨f.value, f.pos, _, hstep, ?_, ?_⟩
  · -- the picked digits
    have hPsub : P.Sublist line := by
      have := hp.sub [] (List.nil_sublist _)
      rwa [List.append_nil] at this
    have hPd : ∀ c ∈ P, c.isDigit = true := fun c hc => hd c (hPsub.subset hc)
    obtain ⟨hV0, hV1⟩ := digits_value_bounds s P hp.len hPd
    obtain ⟨hc0, hc9, _⟩ := digit_value_le hfd hfd
    constructor
    · rw [List.length_append, hp.len]
      rfl
    · rw [h12]
      omega
    · intro u hu
      have h1 : (f.value :: u).Sublist (line.drop f.pos) := by
        rw [List.drop_eq_getElem_cons hfn, hfget]
        exact List.Sublist.cons₂ _ hu
      have h2 := hp.sub (f.value :: u) (h1.trans (List.drop_sublist_drop_left line hflo))
      rwa [List.append_assoc, List.singleton_append]
    · intro t ht htl
      rw [h12] at htl
      have hst : s < t.length := by omega
      have htd : ∀ c ∈ t, c.isDigit = true := fun c hc => hd c (ht.subset hc)
      have htake : t.take (s + 1) = t.take s ++ [(t)[s]] := by
        rw [List.take_succ, List.getElem?_eq_getElem hst]
        rfl
      have had := htd (t)[s] (List.getElem_mem _)
      obtain ⟨ha0, ha9, _⟩ := digit_value_le had hfd
      rcases hp.best t ht (by rw [h12]; exact htl) with hlt | ⟨heq, hsub⟩
      · left
        rw [htake, digits_value_snoc, digits_value_snoc]
        omega
      · rw [List.drop_eq_getElem_cons hst] at hsub
        obtain ⟨j, hj, hrest⟩ := sublist_cons_position hsub
        rw [List.getElem?_drop] at hj
        rw [List.drop_drop] at hrest
        have hjn : lo + j < line.length := by
          by_contra hc
          rw [List.getElem?_eq_none (by omega)] at hj
          exact absurd hj (by simp)
        have hlen := hrest.length_le
        rw [List.length_drop, List.length_drop] at hlen
        have hq : lo + j ≤ line.length - OUTPUT_DIGITS + s := by
          rw [h12]
          omega
        have hmem := hh.complete (lo + j) (t)[s] (by omega) hq hj
        have hnlt := hf7 _ hmem (by have := hh.pos_le; simp only; omega)
        unfold Digit.lt at hnlt
        simp only [not_or, not_and, not_lt] at hnlt
        obtain ⟨n1, n2⟩ := hnlt
        rcases lt_or_eq_of_le n1 with hlt | he
        · left
          obtain ⟨_, _, hmono⟩ := digit_value_le had hfd
          rw [htake, heq, digits_value_snoc, digits_value_snoc]
          have := hmono hlt
          omega
        · right
          refine ⟨by rw [htake, heq, he], ?_⟩
          have hiq := n2 he.symm
          exact hrest.trans (List.drop_sublist_drop_left line (by omega))
    · show wrap_long (st.output_value + wrap_long (digit_to_int f.value * st.multiplier))
        = digits_value (P ++ [f.value]) * 10 ^ (OUTPUT_DIGITS - (s + 1))
      rw [hp.out, hh.mult, hdigit _ hfd, digits_value_snoc, h12]
      have e1 : 12 - s = (12 - 1 - s) + 1 := by omega
      have e2 : 12 - (s + 1) = 12 - 1 - s := by omega
      rw [e1, e2, pow_succ]
      generalize hM : (10 : Int) ^ (12 - 1 - s) = M
      have hM0 : 0 < M := by rw [← hM]; positivity
      have hpow : (10 : Int) ^ s * (M * 10) = 10 ^ 12 := by
        rw [← hM, ← pow_succ, ← pow_add]
        congr 1
        omega
      have hb1 : (digits_value P + 1) * (M * 10) ≤ 10 ^ 12 := by
        rw [← hpow]
        exact mul_le_mul_of_nonneg_right (by omega) (by positivity)
      have hb2 : 0 ≤ digits_value P * (M * 10) := by positivity
      have hb3 : 0 ≤ ((f.value.toNat : Int) - 48) * M := by positivity
      have hb4 : ((f.value.toNat : Int) - 48) * M ≤ 9 * M := by
        exact mul_le_mul_of_nonneg_right hc9 (le_of_lt hM0)
      have w1 : wrap_long (((f.value.toNat : Int) - 48) * M)
          = ((f.value.toNat : Int) - 48) * M :=
        wrap_long_of_range (by omega) (by nlinarith)
      rw [w1, wrap_long_of_range (by omega) (by nlinarith)]
      ring
  · -- the heap
    intro hs1
    rw [h12] at hs1
    have htn : line.length - TAIL_LENGTH + s < line.length := by
      rw [h11]
      omega
    have htail := getD_digits_tail line past_end s _ (List.getElem?_eq_getElem htn)
    have hrestpos : ∀ d ∈ rest, d.pos ≤ line.length - 12 + s := by
      intro d hdr
      have := (hh.sound d (hf5 d hdr)).1
      rwa [h12] at this
    constructor
    · show st.multiplier / 10 = 10 ^ (OUTPUT_DIGITS - 1 - (s + 1))
      rw [hh.mult, h12]
      have e1 : 12 - 1 - s = (12 - 1 - (s + 1)) + 1 := by omega
      rw [e1, pow_succ]
      exact Int.mul_ediv_cancel _ (by norm_num)
    · show ((digits_tail_of line).getD s past_end :: rest).Nodup
      rw [htail, List.nodup_cons]
      refine ⟨?_, hf4⟩
      intro hmem
      have := hrestpos _ hmem
      simp only [h11] at this
      omega
    · intro d hdm
      rw [h12]
      change d ∈ (digits_tail_of line).getD s past_end :: rest at hdm
      rcases List.mem_cons.mp hdm with e | hdr
      · rw [e, htail]
        simp only [h11]
        refine ⟨by omega, ?_⟩
        have := List.getElem?_eq_getElem htn
        simp only [h11] at this
        exact this
      · have := hh.sound d (hf5 d hdr)
        rw [h12] at this
        exact ⟨by omega, this.2⟩
    · intro q c hq1 hq2 hc
      rw [h12] at hq2
      show ({ value := c, pos := q } : Digit) ∈ (digits_tail_of line).getD s past_end :: rest
      by_cases hqt : q = line.length - TAIL_LENGTH + s
      · refine List.mem_cons.mpr (Or.inl ?_)
        rw [htail]
        subst hqt
        rw [List.getElem?_eq_getElem htn] at hc
        rw [Option.some.inj hc]
      · refine List.mem_cons_of_mem _ ?_
        rw [h11] at hqt
        have hmem := hh.complete q c (by omega) (by rw [h12]; omega) hc
        refine hf6 _ hmem (by have := hh.pos_le; simp only; omega) ?_
        intro e
        have : q = f.pos := by rw [← e]
        omega
    · intro d hdm hpos
      change d ∈ (digits_tail_of line).getD s past_end :: rest at hdm
      change f.pos ≤ d.pos at hpos
      rcases List.mem_cons.mp hdm with e | hdr
      · rw [e, htail]
        simp only [h11]
        omega
      · by_contra hcon
        have hpe : d.pos = f.pos := by omega
        have hdv := (hh.sound d (hf5 d hdr)).2
        rw [hpe, hfval] at hdv
        have hdf : d = f := by
          obtain ⟨dv, dp⟩ := d
          obtain ⟨fv, fp⟩ := f
          simp only at hpe hdv
          rw [hpe, Option.some.inj hdv]
        rw [hdf] at hdr
        exact hf3 hdr
    · show f.pos ≤ f.pos + 1
      omega

end SolveB

namespace SolveB

/-- The first `k` iterations of the loop of `solve_line`. -/
theorem select_loop (digit_to_int : Char → Int)
    (hdigit : ∀ c : Char, c.isDigit = true → digit_to_int c = (c.toNat : Int) - 48)
    (past_end : Digit) (line : List Char) (hlen : OUTPUT_DIGITS ≤ line.length)
    (hd : ∀ c ∈ line, c.isDigit = true) :
    ∀ k, k ≤ OUTPUT_DIGITS → ∃ P lo st,
      (List.range k).foldlM (select_step digit_to_int past_end (digits_tail_of line))
          (initial_selection line) = some st ∧
        PickInv line k P lo st ∧ (k < OUTPUT_DIGITS → HeapInv line k lo st) := by
  intro k
  induction k with
  | zero =>
    intro _
    exact ⟨[], 0, initial_selection line, rfl, pickInv_init line hlen,
      fun _ => heapInv_init line hlen⟩
  | succ k ih =>
    intro hk
    obtain ⟨P, lo, st, hfold, hp, hh⟩ := ih (by omega)
    obtain ⟨c, i, st', hstep, hp', hh'⟩ := select_step_inv digit_to_int hdigit past_end line
      hlen hd k P lo st (by omega) hp (hh (by omega))
    refine ⟨P ++ [c], i + 1, st', ?_, hp', hh'⟩
    rw [List.range_succ, List.foldlM_append, hfold]
    simp only [Option.bind_eq_bind, Option.some_bind, List.foldlM_cons, List.foldlM_nil, hstep]
    rfl

end SolveB
end Day03

namespace Day04

open Cpp

theorem has_roll_set (cells : List Cell) (i : Nat) (c : Cell) (j : Nat)
    (h : i < cells.length) :
    has_roll (cells.set i c) j = if j = i then c.is_roll else has_roll cells j := by
  unfold has_roll
  by_cases hj : j = i
  · subst hj
    rw [List.getElem?_set_self h]
    simp
  · rw [List.getElem?_set_ne (Ne.symm hj)]
    simp [hj]

theorem count_of_set (cells : List Cell) (i : Nat) (c : Cell) (j : Nat)
    (h : i < cells.length) :
    count_of (cells.set i c) j = if j = i then c.neighbor_count else count_of cells j := by
  unfold count_of
  by_cases hj : j = i
  · subst hj
    rw [List.getElem?_set_self h]
    simp
  · rw [List.getElem?_set_ne (Ne.symm hj)]
    simp [hj]

theorem has_roll_lt (cells : List Cell) (i : Nat) (h : has_roll cells i = true) :
    i < cells.length := by
  unfold has_roll at h
  by_contra hlt
  rw [List.getElem?_eq_none (by omega)] at h
  simp at h

theorem has_roll_eq (cells : List Cell) (i : Nat) (cell : Cell) (h : cells[i]? = some cell) :
    has_roll cells i = cell.is_roll := by
  unfold has_roll
  rw [h]

theorem count_of_eq (cells : List Cell) (i : Nat) (cell : Cell) (h : cells[i]? = some cell) :
    count_of cells i = cell.neighbor_count := by
  unfold count_of
  rw [h]

theorem has_roll_replicate (n i : Nat) : has_roll (List.replicate n Cell.empty) i = false := by
  unfold has_roll
  by_cases h : i < n
  · rw [List.getElem?_eq_getElem (by simpa using h)]
    simp [Cell.empty]
  · rw [List.getElem?_eq_none (by simpa using h)]

theorem count_of_replicate (n i : Nat) : count_of (List.replicate n Cell.empty) i = 0 := by
  unfold count_of
  by_cases h : i < n
  · rw [List.getElem?_eq_getElem (by simpa using h)]
    simp [Cell.empty]
  · rw [List.getElem?_eq_none (by simpa using h)]

theorem mem_roll_indices (cells : List Cell) (i : Nat) :
    i ∈ roll_indices cells ↔ has_roll cells i = true := by
  unfold roll_indices
  rw [Finset.mem_filter, Finset.mem_range]
  exact ⟨fun h => h.2, fun h => ⟨has_roll_lt cells i h, h⟩⟩

/-- The inner loop of `initialize_rolls` for one row. -/
theorem set_rolls_inner (line : List Char) (base N : Nat) :
    ∀ (m : Nat) (cells : List Cell), cells.length = N → m ≤ line.length → base + m < N →
      ∃ cells2, (List.range m).foldlM (set_roll line base) cells = some cells2 ∧
        cells2.length = N ∧ (∀ i, count_of cells2 i = count_of cells i) ∧
        ∀ i, has_roll cells2 i =
          if base + 1 ≤ i ∧ i < base + 1 + m then decide (line.getD (i - base - 1) '.' = '@')
          else has_roll cells i := by
  intro m
  induction m with
  | zero =>
    intro cells hlen _ _
    refine ⟨cells, rfl, hlen, fun _ => rfl, fun i => ?_⟩
    rw [if_neg (by omega)]
  | succ m ih =>
    intro cells hlen hm hN
    obtain ⟨cells1, h1, hlen1, hc1, hr1⟩ := ih cells hlen (by omega) (by omega)
    have hidx : base + m + 1 < cells1.length := by omega
    have hchar : char_at line m = some (line.getD m '.') := by
      unfold char_at
      rw [if_pos (by omega), List.getElem?_eq_getElem (by omega),
        List.getD_eq_getElem _ _ (show m < line.length by omega)]
    have hstep : set_roll line base cells1 m
        = some (cells1.set (base + m + 1)
            { cells1[base + m + 1] with is_roll := decide (line.getD m '.' = '@') }) := by
      unfold set_roll
      simp only [hchar, List.getElem?_eq_getElem hidx]
    refine ⟨cells1.set (base + m + 1)
        { cells1[base + m + 1] with is_roll := decide (line.getD m '.' = '@') }, ?_, ?_, ?_, ?_⟩
    · rw [List.range_succ, List.foldlM_append, h1]
      simp only [Option.bind_eq_bind, Option.some_bind, List.foldlM_cons, List.foldlM_nil,
        hstep]
      rfl
    · simp [hlen1]
    · intro i
      rw [count_of_set _ _ _ _ hidx, ← hc1 i]
      by_cases hi : i = base + m + 1
      · subst hi
        rw [if_pos rfl]
        exact (count_of_eq _ _ _ (List.getElem?_eq_getElem hidx)).symm
      · rw [if_neg hi]
    · intro i
      rw [has_roll_set _ _ _ _ hidx, hr1 i]
      by_cases hi : i = base + m + 1
      · subst hi
        rw [if_pos rfl, if_pos (by omega)]
        have : base + m + 1 - base - 1 = m := by omega
        rw [this]
      · rw [if_neg hi]
        by_cases hw : base + 1 ≤ i ∧ i < base + 1 + m
        · rw [if_pos hw, if_pos (by omega)]
        · rw [if_neg hw, if_neg (by omega)]

theorem mul_succ_le (a b p : Nat) (h : a < b) : (a + 1) * p + p ≤ (b + 1) * p := by
  have h2 : (a + 2) * p ≤ (b + 1) * p := Nat.mul_le_mul_right p (by omega)
  have h3 : (a + 2) * p = (a + 1) * p + p := by ring
  omega

theorem row_bound (row row_count p : Nat) (h : row < row_count) :
    (row + 1) * p + p + p ≤ (row_count + 2) * p := by
  have h2 : (row + 3) * p ≤ (row_count + 2) * p := Nat.mul_le_mul_right p (by omega)
  have h3 : (row + 3) * p = (row + 1) * p + p + p := by ring
  omega

theorem le_row_base (row p : Nat) : p ≤ (row + 1) * p := by
  have h3 : (row + 1) * p = row * p + p := by ring
  omega

/-- The function `initialize_rolls` on an empty vector of cells: the rolls are at the cells of
the positions that hold `@`, every count is still zero. -/
theorem initialize_rolls_rows (lines : List (List Char)) (cc N : Nat)
    (hrect : ∀ l ∈ lines, l.length = cc) (hN : N = (lines.length + 2) * (cc + 2)) :
    ∀ k, k ≤ lines.length →
      ∃ cells2, initialize_rolls lines (List.replicate N Cell.empty) k cc = some cells2 ∧
        cells2.length = N ∧ (∀ i, count_of cells2 i = 0) ∧
        ∀ i, has_roll cells2 i = true ↔
          ∃ row col, row < k ∧ col < cc ∧ i = (row + 1) * (cc + 2) + col + 1 ∧
            (lines.getD row []).getD col '.' = '@' := by
  intro k
  induction k with
  | zero =>
    intro _
    refine ⟨List.replicate N Cell.empty, rfl, by simp, fun i => count_of_replicate N i,
      fun i => ?_⟩
    rw [has_roll_replicate]
    constructor
    · intro h
      exact absurd h (by simp)
    · rintro ⟨row, col, h, _⟩
      omega
  | succ k ih =>
    intro hk
    obtain ⟨cells1, h1, hlen1, hc1, hr1⟩ := ih (by omega)
    have hkl : k < lines.length := by omega
    have hline : (lines)[k]? = some (lines.getD k []) := by
      rw [List.getElem?_eq_getElem hkl, List.getD_eq_getElem _ _ hkl]
    have hlinelen : (lines.getD k []).length = cc := by
      apply hrect
      rw [List.getD_eq_getElem _ _ hkl]
      exact List.getElem_mem hkl
    have hb := row_bound k lines.length (cc + 2) hkl
    obtain ⟨cells2, h2, hlen2, hc2, hr2⟩ := set_rolls_inner (lines.getD k [])
      ((k + 1) * (cc + 2)) N cc cells1 hlen1 (by omega) (by omega)
    refine ⟨cells2, ?_, hlen2, fun i => by rw [hc2 i, hc1 i], fun i => ?_⟩
    · unfold initialize_rolls at h1 ⊢
      rw [List.range_succ, List.foldlM_append, h1]
      simp only [Option.bind_eq_bind, Option.some_bind, List.foldlM_cons, List.foldlM_nil]
      unfold set_rolls_of_row
      simp only [hline, h2]
      rfl
    · rw [hr2 i]
      by_cases hw : (k + 1) * (cc + 2) + 1 ≤ i ∧ i < (k + 1) * (cc + 2) + 1 + cc
      · rw [if_pos hw]
        constructor
        · intro h
          refine ⟨k, i - (k + 1) * (cc + 2) - 1, by omega, by omega, by omega, ?_⟩
          simpa using h
        · rintro ⟨row, col, hrow, hcol, hi, hch⟩
          have hrk : row = k := by
            by_contra hne
            have := mul_succ_le row k (cc + 2) (by omega)
            omega
          subst hrk
          have : i - (row + 1) * (cc + 2) - 1 = col := by omega
          rw [this]
          simpa using hch
      · rw [if_neg hw, hr1 i]
        constructor
        · rintro ⟨row, col, hrow, hcol, hi, hch⟩
          exact ⟨row, col, by omega, hcol, hi, hch⟩
        · rintro ⟨row, col, hrow, hcol, hi, hch⟩
          have hrk : row ≠ k := by
            intro hrk
            subst hrk
            omega
          exact ⟨row, col, by omega, hcol, hi, hch⟩

theorem inGrid_bounds (rc cc i : Nat) (h : InGrid rc cc i) :
    cc + 3 ≤ i ∧ i + cc + 3 < (rc + 2) * (cc + 2) ∧ 1 ≤ cc := by
  obtain ⟨row, col, hrow, hcol, hi⟩ := h
  have h1 := le_row_base row (cc + 2)
  have h2 := row_bound row rc (cc + 2) hrow
  omega

theorem inGrid_not_padding (rc cc i : Nat) (h : InGrid rc cc i) (k : Nat) :
    i ≠ (k + 1) * (cc + 2) ∧ i ≠ (k + 1) * (cc + 2) + cc + 1 := by
  obtain ⟨row, col, hrow, hcol, hi⟩ := h
  rcases Nat.lt_trichotomy row k with hlt | heq | hgt
  · have := mul_succ_le row k (cc + 2) hlt
    omega
  · subst heq
    omega
  · have := mul_succ_le k row (cc + 2) hgt
    omega

theorem inGrid_lt_last (rc cc i : Nat) (h : InGrid rc cc i) : i < (rc + 1) * (cc + 2) := by
  obtain ⟨row, col, hrow, hcol, hi⟩ := h
  rcases Nat.lt_or_ge (row + 1) rc with hlt | hge
  · have := mul_succ_le row rc (cc + 2) (by omega)
    omega
  · have : row + 1 = rc := by omega
    subst this
    have h3 : (row + 1 + 1) * (cc + 2) = (row + 1) * (cc + 2) + (cc + 2) := by ring
    omega

theorem offsets_nonneg (cc index : Nat) (h : cc + 3 ≤ index) :
    ∀ o ∈ get_neighbor_offsets (cc : Int), 0 ≤ (index : Int) + o := by
  intro o ho
  simp only [get_neighbor_offsets, List.mem_cons, List.mem_singleton, List.not_mem_nil,
    or_false] at ho
  omega

theorem offsets_map (cc index : Nat) (h : cc + 3 ≤ index) :
    (get_neighbor_offsets (cc : Int)).map (fun o => ((index : Int) + o).toNat)
      = neighbor_indices (cc + 2) index := by
  simp only [get_neighbor_offsets, neighbor_indices, List.map_cons, List.map_nil]
  simp only [List.cons.injEq, and_true]
  refine ⟨by omega, by omega, by omega, by omega, by omega, by omega, by omega, by omega⟩

/-- The loop over the offsets in `initialize_counts`. -/
theorem count_neighbors_spec (index : Nat) :
    ∀ (offsets : List Int) (cells : List Cell),
      (∀ o ∈ offsets, 0 ≤ (index : Int) + o ∧ ((index : Int) + o).toNat < cells.length) →
      ∃ cells2, offsets.foldlM (count_neighbor index) cells = some cells2 ∧
        cells2.length = cells.length ∧ (∀ i, has_roll cells2 i = has_roll cells i) ∧
        ∀ i, count_of cells2 i = count_of cells i
          + (((offsets.map (fun o => ((index : Int) + o).toNat)).count i : Nat) : Int) := by
  intro offsets
  induction offsets with
  | nil =>
    intro cells _
    exact ⟨cells, rfl, rfl, fun _ => rfl, fun i => by simp⟩
  | cons o rest ih =>
    intro cells h
    obtain ⟨h0, hlt⟩ := h o (List.mem_cons_self _ _)
    have hstep : count_neighbor index cells o
        = some (cells.set ((index : Int) + o).toNat
            { cells[((index : Int) + o).toNat] with
              neighbor_count := cells[((index : Int) + o).toNat].neighbor_count + 1 }) := by
      unfold count_neighbor
      simp only [if_pos h0, List.getElem?_eq_getElem hlt]
    obtain ⟨cells2, h2, hlen2, hr2, hc2⟩ := ih
      (cells.set ((index : Int) + o).toNat
        { cells[((index : Int) + o).toNat] with
          neighbor_count := cells[((index : Int) + o).toNat].neighbor_count + 1 })
      (fun o2 ho2 => by
        rw [List.length_set]
        exact h o2 (List.mem_cons_of_mem _ ho2))
    refine ⟨cells2, ?_, ?_, ?_, ?_⟩
    · rw [List.foldlM_cons, hstep]
      exact h2
    · rw [hlen2, List.length_set]
    · intro i
      rw [hr2 i, has_roll_set _ _ _ _ hlt]
      by_cases hi : i = ((index : Int) + o).toNat
      · rw [if_pos hi, hi]
        exact (has_roll_eq _ _ _ (List.getElem?_eq_getElem hlt)).symm
      · rw [if_neg hi]
    · intro i
      rw [hc2 i, count_of_set _ _ _ _ hlt, List.map_cons, List.count_cons]
      by_cases hi : i = ((index : Int) + o).toNat
      · rw [if_pos hi, hi]
        rw [count_of_eq _ _ _ (List.getElem?_eq_getElem hlt)]
        simp
        ring
      · rw [if_neg hi]
        have : ¬ (((index : Int) + o).toNat == i) = true := by
          simpa using fun h => hi h.symm
        rw [if_neg this]
        simp

theorem weight_filter_succ (p : Nat) (R : Finset Nat) (j i : Nat) :
    weight p (R.filter (fun r => r < j + 1)) i
      = weight p (R.filter (fun r => r < j)) i
        + if j ∈ R then (neighbor_indices p j).count i else 0 := by
  unfold weight
  by_cases hj : j ∈ R
  · rw [if_pos hj]
    have : R.filter (fun r => r < j + 1) = insert j (R.filter (fun r => r < j)) := by
      ext x
      simp only [Finset.mem_filter, Finset.mem_insert]
      constructor
      · rintro ⟨hx, hlt⟩
        by_cases hxj : x = j
        · exact Or.inl hxj
        · exact Or.inr ⟨hx, by omega⟩
      · rintro (hx | ⟨hx, hlt⟩)
        · subst hx
          exact ⟨hj, by omega⟩
        · exact ⟨hx, by omega⟩
    rw [this, Finset.sum_insert (by simp), Nat.add_comm]
  · rw [if_neg hj, Nat.add_zero]
    congr 1
    ext x
    simp only [Finset.mem_filter]
    constructor
    · rintro ⟨hx, hlt⟩
      refine ⟨hx, ?_⟩
      have : x ≠ j := fun h => hj (h ▸ hx)
      omega
    · rintro ⟨hx, hlt⟩
      exact ⟨hx, by omega⟩

theorem weight_filter_skip (p : Nat) (R : Finset Nat) (a b i : Nat)
    (h : ∀ r ∈ R, a ≤ r → b ≤ r) (hab : a ≤ b) :
    weight p (R.filter (fun r => r < b)) i = weight p (R.filter (fun r => r < a)) i := by
  unfold weight
  congr 1
  ext x
  simp only [Finset.mem_filter]
  constructor
  · rintro ⟨hx, hlt⟩
    refine ⟨hx, ?_⟩
    by_contra hge
    have := h x hx (by omega)
    omega
  · rintro ⟨hx, hlt⟩
    exact ⟨hx, by omega⟩

/-- The loop over the columns of one row in `initialize_counts`. -/
theorem count_row_inner (rc cc : Nat) (R : Finset Nat)
    (hgrid : ∀ r ∈ R, InGrid rc cc r) (base : Nat) :
    ∀ (m : Nat) (cells : List Cell), cells.length = (rc + 2) * (cc + 2) →
      base + m < (rc + 2) * (cc + 2) →
      (∀ i, has_roll cells i = true ↔ i ∈ R) →
      (∀ i, count_of cells i
        = ((weight (cc + 2) (R.filter (fun r => r < base + 1)) i : Nat) : Int)) →
      ∃ cells2, (List.range m).foldlM
          (count_cell (get_neighbor_offsets (cc : Int)) base) cells = some cells2 ∧
        cells2.length = (rc + 2) * (cc + 2) ∧
        (∀ i, has_roll cells2 i = true ↔ i ∈ R) ∧
        ∀ i, count_of cells2 i
          = ((weight (cc + 2) (R.filter (fun r => r < base + 1 + m)) i : Nat) : Int) := by
  intro m
  induction m with
  | zero =>
    intro cells hlen _ hr hc
    exact ⟨cells, rfl, hlen, hr, hc⟩
  | succ m ih =>
    intro cells hlen hN hr hc
    obtain ⟨cells1, h1, hlen1, hr1, hc1⟩ := ih cells hlen (by omega) hr hc
    have hidx : base + m + 1 < cells1.length := by omega
    by_cases hroll : has_roll cells1 (base + m + 1) = true
    · have hin : base + m + 1 ∈ R := (hr1 _).1 hroll
      obtain ⟨hlo, hhi, _⟩ := inGrid_bounds rc cc _ (hgrid _ hin)
      obtain ⟨cells2, h2, hlen2, hr2, hc2⟩ := count_neighbors_spec (base + m + 1)
        (get_neighbor_offsets (cc : Int)) cells1 (fun o ho => by
          have h0 := offsets_nonneg cc (base + m + 1) hlo o ho
          refine ⟨h0, ?_⟩
          simp only [get_neighbor_offsets, List.mem_cons, List.mem_singleton,
            List.not_mem_nil, or_false] at ho
          omega)
      refine ⟨cells2, ?_, by omega, fun i => by rw [hr2 i]; exact hr1 i, fun i => ?_⟩
      · rw [List.range_succ, List.foldlM_append, h1]
        simp only [Option.bind_eq_bind, Option.some_bind, List.foldlM_cons, List.foldlM_nil]
        unfold count_cell
        simp only [List.getElem?_eq_getElem hidx]
        rw [has_roll_eq _ _ _ (List.getElem?_eq_getElem hidx)] at hroll
        rw [if_pos hroll, h2]
        rfl
      · rw [hc2 i, hc1 i, offsets_map cc (base + m + 1) hlo,
          show base + 1 + (m + 1) = base + 1 + m + 1 by omega, weight_filter_succ,
          show base + 1 + m = base + m + 1 by omega, if_pos hin]
        push_cast
        ring
    · refine ⟨cells1, ?_, hlen1, hr1, fun i => ?_⟩
      · rw [List.range_succ, List.foldlM_append, h1]
        simp only [Option.bind_eq_bind, Option.some_bind, List.foldlM_cons, List.foldlM_nil]
        unfold count_cell
        simp only [List.getElem?_eq_getElem hidx]
        rw [has_roll_eq _ _ _ (List.getElem?_eq_getElem hidx)] at hroll
        rw [if_neg hroll]
        rfl
      · have hnin : base + m + 1 ∉ R := fun h => hroll ((hr1 _).2 h)
        rw [hc1 i, show base + 1 + (m + 1) = base + 1 + m + 1 by omega, weight_filter_succ,
          show base + 1 + m = base + m + 1 by omega, if_neg hnin]
        rfl

/-- The function `initialize_counts` on cells whose counts are zero and whose rolls are in the
grid: every count becomes the weight of its cell. -/
theorem initialize_counts_spec (rc cc : Nat) (R : Finset Nat)
    (hgrid : ∀ r ∈ R, InGrid rc cc r) (cells : List Cell)
    (hlen : cells.length = (rc + 2) * (cc + 2))
    (hr : ∀ i, has_roll cells i = true ↔ i ∈ R) (hc : ∀ i, count_of cells i = 0) :
    ∃ cells2, initialize_counts cells rc cc = some cells2 ∧
      cells2.length = (rc + 2) * (cc + 2) ∧
      (∀ i, has_roll cells2 i = true ↔ i ∈ R) ∧
      ∀ i, count_of cells2 i = ((weight (cc + 2) R i : Nat) : Int) := by
  have hrows : ∀ k, k ≤ rc →
      ∃ cells2, (List.range k).foldlM
          (count_row (get_neighbor_offsets (cc : Int)) cc) cells = some cells2 ∧
        cells2.length = (rc + 2) * (cc + 2) ∧
        (∀ i, has_roll cells2 i = true ↔ i ∈ R) ∧
        ∀ i, count_of cells2 i
          = ((weight (cc + 2) (R.filter (fun r => r < (k + 1) * (cc + 2))) i : Nat) : Int) := by
    intro k
    induction k with
    | zero =>
      intro _
      refine ⟨cells, rfl, hlen, hr, fun i => ?_⟩
      rw [hc i]
      have : R.filter (fun r => r < (0 + 1) * (cc + 2)) = ∅ := by
        apply Finset.filter_false_of_mem
        intro r hrR
        have := (inGrid_bounds rc cc r (hgrid r hrR)).1
        omega
      rw [this]
      simp [weight]
    | succ k ih =>
      intro hk
      obtain ⟨cells1, h1, hlen1, hr1, hc1⟩ := ih (by omega)
      have hb := row_bound k rc (cc + 2) (by omega)
      obtain ⟨cells2, h2, hlen2, hr2, hc2⟩ := count_row_inner rc cc R hgrid
        ((k + 1) * (cc + 2)) cc cells1 hlen1 (by omega) hr1 (fun i => by
          rw [hc1 i, weight_filter_skip (cc + 2) R ((k + 1) * (cc + 2))
            ((k + 1) * (cc + 2) + 1) i (fun r hrR hge => by
              have := (inGrid_not_padding rc cc r (hgrid r hrR) k).1
              omega) (by omega)])
      refine ⟨cells2, ?_, hlen2, hr2, fun i => ?_⟩
      · rw [List.range_succ, List.foldlM_append, h1]
        simp only [Option.bind_eq_bind, Option.some_bind, List.foldlM_cons, List.foldlM_nil]
        unfold count_row
        simp only [h2]
        rfl
      · rw [hc2 i]
        have h3 : (k + 1 + 1) * (cc + 2) = (k + 1) * (cc + 2) + (cc + 2) := by ring
        rw [weight_filter_skip (cc + 2) R ((k + 1) * (cc + 2) + 1 + cc)
          ((k + 1 + 1) * (cc + 2)) i (fun r hrR hge => by
            have := (inGrid_not_padding rc cc r (hgrid r hrR) k).2
            omega) (by omega)]
  obtain ⟨cells2, h2, hlen2, hr2, hc2⟩ := hrows rc (le_refl _)
  refine ⟨cells2, ?_, hlen2, hr2, fun i => ?_⟩
  · unfold initialize_counts
    exact h2
  · rw [hc2 i]
    have : R.filter (fun r => r < (rc + 1) * (cc + 2)) = R := by
      apply Finset.filter_true_of_mem
      intro r hrR
      exact inGrid_lt_last rc cc r (hgrid r hrR)
    rw [this]

theorem neighbor_indices_nodup (p i : Nat) (hp : 3 ≤ p) (hi : p + 1 ≤ i) :
    (neighbor_indices p i).Nodup := by
  simp only [neighbor_indices, List.nodup_cons, List.mem_cons, List.mem_singleton,
    List.not_mem_nil, not_false_eq_true, List.nodup_nil, and_true, not_or, or_false]
  omega

theorem mem_neighbor_indices_symm (p i j : Nat) (hi : p + 1 ≤ i) (hj : p + 1 ≤ j) :
    i ∈ neighbor_indices p j ↔ j ∈ neighbor_indices p i := by
  simp only [neighbor_indices, List.mem_cons, List.mem_singleton, List.not_mem_nil, or_false]
  omega

theorem not_mem_neighbor_indices_self (p i : Nat) (hp : 3 ≤ p) (hi : p + 1 ≤ i) :
    i ∉ neighbor_indices p i := by
  simp only [neighbor_indices, List.mem_cons, List.mem_singleton, List.not_mem_nil, or_false]
  omega

theorem neighbor_indices_lt (p N i : Nat) (hi : i + p + 1 < N) :
    ∀ j ∈ neighbor_indices p i, j < N := by
  intro j hj
  simp only [neighbor_indices, List.mem_cons, List.mem_singleton, List.not_mem_nil,
    or_false] at hj
  omega

theorem neighbor_indices_length (p i : Nat) : (neighbor_indices p i).length = 8 := rfl

/-- The weight of the cell of a roll is the number of rolls among its eight neighbours. -/
theorem weight_eq_card (rc cc : Nat) (R : Finset Nat) (hgrid : ∀ r ∈ R, InGrid rc cc r)
    (i : Nat) (hi : InGrid rc cc i) :
    weight (cc + 2) R i = (R.filter (fun j => j ∈ neighbor_indices (cc + 2) i)).card := by
  unfold weight
  rw [Finset.card_filter]
  apply Finset.sum_congr rfl
  intro r hr
  obtain ⟨hr1, _, hr3⟩ := inGrid_bounds rc cc r (hgrid r hr)
  obtain ⟨hi1, _, _⟩ := inGrid_bounds rc cc i hi
  rw [List.count_eq_of_nodup (neighbor_indices_nodup (cc + 2) r (by omega) (by omega))]
  by_cases h : i ∈ neighbor_indices (cc + 2) r
  · rw [if_pos h, if_pos ((mem_neighbor_indices_symm (cc + 2) i r (by omega) (by omega)).1 h)]
  · rw [if_neg h,
      if_neg (fun h2 => h ((mem_neighbor_indices_symm (cc + 2) i r (by omega) (by omega)).2 h2))]

theorem foldl_push_filter (cells : List Cell) :
    ∀ (l : List Nat) (acc : List Nat),
      l.foldl (push_if_accessible cells) acc
        = acc ++ l.filter
            (fun i => has_roll cells i && decide (count_of cells i < 4)) := by
  intro l
  induction l with
  | nil => intro acc; simp
  | cons x rest ih =>
    intro acc
    rw [List.foldl_cons, ih]
    unfold push_if_accessible has_roll count_of
    cases hx : cells[x]? with
    | none => simp [List.filter_cons, hx]
    | some cell =>
      by_cases ha : cell.is_accessible = true
      · have ha2 := ha
        unfold Cell.is_accessible at ha2
        simp [List.filter_cons, hx, ha, ha2]
      · have ha2 := ha
        unfold Cell.is_accessible at ha2
        simp [List.filter_cons, hx, ha, ha2]

theorem mem_initial_queue (cells : List Cell) (i : Nat) :
    i ∈ initial_queue cells ↔ has_roll cells i = true ∧ count_of cells i < 4 := by
  unfold initial_queue
  rw [foldl_push_filter, List.nil_append, List.mem_filter, List.mem_range]
  constructor
  · rintro ⟨_, h⟩
    simpa using h
  · intro h
    exact ⟨has_roll_lt cells i h.1, by simpa using h⟩

theorem initial_queue_length (cells : List Cell) :
    (initial_queue cells).length ≤ cells.length := by
  unfold initial_queue
  rw [foldl_push_filter, List.nil_append]
  calc _ ≤ (List.range cells.length).length := List.length_filter_le _ _
    _ = cells.length := List.length_range _

/-- The loop over the offsets in the `while` loop of `solve`. -/
theorem visit_neighbors_spec (index : Nat) :
    ∀ (offsets : List Int) (cells : List Cell) (queue : List Nat),
      (∀ o ∈ offsets, 0 ≤ (index : Int) + o ∧ ((index : Int) + o).toNat < cells.length) →
      ∃ cells2 ext, offsets.foldlM (visit_neighbor index) (cells, queue)
          = some (cells2, queue ++ ext) ∧
        cells2.length = cells.length ∧ (∀ i, has_roll cells2 i = has_roll cells i) ∧
        (∀ i, count_of cells2 i = count_of cells i
          - (((offsets.map (fun o => ((index : Int) + o).toNat)).count i : Nat) : Int)) ∧
        ext.length ≤ offsets.length ∧
        (∀ j ∈ ext, has_roll cells j = true ∧ count_of cells2 j < 4) ∧
        ∀ j ∈ offsets.map (fun o => ((index : Int) + o).toNat),
          has_roll cells j = true → count_of cells2 j < 4 → j ∈ ext := by
  intro offsets
  induction offsets with
  | nil =>
    intro cells queue _
    refine ⟨cells, [], by simp, rfl, fun _ => rfl, fun i => by simp, le_refl _, ?_, ?_⟩
    · intro j hj
      simp at hj
    · intro j hj
      simp at hj
  | cons o rest ih =>
    intro cells queue h
    obtain ⟨h0, hlt⟩ := h o (List.mem_cons_self _ _)
    obtain ⟨j0, hj0⟩ : ∃ j0, j0 = ((index : Int) + o).toNat := ⟨_, rfl⟩
    rw [← hj0] at hlt
    obtain ⟨cell, hcell⟩ : ∃ cell, cell = cells[j0] := ⟨_, rfl⟩
    have hget : cells[j0]? = some cell := by rw [hcell]; exact List.getElem?_eq_getElem hlt
    obtain ⟨cells1, hcells1⟩ : ∃ cells1, cells1
        = cells.set j0 { cell with neighbor_count := cell.neighbor_count - 1 } := ⟨_, rfl⟩
    have hlen1 : cells1.length = cells.length := by rw [hcells1, List.length_set]
    have hroll1 : ∀ i, has_roll cells1 i = has_roll cells i := by
      intro i
      rw [hcells1, has_roll_set _ _ _ _ hlt]
      by_cases hi : i = j0
      · rw [if_pos hi, hi, has_roll_eq _ _ _ hget]
      · rw [if_neg hi]
    have hcount1 : ∀ i, count_of cells1 i
        = if i = j0 then count_of cells j0 - 1 else count_of cells i := by
      intro i
      rw [hcells1, count_of_set _ _ _ _ hlt, count_of_eq _ _ _ hget]
    have hrest : ∀ o2 ∈ rest,
        0 ≤ (index : Int) + o2 ∧ ((index : Int) + o2).toNat < cells1.length := by
      intro o2 ho2
      rw [hlen1]
      exact h o2 (List.mem_cons_of_mem _ ho2)
    have hacc : Cell.is_accessible { cell with neighbor_count := cell.neighbor_count - 1 }
        = (has_roll cells j0 && decide (count_of cells j0 - 1 < 4)) := by
      rw [has_roll_eq _ _ _ hget, count_of_eq _ _ _ hget]
      rfl
    by_cases hpush : (has_roll cells j0 && decide (count_of cells j0 - 1 < 4)) = true
    · have hstep : visit_neighbor index (cells, queue) o = some (cells1, queue ++ [j0]) := by
        unfold visit_neighbor
        simp only [if_pos h0, ← hj0, hget, hacc, hpush, if_true, hcells1]
      obtain ⟨cells2, ext, h2, hlen2, hr2, hc2, hel, hv5, hv6⟩ :=
        ih cells1 (queue ++ [j0]) hrest
      simp only [Bool.and_eq_true, decide_eq_true_eq] at hpush
      refine ⟨cells2, j0 :: ext, ?_, ?_, ?_, ?_, ?_, ?_, ?_⟩
      · rw [List.foldlM_cons, hstep]
        simp only [Option.bind_eq_bind, Option.some_bind]
        rw [h2, List.append_assoc]
        rfl
      · rw [hlen2, hlen1]
      · intro i
        rw [hr2 i, hroll1 i]
      · intro i
        rw [hc2 i, hcount1 i, List.map_cons, List.count_cons, ← hj0]
        by_cases hi : i = j0
        · subst hi
          simp
          ring
        · have : ¬ (j0 == i) = true := by simpa using fun h => hi h.symm
          rw [if_neg hi, if_neg this]
          simp
      · simp only [List.length_cons]
        omega
      · intro j hj
        rcases List.mem_cons.1 hj with hj | hj
        · subst hj
          refine ⟨hpush.1, ?_⟩
          rw [hc2 j, hcount1 j, if_pos rfl]
          have := hpush.2
          omega
        · obtain ⟨ha, hb⟩ := hv5 j hj
          rw [hroll1 j] at ha
          exact ⟨ha, hb⟩
      · intro j hj hroll hcnt
        rw [List.map_cons, ← hj0] at hj
        by_cases hjr : j ∈ rest.map (fun o => ((index : Int) + o).toNat)
        · exact List.mem_cons_of_mem _ (hv6 j hjr (by rw [hroll1 j]; exact hroll) hcnt)
        · rcases List.mem_cons.1 hj with hj | hj
          · rw [hj]
            exact List.mem_cons_self _ _
          · exact absurd hj hjr
    · have hstep : visit_neighbor index (cells, queue) o = some (cells1, queue) := by
        unfold visit_neighbor
        simp only [if_pos h0, ← hj0, hget, hacc, hpush, hcells1]
        rfl
      obtain ⟨cells2, ext, h2, hlen2, hr2, hc2, hel, hv5, hv6⟩ := ih cells1 queue hrest
      refine ⟨cells2, ext, ?_, ?_, ?_, ?_, ?_, ?_, ?_⟩
      · rw [List.foldlM_cons, hstep]
        simp only [Option.bind_eq_bind, Option.some_bind]
        exact h2
      · rw [hlen2, hlen1]
      · intro i
        rw [hr2 i, hroll1 i]
      · intro i
        rw [hc2 i, hcount1 i, List.map_cons, List.count_cons, ← hj0]
        by_cases hi : i = j0
        · subst hi
          simp
          ring
        · have : ¬ (j0 == i) = true := by simpa using fun h => hi h.symm
          rw [if_neg hi, if_neg this]
          simp
      · simp only [List.length_cons]
        omega
      · intro j hj
        obtain ⟨ha, hb⟩ := hv5 j hj
        rw [hroll1 j] at ha
        exact ⟨ha, hb⟩
      · intro j hj hroll hcnt
        rw [List.map_cons, ← hj0] at hj
        by_cases hjr : j ∈ rest.map (fun o => ((index : Int) + o).toNat)
        · exact hv6 j hjr (by rw [hroll1 j]; exact hroll) hcnt
        · exfalso
          rcases List.mem_cons.1 hj with hj | hj
          · subst hj
            apply hpush
            have hzero : (rest.map (fun o => ((index : Int) + o).toNat)).count j = 0 :=
              List.count_eq_zero_of_not_mem hjr
            rw [hc2 j, hcount1 j, if_pos rfl, hzero] at hcnt
            simp only [Bool.and_eq_true, decide_eq_true_eq]
            exact ⟨hroll, by simpa using hcnt⟩
          · exact hjr hj

theorem offsets_length (cc : Int) : (get_neighbor_offsets cc).length = 8 := rfl

theorem offsets_in_range (rc cc i : Nat) (hi : InGrid rc cc i) (N : Nat)
    (hN : N = (rc + 2) * (cc + 2)) :
    ∀ o ∈ get_neighbor_offsets (cc : Int),
      0 ≤ (i : Int) + o ∧ ((i : Int) + o).toNat < N := by
  intro o ho
  obtain ⟨hlo, hhi, _⟩ := inGrid_bounds rc cc i hi
  refine ⟨offsets_nonneg cc i hlo o ho, ?_⟩
  simp only [get_neighbor_offsets, List.mem_cons, List.mem_singleton, List.not_mem_nil,
    or_false] at ho
  omega

/-- One iteration of the `while` loop of `solve` keeps the invariant and makes the number of
pending queue entries plus eight times the number of rolls smaller. -/
theorem remove_step_inv (rc cc : Nat) (R0 : Finset Nat) (hgrid : ∀ r ∈ R0, InGrid rc cc r)
    (st : Removal) (hinv : QueueInv (cc + 2) ((rc + 2) * (cc + 2)) R0 st)
    (hq : st.queue_index < st.remove_index_queue.length) :
    ∃ st2, remove_step (get_neighbor_offsets (cc : Int)) st = some st2 ∧
      QueueInv (cc + 2) ((rc + 2) * (cc + 2)) R0 st2 ∧
      (st2.remove_index_queue.length - st2.queue_index) + 8 * (roll_indices st2.cells).card
        < (st.remove_index_queue.length - st.queue_index)
          + 8 * (roll_indices st.cells).card := by
  obtain ⟨cells, queue, qi, removed⟩ := st
  simp only at hq
  obtain ⟨hlen, hrolls, hcounts, hpending, hqueued, hbounded, hremoved, hlargest⟩ := hinv
  simp only at hlen hrolls hcounts hpending hqueued hbounded hremoved hlargest
  obtain ⟨i, hi⟩ : ∃ i, i = queue[qi] := ⟨_, rfl⟩
  have hdrop : queue.drop qi = i :: queue.drop (qi + 1) := by
    rw [hi]
    exact List.drop_eq_getElem_cons hq
  have hiq : i ∈ queue.drop qi := by rw [hdrop]; exact List.mem_cons_self _ _
  have hiN : i < cells.length := by rw [hlen]; exact hbounded i hiq
  obtain ⟨cell, hcell⟩ : ∃ cell, cell = cells[i] := ⟨_, rfl⟩
  have hget : cells[i]? = some cell := by rw [hcell]; exact List.getElem?_eq_getElem hiN
  have hqget : queue[qi]? = some i := by rw [hi]; exact List.getElem?_eq_getElem hq
  have hsub : ∀ j, j ∈ queue.drop (qi + 1) → j ∈ queue.drop qi := by
    intro j hj
    rw [hdrop]
    exact List.mem_cons_of_mem _ hj
  by_cases hroll : cell.is_roll = false
  · refine ⟨{ cells := cells, remove_index_queue := queue, queue_index := qi + 1,
              rolls_removed := removed }, ?_, ?_, ?_⟩
    · unfold remove_step
      simp only [hqget, hget, if_pos hroll]
    · refine ⟨hlen, hrolls, hcounts, ?_, ?_, ?_, hremoved, hlargest⟩
      · intro j hj hc
        have := hpending j hj hc
        rw [hdrop] at this
        rcases List.mem_cons.1 this with h | h
        · rw [h, has_roll_eq _ _ _ hget, hroll] at hj
          exact absurd hj (by simp)
        · exact h
      · intro j hj
        exact hqueued j (hsub j hj)
      · intro j hj
        exact hbounded j (hsub j hj)
    · simp only
      omega
  · have hroll2 : cell.is_roll = true := by simpa using hroll
    have hhas : has_roll cells i = true := by rw [has_roll_eq _ _ _ hget]; exact hroll2
    have hiR : i ∈ roll_indices cells := (mem_roll_indices cells i).2 hhas
    have hiR0 : i ∈ R0 := hrolls hiR
    have higrid := hgrid i hiR0
    obtain ⟨hlo, hhi, hcc⟩ := inGrid_bounds rc cc i higrid
    obtain ⟨cells_a, hcells_a⟩ : ∃ cells_a, cells_a
        = cells.set i { cell with is_roll := false } := ⟨_, rfl⟩
    have hlen_a : cells_a.length = (rc + 2) * (cc + 2) := by
      rw [hcells_a, List.length_set, hlen]
    have hroll_a : ∀ j, has_roll cells_a j = if j = i then false else has_roll cells j := by
      intro j
      rw [hcells_a, has_roll_set _ _ _ _ hiN]
    have hcount_a : ∀ j, count_of cells_a j = count_of cells j := by
      intro j
      rw [hcells_a, count_of_set _ _ _ _ hiN]
      by_cases hj : j = i
      · rw [if_pos hj, hj, count_of_eq _ _ _ hget]
      · rw [if_neg hj]
    obtain ⟨cells2, ext, h2, hlen2, hr2, hc2, hel, hv5, hv6⟩ :=
      visit_neighbors_spec i (get_neighbor_offsets (cc : Int)) cells_a queue
        (fun o ho => by
          rw [hlen_a]
          exact offsets_in_range rc cc i higrid _ rfl o ho)
    rw [offsets_map cc i hlo] at hc2 hv6
    rw [offsets_length] at hel
    have hroll2 : ∀ j, has_roll cells2 j = if j = i then false else has_roll cells j := by
      intro j
      rw [hr2 j, hroll_a j]
    have hcount2 : ∀ j, count_of cells2 j
        = count_of cells j - (((neighbor_indices (cc + 2) i).count j : Nat) : Int) := by
      intro j
      rw [hc2 j, hcount_a j]
    have hR2 : roll_indices cells2 = (roll_indices cells).erase i := by
      ext j
      rw [Finset.mem_erase, mem_roll_indices, mem_roll_indices, hroll2 j]
      by_cases hj : j = i
      · simp [hj]
      · simp [hj]
    have hcard : (roll_indices cells2).card + 1 = (roll_indices cells).card := by
      rw [hR2]
      exact Finset.card_erase_add_one hiR
    have hdrop2 : (queue ++ ext).drop (qi + 1) = queue.drop (qi + 1) ++ ext :=
      List.drop_append_of_le_length (by omega)
    refine ⟨{ cells := cells2, remove_index_queue := queue ++ ext, queue_index := qi + 1,
              rolls_removed := removed + 1 }, ?_, ?_, ?_⟩
    · unfold remove_step
      simp only [hqget, hget, if_neg hroll, ← hcells_a, h2]
    · refine ⟨?_, ?_, ?_, ?_, ?_, ?_, ?_, ?_⟩
      · simp only
        rw [hlen2, hlen_a]
      · simp only
        rw [hR2]
        exact fun j hj => hrolls (Finset.mem_of_mem_erase hj)
      · intro c hc
        simp only
        rw [hcount2 c, hcounts c hc, hR2]
        have := Finset.add_sum_erase (roll_indices cells)
          (fun roll => (neighbor_indices (cc + 2) roll).count c) hiR
        unfold weight
        rw [← this]
        push_cast
        ring
      · intro j hj hc
        simp only at hj hc ⊢
        rw [hdrop2]
        rw [hroll2 j] at hj
        have hji : j ≠ i := by
          intro h
          rw [if_pos h] at hj
          exact absurd hj (by simp)
        rw [if_neg hji] at hj
        by_cases hjn : j ∈ neighbor_indices (cc + 2) i
        · apply List.mem_append_right
          exact hv6 j hjn (by rw [hroll_a j, if_neg hji]; exact hj) hc
        · apply List.mem_append_left
          rw [hcount2 j, List.count_eq_zero_of_not_mem hjn] at hc
          have := hpending j hj (by simpa using hc)
          rw [hdrop] at this
          rcases List.mem_cons.1 this with h | h
          · exact absurd h hji
          · exact h
      · intro j hj hr
        simp only at hj hr ⊢
        rw [hdrop2] at hj
        rw [hroll2 j] at hr
        have hji : j ≠ i := by
          intro h
          rw [if_pos h] at hr
          exact absurd hr (by simp)
        rw [if_neg hji] at hr
        rcases List.mem_append.1 hj with h | h
        · have := hqueued j (hsub j h) hr
          rw [hcount2 j]
          have h0 : (0 : Int) ≤ (((neighbor_indices (cc + 2) i).count j : Nat) : Int) :=
            Int.ofNat_nonneg _
          omega
        · exact (hv5 j h).2
      · intro j hj
        simp only at hj
        rw [hdrop2] at hj
        rcases List.mem_append.1 hj with h | h
        · exact hbounded j (hsub j h)
        · have := has_roll_lt cells_a j (hv5 j h).1
          omega
      · simp only
        have : ((roll_indices cells).card : Int) = ((roll_indices cells2).card : Int) + 1 := by
          rw [← hcard]
          push_cast
          ring
        omega
      · intro T hT hstable
        simp only
        rw [hR2]
        have hTR := hlargest T hT hstable
        apply Finset.subset_erase.2
        refine ⟨hTR, ?_⟩
        intro hiT
        have h4 := hstable i hiT
        have hle : (T.filter (fun other => other ∈ neighbor_indices (cc + 2) i)).card
            ≤ ((roll_indices cells).filter
                (fun other => other ∈ neighbor_indices (cc + 2) i)).card :=
          Finset.card_le_card (Finset.filter_subset_filter _ hTR)
        have hw := weight_eq_card rc cc (roll_indices cells)
          (fun r hr => hgrid r (hrolls hr)) i higrid
        have hc := hcounts i hiR0
        have hlt := hqueued i hiq hhas
        rw [hc] at hlt
        have : weight (cc + 2) (roll_indices cells) i < 4 := by exact_mod_cast hlt
        omega
    · simp only [List.length_append]
      omega

/-- The `while` loop of `solve` ends, with the invariant and an exhausted queue, once the
bound on its iterations exceeds the number of pending queue entries plus eight times the
number of rolls. -/
theorem remove_loop_spec (rc cc : Nat) (R0 : Finset Nat)
    (hgrid : ∀ r ∈ R0, InGrid rc cc r) :
    ∀ (fuel : Nat) (st : Removal), QueueInv (cc + 2) ((rc + 2) * (cc + 2)) R0 st →
      (st.remove_index_queue.length - st.queue_index) + 8 * (roll_indices st.cells).card
        < fuel →
      ∃ st2, remove_loop (get_neighbor_offsets (cc : Int)) fuel st = some st2 ∧
        QueueInv (cc + 2) ((rc + 2) * (cc + 2)) R0 st2 ∧
        st2.remove_index_queue.length ≤ st2.queue_index := by
  intro fuel
  induction fuel with
  | zero =>
    intro st _ h
    omega
  | succ fuel ih =>
    intro st hinv hfuel
    by_cases hq : st.queue_index < st.remove_index_queue.length
    · obtain ⟨st1, h1, hinv1, hlt⟩ := remove_step_inv rc cc R0 hgrid st hinv hq
      obtain ⟨st2, h2, hinv2, hend⟩ := ih st1 hinv1 (by omega)
      refine ⟨st2, ?_, hinv2, hend⟩
      rw [remove_loop, if_pos hq, h1]
      exact h2
    · refine ⟨st, ?_, hinv, by omega⟩
      rw [remove_loop, if_neg hq]

/-- When the queue is exhausted, the rolls that are left are a stable set of indices. -/
theorem stable_of_exhausted (rc cc : Nat) (R0 : Finset Nat)
    (hgrid : ∀ r ∈ R0, InGrid rc cc r) (st : Removal)
    (hinv : QueueInv (cc + 2) ((rc + 2) * (cc + 2)) R0 st)
    (hend : st.remove_index_queue.length ≤ st.queue_index) :
    IndexStable (cc + 2) (roll_indices st.cells) := by
  intro i hi
  have hroll := (mem_roll_indices st.cells i).1 hi
  have hiR0 := hinv.rolls hi
  have hw := weight_eq_card rc cc (roll_indices st.cells)
    (fun r hr => hgrid r (hinv.rolls hr)) i (hgrid i hiR0)
  have hc := hinv.counts i hiR0
  by_contra hlt
  have h4 : count_of st.cells i < 4 := by
    rw [hc]
    have : weight (cc + 2) (roll_indices st.cells) i < 4 := by omega
    exact_mod_cast this
  have := hinv.pending i hroll h4
  rw [List.drop_eq_nil_of_le hend] at this
  simp at this

/-- The invariant holds when the `while` loop of `solve` is entered. -/
theorem queueInv_init (rc cc : Nat) (R0 : Finset Nat)
    (cells : List Cell) (hlen : cells.length = (rc + 2) * (cc + 2))
    (hr : ∀ i, has_roll cells i = true ↔ i ∈ R0)
    (hc : ∀ i, count_of cells i = ((weight (cc + 2) R0 i : Nat) : Int)) :
    QueueInv (cc + 2) ((rc + 2) * (cc + 2)) R0
      { cells := cells, remove_index_queue := initial_queue cells, queue_index := 0,
        rolls_removed := 0 } := by
  have hR : roll_indices cells = R0 := by
    ext i
    rw [mem_roll_indices, hr i]
  refine ⟨hlen, ?_, ?_, ?_, ?_, ?_, ?_, ?_⟩
  · simp only
    rw [hR]
  · intro i _
    simp only
    rw [hR, hc i]
  · intro i hi hcnt
    simp only at hi hcnt ⊢
    rw [List.drop_zero]
    exact (mem_initial_queue cells i).2 ⟨hi, hcnt⟩
  · intro i hi _
    simp only at hi ⊢
    rw [List.drop_zero] at hi
    exact ((mem_initial_queue cells i).1 hi).2
  · intro i hi
    simp only at hi
    rw [List.drop_zero] at hi
    rw [← hlen]
    exact has_roll_lt cells i ((mem_initial_queue cells i).1 hi).1
  · simp only
    rw [hR]
    simp
  · intro T hT _
    simp only
    rw [hR]
    exact hT

theorem mem_grid_positions (rc cc : Nat) (pos : Nat × Nat) :
    pos ∈ grid_positions rc cc ↔ pos.1 < rc ∧ pos.2 < cc := by
  unfold grid_positions
  rw [Finset.mem_product, Finset.mem_range, Finset.mem_range]

theorem inGrid_cell_index (rc cc : Nat) (pos : Nat × Nat) (h : pos ∈ grid_positions rc cc) :
    InGrid rc cc (cell_index cc pos) := by
  rw [mem_grid_positions] at h
  exact ⟨pos.1, pos.2, h.1, h.2, rfl⟩

/-- The cell of a position in the grid has as neighbours the cells of the eight neighbours of
the position. -/
theorem mem_neighbor_indices_iff (cc : Nat) (pos other : Nat × Nat) (hp : pos.2 < cc)
    (ho : other.2 < cc) :
    cell_index cc other ∈ neighbor_indices (cc + 2) (cell_index cc pos)
      ↔ adjacent pos other := by
  obtain ⟨r, c⟩ := pos
  obtain ⟨r2, c2⟩ := other
  simp only at hp ho
  simp only [cell_index, neighbor_indices, adjacent, List.mem_cons, List.mem_singleton,
    List.not_mem_nil, or_false, ne_eq, Prod.mk.injEq, not_and]
  have hb := le_row_base r (cc + 2)
  have hb2 := le_row_base r2 (cc + 2)
  rcases Nat.lt_trichotomy r r2 with hlt | heq | hgt
  · rcases Nat.lt_or_ge (r + 1) r2 with hfar | hnear
    · have h1 := mul_succ_le (r + 1) r2 (cc + 2) hfar
      have h2 : (r + 1 + 1) * (cc + 2) = (r + 1) * (cc + 2) + (cc + 2) := by ring
      omega
    · have h1 : r2 = r + 1 := by omega
      have h2 : (r2 + 1) * (cc + 2) = (r + 1) * (cc + 2) + (cc + 2) := by rw [h1]; ring
      omega
  · have h2 : (r2 + 1) * (cc + 2) = (r + 1) * (cc + 2) := by rw [heq]
    omega
  · rcases Nat.lt_or_ge (r2 + 1) r with hfar | hnear
    · have h1 := mul_succ_le (r2 + 1) r (cc + 2) hfar
      have h2 : (r2 + 1 + 1) * (cc + 2) = (r2 + 1) * (cc + 2) + (cc + 2) := by ring
      omega
    · have h1 : r = r2 + 1 := by omega
      have h2 : (r + 1) * (cc + 2) = (r2 + 1) * (cc + 2) + (cc + 2) := by rw [h1]; ring
      omega

theorem cell_index_inj (cc : Nat) (pos other : Nat × Nat) (hp : pos.2 < cc)
    (ho : other.2 < cc) (h : cell_index cc pos = cell_index cc other) : pos = other := by
  obtain ⟨r, c⟩ := pos
  obtain ⟨r2, c2⟩ := other
  simp only at hp ho
  simp only [cell_index] at h
  simp only [Prod.mk.injEq]
  rcases Nat.lt_trichotomy r r2 with hlt | heq | hgt
  · have h1 := mul_succ_le r r2 (cc + 2) hlt
    omega
  · have h2 : (r2 + 1) * (cc + 2) = (r + 1) * (cc + 2) := by rw [heq]
    omega
  · have h1 := mul_succ_le r2 r (cc + 2) hgt
    omega

theorem cell_index_injOn (rc cc : Nat) (S : Finset (Nat × Nat))
    (hS : S ⊆ grid_positions rc cc) : Set.InjOn (cell_index cc) (S : Set (Nat × Nat)) := by
  intro a ha b hb hab
  have h1 := (mem_grid_positions rc cc a).1 (hS ha)
  have h2 := (mem_grid_positions rc cc b).1 (hS hb)
  exact cell_index_inj cc a b h1.2 h2.2 hab

theorem card_filter_neighbors (rc cc : Nat) (S : Finset (Nat × Nat))
    (hS : S ⊆ grid_positions rc cc) (pos : Nat × Nat) (hpos : pos ∈ grid_positions rc cc) :
    ((S.image (cell_index cc)).filter
        (fun j => j ∈ neighbor_indices (cc + 2) (cell_index cc pos))).card
      = (S.filter (fun other => adjacent pos other)).card := by
  have hpc := ((mem_grid_positions rc cc pos).1 hpos).2
  have himg : (S.image (cell_index cc)).filter
        (fun j => j ∈ neighbor_indices (cc + 2) (cell_index cc pos))
      = (S.filter (fun other => adjacent pos other)).image (cell_index cc) := by
    ext j
    simp only [Finset.mem_filter, Finset.mem_image]
    constructor
    · rintro ⟨⟨other, hoS, rfl⟩, hmem⟩
      have hoc := ((mem_grid_positions rc cc other).1 (hS hoS)).2
      exact ⟨other, ⟨hoS, (mem_neighbor_indices_iff cc pos other hpc hoc).1 hmem⟩, rfl⟩
    · rintro ⟨other, ⟨hoS, hadj⟩, rfl⟩
      have hoc := ((mem_grid_positions rc cc other).1 (hS hoS)).2
      exact ⟨⟨other, hoS, rfl⟩, (mem_neighbor_indices_iff cc pos other hpc hoc).2 hadj⟩
  rw [himg]
  apply Finset.card_image_of_injOn
  exact cell_index_injOn rc cc _ (fun a ha => hS (Finset.mem_of_mem_filter a ha))

/-- A set of positions of the grid is stable exactly if the set of their cells is. -/
theorem stable_iff_indexStable (rc cc : Nat) (S : Finset (Nat × Nat))
    (hS : S ⊆ grid_positions rc cc) :
    Stable S ↔ IndexStable (cc + 2) (S.image (cell_index cc)) := by
  constructor
  · intro h i hi
    obtain ⟨pos, hpos, rfl⟩ := Finset.mem_image.1 hi
    rw [card_filter_neighbors rc cc S hS pos (hS hpos)]
    exact h pos hpos
  · intro h pos hpos
    rw [← card_filter_neighbors rc cc S hS pos (hS hpos)]
    exact h _ (Finset.mem_image_of_mem _ hpos)

theorem roll_positions_subset (lines : List (List Char)) :
    roll_positions lines ⊆ grid_positions lines.length (lines.headD []).length := by
  unfold roll_positions
  exact Finset.filter_subset _ _

end Day04

namespace Day05

open Cpp

/-- What the sorted order says of a node and a later one: the ids ascend, and for equal ids
start nodes come first and end nodes last. -/
theorem lek_spec {a b : Node} (h : a = b ∨ compare_nodes a b = true) :
    a.id ≤ b.id ∧ (a.id = b.id → type_rank a.node_type ≤ type_rank b.node_type) := by
  rcases h with h | h
  · subst h; exact ⟨le_refl _, fun _ => le_refl _⟩
  · obtain ⟨ta, ia⟩ := a
    obtain ⟨tb, ib⟩ := b
    unfold compare_nodes at h
    by_cases hid : ia = ib
    · subst hid
      refine ⟨le_refl _, fun _ => ?_⟩
      cases ta <;> cases tb <;> simp [type_rank] at h ⊢
    · simp only [hid, if_false, decide_eq_true_eq] at h
      exact ⟨le_of_lt h, fun heq => absurd heq hid⟩

theorem countP_eq_zero_of {α : Type} (p : α → Bool) (l : List α) (h : ∀ a ∈ l, p a = false) :
    l.countP p = 0 := by
  rw [List.countP_eq_zero]
  intro a ha
  simp [h a ha]

theorem countP_congr_of {α : Type} (p q : α → Bool) (l : List α)
    (h : ∀ a ∈ l, p a = q a) : l.countP p = l.countP q := by
  induction l with
  | nil => rfl
  | cons a l ih =>
    rw [List.countP_cons, List.countP_cons, ih (fun x hx => h x (by simp [hx])),
      h a (by simp)]

theorem cov_append (l1 l2 : List Node) (x : Int) : cov (l1 ++ l2) x = cov l1 x + cov l2 x := by
  unfold cov
  rw [List.countP_append, List.countP_append]
  push_cast
  ring

theorem cov_perm {l1 l2 : List Node} (h : l1.Perm l2) (x : Int) : cov l1 x = cov l2 x := by
  unfold cov
  rw [h.countP_eq, h.countP_eq]

theorem open_ranges_append (l1 l2 : List Node) :
    open_ranges (l1 ++ l2) = open_ranges l1 + open_ranges l2 := by
  unfold open_ranges
  rw [List.countP_append, List.countP_append]
  push_cast
  ring

theorem cov_ingredient_nodes (ids : List Int) (x : Int) : cov (ingredient_nodes ids) x = 0 := by
  unfold cov ingredient_nodes
  rw [countP_eq_zero_of _ _ (by
      intro a ha
      obtain ⟨v, _, rfl⟩ := List.mem_map.mp ha
      simp),
    countP_eq_zero_of _ _ (by
      intro a ha
      obtain ⟨v, _, rfl⟩ := List.mem_map.mp ha
      simp)]
  rfl

/-- On the nodes of valid ranges, `cov` counts the ranges that contain `x`. -/
theorem cov_range_nodes : ∀ (ranges : List (Int × Int)) (x : Int),
    (∀ r ∈ ranges, r.1 ≤ r.2) →
    cov (range_nodes ranges) x = (ranges.countP (fun r => decide (r.1 ≤ x ∧ x ≤ r.2)) : Nat) := by
  intro ranges
  induction ranges with
  | nil => intro x _; rfl
  | cons r rest ih =>
    intro x hv
    have hr := hv r (by simp)
    have e : range_nodes (r :: rest)
        = [{ node_type := NodeType.RangeStart, id := r.1 },
           { node_type := NodeType.RangeEnd, id := r.2 }] ++ range_nodes rest := by
      simp [range_nodes]
    rw [e, cov_append, ih x (fun q hq => hv q (by simp [hq])), List.countP_cons]
    have h2 : cov [{ node_type := NodeType.RangeStart, id := r.1 },
        { node_type := NodeType.RangeEnd, id := r.2 }] x
        = if r.1 ≤ x ∧ x ≤ r.2 then 1 else 0 := by
      unfold cov
      simp only [List.countP_cons, List.countP_nil, decide_eq_true_eq, reduceCtorEq, false_and,
        true_and, if_false, Nat.zero_add, Nat.add_zero]
      by_cases h1 : r.1 ≤ x <;> by_cases h3 : r.2 < x <;> simp [h1, h3] <;> omega
    rw [h2]
    by_cases hc : r.1 ≤ x ∧ x ≤ r.2
    · simp only [hc, and_self, if_true, decide_True]
      push_cast
      ring
    · simp only [hc, if_false, decide_False]
      simp

theorem cov_range_nodes_pos (ranges : List (Int × Int)) (x : Int)
    (hv : ∀ r ∈ ranges, r.1 ≤ r.2) :
    0 < cov (range_nodes ranges) x ↔ in_some_range ranges x = true := by
  rw [cov_range_nodes ranges x hv]
  unfold in_some_range
  rw [List.any_eq_true]
  constructor
  · intro h
    have h2 : 0 < ranges.countP (fun r => decide (r.1 ≤ x ∧ x ≤ r.2)) := by exact_mod_cast h
    obtain ⟨r, hr, hp⟩ := List.countP_pos_iff.mp h2
    exact ⟨r, hr, hp⟩
  · rintro ⟨r, hr, hp⟩
    have : 0 < ranges.countP (fun r => decide (r.1 ≤ x ∧ x ≤ r.2)) :=
      List.countP_pos_iff.mpr ⟨r, hr, hp⟩
    exact_mod_cast this

theorem cov_range_nodes_nonneg (ranges : List (Int × Int)) (x : Int)
    (hv : ∀ r ∈ ranges, r.1 ≤ r.2) : 0 ≤ cov (range_nodes ranges) x := by
  rw [cov_range_nodes ranges x hv]
  exact Int.natCast_nonneg _

namespace SolveA

/-- At an ingredient node of the sorted vector, the depth is the number of ranges that
contain the id of the node. -/
theorem depth_at_ingredient (P R : List Node) (n : Node)
    (hs : (P ++ n :: R).Pairwise (fun a b => a = b ∨ compare_nodes a b = true))
    (hn : n.node_type = NodeType.Ingredient) :
    cov (P ++ n :: R) n.id = open_ranges P := by
  have hP : ∀ p ∈ P, p = n ∨ compare_nodes p n = true := fun p hp =>
    (List.pairwise_append.mp hs).2.2 p hp n (by simp)
  have hR : ∀ r ∈ R, n = r ∨ compare_nodes n r = true := fun r hr =>
    List.rel_of_pairwise_cons (List.pairwise_append.mp hs).2.1 hr
  have e : P ++ n :: R = P ++ ([n] ++ R) := by simp
  rw [e, cov_append, cov_append]
  have h1 : cov [n] n.id = 0 := by
    unfold cov
    simp [hn]
  have h2 : cov R n.id = 0 := by
    unfold cov
    rw [countP_eq_zero_of _ _ (by
        intro r hr
        obtain ⟨hle, hrank⟩ := lek_spec (hR r hr)
        rw [decide_eq_false_iff_not]
        rintro ⟨ht, hid⟩
        have := hrank (le_antisymm hle hid)
        rw [hn, ht] at this
        simp [type_rank] at this),
      countP_eq_zero_of _ _ (by
        intro r hr
        obtain ⟨hle, _⟩ := lek_spec (hR r hr)
        rw [decide_eq_false_iff_not]
        rintro ⟨_, hid⟩
        omega)]
    rfl
  have h3 : cov P n.id = open_ranges P := by
    unfold cov open_ranges
    rw [countP_congr_of _ (fun n => decide (n.node_type = NodeType.RangeStart)) P (by
        intro p hp
        obtain ⟨hle, _⟩ := lek_spec (hP p hp)
        simp [hle]),
      countP_congr_of (fun p => decide (p.node_type = NodeType.RangeEnd ∧ p.id < n.id))
        (fun n => decide (n.node_type = NodeType.RangeEnd)) P (by
        intro p hp
        obtain ⟨hle, hrank⟩ := lek_spec (hP p hp)
        by_cases ht : p.node_type = NodeType.RangeEnd
        · have hlt : p.id < n.id := by
            rcases lt_or_eq_of_le hle with h | h
            · exact h
            · have := hrank h
              rw [hn, ht] at this
              simp [type_rank] at this
          simp [ht, hlt]
        · simp [ht])]
  rw [h1, h2, h3]
  ring

/-- The loop of `solve` over a sorted vector: the count is the number of ingredient nodes
whose id is contained in a range. -/
theorem foldl_sweep (L : List Node)
    (hs : L.Pairwise (fun a b => a = b ∨ compare_nodes a b = true)) :
    ∀ (R P : List Node) (st : Sweep), P ++ R = L →
      st.depth = open_ranges P →
      st.count = (P.countP
        (fun n => decide (n.node_type = NodeType.Ingredient ∧ 0 < cov L n.id)) : Nat) →
      (R.foldl sweep_step st).count = (L.countP
        (fun n => decide (n.node_type = NodeType.Ingredient ∧ 0 < cov L n.id)) : Nat) := by
  intro R
  induction R with
  | nil =>
    intro P st hPR _ hc
    rw [List.append_nil] at hPR
    rw [List.foldl_nil, hc, hPR]
  | cons n R ih =>
    intro P st hPR hd hc
    rw [List.foldl_cons]
    apply ih (P ++ [n]) (sweep_step st n) (by rw [← hPR]; simp)
    · rw [open_ranges_append]
      unfold sweep_step
      cases hn : n.node_type <;> simp [open_ranges, hn, hd]
      ring
    · rw [List.countP_append]
      unfold sweep_step
      cases hn : n.node_type
      · simp [hn, hc]
      · simp [hn, hc]
      · have hdepth : cov L n.id = st.depth := by
          rw [hd, ← hPR]
          exact depth_at_ingredient P R n (hPR ▸ hs) hn
        simp only [hc, List.countP_cons, List.countP_nil, hn, true_and, hdepth,
          decide_eq_true_eq, Nat.zero_add]
        by_cases hpos : 0 < st.depth
        · simp [hpos]
        · simp [hpos]

/-- The loop of `solve` on the sorted nodes of valid ranges and ingredient ids. -/
theorem count_fresh_eq (S : NodeSorter) (ranges : List (Int × Int)) (ids : List Int)
    (hv : ∀ r ∈ ranges, r.1 ≤ r.2)
    (hs : sortable (range_nodes ranges ++ ingredient_nodes ids)) :
    count_fresh (S.sort (range_nodes ranges ++ ingredient_nodes ids))
      = (ids.countP (in_some_range ranges) : Nat) := by
  unfold count_fresh
  rw [foldl_sweep _ (S.sorted _ hs) _ [] _ (List.nil_append _) (by simp [open_ranges])
    (by simp)]
  have hcov : ∀ x, cov (S.sort (range_nodes ranges ++ ingredient_nodes ids)) x
      = cov (range_nodes ranges) x := by
    intro x
    rw [cov_perm (S.perm _ hs) x, cov_append, cov_ingredient_nodes, add_zero]
  rw [(S.perm _ hs).countP_eq, List.countP_append]
  have h1 : (range_nodes ranges).countP (fun n => decide (n.node_type = NodeType.Ingredient ∧
      0 < cov (S.sort (range_nodes ranges ++ ingredient_nodes ids)) n.id)) = 0 := by
    apply countP_eq_zero_of
    intro a ha
    unfold range_nodes at ha
    obtain ⟨r, _, hr⟩ := List.mem_flatMap.mp ha
    rw [decide_eq_false_iff_not]
    rintro ⟨ht, _⟩
    simp only [List.mem_cons, List.mem_singleton, List.not_mem_nil, or_false] at hr
    rcases hr with h | h <;> rw [h] at ht <;> exact NodeType.noConfusion ht
  have h2 : (ingredient_nodes ids).countP (fun n => decide (n.node_type = NodeType.Ingredient ∧
      0 < cov (S.sort (range_nodes ranges ++ ingredient_nodes ids)) n.id))
      = ids.countP (in_some_range ranges) := by
    have hmap : ∀ q : Node → Bool, (ingredient_nodes ids).countP q
        = ids.countP (fun v => q { node_type := NodeType.Ingredient, id := v }) := by
      intro q
      unfold ingredient_nodes
      rw [List.countP_map]
      rfl
    rw [hmap]
    apply countP_congr_of
    intro v _
    simp only [true_and]
    rw [hcov v]
    by_cases h : in_some_range ranges v = true
    · rw [h, decide_eq_true_iff]
      exact (cov_range_nodes_pos ranges v hv).mpr h
    · have h3 : ¬ 0 < cov (range_nodes ranges) v := fun h4 =>
        h ((cov_range_nodes_pos ranges v hv).mp h4)
      rw [Bool.not_eq_true] at h
      rw [h, decide_eq_false_iff_not]
      exact h3
  rw [h1, h2, Nat.zero_add]

end SolveA

theorem countP_split {α : Type} (p q : α → Bool) (l : List α) :
    l.countP p = l.countP (fun a => p a && q a) + l.countP (fun a => p a && !q a) := by
  induction l with
  | nil => rfl
  | cons a l ih =>
    simp only [List.countP_cons, ih]
    cases p a <;> cases q a <;> simp <;> omega

theorem cov_snoc_start (P : List Node) (v x : Int) :
    cov (P ++ [{ node_type := NodeType.RangeStart, id := v }]) x
      = cov P x + (if v ≤ x then 1 else 0) := by
  rw [cov_append]
  congr 1
  unfold cov
  by_cases h : v ≤ x <;> simp [h]

theorem cov_snoc_end (P : List Node) (v x : Int) :
    cov (P ++ [{ node_type := NodeType.RangeEnd, id := v }]) x
      = cov P x - (if v < x then 1 else 0) := by
  rw [cov_append, sub_eq_add_neg]
  congr 1
  unfold cov
  by_cases h : v < x <;> simp [h]

/-- To the right of all nodes seen, `cov` is the number of open ranges. -/
theorem cov_right (P : List Node) (x : Int) (h1 : ∀ p ∈ P, p.id ≤ x)
    (h2 : ∀ p ∈ P, p.node_type = NodeType.RangeEnd → p.id < x) : cov P x = open_ranges P := by
  unfold cov open_ranges
  rw [countP_congr_of _ (fun n => decide (n.node_type = NodeType.RangeStart)) P (by
      intro p hp
      simp [h1 p hp]),
    countP_congr_of (fun p => decide (p.node_type = NodeType.RangeEnd ∧ p.id < x))
      (fun n => decide (n.node_type = NodeType.RangeEnd)) P (by
      intro p hp
      by_cases ht : p.node_type = NodeType.RangeEnd
      · simp [ht, h2 p hp ht]
      · simp [ht])]

/-- Nodes that all lie at or to the right of `x` do not lower `cov` at `x`. -/
theorem cov_nonneg_right (R : List Node) (x : Int) (h : ∀ r ∈ R, x ≤ r.id) : 0 ≤ cov R x := by
  unfold cov
  rw [countP_eq_zero_of (fun n => decide (n.node_type = NodeType.RangeEnd ∧ n.id < x)) R (by
    intro r hr
    rw [decide_eq_false_iff_not]
    rintro ⟨_, hlt⟩
    have := h r hr
    omega)]
  simp

theorem open_ranges_snoc_start (P : List Node) (v : Int) :
    open_ranges (P ++ [{ node_type := NodeType.RangeStart, id := v }]) = open_ranges P + 1 := by
  rw [open_ranges_append]
  congr 1

theorem open_ranges_snoc_end (P : List Node) (v : Int) :
    open_ranges (P ++ [{ node_type := NodeType.RangeEnd, id := v }]) = open_ranges P - 1 := by
  rw [open_ranges_append, sub_eq_add_neg]
  congr 1

/-- At an end node of the sorted vector at least one range is open. -/
theorem open_ranges_pos_at_end (P R : List Node) (v : Int)
    (hs : (P ++ { node_type := NodeType.RangeEnd, id := v } :: R).Pairwise
      (fun a b => a = b ∨ compare_nodes a b = true))
    (hE : ((P ++ { node_type := NodeType.RangeEnd, id := v } :: R).countP
        (fun n => decide (n.node_type = NodeType.RangeEnd ∧ n.id = v)) : Int)
      ≤ cov (P ++ { node_type := NodeType.RangeEnd, id := v } :: R) v) :
    1 ≤ open_ranges P := by
  have hP : ∀ p ∈ P, p.id ≤ v := fun p hp =>
    (lek_spec ((List.pairwise_append.mp hs).2.2 p hp
      { node_type := NodeType.RangeEnd, id := v } (by simp))).1
  have hR : ∀ r ∈ R, v ≤ r.id ∧ (r.id = v → r.node_type = NodeType.RangeEnd) := by
    intro r hr
    obtain ⟨h1, h2⟩ := lek_spec (List.rel_of_pairwise_cons (List.pairwise_append.mp hs).2.1 hr)
    refine ⟨h1, fun heq => ?_⟩
    have h3 := h2 heq.symm
    simp only [type_rank] at h3
    cases ht : r.node_type <;> simp [ht, type_rank] at h3 ⊢
  have e : P ++ { node_type := NodeType.RangeEnd, id := v } :: R
      = P ++ ([{ node_type := NodeType.RangeEnd, id := v }] ++ R) := by simp
  rw [e, cov_append, cov_append, List.countP_append, List.countP_append] at hE
  have c1 : cov [({ node_type := NodeType.RangeEnd, id := v } : Node)] v = 0 := by
    unfold cov; simp
  have c2 : cov R v = 0 := by
    unfold cov
    rw [countP_eq_zero_of _ R (by
        intro r hr
        rw [decide_eq_false_iff_not]
        rintro ⟨ht, hle⟩
        have h3 := (hR r hr).2 (le_antisymm hle (hR r hr).1)
        rw [ht] at h3
        exact NodeType.noConfusion h3),
      countP_eq_zero_of _ R (by
        intro r hr
        rw [decide_eq_false_iff_not]
        rintro ⟨_, hlt⟩
        have := (hR r hr).1
        omega)]
    rfl
  have c3 : cov P v = open_ranges P
      + (P.countP (fun n => decide (n.node_type = NodeType.RangeEnd ∧ n.id = v)) : Int) := by
    unfold cov open_ranges
    rw [countP_congr_of (fun n => decide (n.node_type = NodeType.RangeStart ∧ n.id ≤ v))
        (fun n => decide (n.node_type = NodeType.RangeStart)) P (by
        intro p hp
        simp [hP p hp]),
      countP_split (fun n => decide (n.node_type = NodeType.RangeEnd))
        (fun n => decide (n.id < v)) P,
      countP_congr_of (fun n => decide (n.node_type = NodeType.RangeEnd ∧ n.id < v))
        (fun a => decide (a.node_type = NodeType.RangeEnd) && decide (a.id < v)) P (by
        intro p _; simp),
      countP_congr_of (fun n => decide (n.node_type = NodeType.RangeEnd ∧ n.id = v))
        (fun a => decide (a.node_type = NodeType.RangeEnd) && !decide (a.id < v)) P (by
        intro p hp
        have := hP p hp
        by_cases ht : p.node_type = NodeType.RangeEnd
        · by_cases hlt : p.id < v
          · simp [ht, hlt, ne_of_lt hlt]
          · have : p.id = v := by omega
            simp [ht, this]
        · simp [ht])]
    push_cast
    ring
  have c4 : List.countP (fun n => decide (n.node_type = NodeType.RangeEnd ∧ n.id = v))
      [({ node_type := NodeType.RangeEnd, id := v } : Node)] = 1 := by simp
  rw [c1, c2, c3, c4] at hE
  push_cast at hE
  have := Int.natCast_nonneg (List.countP
    (fun n => decide (n.node_type = NodeType.RangeEnd ∧ n.id = v)) R)
  omega

namespace SolveB

theorem step_start_closed (st : Sweep) (v : Int) (h : st.depth = 0) :
    sweep_step st { node_type := NodeType.RangeStart, id := v }
      = { start := v, count := st.count, depth := st.depth + 1 } := by
  simp [sweep_step, h]

theorem step_start_open (st : Sweep) (v : Int) (h : st.depth ≠ 0) :
    sweep_step st { node_type := NodeType.RangeStart, id := v }
      = { start := st.start, count := st.count, depth := st.depth + 1 } := by
  simp [sweep_step, h]

theorem step_end_one (st : Sweep) (v : Int) (h : st.depth = 1) :
    sweep_step st { node_type := NodeType.RangeEnd, id := v }
      = { start := st.start,
          count := wrap_long (st.count + wrap_long (wrap_long (v - st.start) + 1)),
          depth := st.depth - 1 } := by
  simp [sweep_step, h]

theorem step_end_more (st : Sweep) (v : Int) (h : st.depth ≠ 1) :
    sweep_step st { node_type := NodeType.RangeEnd, id := v }
      = { start := st.start, count := st.count, depth := st.depth - 1 } := by
  simp [sweep_step, h]

end SolveB

/-- The invariant of the loop of part B `solve` is kept by a start node. -/
theorem unionInv_start (P R : List Node) (v lo hi : Int) (st : SolveB.Sweep)
    (hs : (P ++ { node_type := NodeType.RangeStart, id := v } :: R).Pairwise
      (fun a b => a = b ∨ compare_nodes a b = true))
    (hinv : UnionInv P lo hi st) :
    UnionInv (P ++ [{ node_type := NodeType.RangeStart, id := v }]) lo hi
      (SolveB.sweep_step st { node_type := NodeType.RangeStart, id := v }) := by
  have hP : ∀ p ∈ P, p.id ≤ v ∧ (p.node_type = NodeType.RangeEnd → p.id < v) := by
    intro p hp
    obtain ⟨h1, h2⟩ := lek_spec ((List.pairwise_append.mp hs).2.2 p hp
      { node_type := NodeType.RangeStart, id := v } (by simp))
    refine ⟨h1, fun ht => ?_⟩
    rcases lt_or_eq_of_le h1 with h | h
    · exact h
    · have := h2 h
      rw [ht] at this
      simp [type_rank] at this
  have hright : ∀ x, v ≤ x → cov P x = open_ranges P := fun x hx =>
    cov_right P x (fun p hp => le_trans (hP p hp).1 hx)
      (fun p hp ht => lt_of_lt_of_le ((hP p hp).2 ht) hx)
  by_cases hd : st.depth = 0
  · rw [SolveB.step_start_closed st v hd]
    have hopen : open_ranges P = 0 := by rw [← hinv.depth, hd]
    refine ⟨?_, ?_, ?_, ?_⟩
    · show st.depth + 1 = _
      rw [open_ranges_snoc_start, hinv.depth]
    · show 0 ≤ st.depth + 1
      omega
    · intro h
      have : st.depth + 1 = 0 := h
      omega
    · intro _
      refine ⟨?_, ?_, ⟨{ node_type := NodeType.RangeStart, id := v }, by simp, rfl⟩⟩
      · show st.count = _
        rw [hinv.closed hd]
        congr 2
        apply Finset.filter_congr
        intro x _
        dsimp only
        rw [cov_snoc_start]
        by_cases hx : v ≤ x
        · rw [hright x hx, hopen]
          simp only [lt_self_iff_false, false_iff, not_and, not_lt]
          intro _
          exact hx
        · rw [if_neg hx, add_zero]
          constructor
          · intro h; exact ⟨h, by omega⟩
          · intro h; exact h.1
      · intro x hx
        show 0 < cov (P ++ [{ node_type := NodeType.RangeStart, id := v }]) x
        rw [cov_snoc_start, if_pos hx, hright x hx, hopen]
        norm_num
  · rw [SolveB.step_start_open st v hd]
    have hpos : 0 < st.depth := lt_of_le_of_ne hinv.nonneg (Ne.symm hd)
    obtain ⟨hc, hcover, p, hp, hpid⟩ := hinv.opened hpos
    have hsv : st.start ≤ v := by rw [← hpid]; exact (hP p hp).1
    refine ⟨?_, ?_, ?_, ?_⟩
    · show st.depth + 1 = _
      rw [open_ranges_snoc_start, hinv.depth]
    · show 0 ≤ st.depth + 1
      omega
    · intro h
      have : st.depth + 1 = 0 := h
      omega
    · intro _
      refine ⟨?_, ?_, ⟨p, by simp [hp], hpid⟩⟩
      · show st.count = _
        rw [hc]
        congr 2
        apply Finset.filter_congr
        intro x _
        show (0 < cov P x ∧ x < st.start) ↔ _
        rw [cov_snoc_start]
        constructor
        · rintro ⟨h1, h2⟩
          refine ⟨?_, h2⟩
          split <;> omega
        · rintro ⟨h1, h2⟩
          have h3 : x < st.start := h2
          rw [if_neg (by omega), add_zero] at h1
          exact ⟨h1, h2⟩
      · intro x hx
        have h1 := hcover x hx
        show 0 < cov (P ++ [{ node_type := NodeType.RangeStart, id := v }]) x
        rw [cov_snoc_start]
        split <;> omega

/-- The invariant of the loop of part B `solve` is kept by an end node, as long as the number
of integers covered stays below `2^63`. -/
theorem unionInv_end (P R : List Node) (v lo hi : Int) (st : SolveB.Sweep)
    (hs : (P ++ { node_type := NodeType.RangeEnd, id := v } :: R).Pairwise
      (fun a b => a = b ∨ compare_nodes a b = true))
    (hW : ∀ m ∈ P ++ { node_type := NodeType.RangeEnd, id := v } :: R, lo ≤ m.id ∧ m.id ≤ hi)
    (hE : ((P ++ { node_type := NodeType.RangeEnd, id := v } :: R).countP
        (fun n => decide (n.node_type = NodeType.RangeEnd ∧ n.id = v)) : Int)
      ≤ cov (P ++ { node_type := NodeType.RangeEnd, id := v } :: R) v)
    (hT : ((((Finset.Icc lo hi).filter
        (fun x => 0 < cov (P ++ { node_type := NodeType.RangeEnd, id := v } :: R) x)).card
          : Nat) : Int) < 2 ^ 63)
    (hinv : UnionInv P lo hi st) :
    UnionInv (P ++ [{ node_type := NodeType.RangeEnd, id := v }]) lo hi
      (SolveB.sweep_step st { node_type := NodeType.RangeEnd, id := v }) := by
  have hP : ∀ p ∈ P, p.id ≤ v := fun p hp =>
    (lek_spec ((List.pairwise_append.mp hs).2.2 p hp
      { node_type := NodeType.RangeEnd, id := v } (by simp))).1
  have hR : ∀ r ∈ R, v ≤ r.id := fun r hr =>
    (lek_spec (List.rel_of_pairwise_cons (List.pairwise_append.mp hs).2.1 hr)).1
  have hright : ∀ x, v < x → cov P x = open_ranges P := fun x hx =>
    cov_right P x (fun p hp => le_of_lt (lt_of_le_of_lt (hP p hp) hx))
      (fun p hp _ => lt_of_le_of_lt (hP p hp) hx)
  have hone : 1 ≤ st.depth := by
    rw [hinv.depth]
    exact open_ranges_pos_at_end P R v hs hE
  obtain ⟨hc, hcover, p, hp, hpid⟩ := hinv.opened (by omega)
  have hsv : st.start ≤ v := by rw [← hpid]; exact hP p hp
  have hlo : lo ≤ st.start := by
    rw [← hpid]
    exact (hW p (by simp [hp])).1
  have hhi : v ≤ hi := (hW { node_type := NodeType.RangeEnd, id := v } (by simp)).2
  by_cases hd : st.depth = 1
  · rw [SolveB.step_end_one st v hd]
    have hopen : open_ranges P = 1 := by rw [← hinv.depth, hd]
    -- the integers covered after this node
    have hset : (Finset.Icc lo hi).filter
        (fun x => 0 < cov (P ++ [{ node_type := NodeType.RangeEnd, id := v }]) x)
        = (Finset.Icc lo hi).filter (fun x => 0 < cov P x ∧ x < st.start)
          ∪ Finset.Icc st.start v := by
      ext x
      simp only [Finset.mem_filter, Finset.mem_Icc, Finset.mem_union, cov_snoc_end]
      constructor
      · rintro ⟨⟨h1, h2⟩, h3⟩
        by_cases hxv : v < x
        · rw [if_pos hxv, hright x hxv, hopen] at h3
          omega
        · rw [if_neg hxv, sub_zero] at h3
          by_cases hxs : x < st.start
          · exact Or.inl ⟨⟨h1, h2⟩, h3, hxs⟩
          · exact Or.inr ⟨by omega, by omega⟩
      · rintro (⟨⟨h1, h2⟩, h3, h4⟩ | ⟨h1, h2⟩)
        · refine ⟨⟨h1, h2⟩, ?_⟩
          rw [if_neg (by omega), sub_zero]
          exact h3
        · refine ⟨⟨by omega, by omega⟩, ?_⟩
          rw [if_neg (by omega), sub_zero]
          exact hcover x h1
    have hdisj : Disjoint ((Finset.Icc lo hi).filter (fun x => 0 < cov P x ∧ x < st.start))
        (Finset.Icc st.start v) := by
      rw [Finset.disjoint_left]
      intro x hx1 hx2
      simp only [Finset.mem_filter, Finset.mem_Icc] at hx1 hx2
      omega
    have hcard : ((((Finset.Icc lo hi).filter
        (fun x => 0 < cov (P ++ [{ node_type := NodeType.RangeEnd, id := v }]) x)).card : Nat)
          : Int) = st.count + (v - st.start + 1) := by
      rw [hset, Finset.card_union_of_disjoint hdisj, Int.card_Icc, hc]
      push_cast
      rw [Int.toNat_of_nonneg (by omega)]
      ring
    -- it stays below the total
    have hsub : (Finset.Icc lo hi).filter
        (fun x => 0 < cov (P ++ [{ node_type := NodeType.RangeEnd, id := v }]) x)
        ⊆ (Finset.Icc lo hi).filter
          (fun x => 0 < cov (P ++ { node_type := NodeType.RangeEnd, id := v } :: R) x) := by
      intro x hx
      simp only [Finset.mem_filter] at hx ⊢
      refine ⟨hx.1, ?_⟩
      have hxv : x ≤ v := by
        by_contra hcon
        have h3 := hx.2
        rw [cov_snoc_end, if_pos (by omega), hright x (by omega), hopen] at h3
        omega
      have e : P ++ { node_type := NodeType.RangeEnd, id := v } :: R
          = (P ++ [{ node_type := NodeType.RangeEnd, id := v }]) ++ R := by simp
      rw [e, cov_append]
      have := cov_nonneg_right R x (fun r hr => le_trans hxv (hR r hr))
      omega
    have hle := Finset.card_le_card hsub
    have hle2 : ((((Finset.Icc lo hi).filter
        (fun x => 0 < cov (P ++ [{ node_type := NodeType.RangeEnd, id := v }]) x)).card : Nat)
          : Int) < 2 ^ 63 := by
      have : ((((Finset.Icc lo hi).filter
          (fun x => 0 < cov (P ++ [{ node_type := NodeType.RangeEnd, id := v }]) x)).card : Nat)
            : Int) ≤ ((((Finset.Icc lo hi).filter
          (fun x => 0 < cov (P ++ { node_type := NodeType.RangeEnd, id := v } :: R) x)).card
            : Nat) : Int) := by exact_mod_cast hle
      omega
    have hcount0 : 0 ≤ st.count := by rw [hc]; exact Int.natCast_nonneg _
    rw [hcard] at hle2
    have hw : wrap_long (st.count + wrap_long (wrap_long (v - st.start) + 1))
        = st.count + (v - st.start + 1) := by
      rw [wrap_long_of_range (v := v - st.start) (by omega) (by omega),
        wrap_long_of_range (v := v - st.start + 1) (by omega) (by omega),
        wrap_long_of_range (by omega) (by omega)]
    rw [hw]
    refine ⟨?_, ?_, ?_, ?_⟩
    · show st.depth - 1 = _
      rw [open_ranges_snoc_end, hinv.depth]
    · show 0 ≤ st.depth - 1
      omega
    · intro _
      show st.count + (v - st.start + 1) = _
      rw [hcard]
    · intro h
      have : 0 < st.depth - 1 := h
      omega
  · rw [SolveB.step_end_more st v hd]
    have hopen : 2 ≤ open_ranges P := by rw [← hinv.depth]; omega
    refine ⟨?_, ?_, ?_, ?_⟩
    · show st.depth - 1 = _
      rw [open_ranges_snoc_end, hinv.depth]
    · show 0 ≤ st.depth - 1
      omega
    · intro h
      have : st.depth - 1 = 0 := h
      omega
    · intro _
      refine ⟨?_, ?_, ⟨p, by simp [hp], hpid⟩⟩
      · show st.count = _
        rw [hc]
        congr 2
        apply Finset.filter_congr
        intro x _
        show (0 < cov P x ∧ x < st.start) ↔ _
        rw [cov_snoc_end]
        constructor
        · rintro ⟨h1, h2⟩
          refine ⟨?_, h2⟩
          rw [if_neg (by omega), sub_zero]
          exact h1
        · rintro ⟨h1, h2⟩
          have h3 : x < st.start := h2
          rw [if_neg (by omega), sub_zero] at h1
          exact ⟨h1, h2⟩
      · intro x hx
        have hx2 : st.start ≤ x := hx
        show 0 < cov (P ++ [{ node_type := NodeType.RangeEnd, id := v }]) x
        rw [cov_snoc_end]
        by_cases hxv : v < x
        · rw [if_pos hxv, hright x hxv]
          omega
        · rw [if_neg hxv, sub_zero]
          exact hcover x hx2

theorem mem_covered (ranges : List (Int × Int)) (x : Int) :
    x ∈ covered ranges ↔ ∃ r ∈ ranges, r.1 ≤ x ∧ x ≤ r.2 := by
  induction ranges with
  | nil => simp [covered]
  | cons r rest ih =>
    have e : covered (r :: rest) = Finset.Icc r.1 r.2 ∪ covered rest := rfl
    rw [e, Finset.mem_union, ih, Finset.mem_Icc]
    simp

theorem mem_covered_iff_cov (ranges : List (Int × Int)) (x : Int)
    (hv : ∀ r ∈ ranges, r.1 ≤ r.2) :
    x ∈ covered ranges ↔ 0 < cov (range_nodes ranges) x := by
  rw [mem_covered, cov_range_nodes_pos ranges x hv]
  unfold in_some_range
  rw [List.any_eq_true]
  constructor
  · rintro ⟨r, hr, h⟩
    exact ⟨r, hr, by simpa using h⟩
  · rintro ⟨r, hr, h⟩
    exact ⟨r, hr, by simpa using h⟩

theorem open_ranges_range_nodes (ranges : List (Int × Int)) :
    open_ranges (range_nodes ranges) = 0 := by
  induction ranges with
  | nil => rfl
  | cons r rest ih =>
    have e : range_nodes (r :: rest)
        = [{ node_type := NodeType.RangeStart, id := r.1 },
           { node_type := NodeType.RangeEnd, id := r.2 }] ++ range_nodes rest := by
      simp [range_nodes]
    rw [e, open_ranges_append, ih]
    simp [open_ranges]

theorem open_ranges_perm {l1 l2 : List Node} (h : l1.Perm l2) :
    open_ranges l1 = open_ranges l2 := by
  unfold open_ranges
  rw [h.countP_eq, h.countP_eq]

theorem exists_bounds (l : List Node) : ∃ lo hi, ∀ n ∈ l, lo ≤ n.id ∧ n.id ≤ hi := by
  induction l with
  | nil => exact ⟨0, 0, fun n hn => by simp at hn⟩
  | cons a l ih =>
    obtain ⟨lo, hi, h⟩ := ih
    refine ⟨min lo a.id, max hi a.id, ?_⟩
    intro n hn
    rcases List.mem_cons.mp hn with h1 | h1
    · rw [h1]; exact ⟨min_le_right _ _, le_max_right _ _⟩
    · exact ⟨le_trans (min_le_left _ _) (h n h1).1, le_trans (h n h1).2 (le_max_left _ _)⟩

theorem mem_range_nodes {ranges : List (Int × Int)} {n : Node} (h : n ∈ range_nodes ranges) :
    ∃ r ∈ ranges, (n = { node_type := NodeType.RangeStart, id := r.1 } ∨
      n = { node_type := NodeType.RangeEnd, id := r.2 }) := by
  unfold range_nodes at h
  obtain ⟨r, hr, hn⟩ := List.mem_flatMap.mp h
  simp only [List.mem_cons, List.mem_singleton, List.not_mem_nil, or_false] at hn
  exact ⟨r, hr, hn⟩

/-- The ends of valid ranges at `x` are covered by as many ranges. -/
theorem ends_le_cov : ∀ (ranges : List (Int × Int)) (x : Int), (∀ r ∈ ranges, r.1 ≤ r.2) →
    ((range_nodes ranges).countP
      (fun n => decide (n.node_type = NodeType.RangeEnd ∧ n.id = x)) : Int)
      ≤ cov (range_nodes ranges) x := by
  intro ranges
  induction ranges with
  | nil => intro x _; simp [range_nodes, cov]
  | cons r rest ih =>
    intro x hv
    have hr := hv r (by simp)
    have e : range_nodes (r :: rest)
        = [{ node_type := NodeType.RangeStart, id := r.1 },
           { node_type := NodeType.RangeEnd, id := r.2 }] ++ range_nodes rest := by
      simp [range_nodes]
    have h1 := ih x (fun q hq => hv q (by simp [hq]))
    rw [e, cov_append, List.countP_append]
    have h2 : cov [{ node_type := NodeType.RangeStart, id := r.1 },
        { node_type := NodeType.RangeEnd, id := r.2 }] x
        = if r.1 ≤ x ∧ x ≤ r.2 then 1 else 0 := by
      unfold cov
      simp only [List.countP_cons, List.countP_nil, decide_eq_true_eq, reduceCtorEq, false_and,
        true_and, if_false, Nat.zero_add, Nat.add_zero]
      by_cases h1 : r.1 ≤ x <;> by_cases h3 : r.2 < x <;> simp [h1, h3] <;> omega
    have h3 : List.countP (fun n => decide (n.node_type = NodeType.RangeEnd ∧ n.id = x))
        [({ node_type := NodeType.RangeStart, id := r.1 } : Node),
         { node_type := NodeType.RangeEnd, id := r.2 }] = if r.2 = x then 1 else 0 := by
      by_cases h : r.2 = x <;> simp [h]
    rw [h2, h3]
    push_cast
    by_cases h : r.2 = x
    · rw [if_pos h, if_pos ⟨by omega, by omega⟩]
      omega
    · rw [if_neg h]
      split <;> omega

theorem unionInv_init (lo hi : Int) :
    UnionInv [] lo hi { start := 0, count := 0, depth := 0 } := by
  refine ⟨rfl, le_refl _, ?_, ?_⟩
  · intro _
    show (0 : Int) = _
    have : (Finset.Icc lo hi).filter (fun x => 0 < cov [] x) = ∅ := by
      apply Finset.filter_false_of_mem
      intro x _
      simp [cov]
    rw [this]
    rfl
  · intro h
    exact absurd h (lt_irrefl _)

/-- The loop of part B `solve` over a sorted vector of start and end nodes keeps the
invariant. -/
theorem foldl_unionInv (L : List Node) (lo hi : Int)
    (hs : L.Pairwise (fun a b => a = b ∨ compare_nodes a b = true))
    (hSE : ∀ n ∈ L, n.node_type ≠ NodeType.Ingredient)
    (hW : ∀ n ∈ L, lo ≤ n.id ∧ n.id ≤ hi)
    (hE : ∀ x, (L.countP (fun n => decide (n.node_type = NodeType.RangeEnd ∧ n.id = x)) : Int)
      ≤ cov L x)
    (hT : ((((Finset.Icc lo hi).filter (fun x => 0 < cov L x)).card : Nat) : Int) < 2 ^ 63) :
    ∀ (R P : List Node) (st : SolveB.Sweep), P ++ R = L → UnionInv P lo hi st →
      UnionInv L lo hi (R.foldl SolveB.sweep_step st) := by
  intro R
  induction R with
  | nil =>
    intro P st hPR hinv
    rw [List.append_nil] at hPR
    rw [List.foldl_nil, ← hPR]
    exact hinv
  | cons n R ih =>
    intro P st hPR hinv
    rw [List.foldl_cons]
    apply ih (P ++ [n]) _ (by rw [← hPR]; simp)
    have hn := hSE n (by rw [← hPR]; simp)
    obtain ⟨t, v⟩ := n
    cases t with
    | RangeStart => exact unionInv_start P R v lo hi st (hPR ▸ hs) hinv
    | RangeEnd =>
      exact unionInv_end P R v lo hi st (hPR ▸ hs) (hPR ▸ hW) (hPR ▸ hE v) (hPR ▸ hT) hinv
    | Ingredient => exact absurd rfl hn

namespace SolveB

/-- The loop of part B `solve` on the sorted nodes of valid ranges that cover fewer than
`2^63` integers. -/
theorem count_union_eq (S : NodeSorter) (ranges : List (Int × Int))
    (hv : ∀ r ∈ ranges, r.1 ≤ r.2) (hsize : ((covered ranges).card : Int) < 2 ^ 63)
    (hs : sortable (range_nodes ranges)) :
    count_union (S.sort (range_nodes ranges)) = ((covered ranges).card : Nat) := by
  obtain ⟨lo, hi, hW⟩ := exists_bounds (S.sort (range_nodes ranges))
  have hcov : ∀ x, cov (S.sort (range_nodes ranges)) x = cov (range_nodes ranges) x :=
    fun x => cov_perm (S.perm _ hs) x
  have hset : (Finset.Icc lo hi).filter (fun x => 0 < cov (S.sort (range_nodes ranges)) x)
      = covered ranges := by
    ext x
    rw [Finset.mem_filter, hcov, ← mem_covered_iff_cov ranges x hv, Finset.mem_Icc]
    constructor
    · exact fun h => h.2
    · intro h
      refine ⟨?_, h⟩
      obtain ⟨r, hr, h1, h2⟩ := (mem_covered ranges x).mp h
      have hs1 := hW { node_type := NodeType.RangeStart, id := r.1 }
        ((S.perm _ hs).mem_iff.mpr (by
          unfold range_nodes
          exact List.mem_flatMap.mpr ⟨r, hr, by simp⟩))
      have hs2 := hW { node_type := NodeType.RangeEnd, id := r.2 }
        ((S.perm _ hs).mem_iff.mpr (by
          unfold range_nodes
          exact List.mem_flatMap.mpr ⟨r, hr, by simp⟩))
      simp only at hs1 hs2
      omega
  have hinv := foldl_unionInv (S.sort (range_nodes ranges)) lo hi (S.sorted _ hs)
    (by
      intro n hn
      obtain ⟨r, _, h | h⟩ := mem_range_nodes ((S.perm _ hs).mem_iff.mp hn) <;> rw [h] <;> simp)
    hW
    (by
      intro x
      rw [hcov, (S.perm _ hs).countP_eq]
      exact ends_le_cov ranges x hv)
    (by rw [hset]; exact hsize)
    (S.sort (range_nodes ranges)) [] _ (List.nil_append _) (unionInv_init lo hi)
  unfold count_union
  have hdepth := hinv.depth
  rw [open_ranges_perm (S.perm _ hs), open_ranges_range_nodes] at hdepth
  rw [hinv.closed hdepth, hset]

end SolveB

/-- Function `compare_nodes` orders two nodes in both directions exactly when they have the
same id and the same type, and are no end nodes. -/
theorem compare_both_iff (a b : Node) :
    (compare_nodes a b = true ∧ compare_nodes b a = true)
      ↔ a.id = b.id ∧ a.node_type = b.node_type ∧ a.node_type ≠ NodeType.RangeEnd := by
  obtain ⟨ta, ia⟩ := a
  obtain ⟨tb, ib⟩ := b
  by_cases h : ia = ib
  · subst h
    cases ta <;> cases tb <;> simp [compare_nodes]
  · have h2 : ¬ ib = ia := fun e => h e.symm
    simp only [compare_nodes, h, h2, if_false, decide_eq_true_eq, false_and, iff_false, not_and]
    omega

theorem range_nodes_cons (r : Int × Int) (rs : List (Int × Int)) :
    range_nodes (r :: rs)
      = { node_type := NodeType.RangeStart, id := r.1 }
        :: { node_type := NodeType.RangeEnd, id := r.2 } :: range_nodes rs := by
  simp [range_nodes]

/-- The nodes of ranges with pairwise distinct starts can be sorted. -/
theorem sortable_range_nodes : ∀ (ranges : List (Int × Int)),
    (ranges.map Prod.fst).Nodup → sortable (range_nodes ranges)
  | [], _ => by simp [sortable, range_nodes]
  | r :: rs, h => by
    rw [List.map_cons, List.nodup_cons] at h
    have ih := sortable_range_nodes rs h.2
    rw [range_nodes_cons]
    unfold sortable at ih ⊢
    refine List.Pairwise.cons ?_ (List.Pairwise.cons ?_ ih)
    · intro n hn
      rw [compare_both_iff]
      rintro ⟨h1, h2, _⟩
      rcases List.mem_cons.mp hn with e | hn
      · rw [e] at h2
        exact NodeType.noConfusion h2
      · obtain ⟨q, hq, e | e⟩ := mem_range_nodes hn
        · rw [e] at h1
          simp only at h1
          exact h.1 (h1 ▸ List.mem_map_of_mem Prod.fst hq)
        · rw [e] at h2
          exact NodeType.noConfusion h2
    · intro n _
      rw [compare_both_iff]
      rintro ⟨_, _, h3⟩
      exact h3 rfl

/-- The nodes of ranges with pairwise distinct starts and of pairwise distinct ingredient ids
can be sorted. -/
theorem sortable_nodes (ranges : List (Int × Int)) (ids : List Int)
    (hr : (ranges.map Prod.fst).Nodup) (hi : ids.Nodup) :
    sortable (range_nodes ranges ++ ingredient_nodes ids) := by
  unfold sortable
  rw [List.pairwise_append]
  refine ⟨sortable_range_nodes ranges hr, ?_, ?_⟩
  · unfold ingredient_nodes
    rw [List.pairwise_map]
    refine List.Pairwise.imp ?_ hi
    intro a b hab
    rw [compare_both_iff]
    rintro ⟨h1, _, _⟩
    exact hab h1
  · intro a ha b hb
    rw [compare_both_iff]
    rintro ⟨_, h2, _⟩
    obtain ⟨q, _, e | e⟩ := mem_range_nodes ha
    · unfold ingredient_nodes at hb
      obtain ⟨v, _, e2⟩ := List.mem_map.mp hb
      rw [e, ← e2] at h2
      exact NodeType.noConfusion h2
    · unfold ingredient_nodes at hb
      obtain ⟨v, _, e2⟩ := List.mem_map.mp hb
      rw [e, ← e2] at h2
      exact NodeType.noConfusion h2

end Day05

namespace Day09

open Cpp

/-- When no two points have the same `x`, every admissible sort returns the one ascending
ordering. -/
theorem sort_eq_of_distinct_x (S : PointSorter) {l target : List Point} (hperm : target.Perm l)
    (hsorted : target.Pairwise (fun a b => a.x ≤ b.x))
    (hnodup : (l.map (fun p => p.x)).Nodup) : S.sort l = target := by
  have hs : (S.sort l).Pairwise (fun a b => a.x ≤ b.x) :=
    (S.sorted l).imp (fun h => by simpa [compare_points] using h)
  have hd : (S.sort l).map (fun p => p.x) = target.map (fun p => p.x) :=
    List.eq_of_perm_of_sorted (r := (· ≤ ·)) (((S.perm l).trans hperm.symm).map _)
      (List.pairwise_map.mpr hs) (List.pairwise_map.mpr hsorted)
  apply Cpp.eq_of_map_eq_of_inj _ _ _ _ hd
  intro x hx y hy hxy
  exact List.inj_on_of_nodup_map hnodup ((S.perm l).mem_iff.mp hx) (hperm.mem_iff.mp hy) hxy

end Day09

namespace Day11

open Cpp

namespace SolveA

theorem path_count_succ (g : List (List Nat)) (fuel current target : Nat) :
    path_count g (fuel + 1) current target =
      if current = target then 1
      else ((g.getD current []).map (fun input_index => path_count g fuel input_index target)).sum :=
  rfl

/-- In an acyclic graph the recursion without memoisation does not depend on the bound on its
depth, once the bound exceeds the rank of the node. -/
theorem path_count_fuel (g : List (List Nat)) (rank : Nat → Nat) (target : Nat)
    (hacyclic : ∀ v, v < g.length → ∀ u ∈ g.getD v [], u < g.length ∧ rank u < rank v) :
    ∀ fuel v, v < g.length → rank v < fuel →
      path_count g fuel v target = path_count g (rank v + 1) v target := by
  intro fuel
  induction fuel using Nat.strong_induction_on with
  | _ fuel ih =>
    intro v hv hfuel
    obtain ⟨f, rfl⟩ : ∃ f, fuel = f + 1 := ⟨fuel - 1, by omega⟩
    rw [path_count_succ, path_count_succ]
    by_cases ht : v = target
    · rw [if_pos ht, if_pos ht]
    · rw [if_neg ht, if_neg ht]
      congr 1
      apply List.map_congr_left
      intro u hu
      obtain ⟨hu1, hu2⟩ := hacyclic v hv u hu
      rw [ih f (by omega) u hu1 (by omega)]
      by_cases hr : rank u + 1 = rank v
      · rw [hr]
      · rw [ih (rank v) (by omega) u hu1 (by omega)]

theorem wrap_int_nat {a : Int} (h0 : 0 ≤ a) (h : a < 2 ^ 31) : wrap_int a = a := by
  unfold wrap_int
  omega

/-- The accumulation over the inputs of a node, given that each recursive call returns the
number of paths to its node and keeps the memo vector sound. -/
theorem fold_inputs (g : List (List Nat)) (rank : Nat → Nat) (target fuel : Nat)
    (hrec : ∀ u memo, u < g.length → rank u < fuel → MemoOK g rank target memo →
      ∃ memo2, recurse g fuel memo u target
          = some (((path_count g (rank u + 1) u target : Nat) : Int), memo2) ∧
        MemoOK g rank target memo2) :
    ∀ (ins : List Nat) (acc : Nat) (memo : List Int),
      (∀ u ∈ ins, u < g.length ∧ rank u < fuel) → MemoOK g rank target memo →
      acc + (ins.map (fun u => path_count g (rank u + 1) u target)).sum < 2 ^ 31 →
      ∃ memo2, ins.foldlM
          (add_paths (fun memo2 input_index => recurse g fuel memo2 input_index target))
          ((acc : Int), memo)
          = some (((acc + (ins.map (fun u => path_count g (rank u + 1) u target)).sum : Nat)
              : Int), memo2) ∧
        MemoOK g rank target memo2 := by
  intro ins
  induction ins with
  | nil => intro acc memo _ hm _; exact ⟨memo, by simp, hm⟩
  | cons u rest ih =>
    intro acc memo hins hm hsum
    obtain ⟨hu1, hu2⟩ := hins u (by simp)
    obtain ⟨memo1, hr, hm1⟩ := hrec u memo hu1 hu2 hm
    simp only [List.map_cons, List.sum_cons] at hsum
    obtain ⟨memo2, hf, hm2⟩ := ih (acc + path_count g (rank u + 1) u target) memo1
      (fun x hx => hins x (by simp [hx])) hm1 (by omega)
    refine ⟨memo2, ?_, hm2⟩
    rw [List.foldlM_cons]
    simp only [add_paths, hr]
    have hw : wrap_int ((acc : Int) + ((path_count g (rank u + 1) u target : Nat) : Int))
        = ((acc + path_count g (rank u + 1) u target : Nat) : Int) := by
      rw [wrap_int_nat (by omega) (by push_cast at hsum ⊢; omega)]
      push_cast; rfl
    simp only [Option.some_bind, Option.bind_eq_bind, hw]
    rw [hf]
    simp only [List.map_cons, List.sum_cons, Nat.add_assoc]

theorem recurse_succ (g : List (List Nat)) (fuel : Nat) (memo : List Int)
    (current target : Nat) :
    recurse g (fuel + 1) memo current target =
      if current = target then some (1, memo)
      else
        match memo[current]? with
        | none => none
        | some memoized =>
          if memoized ≠ -1 then some (memoized, memo)
          else
            match g[current]? with
            | none => none
            | some inputs =>
              match inputs.foldlM
                  (add_paths (fun memo2 input_index => recurse g fuel memo2 input_index target))
                  (0, memo) with
              | none => none
              | some (nr_paths, memo2) =>
                if current < memo2.length then some (nr_paths, memo2.set current nr_paths)
                else none :=
  rfl

/-- In an acyclic graph whose path counts stay below `2^31`, `recurse` returns the number of
paths to the current node and keeps the memo vector sound. -/
theorem recurse_spec (g : List (List Nat)) (rank : Nat → Nat) (target : Nat)
    (hacyclic : ∀ v, v < g.length → ∀ u ∈ g.getD v [], u < g.length ∧ rank u < rank v)
    (hbound : ∀ v, v < g.length → path_count g (rank v + 1) v target < 2 ^ 31) :
    ∀ fuel v memo, v < g.length → rank v < fuel → MemoOK g rank target memo →
      ∃ memo2, recurse g fuel memo v target
          = some (((path_count g (rank v + 1) v target : Nat) : Int), memo2) ∧
        MemoOK g rank target memo2 := by
  intro fuel
  induction fuel with
  | zero => intro v memo _ h _; omega
  | succ fuel ih =>
    intro v memo hv hfuel hm
    rw [recurse_succ]
    by_cases ht : v = target
    · rw [if_pos ht]
      refine ⟨memo, ?_, hm⟩
      rw [path_count_succ, if_pos ht]
      rfl
    · rw [if_neg ht]
      have hvm : v < memo.length := by rw [hm.1]; exact hv
      rw [List.getElem?_eq_getElem hvm]
      simp only
      by_cases hmemo : memo[v] ≠ -1
      · rw [if_pos hmemo]
        refine ⟨memo, ?_, hm⟩
        rcases hm.2 v memo[v] (List.getElem?_eq_getElem hvm) with h1 | h1
        · exact absurd h1 hmemo
        · rw [h1]
      · rw [if_neg hmemo, List.getElem?_eq_getElem hv]
        simp only
        have hgetD : g.getD v [] = g[v] := by
          rw [List.getD_eq_getElem?_getD, List.getElem?_eq_getElem hv]; rfl
        have hins : ∀ u ∈ g[v], u < g.length ∧ rank u < fuel := by
          intro u hu
          have := hacyclic v hv u (by rw [hgetD]; exact hu)
          exact ⟨this.1, by omega⟩
        have hpc : path_count g (rank v + 1) v target
            = (g[v].map (fun u => path_count g (rank u + 1) u target)).sum := by
          rw [path_count_succ, if_neg ht, hgetD]
          congr 1
          apply List.map_congr_left
          intro u hu
          have hu2 := hacyclic v hv u (by rw [hgetD]; exact hu)
          by_cases hr : rank u + 1 = rank v
          · rw [hr]
          · exact path_count_fuel g rank target hacyclic (rank v) u hu2.1 hu2.2
        obtain ⟨memo2, hf, hm2⟩ := fold_inputs g rank target fuel ih g[v] 0 memo hins hm
          (by rw [Nat.zero_add, ← hpc]; exact hbound v hv)
        have h0 : (((0 : Nat) : Int), memo) = ((0 : Int), memo) := rfl
        rw [h0] at hf
        rw [hf]
        simp only
        have hv2 : v < memo2.length := by rw [hm2.1]; exact hv
        rw [if_pos hv2, Nat.zero_add, ← hpc]
        refine ⟨_, rfl, ?_, ?_⟩
        · rw [List.length_set]; exact hm2.1
        · intro w m hw
          by_cases hwv : w = v
          · subst hwv
            rw [List.getElem?_set_self hv2] at hw
            right
            exact (Option.some.inj hw).symm
          · rw [List.getElem?_set_ne (fun h => hwv h.symm)] at hw
            exact hm2.2 w m hw

theorem memoOK_init (g : List (List Nat)) (rank : Nat → Nat) (target : Nat) :
    MemoOK g rank target (List.replicate g.length (-1)) := by
  refine ⟨by simp, ?_⟩
  intro v m h
  left
  have := List.getElem?_mem h
  exact (List.eq_of_mem_replicate this)

/-- In a doubling chain the number of paths from junction 0 to junction `k` is `2 ^ k`. -/
theorem path_count_doubling (g : List (List Nat)) (n : Nat)
    (hadj : ∀ k, k < n → g.getD (3 * (k + 1)) [] = [3 * k + 1, 3 * k + 2] ∧
      g.getD (3 * k + 1) [] = [3 * k] ∧ g.getD (3 * k + 2) [] = [3 * k]) :
    ∀ k, k ≤ n → ∀ fuel, 2 * k < fuel → path_count g fuel (3 * k) 0 = 2 ^ k := by
  intro k
  induction k with
  | zero =>
    intro _ fuel hfuel
    obtain ⟨f, rfl⟩ : ∃ f, fuel = f + 1 := ⟨fuel - 1, by omega⟩
    rw [path_count_succ, if_pos rfl]
    rfl
  | succ k ih =>
    intro hk fuel hfuel
    obtain ⟨f, rfl⟩ : ∃ f, fuel = f + 2 := ⟨fuel - 2, by omega⟩
    obtain ⟨h1, h2, h3⟩ := hadj k (by omega)
    have hc := ih (by omega) f (by omega)
    rw [path_count_succ, if_neg (by omega), h1]
    simp only [List.map_cons, List.map_nil, List.sum_cons, List.sum_nil]
    rw [path_count_succ, if_neg (by omega), h2, path_count_succ, if_neg (by omega), h3]
    simp only [List.map_cons, List.map_nil, List.sum_cons, List.sum_nil, hc]
    rw [pow_succ]
    omega

end SolveA
end Day11

namespace Day08

open Cpp

theorem orderedInsert_cons_of_le {b x : Int} {M : List Int}
    (hs : (b :: M).Sorted (· ≤ ·)) (hb : b ≤ x) :
    (b :: M).orderedInsert (· ≤ ·) x = b :: M.orderedInsert (· ≤ ·) x := by
  by_cases hxb : x ≤ b
  · have hx : x = b := le_antisymm hxb hb
    subst hx
    cases M with
    | nil => simp [List.orderedInsert]
    | cons c M2 =>
      have hbc : x ≤ c := List.rel_of_sorted_cons hs c (List.mem_cons_self _ _)
      simp [List.orderedInsert, hbc]
  · simp [List.orderedInsert, hxb]

theorem take_orderedInsert_of_le (x : Int) :
    ∀ (L : List Int) (K : Nat), L.Sorted (· ≤ ·) → K ≤ L.length →
      (∀ y ∈ L.take K, y ≤ x) → (L.orderedInsert (· ≤ ·) x).take K = L.take K := by
  intro L
  induction L with
  | nil =>
    intro K _ hK _
    have : K = 0 := by simpa using hK
    subst this
    simp
  | cons b L ih =>
    intro K hs hK hy
    cases K with
    | zero => simp
    | succ k =>
      have hb : b ≤ x := hy b (by simp)
      rw [orderedInsert_cons_of_le hs hb]
      simp only [List.take_succ_cons]
      congr 1
      apply ih k hs.of_cons (by simpa using hK)
      intro y hy2
      exact hy y (by simp [hy2])

theorem take_orderedInsert_take (x : Int) :
    ∀ (L : List Int) (K : Nat),
      (L.orderedInsert (· ≤ ·) x).take K = ((L.take K).orderedInsert (· ≤ ·) x).take K := by
  intro L
  induction L with
  | nil => intro K; simp
  | cons b L ih =>
    intro K
    cases K with
    | zero => simp
    | succ k =>
      by_cases hxb : x ≤ b
      · simp only [List.take_succ_cons, List.orderedInsert, hxb, if_true]
        congr 1
        cases k with
        | zero => simp
        | succ j => simp [List.take_take]
      · simp only [List.take_succ_cons, List.orderedInsert, hxb, if_false]
        congr 1
        exact ih k

theorem smallest_perm {K : Nat} {l l2 : List Int} (h : l.Perm l2) :
    smallest K l = smallest K l2 := by
  unfold smallest
  congr 1
  apply List.eq_of_perm_of_sorted (r := (· ≤ ·))
  · exact ((List.perm_insertionSort _ l).trans h).trans (List.perm_insertionSort _ l2).symm
  · exact List.sorted_insertionSort _ l
  · exact List.sorted_insertionSort _ l2

theorem smallest_of_sorted {K : Nat} {l : List Int} (h : l.Sorted (· ≤ ·)) :
    smallest K l = l.take K := by
  unfold smallest
  rw [h.insertionSort_eq]

theorem smallest_cons (K : Nat) (x : Int) (l : List Int) :
    smallest K (x :: l) = ((l.insertionSort (· ≤ ·)).orderedInsert (· ≤ ·) x).take K := rfl

theorem smallest_cons_reject {K : Nat} {x : Int} {l : List Int} (hK : K ≤ l.length)
    (hy : ∀ y ∈ smallest K l, y ≤ x) : smallest K (x :: l) = smallest K l := by
  rw [smallest_cons]
  unfold smallest at hy ⊢
  exact take_orderedInsert_of_le x _ K (List.sorted_insertionSort _ l)
    (by simpa [List.length_insertionSort] using hK) hy

theorem smallest_cons_congr {K : Nat} (x : Int) {l l2 : List Int}
    (h : smallest K l = smallest K l2) : smallest K (x :: l) = smallest K (x :: l2) := by
  rw [smallest_cons, smallest_cons, take_orderedInsert_take x (l.insertionSort _),
    take_orderedInsert_take x (l2.insertionSort _)]
  unfold smallest at h
  rw [h]

theorem smallest_cons_le {K : Nat} {x T : Int} {l : List Int}
    (hy : ∀ y ∈ smallest K l, y ≤ T) (hx : x ≤ T) : ∀ y ∈ smallest K (x :: l), y ≤ T := by
  intro y hmem
  rw [smallest_cons, take_orderedInsert_take] at hmem
  have h2 := List.mem_of_mem_take hmem
  rw [List.mem_orderedInsert] at h2
  rcases h2 with h2 | h2
  · exact h2 ▸ hx
  · exact hy y h2

theorem smallest_length {K : Nat} {l : List Int} (hK : K ≤ l.length) :
    (smallest K l).length = K := by
  unfold smallest
  simp [List.length_insertionSort, hK]

theorem le_getD_of_mem_take {l : List Int} (hs : l.Sorted (· ≤ ·)) {K : Nat} (hK1 : 1 ≤ K)
    (hK : K ≤ l.length) : ∀ y ∈ l.take K, y ≤ l.getD (K - 1) 0 := by
  intro y hy
  obtain ⟨i, hi, rfl⟩ := List.getElem_of_mem hy
  have hi2 : i < K := by
    have := hi
    simp at this
    omega
  have hlt : K - 1 < l.length := by omega
  rw [List.getElem_take, List.getD_eq_getElem _ _ hlt]
  have hil : i < l.length := by omega
  exact hs.rel_get_of_le (a := ⟨i, hil⟩) (b := ⟨K - 1, hlt⟩) (by
    show i ≤ K - 1
    omega)

theorem dists_sorted_of_sorter (S : EdgeSorter) (l : List Edge) :
    (dists (S.sort l)).Sorted (· ≤ ·) := by
  unfold dists
  rw [List.Sorted, List.pairwise_map]
  refine (S.sorted l).imp ?_
  intro a b hab
  simpa [compare_edges] using hab

theorem dists_perm {l l2 : List Edge} (h : l.Perm l2) : (dists l).Perm (dists l2) :=
  h.map _

theorem dists_getD (l : List Edge) (k : Nat) :
    (l.getD k default).distance2 = (dists l).getD k 0 := by
  unfold dists
  by_cases h : k < l.length
  · rw [List.getD_eq_getElem _ _ h, List.getD_eq_getElem _ _ (by simpa using h)]
    simp
  · have h2 : l.length ≤ k := by omega
    rw [List.getD_eq_default _ _ h2, List.getD_eq_default _ _ (by simpa using h2)]
    rfl

namespace SolveA

theorem smallest_sorted_bound (S : EdgeSorter) (l : List Edge) {K : Nat} (hK1 : 1 ≤ K)
    (hK : K ≤ l.length) :
    ∀ y ∈ smallest K (dists (S.sort l)), y ≤ ((S.sort l).getD (K - 1) default).distance2 := by
  rw [smallest_of_sorted (dists_sorted_of_sorter S l), dists_getD]
  apply le_getD_of_mem_take (dists_sorted_of_sorter S l) hK1
  simpa [dists, (S.perm l).length_eq] using hK

theorem smallest_take_sorted (S : EdgeSorter) (l : List Edge) (K : Nat) :
    smallest K (dists ((S.sort l).take K)) = smallest K (dists l) := by
  have h1 : (dists ((S.sort l).take K)).Sorted (· ≤ ·) := by
    have := dists_sorted_of_sorter S l
    unfold dists at this ⊢
    rw [List.map_take]
    exact List.Pairwise.sublist (List.take_sublist _ _) this
  rw [smallest_of_sorted h1, ← smallest_perm (dists_perm (S.perm l)),
    smallest_of_sorted (dists_sorted_of_sorter S l)]
  unfold dists
  rw [List.map_take, List.take_take, min_self]

theorem smallest_snoc (K : Nat) (l : List Edge) (e : Edge) :
    smallest K (dists (l ++ [e])) = smallest K (e.distance2 :: dists l) := by
  apply smallest_perm
  unfold dists
  simp [List.perm_append_singleton]

theorem offer_inv (S : EdgeSorter) {K : Nat} (m : Nat) (hK1 : 1 ≤ K) {st : Selection}
    {seen : List Edge} (e : Edge) (h : SelInv K st seen) :
    SelInv K (offer S K m st e) (seen ++ [e]) := by
  obtain ⟨hfill, hfull⟩ := h
  unfold offer
  by_cases hlt : st.edges.length < K
  · have hseen := hfill hlt
    simp only [hlt, if_true]
    by_cases heq : (st.edges ++ [e]).length = K
    · simp only [heq, if_true]
      have hlen : K ≤ (st.edges ++ [e]).length := le_of_eq heq.symm
      refine ⟨?_, ?_⟩
      · intro h2
        simp [(S.perm _).length_eq] at h2
        simp at heq
        omega
      · intro _
        refine ⟨?_, ?_, ?_⟩
        · rw [← hseen]; exact hlen
        · rw [← hseen]; exact smallest_perm (dists_perm (S.perm _))
        · exact smallest_sorted_bound S _ hK1 hlen
    · simp only [heq, if_false]
      refine ⟨?_, ?_⟩
      · intro _; rw [hseen]
      · intro h2
        simp at heq h2
        omega
  · have hge : K ≤ st.edges.length := by omega
    obtain ⟨hseenlen, hsm, hbound⟩ := hfull hge
    simp only [hlt, if_false]
    have hstep : smallest K (dists (st.edges ++ [e])) = smallest K (dists (seen ++ [e])) := by
      rw [smallest_snoc, smallest_snoc]
      exact smallest_cons_congr _ hsm
    by_cases hacc : e.distance2 < st.max_distance2
    · simp only [hacc, if_true]
      by_cases heq : (st.edges ++ [e]).length = K + m
      · simp only [heq, if_true]
        have hlen : K ≤ (st.edges ++ [e]).length := by omega
        have hlen2 : K ≤ (S.sort (st.edges ++ [e])).length := by
          rw [(S.perm _).length_eq]; exact hlen
        refine ⟨?_, ?_⟩
        · intro h2
          simp at h2
          omega
        · intro _
          refine ⟨by simp; omega, ?_, ?_⟩
          · rw [smallest_take_sorted]; exact hstep
          · show ∀ y ∈ smallest K (dists ((S.sort (st.edges ++ [e])).take K)), _
            rw [smallest_take_sorted, smallest_perm (dists_perm (S.perm _)).symm]
            exact smallest_sorted_bound S _ hK1 hlen
      · simp only [heq, if_false]
        refine ⟨?_, ?_⟩
        · intro h2
          simp at h2
          omega
        · intro _
          refine ⟨by simp; omega, hstep, ?_⟩
          show ∀ y ∈ smallest K (dists (st.edges ++ [e])), _
          rw [smallest_snoc]
          exact smallest_cons_le hbound (le_of_lt hacc)
    · simp only [hacc, if_false]
      refine ⟨fun h2 => absurd h2 hlt, ?_⟩
      intro _
      refine ⟨by simp; omega, ?_, hbound⟩
      rw [smallest_snoc, hsm]
      symm
      apply smallest_cons_reject
      · simpa [dists] using hseenlen
      · intro y hy
        rw [← hsm] at hy
        exact le_trans (hbound y hy) (not_lt.mp hacc)

theorem foldl_offer_inv (S : EdgeSorter) {K : Nat} (m : Nat) (hK1 : 1 ≤ K) :
    ∀ (rest : List Edge) (st : Selection) (seen : List Edge), SelInv K st seen →
      SelInv K (rest.foldl (offer S K m) st) (seen ++ rest) := by
  intro rest
  induction rest with
  | nil => intro st seen h; simpa using h
  | cons e rest ih =>
    intro st seen h
    have := ih (offer S K m st e) (seen ++ [e]) (offer_inv S m hK1 e h)
    simpa using this

theorem selInv_init (K : Nat) (hK1 : 1 ≤ K) : SelInv K ⟨[], 0⟩ [] := by
  refine ⟨fun _ => rfl, ?_⟩
  intro h
  simp at h
  omega

theorem select_inv (S : EdgeSorter) (points : List Point) {K : Nat} (hK1 : 1 ≤ K) :
    SelInv K (select S points [] K) (edge_stream points) := by
  have := foldl_offer_inv S (K / 10) hK1 (edge_stream points) ⟨[], 0⟩ [] (selInv_init K hK1)
  simpa [select] using this

end SolveA

theorem point_pairs_length : ∀ points : List Point,
    (point_pairs points).length = points.length * (points.length - 1) / 2 := by
  intro points
  induction points with
  | nil => rfl
  | cons p rest ih =>
    simp only [point_pairs, List.length_append, List.length_map, ih, List.length_cons,
      Nat.add_sub_cancel]
    have h2 : rest.length * (rest.length - 1) % 2 = 0 := by
      cases hr : rest.length with
      | zero => simp
      | succ n =>
        simp only [Nat.add_sub_cancel]
        rcases Nat.even_or_odd n with ⟨k, hk⟩ | ⟨k, hk⟩
        · subst hk
          have : (k + k + 1) * (k + k) = 2 * ((k + k + 1) * k) := by ring
          rw [this]; simp
        · subst hk
          have : (2 * k + 1 + 1) * (2 * k + 1) = 2 * ((k + 1) * (2 * k + 1)) := by ring
          rw [this]; simp
    have h3 : (rest.length + 1) * rest.length = 2 * rest.length + rest.length * (rest.length - 1) := by
      cases hr : rest.length with
      | zero => simp
      | succ n => simp only [Nat.add_sub_cancel]; ring
    rw [h3]
    omega

theorem edge_stream_length (points : List Point) :
    (edge_stream points).length = points.length * (points.length - 1) / 2 := by
  simp [edge_stream, point_pairs_length]

namespace SolveA

theorem sorter_sorted_edge_le (S : EdgeSorter) (l : List Edge) : (S.sort l).Sorted edge_le := by
  refine (S.sorted l).imp ?_
  intro a b hab
  show a.distance2 ≤ b.distance2
  simpa [compare_edges] using hab

theorem dists_sorted_of_edge_le {l : List Edge} (h : l.Sorted edge_le) :
    (dists l).Sorted (· ≤ ·) := by
  unfold dists
  rw [List.Sorted, List.pairwise_map]
  exact h

theorem select_length_ge (S : EdgeSorter) (points : List Point) {K : Nat} (hK1 : 1 ≤ K)
    (hK : K ≤ points.length * (points.length - 1) / 2) :
    K ≤ (select S points [] K).edges.length := by
  by_contra hlt
  have h := (select_inv S points hK1).1 (by omega)
  rw [h, edge_stream_length] at hlt
  exact hlt hK

theorem offer_length_lt (S : EdgeSorter) {K m : Nat} (hm : 1 ≤ m) (st : Selection) (e : Edge)
    (h : st.edges.length < K + m) : (offer S K m st e).edges.length < K + m := by
  unfold offer
  by_cases hlt : st.edges.length < K
  · simp only [hlt, if_true]
    by_cases heq : (st.edges ++ [e]).length = K
    · simp only [heq, if_true, (S.perm _).length_eq]; omega
    · simp only [heq, if_false]; simp; omega
  · simp only [hlt, if_false]
    by_cases hacc : e.distance2 < st.max_distance2
    · simp only [hacc, if_true]
      by_cases heq : (st.edges ++ [e]).length = K + m
      · simp only [heq, if_true]; simp; omega
      · simp only [heq, if_false]; simp at heq ⊢; omega
    · simp only [hacc, if_false]; exact h

theorem after_push_length_le (K : Nat) (st : Selection) (e : Edge) :
    (after_push K st e).length ≤ st.edges.length + 1 := by
  unfold after_push
  split
  · simp
  · split <;> simp

theorem offer_truncates (S : EdgeSorter) {K m : Nat} (hm : 1 ≤ m) (st : Selection) (e : Edge)
    (hst : st.edges.length < K + m) (h : (after_push K st e).length = K + m) : (offer S K m st e).edges.length = K := by
  unfold after_push at h
  unfold offer
  by_cases hlt : st.edges.length < K
  · simp only [hlt, if_true] at h
    simp at h
    omega
  · simp only [hlt, if_false] at h ⊢
    by_cases hacc : e.distance2 < st.max_distance2
    · simp only [hacc, if_true] at h ⊢
      simp only [h, if_true]
      simp [(S.perm _).length_eq, h]
    · simp only [hacc, if_false] at h ⊢
      omega

theorem foldl_offer_length_lt (S : EdgeSorter) {K m : Nat} (hm : 1 ≤ m) :
    ∀ (l : List Edge) (st : Selection), st.edges.length < K + m →
      (l.foldl (offer S K m) st).edges.length < K + m := by
  intro l
  induction l with
  | nil => intro st h; exact h
  | cons e l ih => intro st h; exact ih _ (offer_length_lt S hm st e h)

theorem buffer_sizes_le (S : EdgeSorter) {K m : Nat} (hm : 1 ≤ m) :
    ∀ (l : List Edge) (st : Selection), st.edges.length < K + m →
      ∀ n ∈ buffer_sizes S K m st l, n ≤ K + m := by
  intro l
  induction l with
  | nil => intro st _ n hn; simp [buffer_sizes] at hn
  | cons e l ih =>
    intro st h n hn
    simp only [buffer_sizes, List.mem_cons] at hn
    rcases hn with hn | hn | hn
    · have := after_push_length_le K st e; omega
    · have := offer_length_lt S hm st e h; omega
    · exact ih _ (offer_length_lt S hm st e h) n hn

end SolveA

theorem wellIndexed_iff (points : List Point) : WellIndexed points ↔ IndexedFrom 0 points := by
  unfold WellIndexed IndexedFrom
  constructor
  · intro h k p hp
    obtain ⟨hk, rfl⟩ := List.getElem?_eq_some_iff.mp hp
    simpa using h k hk
  · intro h k hk
    have := h k (points.get ⟨k, hk⟩) (by simp [List.getElem?_eq_getElem hk])
    simpa using this

theorem indexedFrom_tail {off : Nat} {p : Point} {rest : List Point}
    (h : IndexedFrom off (p :: rest)) : IndexedFrom (off + 1) rest := by
  intro k q hq
  have := h (k + 1) q (by simpa using hq)
  omega

theorem indexedFrom_head {off : Nat} {p : Point} {rest : List Point}
    (h : IndexedFrom off (p :: rest)) : p.i = off := by
  simpa using h 0 p (by simp)

theorem mem_point_pairs : ∀ (l : List Point) (p q : Point),
    (p, q) ∈ point_pairs l ↔ ∃ i j : Nat, i < j ∧ l[i]? = some p ∧ l[j]? = some q := by
  intro l
  induction l with
  | nil => intro p q; simp [point_pairs]
  | cons a rest ih =>
    intro p q
    simp only [point_pairs, List.mem_append, List.mem_map, Prod.mk.injEq]
    constructor
    · rintro (⟨b, hb, rfl, rfl⟩ | h)
      · obtain ⟨j, hj⟩ := List.getElem?_of_mem hb
        exact ⟨0, j + 1, by omega, by simp, by simpa using hj⟩
      · obtain ⟨i, j, hij, hi, hj⟩ := (ih p q).mp h
        exact ⟨i + 1, j + 1, by omega, by simpa using hi, by simpa using hj⟩
    · rintro ⟨i, j, hij, hi, hj⟩
      cases j with
      | zero => omega
      | succ j =>
        cases i with
        | zero =>
          left
          simp at hi
          subst hi
          exact ⟨q, List.getElem?_mem (n := j) (by simpa using hj), rfl, rfl⟩
        | succ i =>
          right
          exact (ih p q).mpr ⟨i, j, by omega, by simpa using hi, by simpa using hj⟩

theorem mem_edge_stream_of_indexed {off : Nat} {l : List Point} (h : IndexedFrom off l)
    {e : Edge} (he : e ∈ edge_stream l) :
    ∃ (i j : Nat) (p q : Point), i < j ∧ l[i]? = some p ∧ l[j]? = some q ∧
      e = ⟨compute_distance2 p q, off + i, off + j⟩ := by
  unfold edge_stream at he
  obtain ⟨⟨p, q⟩, hpq, rfl⟩ := List.mem_map.mp he
  obtain ⟨i, j, hij, hi, hj⟩ := (mem_point_pairs l p q).mp hpq
  refine ⟨i, j, p, q, hij, hi, hj, ?_⟩
  simp [create_edge, h i p hi, h j q hj]

theorem edge_mem_edge_stream {off : Nat} {l : List Point} (h : IndexedFrom off l)
    {i j : Nat} {p q : Point} (hij : i < j) (hi : l[i]? = some p) (hj : l[j]? = some q) :
    (⟨compute_distance2 p q, off + i, off + j⟩ : Edge) ∈ edge_stream l := by
  unfold edge_stream
  refine List.mem_map.mpr ⟨(p, q), (mem_point_pairs l p q).mpr ⟨i, j, hij, hi, hj⟩, ?_⟩
  simp [create_edge, h i p hi, h j q hj]

theorem ids_of_indexed : ∀ (l : List Point) (off : Nat), IndexedFrom off l →
    l.map (fun p => p.i) = List.range' off l.length := by
  intro l
  induction l with
  | nil => intro off _; simp
  | cons p rest ih =>
    intro off h
    simp only [List.map_cons, List.length_cons, List.range'_succ, indexedFrom_head h, ih (off + 1) (indexedFrom_tail h)]

theorem edge_stream_cons (p : Point) (rest : List Point) :
    edge_stream (p :: rest) = rest.map (create_edge p) ++ edge_stream rest := by
  simp [edge_stream, point_pairs, List.map_map, Function.comp_def]

theorem edge_stream_pairs_nodup : ∀ (l : List Point) (off : Nat), IndexedFrom off l →
    ((edge_stream l).map (fun e => (e.index_a, e.index_b))).Nodup := by
  intro l
  induction l with
  | nil => intro off _; simp [edge_stream, point_pairs]
  | cons p rest ih =>
    intro off h
    rw [edge_stream_cons, List.map_append, List.nodup_append]
    refine ⟨?_, ih (off + 1) (indexedFrom_tail h), ?_⟩
    · rw [List.map_map]
      have : ((fun e : Edge => (e.index_a, e.index_b)) ∘ create_edge p)
          = (fun n : Nat => (p.i, n)) ∘ (fun q : Point => q.i) := by
        funext q; simp [create_edge]
      rw [this, ← List.map_map, ids_of_indexed rest (off + 1) (indexedFrom_tail h)]
      apply List.Nodup.map
      · intro a b hab; simpa using hab
      · exact List.nodup_range' _ _
    · intro x hx1 hx2
      obtain ⟨e1, he1, rfl⟩ := List.mem_map.mp hx1
      obtain ⟨e2, he2, hx⟩ := List.mem_map.mp hx2
      obtain ⟨q, _, rfl⟩ := List.mem_map.mp he1
      obtain ⟨i, j, _, _, _, _, _, rfl⟩ := mem_edge_stream_of_indexed (indexedFrom_tail h) he2
      simp [create_edge, indexedFrom_head h] at hx
      omega

namespace SolveB

theorem foldlM_write_edge : ∀ (pairs : List (Point × Point)) (pre post : List Edge),
    post.length = pairs.length →
    pairs.foldlM write_edge (pre ++ post, pre.length)
      = some (pre ++ pairs.map (fun pq => create_edge pq.1 pq.2), pre.length + pairs.length) := by
  intro pairs
  induction pairs with
  | nil =>
    intro pre post h
    have : post = [] := List.length_eq_zero.mp (by simpa using h)
    subst this
    simp
  | cons pq pairs ih =>
    intro pre post h
    cases post with
    | nil => simp at h
    | cons e0 post =>
      have hlen : post.length = pairs.length := by simpa using h
      have hstep : write_edge (pre ++ e0 :: post, pre.length) pq
          = some ((pre ++ [create_edge pq.1 pq.2]) ++ post,
              (pre ++ [create_edge pq.1 pq.2]).length) := by
        simp [write_edge, Edge.initialize, create_edge]
      rw [List.foldlM_cons, hstep]
      simp only [Option.bind_eq_bind, Option.some_bind]
      rw [ih (pre ++ [create_edge pq.1 pq.2]) post hlen]
      simp [Nat.add_assoc, Nat.add_comm 1]

theorem fill_edges_eq (points : List Point) (edges : List Edge)
    (h : edges.length = points.length * (points.length - 1) / 2) :
    fill_edges points edges = some (edge_stream points) := by
  unfold fill_edges
  have := foldlM_write_edge (point_pairs points) [] edges (by rw [h, point_pairs_length])
  simp only [List.nil_append, List.length_nil, Nat.zero_add] at this
  rw [this]
  rfl

/-- A short edge vector: the write past its end is reported as `none`. -/
theorem fill_edges_too_short (points : List Point) (edges : List Edge)
    (h : edges.length < points.length * (points.length - 1) / 2) :
    fill_edges points edges = none := by
  unfold fill_edges
  rw [← point_pairs_length] at h
  obtain ⟨pre, post, hsplit, hpre⟩ : ∃ pre post, point_pairs points = pre ++ post ∧
      pre.length = edges.length :=
    ⟨(point_pairs points).take edges.length, (point_pairs points).drop edges.length,
      (List.take_append_drop _ _).symm, by simp; omega⟩
  have h1 := foldlM_write_edge pre [] edges hpre.symm
  simp only [List.nil_append, List.length_nil, Nat.zero_add] at h1
  rw [hsplit, List.foldlM_append, h1]
  cases post with
  | nil => rw [hsplit] at h; simp at h; omega
  | cons pq post =>
    simp [write_edge]

end SolveB

theorem adjacent_symm {edges : List Edge} {p q : Nat} (h : Adjacent edges p q) :
    Adjacent edges q p := by
  obtain ⟨e, he, h1 | h1⟩ := h
  · exact ⟨e, he, Or.inr h1⟩
  · exact ⟨e, he, Or.inl h1⟩

theorem adjacent_mono {E E2 : List Edge} (hsub : ∀ e ∈ E, e ∈ E2) {p q : Nat}
    (h : Adjacent E p q) : Adjacent E2 p q := by
  obtain ⟨e, he, h1⟩ := h
  exact ⟨e, hsub e he, h1⟩

theorem joined_symm {edges : List Edge} {p q : Nat} (h : Joined edges p q) :
    Joined edges q p := by
  induction h with
  | single h1 => exact Relation.TransGen.single (adjacent_symm h1)
  | tail _ h2 ih => exact Relation.TransGen.head (adjacent_symm h2) ih

theorem joined_trans {edges : List Edge} {p q r : Nat} (h1 : Joined edges p q)
    (h2 : Joined edges q r) : Joined edges p r :=
  Relation.TransGen.trans h1 h2

theorem joined_mono {E E2 : List Edge} (hsub : ∀ e ∈ E, e ∈ E2) {p q : Nat}
    (h : Joined E p q) : Joined E2 p q :=
  Relation.TransGen.mono (fun _ _ h1 => adjacent_mono hsub h1) h

theorem not_joined_nil (p q : Nat) : ¬ Joined [] p q := by
  intro h
  induction h with
  | single h1 => obtain ⟨e, he, _⟩ := h1; simp at he
  | tail _ h2 _ => obtain ⟨e, he, _⟩ := h2; simp at he

theorem adjacent_snoc {E : List Edge} {e : Edge} {p q : Nat} :
    Adjacent (E ++ [e]) p q ↔
      Adjacent E p q ∨ (p = e.index_a ∧ q = e.index_b) ∨ (p = e.index_b ∧ q = e.index_a) := by
  constructor
  · rintro ⟨x, hx, h⟩
    rcases List.mem_append.mp hx with hx | hx
    · exact Or.inl ⟨x, hx, h⟩
    · have : x = e := by simpa using hx
      subst this
      rcases h with ⟨h1, h2⟩ | ⟨h1, h2⟩
      · exact Or.inr (Or.inl ⟨h1.symm, h2.symm⟩)
      · exact Or.inr (Or.inr ⟨h2.symm, h1.symm⟩)
  · rintro (h | ⟨rfl, rfl⟩ | ⟨rfl, rfl⟩)
    · exact adjacent_mono (fun x hx => List.mem_append_left _ hx) h
    · exact ⟨e, by simp, Or.inl ⟨rfl, rfl⟩⟩
    · exact ⟨e, by simp, Or.inr ⟨rfl, rfl⟩⟩

theorem joined_self_iff {E : List Edge} {p : Nat} :
    Joined E p p ↔ ∃ e ∈ E, e.index_a = p ∨ e.index_b = p := by
  constructor
  · intro h
    obtain ⟨x, hx, _⟩ := Relation.TransGen.head'_iff.mp h
    obtain ⟨e, he, h1 | h1⟩ := hx
    · exact ⟨e, he, Or.inl h1.1⟩
    · exact ⟨e, he, Or.inr h1.2⟩
  · rintro ⟨e, he, h1 | h1⟩
    · have hadj : Adjacent E p e.index_b := ⟨e, he, Or.inl ⟨h1, rfl⟩⟩
      exact Relation.TransGen.tail (Relation.TransGen.single hadj) (adjacent_symm hadj)
    · have hadj : Adjacent E p e.index_a := ⟨e, he, Or.inr ⟨rfl, h1⟩⟩
      exact Relation.TransGen.tail (Relation.TransGen.single hadj) (adjacent_symm hadj)

theorem joined_extends (E : List Edge) (e : Edge) :
    Extends (Joined E) (Joined (E ++ [e])) e.index_a e.index_b where
  mono := fun _ _ h => joined_mono (fun x hx => List.mem_append_left _ hx) h
  edge := Relation.TransGen.single ⟨e, by simp, Or.inl ⟨rfl, rfl⟩⟩
  symm := fun _ _ h => joined_symm h
  trans := fun _ _ _ h1 h2 => joined_trans h1 h2
  least := by
    intro T hR hab hba htrans p q h
    have hbase : ∀ x y, Adjacent (E ++ [e]) x y → T x y := by
      intro x y hxy
      rcases adjacent_snoc.mp hxy with h1 | ⟨rfl, rfl⟩ | ⟨rfl, rfl⟩
      · exact hR _ _ (Relation.TransGen.single h1)
      · exact hab
      · exact hba
    induction h with
    | single h1 => exact hbase _ _ h1
    | tail _ h2 ih => exact htrans _ _ _ ih (hbase _ _ h2)

theorem extends_swap {R R2 : Nat → Nat → Prop} {a b : Nat} (h : Extends R R2 a b) :
    Extends R R2 b a where
  mono := h.mono
  edge := h.symm _ _ h.edge
  symm := h.symm
  trans := h.trans
  least := fun T hR hba hab htrans => h.least T hR hab hba htrans

theorem sameGroup_trans {L : Nat → Nat} {p q r : Nat} (h1 : SameGroup L p q)
    (h2 : SameGroup L q r) : SameGroup L p r :=
  ⟨h1.1, h1.2.trans h2.2⟩

theorem sameGroup_symm {L : Nat → Nat} {p q : Nat} (h : SameGroup L p q) : SameGroup L q p :=
  ⟨h.2 ▸ h.1, h.2.symm⟩

/-- Completeness of a step: it is enough that the step keeps equal labels equal and joins the
two endpoints. -/
theorem labels_complete {L L2 : Nat → Nat} {R R2 : Nat → Nat → Prop} {a b : Nat}
    (hL : Labels L R) (hext : Extends R R2 a b)
    (hkeep : ∀ p q, SameGroup L p q → SameGroup L2 p q) (hab : SameGroup L2 a b) :
    ∀ p q, R2 p q → SameGroup L2 p q :=
  hext.least (SameGroup L2) (fun p q h => hkeep p q ((hL p q).mpr h)) hab (sameGroup_symm hab)
    (fun _ _ _ h1 h2 => sameGroup_trans h1 h2)

/-- Both endpoints unlabelled: they receive the fresh label `gc`. -/
theorem labels_new_group {L L2 : Nat → Nat} {R R2 : Nat → Nat → Prop} {a b gc : Nat}
    (hL : Labels L R) (hext : Extends R R2 a b) (hfresh : ∀ p, L p < gc)
    (ha : L a = 0) (hb : L b = 0)
    (hL2 : ∀ p, L2 p = if p = a ∨ p = b then gc else L p) : Labels L2 R2 := by
  have hgc : gc ≠ 0 := by have := hfresh a; omega
  intro p q
  constructor
  · rintro ⟨hp0, hpq⟩
    rw [hL2 p] at hp0 hpq
    rw [hL2 q] at hpq
    have haa : R2 a a := hext.trans _ _ _ hext.edge (hext.symm _ _ hext.edge)
    have hbb : R2 b b := hext.trans _ _ _ (hext.symm _ _ hext.edge) hext.edge
    by_cases hp : p = a ∨ p = b
    · have hq : q = a ∨ q = b := by
        by_contra hq
        simp only [hp, hq, if_true, if_false] at hpq
        have := hfresh q
        omega
      rcases hp with rfl | rfl <;> rcases hq with rfl | rfl
      · exact haa
      · exact hext.edge
      · exact hext.symm _ _ hext.edge
      · exact hbb
    · have hq : ¬ (q = a ∨ q = b) := by
        intro hq
        simp only [hp, hq, if_true, if_false] at hpq
        have := hfresh p
        omega
      simp only [hp, hq, if_false] at hp0 hpq
      exact hext.mono _ _ ((hL p q).mp ⟨hp0, hpq⟩)
  · apply labels_complete hL hext
    · rintro p q ⟨hp0, hpq⟩
      have hp : ¬ (p = a ∨ p = b) := by
        rintro (rfl | rfl) <;> contradiction
      have hq : ¬ (q = a ∨ q = b) := by
        rintro (rfl | rfl) <;> omega
      refine ⟨?_, ?_⟩
      · rw [hL2 p]; simpa [hp] using hp0
      · rw [hL2 p, hL2 q]; simpa [hp, hq] using hpq
    · refine ⟨?_, ?_⟩
      · rw [hL2 a]; simpa using hgc
      · rw [hL2 a, hL2 b]; simp

/-- Endpoint `a` unlabelled, `b` labelled: `a` receives the label of `b`. -/
theorem labels_join {L L2 : Nat → Nat} {R R2 : Nat → Nat → Prop} {a b : Nat}
    (hL : Labels L R) (hext : Extends R R2 a b) (ha : L a = 0) (hb : L b ≠ 0)
    (hL2 : ∀ p, L2 p = if p = a then L b else L p) : Labels L2 R2 := by
  have hba : b ≠ a := by rintro rfl; exact hb ha
  intro p q
  constructor
  · rintro ⟨hp0, hpq⟩
    rw [hL2 p] at hp0 hpq
    rw [hL2 q] at hpq
    by_cases hp : p = a <;> by_cases hq : q = a
    · subst hp; subst hq
      exact hext.trans _ _ _ hext.edge (hext.symm _ _ hext.edge)
    · subst hp
      simp only [hq, if_true, if_false] at hpq
      exact hext.trans _ _ _ hext.edge (hext.mono _ _ ((hL b q).mp ⟨hb, hpq⟩))
    · subst hq
      simp only [hp, if_true, if_false] at hpq hp0
      exact hext.trans _ _ _ (hext.mono _ _ ((hL p b).mp ⟨hp0, hpq⟩))
        (hext.symm _ _ hext.edge)
    · simp only [hp, hq, if_false] at hpq hp0
      exact hext.mono _ _ ((hL p q).mp ⟨hp0, hpq⟩)
  · apply labels_complete hL hext
    · rintro p q ⟨hp0, hpq⟩
      have hp : p ≠ a := by rintro rfl; exact hp0 ha
      have hq : q ≠ a := by rintro rfl; omega
      refine ⟨?_, ?_⟩
      · rw [hL2 p]; simpa [hp] using hp0
      · rw [hL2 p, hL2 q]; simpa [hp, hq] using hpq
    · refine ⟨?_, ?_⟩
      · rw [hL2 a]; simpa using hb
      · rw [hL2 a, hL2 b]; simp [hba]

/-- Both endpoints labelled differently: label `L b` is replaced by `L a` everywhere. -/
theorem labels_merge {L L2 : Nat → Nat} {R R2 : Nat → Nat → Prop} {a b : Nat}
    (hL : Labels L R) (hext : Extends R R2 a b) (ha : L a ≠ 0) (hb : L b ≠ 0)
    (hab : L a ≠ L b)
    (hL2 : ∀ p, L2 p = if L p = L b then L a else L p) : Labels L2 R2 := by
  intro p q
  constructor
  · rintro ⟨hp0, hpq⟩
    rw [hL2 p] at hp0 hpq
    rw [hL2 q] at hpq
    by_cases hp : L p = L b <;> by_cases hq : L q = L b
    · exact hext.mono _ _ ((hL p q).mp ⟨by omega, by omega⟩)
    · simp only [hp, hq, if_true, if_false] at hpq
      exact hext.trans _ _ _ (hext.mono _ _ ((hL p b).mp ⟨by omega, hp⟩))
        (hext.trans _ _ _ (hext.symm _ _ hext.edge) (hext.mono _ _ ((hL a q).mp ⟨ha, hpq⟩)))
    · simp only [hp, hq, if_true, if_false] at hpq hp0
      exact hext.trans _ _ _ (hext.mono _ _ ((hL p a).mp ⟨hp0, hpq⟩))
        (hext.trans _ _ _ hext.edge (hext.mono _ _ ((hL b q).mp ⟨hb, hq.symm⟩)))
    · simp only [hp, hq, if_false] at hpq hp0
      exact hext.mono _ _ ((hL p q).mp ⟨hp0, hpq⟩)
  · apply labels_complete hL hext
    · rintro p q ⟨hp0, hpq⟩
      refine ⟨?_, ?_⟩
      · rw [hL2 p]; split <;> assumption
      · rw [hL2 p, hL2 q, hpq]
    · refine ⟨?_, ?_⟩
      · rw [hL2 a]; simpa [hab] using ha
      · rw [hL2 a, hL2 b]; simp [hab]

/-- Both endpoints already share a label: nothing changes. -/
theorem labels_same {L : Nat → Nat} {R R2 : Nat → Nat → Prop} {a b : Nat}
    (hL : Labels L R) (hext : Extends R R2 a b) (ha : L a ≠ 0) (hab : L a = L b) :
    Labels L R2 := by
  intro p q
  constructor
  · intro h
    exact hext.mono _ _ ((hL p q).mp h)
  · exact labels_complete hL hext (fun _ _ h => h) ⟨ha, hab⟩ p q

theorem group_of_set (pg : List Nat) (a v p : Nat) (ha : a < pg.length) :
    group_of (pg.set a v) p = if p = a then v else group_of pg p := by
  unfold group_of
  rw [List.getD_eq_getElem?_getD, List.getD_eq_getElem?_getD, List.getElem?_set]
  by_cases h : a = p
  · subst h; simp [ha]
  · have h2 : ¬ p = a := fun h3 => h h3.symm
    simp [h, h2]

theorem group_of_map (pg : List Nat) (f : Nat → Nat) (hf : f 0 = 0) (p : Nat) :
    group_of (pg.map f) p = f (group_of pg p) := by
  unfold group_of
  rw [List.getD_eq_getElem?_getD, List.getD_eq_getElem?_getD, List.getElem?_map]
  cases pg[p]? <;> simp [hf]

theorem getElem?_eq_group_of (pg : List Nat) (a : Nat) (ha : a < pg.length) :
    pg[a]? = some (group_of pg a) := by
  unfold group_of
  rw [List.getD_eq_getElem _ _ ha, List.getElem?_eq_getElem ha]

theorem group_of_replicate (n p : Nat) : group_of (List.replicate n 0) p = 0 := by
  unfold group_of
  rw [List.getD_eq_getElem?_getD]
  by_cases h : p < n
  · simp [List.getElem?_replicate, h]
  · simp [List.getElem?_replicate, h]

theorem group_of_eq_zero_of_le (pg : List Nat) (p : Nat) (h : pg.length ≤ p) :
    group_of pg p = 0 := by
  unfold group_of
  exact List.getD_eq_default _ _ h

/-- The result of `connect` when both endpoints index the vector. -/
theorem connect_eq (st : Groups) (e : Edge) (ha : e.index_a < st.point_groups.length)
    (hb : e.index_b < st.point_groups.length) :
    connect st e =
      if group_of st.point_groups e.index_a = 0 ∧ group_of st.point_groups e.index_b = 0 then
        some ⟨(st.point_groups.set e.index_a st.group_counter).set e.index_b st.group_counter,
          st.group_counter + 1⟩
      else if group_of st.point_groups e.index_a = 0 then
        some ⟨st.point_groups.set e.index_a (group_of st.point_groups e.index_b),
          st.group_counter⟩
      else if group_of st.point_groups e.index_b = 0 then
        some ⟨st.point_groups.set e.index_b (group_of st.point_groups e.index_a),
          st.group_counter⟩
      else if group_of st.point_groups e.index_a ≠ group_of st.point_groups e.index_b then
        some ⟨st.point_groups.map (fun g =>
          if g = group_of st.point_groups e.index_b then group_of st.point_groups e.index_a
          else g), st.group_counter⟩
      else some st := by
  unfold connect
  simp only [getElem?_eq_group_of _ _ ha, getElem?_eq_group_of _ _ hb]

theorem ginv_init (n : Nat) : GInv n [] ⟨List.replicate n 0, 1⟩ where
  length := by simp
  fresh := fun p => by simp [group_of_replicate]
  labels := fun p q => by
    simp only [SameGroup, group_of_replicate]
    constructor
    · rintro ⟨h, _⟩; exact absurd rfl h
    · intro h; exact absurd h (not_joined_nil p q)

theorem connect_inv {n : Nat} {E : List Edge} {st : Groups} (h : GInv n E st) (e : Edge)
    (ha : e.index_a < n) (hb : e.index_b < n) :
    ∃ st2, connect st e = some st2 ∧ GInv n (E ++ [e]) st2 ∧
      st.group_counter ≤ st2.group_counter := by
  have hla : e.index_a < st.point_groups.length := by rw [h.length]; exact ha
  have hlb : e.index_b < st.point_groups.length := by rw [h.length]; exact hb
  have hext := joined_extends E e
  rw [connect_eq st e hla hlb]
  by_cases h00 : group_of st.point_groups e.index_a = 0 ∧ group_of st.point_groups e.index_b = 0
  · rw [if_pos h00]
    have hset : ∀ p, group_of ((st.point_groups.set e.index_a st.group_counter).set e.index_b
        st.group_counter) p
        = if p = e.index_a ∨ p = e.index_b then st.group_counter
          else group_of st.point_groups p := by
      intro p
      rw [group_of_set _ _ _ _ (by simpa using hlb), group_of_set _ _ _ _ hla]
      by_cases h1 : p = e.index_b <;> by_cases h2 : p = e.index_a <;> simp [h1, h2]
    refine ⟨_, rfl, ⟨by simp [h.length], ?_, ?_⟩, by simp⟩
    · intro p
      rw [hset p]
      have := h.fresh p
      show (if p = e.index_a ∨ p = e.index_b then st.group_counter
        else group_of st.point_groups p) < st.group_counter + 1
      split
      · omega
      · omega
    · exact labels_new_group h.labels hext h.fresh h00.1 h00.2 hset
  · rw [if_neg h00]
    by_cases ha0 : group_of st.point_groups e.index_a = 0
    · rw [if_pos ha0]
      have hb0 : group_of st.point_groups e.index_b ≠ 0 := fun hb0 => h00 ⟨ha0, hb0⟩
      have hset := fun p => group_of_set st.point_groups e.index_a
        (group_of st.point_groups e.index_b) p hla
      refine ⟨_, rfl, ⟨by simp [h.length], ?_, ?_⟩, le_refl _⟩
      · intro p
        show group_of (st.point_groups.set _ _) p < st.group_counter
        rw [hset p]
        split
        · exact h.fresh _
        · exact h.fresh _
      · exact labels_join h.labels hext ha0 hb0 hset
    · rw [if_neg ha0]
      by_cases hb0 : group_of st.point_groups e.index_b = 0
      · rw [if_pos hb0]
        have hset := fun p => group_of_set st.point_groups e.index_b
          (group_of st.point_groups e.index_a) p hlb
        refine ⟨_, rfl, ⟨by simp [h.length], ?_, ?_⟩, le_refl _⟩
        · intro p
          show group_of (st.point_groups.set _ _) p < st.group_counter
          rw [hset p]
          split
          · exact h.fresh _
          · exact h.fresh _
        · exact labels_join h.labels (extends_swap hext) hb0 ha0 hset
      · rw [if_neg hb0]
        by_cases hne : group_of st.point_groups e.index_a ≠ group_of st.point_groups e.index_b
        · rw [if_pos hne]
          have hmap := fun p => group_of_map st.point_groups (fun g =>
            if g = group_of st.point_groups e.index_b then group_of st.point_groups e.index_a
            else g) (by simp; intro h0; exact absurd h0.symm hb0) p
          refine ⟨_, rfl, ⟨by simp [h.length], ?_, ?_⟩, le_refl _⟩
          · intro p
            show group_of (st.point_groups.map _) p < st.group_counter
            rw [hmap p]
            split
            · exact h.fresh _
            · exact h.fresh _
          · exact labels_merge h.labels hext ha0 hb0 hne hmap
        · rw [if_neg hne]
          refine ⟨st, rfl, ⟨h.length, h.fresh, ?_⟩, le_refl _⟩
          exact labels_same h.labels hext ha0 (not_not.mp hne)

theorem foldlM_connect_inv {n : Nat} : ∀ (es E : List Edge) (st : Groups), GInv n E st →
    (∀ e ∈ es, e.index_a < n ∧ e.index_b < n) →
    ∃ st2, es.foldlM connect st = some st2 ∧ GInv n (E ++ es) st2 := by
  intro es
  induction es with
  | nil => intro E st h _; exact ⟨st, rfl, by simpa using h⟩
  | cons e es ih =>
    intro E st h hv
    obtain ⟨st1, h1, hinv1, _⟩ := connect_inv h e (hv e (by simp)).1 (hv e (by simp)).2
    obtain ⟨st2, h2, hinv2⟩ := ih (E ++ [e]) st1 hinv1 (fun x hx => hv x (by simp [hx]))
    refine ⟨st2, ?_, by simpa using hinv2⟩
    rw [List.foldlM_cons, h1]
    exact h2

namespace SolveA

theorem foldlM_connect_at (edges : List Edge) : ∀ (K : Nat) (st : Groups), K ≤ edges.length →
    (List.range K).foldlM (connect_at edges) st = (edges.take K).foldlM connect st := by
  intro K
  induction K with
  | zero => intro st _; simp
  | succ k ih =>
    intro st hk
    have hk2 : k < edges.length := by omega
    rw [List.range_succ, List.foldlM_append, ih st (by omega), List.take_succ,
      List.foldlM_append]
    congr 1
    funext st1
    simp [connect_at, List.getElem?_eq_getElem hk2]

theorem find_point_groups_eq (edges : List Edge) (pg : List Nat) (K : Nat)
    (hK : K ≤ edges.length) :
    find_point_groups edges pg K =
      ((edges.take K).foldlM connect ⟨pg, 1⟩).map
        (fun st => (st.point_groups, st.group_counter - 1)) := by
  unfold find_point_groups
  rw [foldlM_connect_at edges K _ hK]
  cases (edges.take K).foldlM connect ⟨pg, 1⟩ <;> rfl

theorem find_point_groups_inv (edges : List Edge) (n K : Nat) (hK : K ≤ edges.length)
    (hv : ∀ e ∈ edges.take K, e.index_a < n ∧ e.index_b < n) :
    ∃ st : Groups, find_point_groups edges (List.replicate n 0) K
        = some (st.point_groups, st.group_counter - 1) ∧ GInv n (edges.take K) st := by
  obtain ⟨st, hst, hinv⟩ := foldlM_connect_inv (edges.take K) [] _ (ginv_init n) hv
  refine ⟨st, ?_, by simpa using hinv⟩
  rw [find_point_groups_eq edges _ K hK, hst]
  rfl

end SolveA

namespace SolveA

theorem foldlM_bump : ∀ (l sizes : List Nat), (∀ g ∈ l, 1 ≤ g ∧ g ≤ sizes.length) →
    ∃ res, l.foldlM bump sizes = some res ∧ res.length = sizes.length ∧
      ∀ i, i < sizes.length → res.getD i 0 = sizes.getD i 0 + l.count (i + 1) := by
  intro l
  induction l with
  | nil => intro sizes _; exact ⟨sizes, rfl, rfl, by simp⟩
  | cons g l ih =>
    intro sizes hl
    obtain ⟨hg1, hg2⟩ := hl g (by simp)
    have hlt : g - 1 < sizes.length := by omega
    have hstep : bump sizes g = some (sizes.set (g - 1) (sizes.getD (g - 1) 0 + 1)) := by
      simp [bump, List.getElem?_eq_getElem hlt, List.getD_eq_getElem _ _ hlt]
    obtain ⟨res, hres, hlen, hval⟩ := ih (sizes.set (g - 1) (sizes.getD (g - 1) 0 + 1))
      (fun x hx => by simpa using hl x (by simp [hx]))
    refine ⟨res, ?_, by simpa using hlen, ?_⟩
    · rw [List.foldlM_cons, hstep]; exact hres
    · intro i hi
      rw [hval i (by simpa using hi)]
      have hget : (sizes.set (g - 1) (sizes.getD (g - 1) 0 + 1)).getD i 0
          = if i = g - 1 then sizes.getD (g - 1) 0 + 1 else sizes.getD i 0 := by
        have := group_of_set sizes (g - 1) (sizes.getD (g - 1) 0 + 1) i hlt
        simpa [group_of] using this
      rw [hget, List.count_cons]
      by_cases hig : i = g - 1
      · have : g = i + 1 := by omega
        subst this
        simp
        omega
      · have : ¬ g = i + 1 := by omega
        simp [hig, this]

theorem find_group_sizes_eq (point_groups : List Nat) (group_count : Nat)
    (h : ∀ g ∈ point_groups, g ≤ group_count) :
    find_group_sizes point_groups (List.replicate group_count 0)
      = some (size_table point_groups group_count) := by
  have hfold := foldlM_bump (point_groups.filter (fun group_id => decide (group_id > 0)))
    (List.replicate group_count 0) (by
      intro g hg
      rw [List.mem_filter] at hg
      have := h g hg.1
      have h2 : g > 0 := by simpa using hg.2
      simp only [List.length_replicate]; omega)
  obtain ⟨res, hres, hlen, hval⟩ := hfold
  have hres2 : find_group_sizes point_groups (List.replicate group_count 0) = some res := hres
  rw [hres2]
  congr 1
  apply List.ext_getElem
  · simp [size_table, hlen]
  · intro i h1 h2
    have hi : i < group_count := by simpa [size_table] using h2
    have := hval i (by simpa using hi)
    rw [List.getD_eq_getElem _ _ h1] at this
    rw [this]
    simp only [size_table, List.getElem_map, List.getElem_range]
    have h0 : (List.replicate group_count 0).getD i 0 = 0 := by
      exact group_of_replicate group_count i
    rw [h0, Nat.zero_add, List.count_filter]
    simp

end SolveA

theorem mem_group_ids {pg : List Nat} {x : Nat} :
    x ∈ group_ids pg ↔ x ≠ 0 ∧ ∃ p, group_of pg p = x := by
  unfold group_ids group_of
  rw [Finset.mem_erase, List.mem_toFinset]
  constructor
  · rintro ⟨hx, hmem⟩
    obtain ⟨i, hi, rfl⟩ := List.getElem_of_mem hmem
    exact ⟨hx, i, List.getD_eq_getElem _ _ hi⟩
  · rintro ⟨hx, p, rfl⟩
    refine ⟨hx, ?_⟩
    by_cases hp : p < pg.length
    · rw [List.getD_eq_getElem _ _ hp]; exact List.getElem_mem _
    · exact absurd (List.getD_eq_default _ _ (by omega)) hx

theorem mem_of_group_of_ne_zero {pg : List Nat} {p : Nat} (h : group_of pg p ≠ 0) :
    p < pg.length ∧ group_of pg p ∈ pg := by
  by_cases hp : p < pg.length
  · refine ⟨hp, ?_⟩
    unfold group_of
    rw [List.getD_eq_getElem _ _ hp]; exact List.getElem_mem _
  · exact absurd (group_of_eq_zero_of_le pg p (by omega)) h

theorem mem_iff_group_of {pg : List Nat} {x : Nat} :
    x ∈ pg ↔ ∃ p, p < pg.length ∧ group_of pg p = x := by
  constructor
  · intro hmem
    obtain ⟨i, hi, rfl⟩ := List.getElem_of_mem hmem
    exact ⟨i, hi, List.getD_eq_getElem _ _ hi⟩
  · rintro ⟨p, hp, rfl⟩
    unfold group_of
    rw [List.getD_eq_getElem _ _ hp]; exact List.getElem_mem _

/-- The non-zero entries of the size table are the sizes of the populated groups. -/
theorem size_table_nonzero (pg : List Nat) (cnt : Nat) (h : ∀ g ∈ pg, g ≤ cnt) :
    ((size_table pg cnt).filter (fun s => decide (s ≠ 0))).Perm
      ((group_ids pg).toList.map (fun g => pg.count g)) := by
  unfold size_table
  rw [List.filter_map]
  have hperm : (((List.range cnt).filter
      ((fun s => decide (s ≠ 0)) ∘ fun i => pg.count (i + 1))).map (fun i => i + 1)).Perm
      (group_ids pg).toList := by
    apply List.perm_of_nodup_nodup_toFinset_eq
    · apply List.Nodup.map
      · intro a b hab; simpa using hab
      · exact (List.nodup_range cnt).filter _
    · exact Finset.nodup_toList _
    · ext x
      simp only [List.mem_toFinset, List.mem_map, List.mem_filter, List.mem_range,
        Function.comp_apply, decide_eq_true_eq, Finset.mem_toList]
      unfold group_ids
      rw [Finset.mem_erase, List.mem_toFinset]
      constructor
      · rintro ⟨i, ⟨_, hc⟩, rfl⟩
        exact ⟨by omega, List.count_pos_iff.mp (Nat.pos_of_ne_zero hc)⟩
      · rintro ⟨hx, hmem⟩
        have := h x hmem
        exact ⟨x - 1, ⟨by omega, by
          have : x - 1 + 1 = x := by omega
          rw [this]
          exact Nat.ne_of_gt (List.count_pos_iff.mpr hmem)⟩, by omega⟩
  have := hperm.map (fun g => pg.count g)
  rw [List.map_map] at this
  exact this

theorem edge_stream_valid {points : List Point} (hw : WellIndexed points) {e : Edge}
    (he : e ∈ edge_stream points) : e.index_a < e.index_b ∧ e.index_b < points.length := by
  obtain ⟨i, j, p, q, hij, _, hj, rfl⟩ :=
    mem_edge_stream_of_indexed ((wellIndexed_iff points).mp hw) he
  have hj2 := (List.getElem?_eq_some_iff.mp hj).1
  simp
  omega

/-- The three largest entries of a list with at least three entries. -/
theorem three_largest (gs : List Nat) (h : 3 ≤ gs.length) :
    ∃ a b c rest, gs.insertionSort (fun a b => a ≥ b) = a :: b :: c :: rest ∧
      gs.Perm (a :: b :: c :: rest) ∧ b ≤ a ∧ c ≤ b ∧ ∀ x ∈ rest, x ≤ c := by
  have hs : (gs.insertionSort (fun a b => a ≥ b)).Sorted (fun a b => a ≥ b) :=
    List.sorted_insertionSort _ gs
  have hp := List.perm_insertionSort (fun a b : Nat => a ≥ b) gs
  have hlen : 3 ≤ (gs.insertionSort (fun a b => a ≥ b)).length := by
    rw [List.length_insertionSort]; exact h
  match hm : gs.insertionSort (fun a b => a ≥ b), hlen with
  | a :: b :: c :: rest, _ =>
    rw [hm] at hs hp
    have h1 := List.rel_of_sorted_cons hs
    have h2 := List.rel_of_sorted_cons hs.of_cons
    have h3 := List.rel_of_sorted_cons hs.of_cons.of_cons
    exact ⟨a, b, c, rest, rfl, hp.symm, h1 b (by simp), h2 c (by simp), fun x hx => h3 x hx⟩

namespace SolveA

theorem offer_subset (S : EdgeSorter) (K m : Nat) (st : Selection) (e : Edge) :
    ∀ x ∈ (offer S K m st e).edges, x ∈ st.edges ++ [e] := by
  intro x hx
  unfold offer at hx
  by_cases h1 : st.edges.length < K
  · simp only [h1, if_true] at hx
    by_cases h2 : (st.edges ++ [e]).length = K
    · simp only [h2, if_true] at hx
      exact (S.perm _).mem_iff.mp hx
    · simp only [h2, if_false] at hx
      exact hx
  · simp only [h1, if_false] at hx
    by_cases h3 : e.distance2 < st.max_distance2
    · simp only [h3, if_true] at hx
      by_cases h2 : (st.edges ++ [e]).length = K + m
      · simp only [h2, if_true] at hx
        exact (S.perm _).mem_iff.mp (List.mem_of_mem_take hx)
      · simp only [h2, if_false] at hx
        exact hx
    · simp only [h3, if_false] at hx
      exact List.mem_append_left _ hx

theorem foldl_offer_subset (S : EdgeSorter) (K m : Nat) : ∀ (l : List Edge) (st : Selection),
    ∀ x ∈ (l.foldl (offer S K m) st).edges, x ∈ st.edges ++ l := by
  intro l
  induction l with
  | nil => intro st x hx; simpa using hx
  | cons e l ih =>
    intro st x hx
    have h1 := ih (offer S K m st e) x hx
    rcases List.mem_append.mp h1 with h2 | h2
    · have h3 := offer_subset S K m st e x h2
      rcases List.mem_append.mp h3 with h4 | h4
      · exact List.mem_append_left _ h4
      · have : x = e := by simpa using h4
        simp [this]
    · exact List.mem_append_right _ (List.mem_cons_of_mem _ h2)

theorem initialize_edges_subset (S : EdgeSorter) (points : List Point) (K : Nat) :
    ∀ x ∈ initialize_edges S points [] K, x ∈ edge_stream points := by
  intro x hx
  unfold initialize_edges at hx
  have h1 := (S.perm _).mem_iff.mp hx
  simpa using foldl_offer_subset S K (K / 10) (edge_stream points) ⟨[], 0⟩ x h1

/-- The tracker state reached by `find_point_groups` in variant A `solve`. -/
theorem solve_groups (S : EdgeSorter) (points : List Point) (K : Nat) (hw : WellIndexed points)
    (hK1 : 1 ≤ K) (hK : K ≤ points.length * (points.length - 1) / 2) :
    ∃ st : Groups,
      find_point_groups (initialize_edges S points [] K) (List.replicate points.length 0) K
        = some (st.point_groups, st.group_counter - 1) ∧
      GInv points.length ((initialize_edges S points [] K).take K) st := by
  apply find_point_groups_inv
  · unfold initialize_edges
    rw [(S.perm _).length_eq]
    exact select_length_ge S points hK1 hK
  · intro e he
    have := edge_stream_valid hw (initialize_edges_subset S points K e (List.mem_of_mem_take he))
    omega

theorem ginv_le_count {n : Nat} {E : List Edge} {st : Groups} (h : GInv n E st) :
    ∀ g ∈ st.point_groups, g ≤ st.group_counter - 1 := by
  intro g hg
  obtain ⟨p, _, rfl⟩ := mem_iff_group_of.mp hg
  have := h.fresh p
  omega

theorem group_ids_card_le {pg : List Nat} {cnt : Nat} (h : ∀ g ∈ pg, g ≤ cnt) :
    (group_ids pg).card ≤ cnt := by
  have hsub : group_ids pg ⊆ Finset.Icc 1 cnt := by
    intro x hx
    unfold group_ids at hx
    rw [Finset.mem_erase, List.mem_toFinset] at hx
    rw [Finset.mem_Icc]
    have := h x hx.2
    omega
  have := Finset.card_le_card hsub
  simpa using this

theorem largest_groups_product_eq {edges : List Edge} {n K : Nat} {pg : List Nat} {cnt : Nat}
    (hfind : find_point_groups edges (List.replicate n 0) K = some (pg, cnt))
    (hle : ∀ g ∈ pg, g ≤ cnt) {a b c : Nat} {rest : List Nat}
    (hsort : (size_table pg cnt).insertionSort (fun a b => a ≥ b) = a :: b :: c :: rest) :
    largest_groups_product edges n K = some (a * b * c) := by
  unfold largest_groups_product
  simp only [hfind, find_group_sizes_eq pg cnt hle, hsort]
  simp

theorem size_table_getElem? (pg : List Nat) (cnt g : Nat) (h1 : 1 ≤ g) (h2 : g ≤ cnt) :
    (size_table pg cnt)[g - 1]? = some (pg.count g) := by
  unfold size_table
  rw [List.getElem?_map, List.getElem?_range (by omega)]
  have : g - 1 + 1 = g := by omega
  simp [this]

theorem size_table_length (pg : List Nat) (cnt : Nat) : (size_table pg cnt).length = cnt := by
  simp [size_table]

/-- With fewer than three populated groups the third largest table entry is `0`. -/
theorem third_largest_zero {pg : List Nat} {cnt : Nat} (hle : ∀ g ∈ pg, g ≤ cnt)
    (hfew : (group_ids pg).card < 3) {a b c : Nat} {rest : List Nat}
    (hperm : (size_table pg cnt).Perm (a :: b :: c :: rest)) (hba : b ≤ a) (hcb : c ≤ b) :
    c = 0 := by
  by_contra hc
  have h1 := (hperm.filter (fun s => decide (s ≠ 0))).length_eq
  have h2 := (size_table_nonzero pg cnt hle).length_eq
  rw [h1] at h2
  have ha : a ≠ 0 := by omega
  have hb : b ≠ 0 := by omega
  simp [List.filter_cons, ha, hb, hc] at h2
  omega

end SolveA

theorem count_zero_set : ∀ (l : List Nat) (a v : Nat), a < l.length → group_of l a = 0 →
    v ≠ 0 → (l.set a v).count 0 + 1 = l.count 0 := by
  intro l
  induction l with
  | nil => intro a v ha; simp at ha
  | cons x l ih =>
    intro a v ha h0 hv
    cases a with
    | zero =>
      have hx : x = 0 := by simpa [group_of] using h0
      subst hx
      simp [List.count_cons, hv]
    | succ a =>
      have h1 : group_of l a = 0 := by simpa [group_of] using h0
      have := ih a v (by simpa using ha) h1 hv
      simp only [List.set_cons_succ, List.count_cons]
      omega

theorem count_zero_map (f : Nat → Nat) (hf : ∀ x, f x = 0 ↔ x = 0) :
    ∀ l : List Nat, (l.map f).count 0 = l.count 0 := by
  intro l
  induction l with
  | nil => rfl
  | cons x l ih =>
    simp only [List.map_cons, List.count_cons, ih]
    by_cases hx : x = 0
    · subst hx; simp [(hf 0).mpr rfl]
    · have : f x ≠ 0 := fun h => hx ((hf x).mp h)
      simp [hx, this]

theorem group_ids_set (pg : List Nat) (a v : Nat) (ha : a < pg.length)
    (h0 : group_of pg a = 0) (hv : v ≠ 0) :
    group_ids (pg.set a v) = insert v (group_ids pg) := by
  ext x
  rw [Finset.mem_insert, mem_group_ids, mem_group_ids]
  constructor
  · rintro ⟨hx, p, hp⟩
    rw [group_of_set _ _ _ _ ha] at hp
    by_cases hpa : p = a
    · simp only [hpa, if_true] at hp; exact Or.inl hp.symm
    · simp only [hpa, if_false] at hp; exact Or.inr ⟨hx, p, hp⟩
  · rintro (rfl | ⟨hx, p, hp⟩)
    · exact ⟨hv, a, by rw [group_of_set _ _ _ _ ha]; simp⟩
    · refine ⟨hx, p, ?_⟩
      have hpa : p ≠ a := by rintro rfl; rw [h0] at hp; exact hx hp.symm
      rw [group_of_set _ _ _ _ ha]
      simp [hpa, hp]

theorem group_ids_merge (pg : List Nat) (a ga gb : Nat) (hga : group_of pg a = ga)
    (hb0 : gb ≠ 0) (hne : ga ≠ gb) :
    group_ids (pg.map (fun g => if g = gb then ga else g)) = (group_ids pg).erase gb := by
  have hf : (fun g => if g = gb then ga else g) 0 = 0 := by
    show (if 0 = gb then ga else 0) = 0
    rw [if_neg (fun h => hb0 h.symm)]
  ext x
  rw [Finset.mem_erase, mem_group_ids, mem_group_ids]
  constructor
  · rintro ⟨hx, p, hp⟩
    rw [group_of_map pg (fun g => if g = gb then ga else g) hf] at hp
    by_cases hpb : group_of pg p = gb
    · simp only [hpb, if_true] at hp
      subst hp
      exact ⟨hne, hx, a, hga⟩
    · simp only [hpb, if_false] at hp
      exact ⟨by rw [← hp]; exact hpb, hx, p, hp⟩
  · rintro ⟨hxb, hx, p, hp⟩
    refine ⟨hx, p, ?_⟩
    rw [group_of_map pg (fun g => if g = gb then ga else g) hf, hp]
    simp [hxb]

namespace SolveB

theorem connect_tracker_eq (st : Tracker) (e : Edge) (ha : e.index_a < st.point_groups.length)
    (hb : e.index_b < st.point_groups.length) :
    connect st e =
      if group_of st.point_groups e.index_a = 0 ∧ group_of st.point_groups e.index_b = 0 then
        some { point_groups :=
                 (st.point_groups.set e.index_a st.group_counter).set e.index_b st.group_counter,
               unassigned_points := st.unassigned_points - 2,
               unique_group_count := st.unique_group_count + 1,
               group_counter := st.group_counter + 1 }
      else if group_of st.point_groups e.index_a = 0 then
        some { st with point_groups :=
                         st.point_groups.set e.index_a (group_of st.point_groups e.index_b),
                       unassigned_points := st.unassigned_points - 1 }
      else if group_of st.point_groups e.index_b = 0 then
        some { st with point_groups :=
                         st.point_groups.set e.index_b (group_of st.point_groups e.index_a),
                       unassigned_points := st.unassigned_points - 1 }
      else if group_of st.point_groups e.index_a ≠ group_of st.point_groups e.index_b then
        some { st with point_groups := st.point_groups.map (fun g =>
                         if g = group_of st.point_groups e.index_b
                         then group_of st.point_groups e.index_a else g),
                       unique_group_count := st.unique_group_count - 1 }
      else some st := by
  unfold connect
  simp only [getElem?_eq_group_of _ _ ha, getElem?_eq_group_of _ _ hb]

/-- On the vector of group ids and the id counter, `find_last_edge` takes the same step as
`find_point_groups`. -/
theorem connect_groups (st : Tracker) (e : Edge) (ha : e.index_a < st.point_groups.length)
    (hb : e.index_b < st.point_groups.length) :
    (connect st e).map Tracker.groups = Day08.connect st.groups e := by
  rw [connect_tracker_eq st e ha hb, Day08.connect_eq st.groups e ha hb]
  simp only [Tracker.groups]
  split_ifs <;> rfl

theorem connect_counters {n : Nat} {E : List Edge} {st : Tracker} (hg : GInv n E st.groups)
    (hc : CInv st) (e : Edge) (ha : e.index_a < n) (hb : e.index_b < n)
    (hab : e.index_a ≠ e.index_b) {st2 : Tracker} (h : connect st e = some st2) :
    CInv st2 := by
  have hlen : st.point_groups.length = n := hg.length
  have hla : e.index_a < st.point_groups.length := by rw [hlen]; exact ha
  have hlb : e.index_b < st.point_groups.length := by rw [hlen]; exact hb
  have hfresh : ∀ p, group_of st.point_groups p < st.group_counter := hg.fresh
  rw [connect_tracker_eq st e hla hlb] at h
  by_cases h00 : group_of st.point_groups e.index_a = 0 ∧ group_of st.point_groups e.index_b = 0
  · rw [if_pos h00] at h
    have hgc : st.group_counter ≠ 0 := by have := hfresh 0; omega
    have hb2 : group_of (st.point_groups.set e.index_a st.group_counter) e.index_b = 0 := by
      rw [group_of_set _ _ _ _ hla]; simp [Ne.symm hab, h00.2]
    have hlb2 : e.index_b < (st.point_groups.set e.index_a st.group_counter).length := by
      simpa using hlb
    have c1 := count_zero_set st.point_groups e.index_a st.group_counter hla h00.1 hgc
    have c2 := count_zero_set _ e.index_b st.group_counter hlb2 hb2 hgc
    have i1 := group_ids_set st.point_groups e.index_a st.group_counter hla h00.1 hgc
    have i2 := group_ids_set _ e.index_b st.group_counter hlb2 hb2 hgc
    have hnot : st.group_counter ∉ group_ids st.point_groups := by
      intro hmem
      obtain ⟨_, p, hp⟩ := mem_group_ids.mp hmem
      have := hfresh p
      omega
    have := Option.some.inj h
    subst this
    refine ⟨?_, ?_⟩
    · dsimp only
      rw [hc.unassigned]; omega
    · show st.unique_group_count + 1 = _
      rw [i2, i1, Finset.insert_idem, Finset.card_insert_of_not_mem hnot, hc.unique]
  · rw [if_neg h00] at h
    by_cases ha0 : group_of st.point_groups e.index_a = 0
    · rw [if_pos ha0] at h
      have hb0 : group_of st.point_groups e.index_b ≠ 0 := fun hb0 => h00 ⟨ha0, hb0⟩
      have c1 := count_zero_set st.point_groups e.index_a _ hla ha0 hb0
      have i1 := group_ids_set st.point_groups e.index_a _ hla ha0 hb0
      have hmem : group_of st.point_groups e.index_b ∈ group_ids st.point_groups :=
        mem_group_ids.mpr ⟨hb0, e.index_b, rfl⟩
      have := Option.some.inj h
      subst this
      refine ⟨?_, ?_⟩
      · dsimp only
        rw [hc.unassigned]; omega
      · show st.unique_group_count = _
        rw [i1, Finset.insert_eq_of_mem hmem, hc.unique]
    · rw [if_neg ha0] at h
      by_cases hb0 : group_of st.point_groups e.index_b = 0
      · rw [if_pos hb0] at h
        have c1 := count_zero_set st.point_groups e.index_b _ hlb hb0 ha0
        have i1 := group_ids_set st.point_groups e.index_b _ hlb hb0 ha0
        have hmem : group_of st.point_groups e.index_a ∈ group_ids st.point_groups :=
          mem_group_ids.mpr ⟨ha0, e.index_a, rfl⟩
        have := Option.some.inj h
        subst this
        refine ⟨?_, ?_⟩
        · dsimp only
          rw [hc.unassigned]; omega
        · show st.unique_group_count = _
          rw [i1, Finset.insert_eq_of_mem hmem, hc.unique]
      · rw [if_neg hb0] at h
        by_cases hne : group_of st.point_groups e.index_a ≠ group_of st.point_groups e.index_b
        · rw [if_pos hne] at h
          have c1 := count_zero_map (fun g =>
            if g = group_of st.point_groups e.index_b then group_of st.point_groups e.index_a
            else g) (by
              intro x
              by_cases hx : x = group_of st.point_groups e.index_b
              · simp only [hx, if_true]
                constructor
                · intro h1; exact absurd h1 ha0
                · intro h1; exact absurd h1 hb0
              · simp [hx]) st.point_groups
          have i1 := group_ids_merge st.point_groups e.index_a _ _ rfl hb0 hne
          have hmem : group_of st.point_groups e.index_b ∈ group_ids st.point_groups :=
            mem_group_ids.mpr ⟨hb0, e.index_b, rfl⟩
          have := Option.some.inj h
          subst this
          refine ⟨?_, ?_⟩
          · show st.unassigned_points = _
            rw [hc.unassigned]; exact c1.symm
          · show st.unique_group_count - 1 = _
            rw [i1, Finset.card_erase_of_mem hmem, hc.unique]
        · rw [if_neg hne] at h
          have := Option.some.inj h
          subst this
          exact hc

end SolveB

theorem connected_iff_allJoined {n : Nat} (hn : 2 ≤ n) (E : List Edge) :
    Connected n E ↔ AllJoined n E := by
  constructor
  · intro h
    have hne : ∀ p q, p < n → q < n → p ≠ q → Joined E p q := by
      intro p q hp hq hpq
      rcases Relation.reflTransGen_iff_eq_or_transGen.mp (h p q hp hq) with h1 | h1
      · exact absurd h1.symm hpq
      · exact h1
    intro p q hp hq
    by_cases hpq : p = q
    · subst hpq
      by_cases hp0 : p = 0
      · subst hp0
        exact joined_trans (hne 0 1 hp (by omega) (by omega)) (hne 1 0 (by omega) hp (by omega))
      · exact joined_trans (hne p 0 hp (by omega) hp0) (hne 0 p (by omega) hp (Ne.symm hp0))
    · exact hne p q hp hq hpq
  · intro h p q hp hq
    exact Relation.TransGen.to_reflTransGen (h p q hp hq)

theorem allJoined_mono {n : Nat} {E E2 : List Edge} (hsub : ∀ e ∈ E, e ∈ E2)
    (h : AllJoined n E) : AllJoined n E2 :=
  fun p q hp hq => joined_mono hsub (h p q hp hq)

theorem not_allJoined_nil {n : Nat} (hn : 1 ≤ n) : ¬ AllJoined n [] :=
  fun h => not_joined_nil 0 0 (h 0 0 (by omega) (by omega))

namespace SolveB

/-- The termination test of `find_last_edge` holds exactly when all points are joined. -/
theorem terminal_iff {n : Nat} {E : List Edge} {st : Tracker} (hg : GInv n E st.groups)
    (hc : CInv st) (hn : 1 ≤ n) :
    (st.unassigned_points = 0 ∧ st.unique_group_count = 1) ↔ AllJoined n E := by
  have hlen : st.point_groups.length = n := hg.length
  have hlab : Labels (group_of st.point_groups) (Joined E) := hg.labels
  rw [hc.unassigned, hc.unique]
  constructor
  · rintro ⟨hz, hu⟩
    obtain ⟨g, hg1⟩ := Finset.card_eq_one.mp hu
    have hall : ∀ p, p < n → group_of st.point_groups p = g ∧ g ≠ 0 := by
      intro p hp
      have hne : group_of st.point_groups p ≠ 0 := by
        intro h0
        have hmem : (0 : Nat) ∈ st.point_groups :=
          mem_iff_group_of.mpr ⟨p, by rw [hlen]; exact hp, h0⟩
        have := List.count_pos_iff.mpr hmem
        omega
      have hmem : group_of st.point_groups p ∈ group_ids st.point_groups :=
        mem_group_ids.mpr ⟨hne, p, rfl⟩
      rw [hg1, Finset.mem_singleton] at hmem
      exact ⟨hmem, hmem ▸ hne⟩
    intro p q hp hq
    apply (hlab p q).mp
    exact ⟨by rw [(hall p hp).1]; exact (hall p hp).2, by rw [(hall p hp).1, (hall q hq).1]⟩
  · intro h
    have hsame : ∀ p q, p < n → q < n → SameGroup (group_of st.point_groups) p q :=
      fun p q hp hq => (hlab p q).mpr (h p q hp hq)
    refine ⟨?_, ?_⟩
    · rw [List.count_eq_zero]
      intro hmem
      obtain ⟨p, hp, hp0⟩ := mem_iff_group_of.mp hmem
      exact (hsame p p (by omega) (by omega)).1 hp0
    · rw [Finset.card_eq_one]
      refine ⟨group_of st.point_groups 0, ?_⟩
      ext x
      rw [Finset.mem_singleton, mem_group_ids]
      constructor
      · rintro ⟨hx, p, rfl⟩
        have hp := (mem_of_group_of_ne_zero hx).1
        exact (hsame p 0 (by omega) (by omega)).2
      · rintro rfl
        exact ⟨(hsame 0 0 (by omega) (by omega)).1, 0, rfl⟩

/-- The invariant of `find_last_edge`. -/
theorem connect_tracker_inv {n : Nat} {E : List Edge} {st : Tracker}
    (hg : GInv n E st.groups) (hc : CInv st) (e : Edge) (ha : e.index_a < n)
    (hb : e.index_b < n) (hab : e.index_a ≠ e.index_b) :
    ∃ st2, connect st e = some st2 ∧ GInv n (E ++ [e]) st2.groups ∧ CInv st2 := by
  have hlen : st.point_groups.length = n := hg.length
  obtain ⟨g2, hg2, hinv2, _⟩ := connect_inv hg e ha hb
  have hmap := connect_groups st e (by rw [hlen]; exact ha) (by rw [hlen]; exact hb)
  rw [hg2] at hmap
  cases hst : connect st e with
  | none => rw [hst] at hmap; simp at hmap
  | some st2 =>
    rw [hst] at hmap
    have : st2.groups = g2 := by simpa using hmap
    exact ⟨st2, rfl, this ▸ hinv2, connect_counters hg hc e ha hb hab hst⟩

theorem scan_spec {n : Nat} (hn : 1 ≤ n) : ∀ (rest E : List Edge) (st : Tracker) (idx : Nat),
    GInv n E st.groups → CInv st →
    (∀ e ∈ rest, e.index_a < n ∧ e.index_b < n ∧ e.index_a ≠ e.index_b) →
    (∃ k, k < rest.length ∧ AllJoined n (E ++ rest.take (k + 1))) →
    ∃ k e st2, scan rest idx st = some (idx + k, e, st2) ∧ rest[k]? = some e ∧
      AllJoined n (E ++ rest.take (k + 1)) ∧
      (∀ j, j < k → ¬ AllJoined n (E ++ rest.take (j + 1))) ∧
      GInv n (E ++ rest.take (k + 1)) st2.groups ∧ CInv st2 := by
  intro rest
  induction rest with
  | nil => intro E st idx _ _ _ hex; obtain ⟨k, hk, _⟩ := hex; simp at hk
  | cons e rest ih =>
    intro E st idx hg hc hv hex
    obtain ⟨hva, hvb, hvab⟩ := hv e (by simp)
    obtain ⟨st1, hst1, hg1, hc1⟩ := connect_tracker_inv hg hc e hva hvb hvab
    have hterm := terminal_iff hg1 hc1 hn
    unfold scan
    simp only [hst1]
    by_cases hdone : st1.unassigned_points = 0 ∧ st1.unique_group_count = 1
    · rw [if_pos hdone]
      refine ⟨0, e, st1, rfl, by simp, by simpa using hterm.mp hdone, ?_, by simpa using hg1,
        hc1⟩
      intro j hj; omega
    · rw [if_neg hdone]
      have hnot : ¬ AllJoined n (E ++ [e]) := fun h => hdone (hterm.mpr h)
      obtain ⟨k, hk, hkj⟩ := hex
      cases k with
      | zero => exact absurd (by simpa using hkj) hnot
      | succ k =>
        have hex2 : ∃ k, k < rest.length ∧ AllJoined n ((E ++ [e]) ++ rest.take (k + 1)) :=
          ⟨k, by simpa using hk, by simpa using hkj⟩
        obtain ⟨k2, e2, st2, hscan, hget, hall, hmin, hg2, hc2⟩ :=
          ih (E ++ [e]) st1 (idx + 1) hg1 hc1 (fun x hx => hv x (by simp [hx])) hex2
        refine ⟨k2 + 1, e2, st2, ?_, by simpa using hget, by simpa using hall, ?_,
          by simpa using hg2, hc2⟩
        · rw [hscan]; congr 2; omega
        · intro j hj
          cases j with
          | zero => simpa using hnot
          | succ j => simpa using hmin j (by omega)

theorem cinv_init (n : Nat) :
    CInv { point_groups := List.replicate n 0, unassigned_points := (List.replicate n 0).length,
           unique_group_count := 0, group_counter := 1 } where
  unassigned := by simp
  unique := by
    show 0 = (group_ids (List.replicate n 0)).card
    symm
    rw [Finset.card_eq_zero]
    ext x
    rw [mem_group_ids]
    simp only [group_of_replicate, Finset.not_mem_empty, iff_false, not_and, not_exists]
    intro hx p hp
    exact hx hp.symm

/-- All points are joined by the complete list of edges. -/
theorem allJoined_of_all_pairs {n : Nat} (hn : 2 ≤ n) {E : List Edge}
    (hall : ∀ i j, i < j → j < n → ∃ e ∈ E, e.index_a = i ∧ e.index_b = j) :
    AllJoined n E := by
  have hne : ∀ p q, p < n → q < n → p ≠ q → Joined E p q := by
    intro p q hp hq hpq
    rcases Nat.lt_or_gt_of_ne hpq with h | h
    · obtain ⟨e, he, h1, h2⟩ := hall p q h hq
      exact Relation.TransGen.single ⟨e, he, Or.inl ⟨h1, h2⟩⟩
    · obtain ⟨e, he, h1, h2⟩ := hall q p h hp
      exact Relation.TransGen.single ⟨e, he, Or.inr ⟨h1, h2⟩⟩
  intro p q hp hq
  by_cases hpq : p = q
  · subst hpq
    by_cases hp0 : p = 0
    · subst hp0
      exact joined_trans (hne 0 1 hp (by omega) (by omega)) (hne 1 0 (by omega) hp (by omega))
    · exact joined_trans (hne p 0 hp (by omega) hp0) (hne 0 p (by omega) hp (Ne.symm hp0))
  · exact hne p q hp hq hpq

/-- What `find_last_edge` returns on an ascending ordering of all edges of `N ≥ 2` points. -/
theorem find_last_edge_spec (points : List Point) (hw : WellIndexed points)
    (hN : 2 ≤ points.length) (edges : List Edge) (hperm : edges.Perm (edge_stream points)) :
    ∃ t e st, find_last_edge edges (List.replicate points.length 0) = some (t, e, st) ∧
      edges[t]? = some e ∧ AllJoined points.length (edges.take (t + 1)) ∧
      (∀ j, j < t → ¬ AllJoined points.length (edges.take (j + 1))) ∧
      GInv points.length (edges.take (t + 1)) st.groups ∧ CInv st := by
  have hvalid : ∀ e ∈ edges, e.index_a < points.length ∧ e.index_b < points.length ∧
      e.index_a ≠ e.index_b := by
    intro e he
    have := edge_stream_valid hw (hperm.mem_iff.mp he)
    omega
  have hlenpos : 0 < edges.length := by
    rw [hperm.length_eq, edge_stream_length]
    have : 2 * 1 ≤ points.length * (points.length - 1) :=
      Nat.mul_le_mul hN (by omega)
    omega
  have hall : AllJoined points.length edges := by
    apply allJoined_of_all_pairs hN
    intro i j hij hj
    have hi : i < points.length := by omega
    have := edge_mem_edge_stream ((wellIndexed_iff points).mp hw) hij
      (List.getElem?_eq_getElem hi) (List.getElem?_eq_getElem hj)
    exact ⟨_, hperm.mem_iff.mpr this, by simp, by simp⟩
  have hex : ∃ k, k < edges.length ∧ AllJoined points.length ([] ++ edges.take (k + 1)) := by
    refine ⟨edges.length - 1, by omega, ?_⟩
    have : edges.length - 1 + 1 = edges.length := by omega
    rw [this, List.take_length]
    simpa using hall
  have hginit : GInv points.length []
      (Tracker.groups { point_groups := List.replicate points.length 0,
                        unassigned_points := (List.replicate points.length 0).length,
                        unique_group_count := 0, group_counter := 1 }) :=
    ginv_init points.length
  obtain ⟨k, e, st2, hscan, hget, hj, hmin, hg2, hc2⟩ :=
    scan_spec (by omega : 1 ≤ points.length) edges [] _ 0 hginit (cinv_init points.length)
      hvalid hex
  refine ⟨k, e, st2, ?_, hget, by simpa using hj, ?_, by simpa using hg2, hc2⟩
  · unfold find_last_edge
    rw [hscan]; simp
  · intro j hjk
    simpa using hmin j hjk

/-- The edge returned by `find_last_edge` carries the least squared distance at which the
graph of all edges up to that distance is connected. -/
theorem find_last_edge_threshold (points : List Point) (hw : WellIndexed points)
    (hN : 2 ≤ points.length) (edges : List Edge) (hperm : edges.Perm (edge_stream points))
    (hsorted : edges.Sorted edge_le) :
    ∃ t e st, find_last_edge edges (List.replicate points.length 0) = some (t, e, st) ∧
      edges[t]? = some e ∧
      Connected points.length
        ((edge_stream points).filter (fun x => decide (x.distance2 ≤ e.distance2))) ∧
      ∀ d, d < e.distance2 →
        ¬ Connected points.length
          ((edge_stream points).filter (fun x => decide (x.distance2 ≤ d))) := by
  obtain ⟨t, e, st, hfind, hget, hall, hmin, _, _⟩ := find_last_edge_spec points hw hN edges hperm
  obtain ⟨ht, hte⟩ := List.getElem?_eq_some_iff.mp hget
  refine ⟨t, e, st, hfind, hget, ?_, ?_⟩
  · rw [connected_iff_allJoined hN]
    apply allJoined_mono _ hall
    intro x hx
    rw [List.mem_filter]
    refine ⟨hperm.mem_iff.mp (List.mem_of_mem_take hx), ?_⟩
    obtain ⟨i, hi, rfl⟩ := List.getElem_of_mem hx
    have hi2 : i < t + 1 := by have := hi; simp at this; omega
    rw [List.getElem_take]
    have hil : i < edges.length := by omega
    have : edge_le edges[i] edges[t] := by
      rcases Nat.lt_or_ge i t with h | h
      · exact List.pairwise_iff_getElem.mp hsorted i t hil ht h
      · have : i = t := by omega
        subst this
        exact le_refl _
    rw [hte] at this
    simpa using this
  · intro d hd hconn
    rw [connected_iff_allJoined hN] at hconn
    have hsub : ∀ x ∈ (edge_stream points).filter (fun x => decide (x.distance2 ≤ d)),
        x ∈ edges.take t := by
      intro x hx
      rw [List.mem_filter] at hx
      have hxd : x.distance2 ≤ d := by simpa using hx.2
      obtain ⟨i, hi, rfl⟩ := List.getElem_of_mem (hperm.mem_iff.mpr hx.1)
      have hit : i < t := by
        by_contra hcon
        have hle : edge_le edges[t] edges[i] := by
          rcases Nat.lt_or_ge t i with h | h
          · exact List.pairwise_iff_getElem.mp hsorted t i ht hi h
          · have : i = t := by omega
            subst this
            exact le_refl _
        rw [hte] at hle
        have : e.distance2 ≤ edges[i].distance2 := hle
        omega
      rw [List.mem_take_iff_getElem]
      exact ⟨i, (by rw [Nat.lt_min]; exact ⟨hit, hi⟩), rfl⟩
    have hall2 := allJoined_mono hsub hconn
    cases t with
    | zero =>
      have h1 : 1 ≤ points.length := by omega
      exact not_allJoined_nil h1 (by simpa using hall2)
    | succ t => exact hmin t (by omega) hall2

end SolveB

theorem isFirstOfGroup_iff_sameGroup (L : Nat → Nat) (p : Nat) :
    IsFirstOfGroup L p ↔ SameGroup L p p ∧ ∀ q, q < p → ¬ SameGroup L q p := by
  unfold IsFirstOfGroup SameGroup
  constructor
  · rintro ⟨h0, h⟩
    exact ⟨⟨h0, rfl⟩, fun q hq hs => h q hq hs.2⟩
  · rintro ⟨⟨h0, _⟩, h⟩
    refine ⟨h0, fun q hq heq => h q hq ⟨heq ▸ h0, heq⟩⟩

theorem joined_perm {E E2 : List Edge} (h : E.Perm E2) (p q : Nat) :
    Joined E p q ↔ Joined E2 p q :=
  ⟨fun hj => joined_mono (fun _ he => h.mem_iff.mp he) hj,
    fun hj => joined_mono (fun _ he => h.mem_iff.mpr he) hj⟩

theorem list_eq_map_group_of (pg : List Nat) :
    pg = (List.range pg.length).map (group_of pg) := by
  apply List.ext_getElem
  · simp
  · intro i h1 h2
    simp [group_of, List.getD_eq_getElem _ _ h1, List.getElem?_eq_getElem h1]

theorem count_eq_countP (pg : List Nat) (g : Nat) :
    pg.count g = (List.range pg.length).countP (fun q => decide (group_of pg q = g)) := by
  conv_lhs => rw [list_eq_map_group_of pg]
  rw [List.count, List.countP_map]
  apply List.countP_congr
  intro q _
  simp [Function.comp]

/-- The populated group ids are the labels of the first points of the groups. -/
theorem group_ids_perm_firsts (pg : List Nat) :
    (group_ids pg).toList.Perm
      (((List.range pg.length).filter (fun p => decide (IsFirstOfGroup (group_of pg) p))).map
        (group_of pg)) := by
  apply List.perm_of_nodup_nodup_toFinset_eq
  · exact Finset.nodup_toList _
  · rw [List.nodup_map_iff_inj_on ((List.nodup_range _).filter _)]
    intro p hp q hq hpq
    rw [List.mem_filter] at hp hq
    have hp2 : IsFirstOfGroup (group_of pg) p := by simpa using hp.2
    have hq2 : IsFirstOfGroup (group_of pg) q := by simpa using hq.2
    rcases Nat.lt_trichotomy p q with h | h | h
    · exact absurd hpq (hq2.2 p h)
    · exact h
    · exact absurd hpq.symm (hp2.2 q h)
  · ext x
    simp only [List.mem_toFinset, Finset.mem_toList, List.mem_map, List.mem_filter,
      List.mem_range, decide_eq_true_eq]
    rw [mem_group_ids]
    constructor
    · rintro ⟨hx, hex⟩
      have hex2 : ∃ p, group_of pg p = x := hex
      refine ⟨Nat.find hex2, ⟨?_, ?_, ?_⟩, Nat.find_spec hex2⟩
      · have h1 := Nat.find_spec hex2
        exact (mem_of_group_of_ne_zero (by rw [h1]; exact hx)).1
      · rw [Nat.find_spec hex2]; exact hx
      · intro q hq heq
        rw [Nat.find_spec hex2] at heq
        exact Nat.find_min hex2 hq heq
    · rintro ⟨p, ⟨_, hp⟩, rfl⟩
      exact ⟨hp.1, p, rfl⟩

/-- Two labellings of `n` points that put the same points together have the same multiset of
group sizes. -/
theorem group_sizes_perm {pg1 pg2 : List Nat} (hlen : pg1.length = pg2.length)
    (hsame : ∀ p q, SameGroup (group_of pg1) p q ↔ SameGroup (group_of pg2) p q) :
    ((group_ids pg1).toList.map (fun g => pg1.count g)).Perm
      ((group_ids pg2).toList.map (fun g => pg2.count g)) := by
  have h1 := (group_ids_perm_firsts pg1).map (fun g => pg1.count g)
  have h2 := (group_ids_perm_firsts pg2).map (fun g => pg2.count g)
  refine h1.trans (List.Perm.trans ?_ h2.symm)
  rw [List.map_map, List.map_map]
  have hfirst : ∀ p, IsFirstOfGroup (group_of pg1) p ↔ IsFirstOfGroup (group_of pg2) p := by
    intro p
    rw [isFirstOfGroup_iff_sameGroup, isFirstOfGroup_iff_sameGroup, hsame p p]
    constructor
    · rintro ⟨h, h3⟩
      exact ⟨h, fun q hq hs => h3 q hq ((hsame q p).mpr hs)⟩
    · rintro ⟨h, h3⟩
      exact ⟨h, fun q hq hs => h3 q hq ((hsame q p).mp hs)⟩
  have hfilter : (List.range pg1.length).filter
        (fun p => decide (IsFirstOfGroup (group_of pg1) p))
      = (List.range pg2.length).filter (fun p => decide (IsFirstOfGroup (group_of pg2) p)) := by
    rw [hlen]
    apply List.filter_congr
    intro p _
    simp [hfirst p]
  rw [hfilter]
  apply List.Perm.of_eq
  apply List.map_congr_left
  intro p hp
  rw [List.mem_filter] at hp
  have hp2 : IsFirstOfGroup (group_of pg2) p := by simpa using hp.2
  have hp1 : IsFirstOfGroup (group_of pg1) p := (hfirst p).mpr hp2
  show pg1.count (group_of pg1 p) = pg2.count (group_of pg2 p)
  rw [count_eq_countP pg1, count_eq_countP pg2, hlen]
  apply List.countP_congr
  intro q _
  have e1 : group_of pg1 q = group_of pg1 p ↔ SameGroup (group_of pg1) p q :=
    ⟨fun h => ⟨hp1.1, h.symm⟩, fun h => h.2.symm⟩
  have e2 : group_of pg2 q = group_of pg2 p ↔ SameGroup (group_of pg2) p q :=
    ⟨fun h => ⟨hp2.1, h.symm⟩, fun h => h.2.symm⟩
  rw [decide_eq_true_eq, decide_eq_true_eq, e1, e2, hsame p q]

/-- The three largest entries only depend on the non-zero entries when there are at least
three of those. -/
theorem three_largest_of_nonzero_perm {gs1 gs2 : List Nat}
    (hperm : (gs1.filter (fun s => decide (s ≠ 0))).Perm (gs2.filter (fun s => decide (s ≠ 0))))
    (h3 : 3 ≤ (gs1.filter (fun s => decide (s ≠ 0))).length)
    {a1 b1 c1 a2 b2 c2 : Nat} {r1 r2 : List Nat}
    (hs1 : gs1.insertionSort (fun a b => a ≥ b) = a1 :: b1 :: c1 :: r1)
    (hs2 : gs2.insertionSort (fun a b => a ≥ b) = a2 :: b2 :: c2 :: r2) :
    a1 = a2 ∧ b1 = b2 ∧ c1 = c2 := by
  have key : ∀ (gs : List Nat) (a b c : Nat) (r : List Nat),
      gs.insertionSort (fun a b => a ≥ b) = a :: b :: c :: r →
      3 ≤ (gs.filter (fun s => decide (s ≠ 0))).length →
      (gs.filter (fun s => decide (s ≠ 0))).insertionSort (fun a b => a ≥ b)
        = a :: b :: c :: r.filter (fun s => decide (s ≠ 0)) := by
    intro gs a b c r hs hlen
    have hsorted : (a :: b :: c :: r).Sorted (fun a b => a ≥ b) := by
      rw [← hs]; exact List.sorted_insertionSort _ gs
    have hp : (a :: b :: c :: r).Perm gs := by
      rw [← hs]; exact List.perm_insertionSort _ gs
    have hc : c ≠ 0 := by
      intro hc0
      have hr : ∀ x ∈ r, x = 0 := by
        intro x hx
        have := List.rel_of_sorted_cons hsorted.of_cons.of_cons x hx
        omega
      have hfr : r.filter (fun s => decide (s ≠ 0)) = [] := by
        rw [List.filter_eq_nil_iff]
        intro x hx
        simp [hr x hx]
      have hl := (hp.filter (fun s => decide (s ≠ 0))).length_eq
      rw [← hl] at hlen
      simp only [List.filter_cons, hc0] at hlen
      simp only [hfr] at hlen
      split at hlen <;> split at hlen <;> simp at hlen
    have hb : b ≠ 0 := by
      have := List.rel_of_sorted_cons hsorted.of_cons c (by simp)
      omega
    have ha : a ≠ 0 := by
      have := List.rel_of_sorted_cons hsorted b (by simp)
      omega
    apply List.eq_of_perm_of_sorted (r := fun a b => a ≥ b)
    · refine (List.perm_insertionSort _ _).trans ?_
      have := hp.symm.filter (fun s => decide (s ≠ 0))
      simpa [List.filter_cons, ha, hb, hc] using this
    · exact List.sorted_insertionSort _ _
    · have := hsorted.filter (fun s => decide (s ≠ 0))
      simpa [List.filter_cons, ha, hb, hc] using this
  have k1 := key gs1 a1 b1 c1 r1 hs1 h3
  have k2 := key gs2 a2 b2 c2 r2 hs2 (by rw [← hperm.length_eq]; exact h3)
  have heq : (gs1.filter (fun s => decide (s ≠ 0))).insertionSort (fun a b => a ≥ b)
      = (gs2.filter (fun s => decide (s ≠ 0))).insertionSort (fun a b => a ≥ b) := by
    apply List.eq_of_perm_of_sorted (r := fun a b => a ≥ b)
    · exact ((List.perm_insertionSort _ _).trans hperm).trans (List.perm_insertionSort _ _).symm
    · exact List.sorted_insertionSort _ _
    · exact List.sorted_insertionSort _ _
  rw [k1, k2] at heq
  simp only [List.cons.injEq] at heq
  exact ⟨heq.1, heq.2.1, heq.2.2.1⟩

theorem sum_filter_ne_zero : ∀ l : List Nat, (l.filter (fun s => decide (s ≠ 0))).sum = l.sum := by
  intro l
  induction l with
  | nil => rfl
  | cons x l ih =>
    by_cases hx : x = 0
    · rw [List.filter_cons_of_neg (by simpa using hx), ih, hx]
      simp
    · rw [List.filter_cons_of_pos (by simpa using hx), List.sum_cons, List.sum_cons, ih]

/-- The entries of the size table add up to the number of points that carry a group id. -/
theorem size_table_sum (pg : List Nat) (cnt : Nat) (h : ∀ g ∈ pg, g ≤ cnt) :
    (size_table pg cnt).sum = (pg.filter (fun g => decide (g ≠ 0))).length := by
  rw [← sum_filter_ne_zero, (size_table_nonzero pg cnt h).sum_eq]
  have hperm : (group_ids pg).toList.Perm (pg.filter (fun g => decide (g ≠ 0))).dedup := by
    apply List.perm_of_nodup_nodup_toFinset_eq (Finset.nodup_toList _) (List.nodup_dedup _)
    ext x
    simp only [List.mem_toFinset, Finset.mem_toList, List.mem_dedup, List.mem_filter,
      decide_eq_true_eq]
    unfold group_ids
    rw [Finset.mem_erase, List.mem_toFinset]
    tauto
  rw [(hperm.map _).sum_eq, ← List.sum_map_count_dedup_eq_length]
  congr 1
  apply List.map_congr_left
  intro g hg
  have hg0 : g ≠ 0 := by
    have := List.mem_dedup.mp hg
    rw [List.mem_filter] at this
    simpa using this.2
  rw [List.count_filter]
  simpa using hg0

/-- At most two points per connected edge carry a group id. -/
theorem grouped_le_twice_edges {n : Nat} {E : List Edge} {st : Groups} (h : GInv n E st) :
    (st.point_groups.filter (fun g => decide (g ≠ 0))).length ≤ 2 * E.length := by
  have hpg := list_eq_map_group_of st.point_groups
  have hlen : (st.point_groups.filter (fun g => decide (g ≠ 0))).length
      = ((List.range st.point_groups.length).filter
          (fun p => decide (group_of st.point_groups p ≠ 0))).length := by
    conv_lhs => rw [hpg]
    rw [List.filter_map, List.length_map]
    rfl
  rw [hlen]
  have hsub : ((List.range st.point_groups.length).filter
      (fun p => decide (group_of st.point_groups p ≠ 0))).Subperm
      (E.map (fun e => e.index_a) ++ E.map (fun e => e.index_b)) := by
    apply List.subperm_of_subset ((List.nodup_range _).filter _)
    intro p hp
    rw [List.mem_filter] at hp
    have hp0 : group_of st.point_groups p ≠ 0 := by simpa using hp.2
    have hj : Joined E p p := (h.labels p p).mp ⟨hp0, rfl⟩
    obtain ⟨e, he, h1 | h1⟩ := joined_self_iff.mp hj
    · exact List.mem_append_left _ (List.mem_map.mpr ⟨e, he, h1⟩)
    · exact List.mem_append_right _ (List.mem_map.mpr ⟨e, he, h1⟩)
  have := hsub.length_le
  simp only [List.length_append, List.length_map] at this
  omega

theorem product_lt_of_sum_le {a b c : Nat} (h : a + b + c ≤ 2000) : a * b * c < 2 ^ 31 := by
  have hab : a * b ≤ 1000000 := by nlinarith [sq_nonneg ((a : Int) - b)]
  have hc : c ≤ 2000 := by omega
  calc a * b * c ≤ 1000000 * 2000 := Nat.mul_le_mul hab hc
    _ < 2 ^ 31 := by norm_num

namespace SolveA

/-- The `int` product of variant A `solve` does not overflow: with at most 1000 connections
at most 2000 points carry a group id, so the product of three group sizes is below `2^31`. -/
theorem largest_groups_product_fits_int {edges : List Edge} {n K : Nat} (hK : K ≤ edges.length)
    (hK2 : K ≤ 1000) (hv : ∀ e ∈ edges.take K, e.index_a < n ∧ e.index_b < n) {r : Nat}
    (hr : largest_groups_product edges n K = some r) : r < 2 ^ 31 := by
  obtain ⟨st, hfind, hinv⟩ := find_point_groups_inv edges n K hK hv
  have hle := ginv_le_count hinv
  have hsum := size_table_sum st.point_groups (st.group_counter - 1) hle
  have hgr := grouped_le_twice_edges hinv
  have htake : (edges.take K).length = K := by simp [hK]
  rw [htake] at hgr
  unfold largest_groups_product at hr
  simp only [hfind, find_group_sizes_eq _ _ hle] at hr
  have hperm := List.perm_insertionSort (fun a b : Nat => a ≥ b)
    (size_table st.point_groups (st.group_counter - 1))
  match hm : (size_table st.point_groups (st.group_counter - 1)).insertionSort
      (fun a b => a ≥ b) with
  | [] => rw [hm] at hr; simp at hr
  | [_] => rw [hm] at hr; simp at hr
  | [_, _] => rw [hm] at hr; simp at hr
  | a :: b :: c :: rest =>
    rw [hm] at hr hperm
    simp at hr
    have hs := hperm.sum_eq
    simp only [List.sum_cons] at hs
    rw [← hr]
    apply product_lt_of_sum_le
    omega

end SolveA

/-- Connecting an edge whose endpoints already share a non-zero group id changes nothing. -/
theorem connect_same_group (st : Groups) (e : Edge) (ha : e.index_a < st.point_groups.length)
    (hb : e.index_b < st.point_groups.length)
    (hsame : SameGroup (group_of st.point_groups) e.index_a e.index_b) :
    connect st e = some st := by
  rw [connect_eq st e ha hb]
  have ha0 : group_of st.point_groups e.index_a ≠ 0 := hsame.1
  have hb0 : group_of st.point_groups e.index_b ≠ 0 := hsame.2 ▸ hsame.1
  have h00 : ¬ (group_of st.point_groups e.index_a = 0 ∧ group_of st.point_groups e.index_b = 0) :=
    fun h => ha0 h.1
  rw [if_neg h00, if_neg ha0, if_neg hb0, if_neg (not_not.mpr hsame.2)]

theorem foldlM_connect_same_group (st : Groups) : ∀ es : List Edge,
    (∀ e ∈ es, e.index_a < st.point_groups.length ∧ e.index_b < st.point_groups.length ∧
      SameGroup (group_of st.point_groups) e.index_a e.index_b) →
    es.foldlM connect st = some st := by
  intro es
  induction es with
  | nil => intro _; rfl
  | cons e es ih =>
    intro h
    obtain ⟨ha, hb, hs⟩ := h e (by simp)
    rw [List.foldlM_cons, connect_same_group st e ha hb hs]
    exact ih (fun x hx => h x (by simp [hx]))

namespace SolveA

/-- With fewer edges than `K` the buffer never fills: every edge is kept. -/
theorem select_all_of_few (S : EdgeSorter) (points : List Point) {K : Nat}
    (hK : points.length * (points.length - 1) / 2 < K) :
    (select S points [] K).edges = edge_stream points := by
  have hK1 : 1 ≤ K := by omega
  have hinv := select_inv S points hK1
  apply hinv.1
  by_contra hge
  have := (hinv.2 (by omega)).1
  rw [edge_stream_length] at this
  omega

end SolveA

namespace SolveB

/-- What a return of the loop of `find_last_edge` means in terms of the states of the loop. -/
theorem scan_some : ∀ (rest : List Edge) (idx : Nat) (st : Tracker) (t : Nat) (e : Edge)
    (st2 : Tracker), scan rest idx st = some (t, e, st2) →
    ∃ k, t = idx + k ∧ rest[k]? = some e ∧ run (rest.take (k + 1)) st = some st2 ∧
      (st2.unassigned_points = 0 ∧ st2.unique_group_count = 1) ∧
      ∀ j, j < k → ∃ stj, run (rest.take (j + 1)) st = some stj ∧
        ¬ (stj.unassigned_points = 0 ∧ stj.unique_group_count = 1) := by
  intro rest
  induction rest with
  | nil => intro idx st t e st2 h; simp [scan] at h
  | cons x rest ih =>
    intro idx st t e st2 h
    unfold scan at h
    cases hc : connect st x with
    | none => simp [hc] at h
    | some st1 =>
      simp only [hc] at h
      by_cases hdone : st1.unassigned_points = 0 ∧ st1.unique_group_count = 1
      · rw [if_pos hdone] at h
        have h2 := Option.some.inj h
        have ht : idx = t := congrArg Prod.fst h2
        have he : x = e := congrArg (fun r => r.2.1) h2
        have hs : st1 = st2 := congrArg (fun r => r.2.2) h2
        subst ht; subst he; subst hs
        refine ⟨0, rfl, by simp, ?_, hdone, ?_⟩
        · simp [run, hc]
        · intro j hj; omega
      · rw [if_neg hdone] at h
        obtain ⟨k, hk, hget, hrun, hterm, hmin⟩ := ih (idx + 1) st1 t e st2 h
        refine ⟨k + 1, by omega, by simpa using hget, ?_, hterm, ?_⟩
        · simpa [run, hc] using hrun
        · intro j hj
          cases j with
          | zero => exact ⟨st1, by simp [run, hc], hdone⟩
          | succ j =>
            obtain ⟨stj, h1, h2⟩ := hmin j (by omega)
            exact ⟨stj, by simpa [run, hc] using h1, h2⟩

/-- The loop of `find_last_edge` does not look at the edges behind the one it returns. -/
theorem scan_append : ∀ (rest : List Edge) (idx : Nat) (st : Tracker) (k : Nat) (e : Edge)
    (st2 : Tracker), scan rest idx st = some (idx + k, e, st2) →
    ∀ other, scan (rest.take (k + 1) ++ other) idx st = some (idx + k, e, st2) := by
  intro rest
  induction rest with
  | nil => intro idx st k e st2 h; simp [scan] at h
  | cons x rest ih =>
    intro idx st k e st2 h other
    unfold scan at h
    simp only [List.take_succ_cons, List.cons_append]
    unfold scan
    cases hc : connect st x with
    | none => simp [hc] at h
    | some st1 =>
      simp only [hc] at h ⊢
      by_cases hdone : st1.unassigned_points = 0 ∧ st1.unique_group_count = 1
      · rw [if_pos hdone] at h ⊢
        exact h
      · rw [if_neg hdone] at h ⊢
        obtain ⟨k2, hk2, _⟩ := scan_some rest (idx + 1) st1 _ _ _ h
        have hk : k = k2 + 1 := by omega
        subst hk
        have h3 : scan rest (idx + 1) st1 = some (idx + 1 + k2, e, st2) := by
          rw [h, hk2]
        have h4 := ih (idx + 1) st1 k2 e st2 h3 other
        rw [h4, hk2]

/-- The invariants of the loop of `find_last_edge` hold after any edges with valid, distinct
endpoints. -/
theorem run_inv {n : Nat} : ∀ (es E : List Edge) (st : Tracker), GInv n E st.groups → CInv st →
    (∀ e ∈ es, e.index_a < n ∧ e.index_b < n ∧ e.index_a ≠ e.index_b) →
    ∃ st2, run es st = some st2 ∧ GInv n (E ++ es) st2.groups ∧ CInv st2 := by
  intro es
  induction es with
  | nil => intro E st hg hc _; exact ⟨st, rfl, by simpa using hg, hc⟩
  | cons e es ih =>
    intro E st hg hc hv
    obtain ⟨hva, hvb, hvab⟩ := hv e (by simp)
    obtain ⟨st1, hst1, hg1, hc1⟩ := connect_tracker_inv hg hc e hva hvb hvab
    obtain ⟨st2, hst2, hg2, hc2⟩ := ih (E ++ [e]) st1 hg1 hc1 (fun x hx => hv x (by simp [hx]))
    refine ⟨st2, ?_, by simpa using hg2, hc2⟩
    simp only [run, List.foldlM_cons, hst1]
    exact hst2

theorem start_inv (n : Nat) :
    GInv n [] (start (List.replicate n 0)).groups ∧ CInv (start (List.replicate n 0)) :=
  ⟨ginv_init n, cinv_init n⟩

/-- When the termination test fails, a point is ungrouped or two group ids are in use. -/
theorem not_terminal_cases {n : Nat} {E : List Edge} {st : Tracker} (hg : GInv n E st.groups)
    (hc : CInv st) (hn : 1 ≤ n)
    (h : ¬ (st.unassigned_points = 0 ∧ st.unique_group_count = 1)) :
    (∃ p, p < n ∧ group_of st.point_groups p = 0) ∨
    (∃ p q, p < n ∧ q < n ∧ group_of st.point_groups p ≠ 0 ∧ group_of st.point_groups q ≠ 0 ∧
      group_of st.point_groups p ≠ group_of st.point_groups q) := by
  have hnot : ¬ AllJoined n E := fun hall => h ((terminal_iff hg hc hn).mpr hall)
  unfold AllJoined at hnot
  push_neg at hnot
  obtain ⟨p, q, hp, hq, hpq⟩ := hnot
  have hlab : ¬ SameGroup (group_of st.point_groups) p q := fun hs => hpq ((hg.labels p q).mp hs)
  by_cases hp0 : group_of st.point_groups p = 0
  · exact Or.inl ⟨p, hp, hp0⟩
  · by_cases hq0 : group_of st.point_groups q = 0
    · exact Or.inl ⟨q, hq, hq0⟩
    · exact Or.inr ⟨p, q, hp, hq, hp0, hq0, fun heq => hlab ⟨hp0, heq⟩⟩

/-- When the termination test holds, all points carry one and the same group id. -/
theorem terminal_all_same {n : Nat} {E : List Edge} {st : Tracker} (hg : GInv n E st.groups)
    (hc : CInv st) (hn : 1 ≤ n)
    (h : st.unassigned_points = 0 ∧ st.unique_group_count = 1) :
    ∃ g, g ≠ 0 ∧ ∀ p, p < n → group_of st.point_groups p = g := by
  have hall := (terminal_iff hg hc hn).mp h
  refine ⟨group_of st.point_groups 0, ?_, ?_⟩
  · exact ((hg.labels 0 0).mpr (hall 0 0 (by omega) (by omega))).1
  · intro p hp
    exact ((hg.labels p 0).mpr (hall p 0 hp (by omega))).2

end SolveB

/-- Method `Point::parse` returns a point for every line: no `substr` starts behind the end of
the line. -/
theorem parse_returns (index : Nat) (line : List Char) (hlen : line.length < npos) :
    ∃ point, Point.parse index line = Outcome.returned point ∧ point.i = index := by
  have hn : npos = 2 ^ 64 - 1 := rfl
  have h1 := find_bounds line ',' 0
  have h2 := find_bounds line ',' ((find line ',' 0 + 1) % 2 ^ 64)
  have hp1 : (find line ',' 0 + 1) % 2 ^ 64 ≤ line.length := by
    rcases h1 with h | h
    · rw [h, hn]; norm_num
    · rw [Nat.mod_eq_of_lt (by omega)]; omega
  have hp2 : (find line ',' ((find line ',' 0 + 1) % 2 ^ 64) + 1) % 2 ^ 64 ≤ line.length := by
    rcases h2 with h | h
    · rw [h, hn]; norm_num
    · rw [Nat.mod_eq_of_lt (by omega)]; omega
  unfold Point.parse
  simp only [substr_returned line 0 _ (Nat.zero_le _), substr_returned line _ _ hp1,
    substr_returned line _ _ hp2]
  exact ⟨_, rfl, rfl⟩

/-- On a line of three fields separated by two commas, `Point::parse` reads each coordinate
from its own field. -/
theorem parse_three_fields (index : Nat) (f1 f2 f3 : List Char) (h1 : ',' ∉ f1) (h2 : ',' ∉ f2)
    (hlen : (f1 ++ ',' :: (f2 ++ ',' :: f3)).length < npos) :
    Point.parse index (f1 ++ ',' :: (f2 ++ ',' :: f3)) =
      Outcome.returned
        { i := index, x := string_view_to_long f1, y := string_view_to_long f2,
          z := string_view_to_long f3 } := by
  have hn : npos = 2 ^ 64 - 1 := rfl
  have hl : f1.length + (f2.length + (f3.length + 1) + 1) < 2 ^ 64 - 1 := by
    simpa [hn] using hlen
  have hpos1 : find (f1 ++ ',' :: (f2 ++ ',' :: f3)) ',' 0 = f1.length := by
    simp [find, find_from_append ',' f1 _ 0 h1]
  have hmod1 : (f1.length + 1) % 2 ^ 64 = f1.length + 1 := Nat.mod_eq_of_lt (by omega)
  have hdrop1 : (f1 ++ ',' :: (f2 ++ ',' :: f3)).drop (f1.length + 1) = f2 ++ ',' :: f3 := by
    rw [List.drop_append_eq_append_drop]
    simp
  have hpos2 : find (f1 ++ ',' :: (f2 ++ ',' :: f3)) ',' (f1.length + 1)
      = f1.length + 1 + f2.length := by
    unfold find
    rw [hdrop1, find_from_append ',' f2 _ _ h2]
  have hmod2 : (f1.length + 1 + f2.length + 1) % 2 ^ 64 = f1.length + 1 + f2.length + 1 :=
    Nat.mod_eq_of_lt (by omega)
  have hcount : (f1.length + 1 + f2.length + 2 ^ 64 - f1.length + 2 ^ 64 - 1) % 2 ^ 64
      = f2.length := by
    have : f1.length + 1 + f2.length + 2 ^ 64 - f1.length + 2 ^ 64 - 1
        = f2.length + 2 * 2 ^ 64 := by omega
    rw [this, Nat.add_mul_mod_self_right]
    exact Nat.mod_eq_of_lt (by omega)
  have hdrop2 : (f1 ++ ',' :: (f2 ++ ',' :: f3)).drop (f1.length + 1 + f2.length + 1) = f3 := by
    have : f1.length + 1 + f2.length + 1 = (f1.length + 1) + (f2.length + 1) := by omega
    rw [this, ← List.drop_drop, hdrop1, List.drop_append_eq_append_drop]
    simp
  unfold Point.parse
  simp only [hpos1, hmod1, hpos2, hmod2, hcount]
  rw [substr_returned _ 0 _ (Nat.zero_le _), substr_returned _ _ _ (by simp),
    substr_returned _ _ _ (by simp; omega)]
  simp only [hdrop1, hdrop2, List.drop_zero]
  have ht1 : (f1 ++ ',' :: (f2 ++ ',' :: f3)).take f1.length = f1 := by simp
  have ht2 : (f2 ++ ',' :: f3).take f2.length = f2 := by simp
  have ht3 : f3.take npos = f3 := List.take_of_length_le (by omega)
  rw [ht1, ht2, ht3]

theorem parse_points_from_returns : ∀ (lines : List (List Char)) (index : Nat)
    (points : List Point), (∀ l ∈ lines, l.length < npos) →
    index + lines.length ≤ points.length →
    ∃ pts, parse_points_from index lines points = Outcome.returned pts ∧
      pts.length = points.length ∧
      (∀ k p, index ≤ k → k < index + lines.length → pts[k]? = some p → p.i = k) ∧
      (∀ k, k < index → pts[k]? = points[k]?) := by
  intro lines
  induction lines with
  | nil =>
    intro index points _ _
    exact ⟨points, rfl, rfl, fun k p h1 h2 => by simp at h2; omega, fun _ _ => rfl⟩
  | cons line rest ih =>
    intro index points hl hlen
    simp only [List.length_cons] at hlen
    obtain ⟨pt, hpt, hpi⟩ := parse_returns index line (hl line (by simp))
    obtain ⟨pts, hpts, hlen2, hidx, hkeep⟩ := ih (index + 1) (points.set index pt)
      (fun l h => hl l (by simp [h])) (by simp; omega)
    refine ⟨pts, ?_, by simpa using hlen2, ?_, ?_⟩
    · unfold parse_points_from
      rw [if_pos (by omega), hpt]
      exact hpts
    · intro k p h1 h2 hk
      simp only [List.length_cons] at h2
      by_cases hki : k = index
      · subst hki
        rw [hkeep k (by omega), List.getElem?_set_self (by omega)] at hk
        have : pt = p := Option.some.inj hk
        rw [← this]; exact hpi
      · exact hidx k p (by omega) (by omega) hk
    · intro k hk
      rw [hkeep k (by omega), List.getElem?_set_ne (by omega)]

/-- Function `parse_points` on the vector `solve` passes returns a vector of as many points as
there are lines, the point at position `k` carrying id `k`. -/
theorem parse_points_returns (lines : List (List Char)) (hl : ∀ l ∈ lines, l.length < npos) :
    ∃ points, parse_points lines (List.replicate lines.length default)
        = Outcome.returned points ∧
      points.length = lines.length ∧ WellIndexed points := by
  obtain ⟨pts, hpts, hlen, hidx, _⟩ :=
    parse_points_from_returns lines 0 (List.replicate lines.length default) hl (by simp)
  refine ⟨pts, hpts, by simpa using hlen, ?_⟩
  intro k hk
  have hk2 : k < lines.length := by rw [hlen] at hk; simpa using hk
  exact hidx k _ (Nat.zero_le _) (by omega) (by simp [List.getElem?_eq_getElem hk])

theorem foldlM_none_of_head {α β : Type} (f : β → α → Option β) (a : α) (l : List α) (b : β)
    (h : f b a = none) : (a :: l).foldlM f b = none := by
  rw [List.foldlM_cons, h]
  rfl

theorem sort_nil (S : EdgeSorter) : S.sort [] = [] :=
  List.Perm.eq_nil (S.perm [])

theorem edge_stream_of_few {points : List Point} (h : points.length < 2) :
    edge_stream points = [] := by
  apply List.length_eq_zero.mp
  rw [edge_stream_length]
  have : points.length = 0 ∨ points.length = 1 := by omega
  rcases this with h0 | h1
  · rw [h0]
  · rw [h1]

namespace SolveA

theorem max_connections_of_pos (input_name : String) : 1 ≤ max_connections_of input_name := by
  unfold max_connections_of NR_CONNECTIONS_SAMPLE NR_CONNECTIONS_INPUT
  split <;> omega

/-- With no edge, `find_point_groups` indexes the empty edge vector at position 0. -/
theorem find_point_groups_nil (pg : List Nat) {K : Nat} (hK : 1 ≤ K) :
    find_point_groups [] pg K = none := by
  obtain ⟨k, rfl⟩ : ∃ k, K = k + 1 := ⟨K - 1, by omega⟩
  unfold find_point_groups
  rw [List.range_succ_eq_map, foldlM_none_of_head _ _ _ _ (by simp [connect_at])]

theorem solve_points_of_few (S : EdgeSorter) {points : List Point} (h : points.length < 2)
    (input_name : String) : solve_points S points input_name = none := by
  unfold solve_points solve_with initialize_edges select largest_groups_product
  simp only [edge_stream_of_few h, List.foldl_nil, sort_nil,
    find_point_groups_nil _ (max_connections_of_pos input_name)]

end SolveA

namespace SolveB

theorem solve_points_none_of_few (S : EdgeSorter) {points : List Point} (h : points.length < 2) :
    solve_points S points = none := by
  have hpairs : point_pairs points = [] := by
    apply List.length_eq_zero.mp
    rw [point_pairs_length]
    have : points.length = 0 ∨ points.length = 1 := by omega
    rcases this with h0 | h1
    · rw [h0]
    · rw [h1]
  have hcount : points.length * (points.length - 1) / 2 = 0 := by
    rw [← point_pairs_length, hpairs]; rfl
  unfold solve_points initialize_edges fill_edges
  simp only [hcount, hpairs, List.replicate_zero]
  simp [sort_nil, last_edge_product, find_last_edge, scan]

end SolveB

theorem eq_of_map_distance2_eq : ∀ (l1 l2 : List Edge),
    (∀ x ∈ l1, ∀ y ∈ l2, x.distance2 = y.distance2 → x = y) → dists l1 = dists l2 → l1 = l2 := by
  intro l1
  induction l1 with
  | nil =>
    intro l2 _ h
    cases l2 with
    | nil => rfl
    | cons y l2 => simp [dists] at h
  | cons x l1 ih =>
    intro l2 hinj h
    cases l2 with
    | nil => simp [dists] at h
    | cons y l2 =>
      simp only [dists, List.map_cons, List.cons.injEq] at h
      have hxy : x = y := hinj x (by simp) y (by simp) h.1
      rw [hxy, ih l2 (fun a ha b hb => hinj a (by simp [ha]) b (by simp [hb])) h.2]

/-- When no two edges have the same squared distance, every admissible sort returns the one
ascending ordering. -/
theorem sort_eq_of_distinct (S : EdgeSorter) {l target : List Edge} (hperm : target.Perm l)
    (hsorted : target.Sorted edge_le) (hnodup : (dists l).Nodup) : S.sort l = target := by
  have hd : dists (S.sort l) = dists target :=
    List.eq_of_perm_of_sorted (r := (· ≤ ·)) (dists_perm ((S.perm l).trans hperm.symm))
      (dists_sorted_of_sorter S l) (SolveA.dists_sorted_of_edge_le hsorted)
  apply eq_of_map_distance2_eq _ _ _ hd
  intro x hx y hy hxy
  exact List.inj_on_of_nodup_map hnodup ((S.perm l).mem_iff.mp hx) (hperm.mem_iff.mp hy) hxy

namespace SolveB

theorem solve_points_eq (S : EdgeSorter) (points : List Point) :
    solve_points S points = last_edge_product points (S.sort (edge_stream points)) := by
  unfold solve_points initialize_edges
  simp only [fill_edges_eq points _ (List.length_replicate _ _)]
  rfl

/-- Three edges of pairwise different squared distances, in the order of the nested loop of
`initialize_edges`, are sorted in one way only. -/
theorem sort_three_edges (S : EdgeSorter) (d1 d2 d3 : Int) (h1 : d1 < d2) (h2 : d2 < d3) :
    S.sort [⟨d1, 0, 1⟩, ⟨d3, 0, 2⟩, ⟨d2, 1, 2⟩] = [⟨d1, 0, 1⟩, ⟨d2, 1, 2⟩, ⟨d3, 0, 2⟩] := by
  apply sort_eq_of_distinct
  · exact List.Perm.cons _ (List.Perm.swap _ _ _)
  · have s1 : edge_le (⟨d1, 0, 1⟩ : Edge) ⟨d2, 1, 2⟩ := le_of_lt h1
    have s2 : edge_le (⟨d1, 0, 1⟩ : Edge) ⟨d3, 0, 2⟩ := le_of_lt (lt_trans h1 h2)
    have s3 : edge_le (⟨d2, 1, 2⟩ : Edge) ⟨d3, 0, 2⟩ := le_of_lt h2
    simp only [List.Sorted, List.pairwise_cons, List.mem_cons, List.mem_singleton,
      List.not_mem_nil, or_false, forall_eq_or_imp, forall_eq, IsEmpty.forall_iff,
      implies_true, List.Pairwise.nil, and_true]
    exact ⟨⟨s1, s2⟩, s3⟩
  · have n1 : d1 ≠ d3 := ne_of_lt (lt_trans h1 h2)
    have n2 : d1 ≠ d2 := ne_of_lt h1
    have n3 : d3 ≠ d2 := ne_of_gt h2
    simp only [dists, List.map_cons, List.map_nil, List.nodup_cons, List.mem_cons,
      List.mem_singleton, List.not_mem_nil, not_false_eq_true, List.nodup_nil, and_true,
      or_false, not_or]
    exact ⟨⟨n1, n2⟩, n3⟩

end SolveB

theorem count_set : ∀ (l : List Nat) (a v x : Nat), a < l.length →
    (l.set a v).count x + (if group_of l a = x then 1 else 0)
      = l.count x + (if v = x then 1 else 0) := by
  intro l
  induction l with
  | nil => intro a v x ha; simp at ha
  | cons y l ih =>
    intro a v x ha
    cases a with
    | zero =>
      have hg : group_of (y :: l) 0 = y := rfl
      simp only [List.set_cons_zero, List.count_cons, hg, beq_iff_eq]
      omega
    | succ a =>
      have hg : group_of (y :: l) (a + 1) = group_of l a := by simp [group_of]
      have := ih a v x (by simpa using ha)
      simp only [List.set_cons_succ, List.count_cons, hg, beq_iff_eq]
      omega

theorem noCommonEndpoint_symm {e f : Edge} (h : NoCommonEndpoint e f) : NoCommonEndpoint f e :=
  ⟨Ne.symm h.1, Ne.symm h.2.2.1, Ne.symm h.2.1, Ne.symm h.2.2.2⟩

theorem minv_init (n : Nat) : MInv n [] ⟨List.replicate n 0, 1⟩ where
  counter := rfl
  length := by simp
  grouped := fun p => by simp [group_of_replicate]
  bound := fun g hg => by
    have := List.eq_of_mem_replicate hg
    omega
  pairs := fun i hi => by simp at hi

/-- Connecting an edge that shares no endpoint with the edges before it makes a new group of
two points. -/
theorem connect_minv {n : Nat} {M : List Edge} {st : Groups} (h : MInv n M st) (e : Edge)
    (ha : e.index_a < n) (hb : e.index_b < n) (hab : e.index_a ≠ e.index_b)
    (hfree : ∀ m ∈ M, NoCommonEndpoint m e) :
    ∃ st2, connect st e = some st2 ∧ MInv n (M ++ [e]) st2 := by
  have hla : e.index_a < st.point_groups.length := by rw [h.length]; exact ha
  have hlb : e.index_b < st.point_groups.length := by rw [h.length]; exact hb
  have ha0 : group_of st.point_groups e.index_a = 0 := by
    by_contra hne
    obtain ⟨m, hm, h1 | h1⟩ := (h.grouped _).mp hne
    · exact (hfree m hm).1 h1
    · exact (hfree m hm).2.2.1 h1
  have hb0 : group_of st.point_groups e.index_b = 0 := by
    by_contra hne
    obtain ⟨m, hm, h1 | h1⟩ := (h.grouped _).mp hne
    · exact (hfree m hm).2.1 h1
    · exact (hfree m hm).2.2.2 h1
  have hset : ∀ p, group_of ((st.point_groups.set e.index_a st.group_counter).set e.index_b
      st.group_counter) p
      = if p = e.index_a ∨ p = e.index_b then st.group_counter
        else group_of st.point_groups p := by
    intro p
    rw [group_of_set _ _ _ _ (by simpa using hlb), group_of_set _ _ _ _ hla]
    by_cases h1 : p = e.index_b <;> by_cases h2 : p = e.index_a <;> simp [h1, h2]
  have hgc : st.group_counter = M.length + 1 := h.counter
  have hc1 := fun x => count_set st.point_groups e.index_a st.group_counter x hla
  have hb1 : group_of (st.point_groups.set e.index_a st.group_counter) e.index_b = 0 := by
    rw [group_of_set _ _ _ _ hla, if_neg (Ne.symm hab), hb0]
  have hc2 := fun x => count_set (st.point_groups.set e.index_a st.group_counter) e.index_b
    st.group_counter x (by simpa using hlb)
  refine ⟨⟨(st.point_groups.set e.index_a st.group_counter).set e.index_b st.group_counter,
    st.group_counter + 1⟩, ?_, ?_⟩
  · rw [connect_eq st e hla hlb, if_pos ⟨ha0, hb0⟩]
  · refine ⟨by simp [hgc], by simp [h.length], ?_, ?_, ?_⟩
    · intro p
      show group_of ((st.point_groups.set e.index_a st.group_counter).set e.index_b
        st.group_counter) p ≠ 0 ↔ _
      rw [hset p]
      by_cases hp : p = e.index_a ∨ p = e.index_b
      · rw [if_pos hp]
        constructor
        · intro _
          exact ⟨e, by simp, by rcases hp with h1 | h1 <;> simp [h1]⟩
        · intro _; omega
      · rw [if_neg hp, h.grouped p]
        constructor
        · rintro ⟨m, hm, h1⟩
          exact ⟨m, by simp [hm], h1⟩
        · rintro ⟨m, hm, h1⟩
          rcases List.mem_append.mp hm with h2 | h2
          · exact ⟨m, h2, h1⟩
          · have : m = e := by simpa using h2
            subst this
            exact absurd (by rcases h1 with h1 | h1 <;> simp [h1]) hp
    · intro g hg
      obtain ⟨p, _, hp⟩ := mem_iff_group_of.mp hg
      have hp2 : group_of ((st.point_groups.set e.index_a st.group_counter).set e.index_b
          st.group_counter) p = g := hp
      rw [hset p] at hp2
      simp only [List.length_append, List.length_singleton]
      by_cases hpe : p = e.index_a ∨ p = e.index_b
      · rw [if_pos hpe] at hp2; omega
      · rw [if_neg hpe] at hp2
        by_cases hg0 : g = 0
        · omega
        · have := h.bound g (by rw [← hp2]; exact (mem_of_group_of_ne_zero (hp2 ▸ hg0)).2)
          omega
    · intro i hi
      simp only [List.length_append, List.length_singleton] at hi
      show ((st.point_groups.set e.index_a st.group_counter).set e.index_b
        st.group_counter).count (i + 1) = 2
      have e1 := hc1 (i + 1)
      have e2 := hc2 (i + 1)
      rw [ha0] at e1
      rw [hb1] at e2
      simp only [show ¬ (0 = i + 1) by omega, if_false, Nat.add_zero] at e1 e2
      by_cases hi2 : i < M.length
      · have := h.pairs i hi2
        have hne : ¬ st.group_counter = i + 1 := by omega
        simp only [hne, if_false, Nat.add_zero] at e1 e2
        omega
      · have hieq : st.group_counter = i + 1 := by omega
        have hzero : st.point_groups.count (i + 1) = 0 := by
          rw [List.count_eq_zero]
          intro hmem
          have := h.bound _ hmem
          omega
        rw [if_pos hieq] at e1 e2
        omega

theorem foldlM_connect_minv {n : Nat} : ∀ (es M : List Edge) (st : Groups), MInv n M st →
    (M ++ es).Pairwise NoCommonEndpoint →
    (∀ e ∈ es, e.index_a < n ∧ e.index_b < n ∧ e.index_a ≠ e.index_b) →
    ∃ st2, es.foldlM connect st = some st2 ∧ MInv n (M ++ es) st2 := by
  intro es
  induction es with
  | nil => intro M st h _ _; exact ⟨st, rfl, by simpa using h⟩
  | cons e es ih =>
    intro M st h hpw hv
    obtain ⟨hva, hvb, hvab⟩ := hv e (by simp)
    have hfree : ∀ m ∈ M, NoCommonEndpoint m e := by
      intro m hm
      exact (List.pairwise_append.mp hpw).2.2 m hm e (by simp)
    obtain ⟨st1, hst1, hinv1⟩ := connect_minv h e hva hvb hvab hfree
    obtain ⟨st2, hst2, hinv2⟩ := ih (M ++ [e]) st1 hinv1 (by simpa using hpw)
      (fun x hx => hv x (by simp [hx]))
    refine ⟨st2, ?_, by simpa using hinv2⟩
    rw [List.foldlM_cons, hst1]
    exact hst2

theorem size_table_of_pairs {n : Nat} {M : List Edge} {st : Groups} (h : MInv n M st) :
    size_table st.point_groups M.length = List.replicate M.length 2 := by
  apply List.ext_getElem
  · simp [size_table]
  · intro i h1 h2
    have hi : i < M.length := by simpa [size_table] using h1
    simp only [size_table, List.getElem_map, List.getElem_range, List.getElem_replicate]
    exact h.pairs i hi

theorem nodup_of_subperm {l1 l2 : List Edge} (h : l1.Subperm l2) (hn : l2.Nodup) : l1.Nodup := by
  obtain ⟨l, hp, hs⟩ := h
  exact hp.nodup_iff.mp (hn.sublist hs)

theorem edge_stream_nodup {points : List Point} (hw : WellIndexed points) :
    (edge_stream points).Nodup :=
  List.Nodup.of_map _ (edge_stream_pairs_nodup points 0 ((wellIndexed_iff points).mp hw))

namespace SolveA

theorem offer_subperm (S : EdgeSorter) (K m : Nat) (st : Selection) (e : Edge)
    (seen : List Edge) (h : st.edges.Subperm seen) :
    (offer S K m st e).edges.Subperm (seen ++ [e]) := by
  have happ : (st.edges ++ [e]).Subperm (seen ++ [e]) := (List.subperm_append_right [e]).mpr h
  unfold offer
  by_cases h1 : st.edges.length < K
  · simp only [h1, if_true]
    by_cases h2 : (st.edges ++ [e]).length = K
    · simp only [h2, if_true]
      exact (S.perm _).subperm_right.mpr happ
    · simp only [h2, if_false]
      exact happ
  · simp only [h1, if_false]
    by_cases h3 : e.distance2 < st.max_distance2
    · simp only [h3, if_true]
      by_cases h2 : (st.edges ++ [e]).length = K + m
      · simp only [h2, if_true]
        exact (List.take_sublist _ _).subperm.trans ((S.perm _).subperm_right.mpr happ)
      · simp only [h2, if_false]
        exact happ
    · simp only [h3, if_false]
      exact h.trans (List.sublist_append_left _ _).subperm

theorem foldl_offer_subperm (S : EdgeSorter) (K m : Nat) : ∀ (l : List Edge) (st : Selection)
    (seen : List Edge), st.edges.Subperm seen →
    (l.foldl (offer S K m) st).edges.Subperm (seen ++ l) := by
  intro l
  induction l with
  | nil => intro st seen h; simpa using h
  | cons e l ih =>
    intro st seen h
    have := ih (offer S K m st e) (seen ++ [e]) (offer_subperm S K m st e seen h)
    simpa using this

theorem initialize_edges_nodup (S : EdgeSorter) {points : List Point} (hw : WellIndexed points)
    (K : Nat) : (initialize_edges S points [] K).Nodup := by
  unfold initialize_edges
  rw [(S.perm _).nodup_iff]
  have := foldl_offer_subperm S K (K / 10) (edge_stream points) ⟨[], 0⟩ []
    (List.nil_subperm)
  exact nodup_of_subperm (by simpa [select] using this) (edge_stream_nodup hw)

/-- The squared distances of the first `K` edges of the buffer are the `K` smallest. -/
theorem initialize_edges_take_dists (S : EdgeSorter) (points : List Point) {K : Nat}
    (hK1 : 1 ≤ K) (hK : K ≤ points.length * (points.length - 1) / 2) :
    dists ((initialize_edges S points [] K).take K) = smallest K (dists (edge_stream points)) := by
  have hinv := select_inv S points hK1
  have hlen := select_length_ge S points hK1 hK
  have hsm := (hinv.2 hlen).2.1
  rw [← hsm]
  unfold initialize_edges
  rw [smallest_perm (dists_perm (S.perm (select S points [] K).edges)).symm,
    smallest_of_sorted (dists_sorted_of_sorter S _)]
  simp [dists, List.map_take]

/-- When the `K` shortest edges `T` are strictly shorter than all others, they are the first
`K` edges of the buffer, up to order. -/
theorem initialize_edges_take_perm (S : EdgeSorter) {points : List Point}
    (hw : WellIndexed points) {K : Nat} (hK1 : 1 ≤ K) (T rest : List Edge)
    (hperm : (T ++ rest).Perm (edge_stream points)) (hT : T.length = K)
    (hgap : ∀ e ∈ T, ∀ f ∈ rest, e.distance2 < f.distance2) :
    ((initialize_edges S points [] K).take K).Perm T := by
  have hK : K ≤ points.length * (points.length - 1) / 2 := by
    rw [← edge_stream_length, ← hperm.length_eq, List.length_append]; omega
  have hd := initialize_edges_take_dists S points hK1 hK
  have hTsorted : (S.sort T ++ S.sort rest).Sorted edge_le := by
    rw [List.Sorted, List.pairwise_append]
    refine ⟨sorter_sorted_edge_le S T, sorter_sorted_edge_le S rest, ?_⟩
    intro a ha b hb
    exact le_of_lt (hgap a ((S.perm T).mem_iff.mp ha) b ((S.perm rest).mem_iff.mp hb))
  have hsm : smallest K (dists (edge_stream points)) = dists (S.sort T) := by
    have hp : (S.sort T ++ S.sort rest).Perm (edge_stream points) :=
      ((S.perm T).append (S.perm rest)).trans hperm
    rw [smallest_perm (dists_perm hp).symm, smallest_of_sorted (dists_sorted_of_edge_le hTsorted)]
    have hl : (dists (S.sort T)).length = K := by simp [dists, (S.perm T).length_eq, hT]
    simp only [dists, List.map_append] at hl ⊢
    rw [List.take_append_of_le_length (by omega), List.take_of_length_le (by omega)]
  rw [hsm] at hd
  have hnodup := initialize_edges_nodup S hw K
  have hsub : ∀ e ∈ (initialize_edges S points [] K).take K, e ∈ T := by
    intro e he
    have hed : e.distance2 ∈ dists (S.sort T) := by
      rw [← hd]; exact List.mem_map.mpr ⟨e, he, rfl⟩
    obtain ⟨t, ht, htd⟩ := List.mem_map.mp hed
    have htT : t ∈ T := (S.perm T).mem_iff.mp ht
    have hmem := hperm.mem_iff.mpr
      (initialize_edges_subset S points K e (List.mem_of_mem_take he))
    rcases List.mem_append.mp hmem with h1 | h1
    · exact h1
    · have := hgap t htT e h1
      have htd2 : t.distance2 = e.distance2 := htd
      omega
  have hlen : ((initialize_edges S points [] K).take K).length = K := by
    have := congrArg List.length hd
    simpa [dists, (S.perm T).length_eq, hT] using this
  exact (List.subperm_of_subset (hnodup.sublist (List.take_sublist _ _)) hsub).perm_of_length_le
    (by omega)

end SolveA

namespace SolveA

/-- When the `K` shortest edges `T` share no endpoint and are strictly shorter than all others,
`find_point_groups` on the buffer of `initialize_edges` makes `K` groups of two points. -/
theorem groups_of_matching (S : EdgeSorter) {points : List Point} (hw : WellIndexed points)
    {K : Nat} (hK1 : 1 ≤ K) (T rest : List Edge)
    (hperm : (T ++ rest).Perm (edge_stream points)) (hT : T.length = K)
    (hmatch : T.Pairwise NoCommonEndpoint)
    (hgap : ∀ e ∈ T, ∀ f ∈ rest, e.distance2 < f.distance2) :
    ∃ point_groups,
      find_point_groups (initialize_edges S points [] K) (List.replicate points.length 0) K
        = some (point_groups, K) ∧
      find_group_sizes point_groups (List.replicate K 0) = some (List.replicate K 2) ∧
      ∀ p, p < points.length →
        (group_of point_groups p = 0 ↔ ∀ e ∈ T, e.index_a ≠ p ∧ e.index_b ≠ p) := by
  have htake := initialize_edges_take_perm S hw hK1 T rest hperm hT hgap
  have hlen : ((initialize_edges S points [] K).take K).length = K := by
    rw [htake.length_eq, hT]
  have hK : K ≤ (initialize_edges S points [] K).length := by
    rw [List.length_take] at hlen; omega
  have hpw : ([] ++ (initialize_edges S points [] K).take K).Pairwise NoCommonEndpoint := by
    rw [List.nil_append]
    exact (htake.pairwise_iff (fun h => noCommonEndpoint_symm h)).mpr hmatch
  have hvalid : ∀ e ∈ (initialize_edges S points [] K).take K,
      e.index_a < points.length ∧ e.index_b < points.length ∧ e.index_a ≠ e.index_b := by
    intro e he
    have hs : e ∈ edge_stream points :=
      hperm.mem_iff.mp (List.mem_append_left _ (htake.mem_iff.mp he))
    have := edge_stream_valid hw hs
    omega
  obtain ⟨st, hst, hinv⟩ := foldlM_connect_minv _ [] ⟨List.replicate points.length 0, 1⟩
    (minv_init points.length) hpw hvalid
  rw [List.nil_append] at hinv
  have hc : st.group_counter - 1 = K := by rw [hinv.counter, hlen]; rfl
  refine ⟨st.point_groups, ?_, ?_, ?_⟩
  · rw [find_point_groups_eq _ _ K hK, hst]
    simp [hc]
  · have hb : ∀ g ∈ st.point_groups, g ≤ K := fun g hg => hlen ▸ hinv.bound g hg
    rw [find_group_sizes_eq st.point_groups K hb]
    have := size_table_of_pairs hinv
    rw [hlen] at this
    rw [this]
  · intro p _
    have hg := hinv.grouped p
    constructor
    · intro h0 e he
      by_contra hcon
      exact hg.mpr ⟨e, htake.mem_iff.mpr he, by tauto⟩ h0
    · intro hnone
      by_contra h0
      obtain ⟨e, he, h2⟩ := hg.mp h0
      have := hnone e (htake.mem_iff.mp he)
      tauto

theorem two_pairs_wellIndexed : WellIndexed two_pairs := by
  intro k hk
  have hk4 : k < 4 := hk
  interval_cases k <;> rfl

/-- The four points of `two_pairs` with `K = 2`: two groups of two points, for every sorter. -/
theorem two_pairs_groups (S : EdgeSorter) :
    ∃ point_groups,
      find_point_groups (initialize_edges S two_pairs [] 2) (List.replicate 4 0) 2
        = some (point_groups, 2) ∧
      find_group_sizes point_groups [0, 0] = some [2, 2] := by
  obtain ⟨pg, h1, h2, _⟩ := groups_of_matching S two_pairs_wellIndexed (show 1 ≤ 2 by decide)
    [⟨1, 0, 1⟩, ⟨1, 2, 3⟩] [⟨10000, 0, 2⟩, ⟨10201, 0, 3⟩, ⟨9801, 1, 2⟩, ⟨10000, 1, 3⟩]
    (by decide!) rfl (by simp [NoCommonEndpoint]) (by decide)
  exact ⟨pg, h1, h2⟩

end SolveA

namespace SolveB

/-- Without an edge at which the termination test holds, the loop of `find_last_edge` reads
past the end of the edge list. -/
theorem scan_none_of_not_terminal : ∀ (rest : List Edge) (idx : Nat) (st : Tracker),
    (∀ j, j < rest.length → ∃ stj, run (rest.take (j + 1)) st = some stj ∧
      ¬ (stj.unassigned_points = 0 ∧ stj.unique_group_count = 1)) →
    scan rest idx st = none := by
  intro rest
  induction rest with
  | nil => intro idx st _; rfl
  | cons x rest ih =>
    intro idx st h
    obtain ⟨st1, hrun1, hnot1⟩ := h 0 (by simp)
    have hc : connect st x = some st1 := by
      simpa [run] using hrun1
    unfold scan
    simp only [hc, if_neg hnot1]
    apply ih
    intro j hj
    obtain ⟨stj, hrunj, hnotj⟩ := h (j + 1) (by simpa using hj)
    refine ⟨stj, ?_, hnotj⟩
    simpa [run, hc] using hrunj

end SolveB

/-- When `connect` returns, both endpoints of the edge index the vector. -/
theorem connect_valid {st st2 : Groups} {e : Edge} (h : connect st e = some st2) :
    e.index_a < st.point_groups.length ∧ e.index_b < st.point_groups.length := by
  unfold connect at h
  dsimp only at h
  by_cases ha : e.index_a < st.point_groups.length
  · by_cases hb : e.index_b < st.point_groups.length
    · exact ⟨ha, hb⟩
    · rw [List.getElem?_eq_none (by omega : st.point_groups.length ≤ e.index_b)] at h
      cases hx : st.point_groups[e.index_a]? <;> simp [hx] at h
  · rw [List.getElem?_eq_none (by omega : st.point_groups.length ≤ e.index_a)] at h
    simp at h

/-- One step of the group tracker: the counter does not decrease, every id stays below the
counter, and an id below the counter that no point holds is not given to any point. -/
theorem connect_ids {st st2 : Groups} {e : Edge} (h : connect st e = some st2)
    (hfresh : ∀ p, group_of st.point_groups p < st.group_counter) :
    st.group_counter ≤ st2.group_counter ∧
    (∀ p, group_of st2.point_groups p < st2.group_counter) ∧
    ∀ g, g < st.group_counter → (∀ p, group_of st.point_groups p ≠ g) →
      ∀ p, group_of st2.point_groups p ≠ g := by
  obtain ⟨ha, hb⟩ := connect_valid h
  rw [connect_eq st e ha hb] at h
  by_cases h00 : group_of st.point_groups e.index_a = 0 ∧ group_of st.point_groups e.index_b = 0
  · rw [if_pos h00] at h
    have h2 := Option.some.inj h
    subst h2
    have hlen : e.index_b < (st.point_groups.set e.index_a st.group_counter).length := by
      rw [List.length_set]; exact hb
    refine ⟨by simp, ?_, ?_⟩
    · intro p
      simp only
      rw [group_of_set _ _ _ _ hlen, group_of_set _ _ _ _ ha]
      have := hfresh p
      split_ifs <;> omega
    · intro g hg habs p
      simp only
      rw [group_of_set _ _ _ _ hlen, group_of_set _ _ _ _ ha]
      have := habs p
      split_ifs <;> omega
  · rw [if_neg h00] at h
    by_cases ha0 : group_of st.point_groups e.index_a = 0
    · rw [if_pos ha0] at h
      have h2 := Option.some.inj h
      subst h2
      refine ⟨le_refl _, ?_, ?_⟩
      · intro p
        simp only
        rw [group_of_set _ _ _ _ ha]
        have := hfresh p
        have := hfresh e.index_b
        split_ifs <;> omega
      · intro g hg habs p
        simp only
        rw [group_of_set _ _ _ _ ha]
        have := habs p
        have := habs e.index_b
        split_ifs <;> omega
    · rw [if_neg ha0] at h
      by_cases hb0 : group_of st.point_groups e.index_b = 0
      · rw [if_pos hb0] at h
        have h2 := Option.some.inj h
        subst h2
        refine ⟨le_refl _, ?_, ?_⟩
        · intro p
          simp only
          rw [group_of_set _ _ _ _ hb]
          have := hfresh p
          have := hfresh e.index_a
          split_ifs <;> omega
        · intro g hg habs p
          simp only
          rw [group_of_set _ _ _ _ hb]
          have := habs p
          have := habs e.index_a
          split_ifs <;> omega
      · rw [if_neg hb0] at h
        by_cases hne : group_of st.point_groups e.index_a ≠ group_of st.point_groups e.index_b
        · rw [if_pos hne] at h
          have h2 := Option.some.inj h
          subst h2
          refine ⟨le_refl _, ?_, ?_⟩
          · intro p
            simp only
            rw [group_of_map _ _ (by rw [if_neg (Ne.symm hb0)])]
            have := hfresh p
            have := hfresh e.index_a
            split_ifs <;> omega
          · intro g hg habs p
            simp only
            rw [group_of_map _ _ (by rw [if_neg (Ne.symm hb0)])]
            have := habs p
            have := habs e.index_a
            split_ifs <;> omega
        · rw [if_neg hne] at h
          have h2 := Option.some.inj h
          subst h2
          exact ⟨le_refl _, hfresh, fun g _ habs => habs⟩

/-- The properties of `connect_ids` along any sequence of steps. -/
theorem foldlM_connect_ids : ∀ (es : List Edge) (st st2 : Groups),
    es.foldlM connect st = some st2 →
    (∀ p, group_of st.point_groups p < st.group_counter) →
    st.group_counter ≤ st2.group_counter ∧
    (∀ p, group_of st2.point_groups p < st2.group_counter) ∧
    ∀ g, g < st.group_counter → (∀ p, group_of st.point_groups p ≠ g) →
      ∀ p, group_of st2.point_groups p ≠ g := by
  intro es
  induction es with
  | nil =>
    intro st st2 h hfresh
    have : st = st2 := by simpa using h
    subst this
    exact ⟨le_refl _, hfresh, fun g _ habs => habs⟩
  | cons e es ih =>
    intro st st2 h hfresh
    rw [List.foldlM_cons] at h
    cases hc : connect st e with
    | none => rw [hc] at h; simp at h
    | some st1 =>
      rw [hc] at h
      obtain ⟨h1, h2, h3⟩ := connect_ids hc hfresh
      obtain ⟨h4, h5, h6⟩ := ih st1 st2 (by simpa using h) h2
      exact ⟨le_trans h1 h4, h5, fun g hg habs => h6 g (by omega) (h3 g hg habs)⟩

namespace SolveA

/-- A run of the loop of `find_point_groups` that returns has read edges inside the list
only. -/
theorem foldlM_connect_at_le (edges : List Edge) : ∀ (K : Nat) (st st2 : Groups),
    (List.range K).foldlM (connect_at edges) st = some st2 → K ≤ edges.length := by
  intro K
  induction K with
  | zero => intro _ _ _; omega
  | succ k ih =>
    intro st st2 h
    rw [List.range_succ, List.foldlM_append] at h
    cases h1 : (List.range k).foldlM (connect_at edges) st with
    | none => rw [h1] at h; simp at h
    | some st1 =>
      rw [h1] at h
      have h2 : connect_at edges st1 k = some st2 := by simpa using h
      unfold connect_at at h2
      by_contra hlt
      rw [List.getElem?_eq_none (by omega : edges.length ≤ k)] at h2
      simp at h2

/-- A run of the loop of `find_point_groups` that returns has a state after each smaller
number of iterations, and the later state is reached from the earlier one by the edges in
between. -/
theorem foldlM_connect_at_split (edges : List Edge) (st st2 : Groups) (i j : Nat)
    (hij : i ≤ j) (h : (List.range j).foldlM (connect_at edges) st = some st2) :
    ∃ st1, (List.range i).foldlM (connect_at edges) st = some st1 ∧
      ((edges.drop i).take (j - i)).foldlM connect st1 = some st2 := by
  have hj := foldlM_connect_at_le edges j st st2 h
  rw [foldlM_connect_at edges j st hj] at h
  have hsplit : edges.take j = edges.take i ++ (edges.drop i).take (j - i) := by
    have : j = i + (j - i) := by omega
    conv_lhs => rw [this]
    exact List.take_add _ _ _
  rw [hsplit, List.foldlM_append] at h
  cases h1 : (edges.take i).foldlM connect st with
  | none => rw [h1] at h; simp at h
  | some st1 =>
    rw [h1] at h
    refine ⟨st1, ?_, by simpa using h⟩
    rw [foldlM_connect_at edges i st (by omega)]
    exact h1

/-- The state after one more iteration of the loop of `find_point_groups`. -/
theorem foldlM_connect_at_succ (edges : List Edge) (st st1 : Groups) (i : Nat) (e : Edge)
    (hi : (List.range i).foldlM (connect_at edges) st = some st1) (he : edges[i]? = some e) :
    (List.range (i + 1)).foldlM (connect_at edges) st = connect st1 e := by
  rw [List.range_succ, List.foldlM_append, hi]
  simp [connect_at, he]

end SolveA

theorem pow2_long_neg (d : Int) : pow2_long (-d) = pow2_long d := by
  unfold pow2_long
  rw [round_double_neg, neg_mul_neg]

theorem pow2_long_zero : pow2_long 0 = 0 := by decide

/-- Squares that fit a `long` keep their order, and stay inside `long`, when they are computed
in `double`. -/
theorem pow2_long_lt (d1 d2 : Int) (h0 : 0 ≤ d1) (h12 : d1 < d2) (h2 : d2 ^ 2 < 2 ^ 63) :
    0 ≤ pow2_long d1 ∧ pow2_long d1 < pow2_long d2 ∧ pow2_long d2 < 2 ^ 63 := by
  have hb2 : d2 ≤ 3037000499 := by
    by_contra hc
    have : (3037000500 : Int) * 3037000500 ≤ d2 * d2 := by nlinarith
    have e : d2 ^ 2 = d2 * d2 := by ring
    omega
  have hs2 : d2 * d2 ≤ 3037000499 * 3037000499 := by nlinarith
  have hs1 : d1 * d1 ≤ 3037000499 * 3037000499 := by nlinarith
  have hs1n : 0 ≤ d1 * d1 := by nlinarith
  have hs2n : 0 ≤ d2 * d2 := by nlinarith
  have c1 := round_double_close (d1 * d1) hs1n (by omega)
  have c2 := round_double_close (d2 * d2) hs2n (by omega)
  have n1 := round_double_nonneg (d1 * d1) hs1n
  have e1 : pow2_long d1 = round_double (d1 * d1) := by
    unfold pow2_long
    rw [round_double_of_abs_le d1 (by omega) (by omega),
      double_to_long_of_range _ (by omega) (by omega)]
  have e2 : pow2_long d2 = round_double (d2 * d2) := by
    unfold pow2_long
    rw [round_double_of_abs_le d2 (by omega) (by omega),
      double_to_long_of_range _ (by omega) (by omega)]
  rw [e1, e2]
  refine ⟨n1, ?_, by omega⟩
  rcases lt_or_ge (d2 * d2) (2 ^ 53) with h | h
  · rw [round_double_of_abs_le (d1 * d1) (by omega) (by nlinarith),
      round_double_of_abs_le (d2 * d2) (by omega) (by omega)]
    nlinarith
  · have hd2 : 94906265 < d2 := by
      by_contra hc
      have : d2 * d2 ≤ 94906265 * 94906265 := by nlinarith
      omega
    have hgap : d1 * d1 + 1025 ≤ d2 * d2 := by nlinarith
    omega

/-- Function `compute_distance2` on two points of the x axis. -/
theorem compute_distance2_on_axis (i j : Nat) (p q : Int) (h1 : -(2 ^ 63) < q - p)
    (h2 : q - p < 2 ^ 63) (h3 : 0 ≤ pow2_long (q - p)) (h4 : pow2_long (q - p) < 2 ^ 63) :
    compute_distance2 ⟨i, p, 0, 0⟩ ⟨j, q, 0, 0⟩ = pow2_long (q - p) := by
  have e : (p - q) = -(q - p) := by ring
  have w1 : wrap_long (p - q) = p - q := wrap_long_of_range (by omega) (by omega)
  have w2 : wrap_long (pow2_long (q - p)) = pow2_long (q - p) :=
    wrap_long_of_range (by omega) (by omega)
  unfold compute_distance2
  simp only [sub_self]
  rw [show wrap_long 0 = 0 from rfl, pow2_long_zero, add_zero, add_zero, w1, e, pow2_long_neg,
    w2, w2]

namespace SolveB

/-- The sorted edges of three points on a line, the middle one closer to the first, when the
largest squared distance fits a `long`. -/
theorem sort_three_collinear (S : EdgeSorter) (p q r : Int) (hpq : p < q) (hqr : q < r)
    (hgap : q - p < r - q) (hdist : (r - p) ^ 2 < 2 ^ 63) :
    S.sort (edge_stream [⟨0, p, 0, 0⟩, ⟨1, q, 0, 0⟩, ⟨2, r, 0, 0⟩])
      = [⟨pow2_long (q - p), 0, 1⟩, ⟨pow2_long (r - q), 1, 2⟩, ⟨pow2_long (r - p), 0, 2⟩] := by
  have hrq : (r - q) ^ 2 < 2 ^ 63 := by nlinarith
  have hrp : r - p ≤ 3037000499 := by
    by_contra hc
    have : (3037000500 : Int) * 3037000500 ≤ (r - p) * (r - p) := by nlinarith
    have e : (r - p) ^ 2 = (r - p) * (r - p) := by ring
    omega
  have a1 := pow2_long_lt (q - p) (r - q) (by omega) hgap hrq
  have a2 := pow2_long_lt (r - q) (r - p) (by omega) (by omega) hdist
  have hstream : edge_stream [⟨0, p, 0, 0⟩, ⟨1, q, 0, 0⟩, ⟨2, r, 0, 0⟩]
      = [⟨pow2_long (q - p), 0, 1⟩, ⟨pow2_long (r - p), 0, 2⟩, ⟨pow2_long (r - q), 1, 2⟩] := by
    show [(⟨compute_distance2 ⟨0, p, 0, 0⟩ ⟨1, q, 0, 0⟩, 0, 1⟩ : Edge),
      ⟨compute_distance2 ⟨0, p, 0, 0⟩ ⟨2, r, 0, 0⟩, 0, 2⟩,
      ⟨compute_distance2 ⟨1, q, 0, 0⟩ ⟨2, r, 0, 0⟩, 1, 2⟩] = _
    rw [compute_distance2_on_axis 0 1 p q (by omega) (by omega) a1.1 (by omega),
      compute_distance2_on_axis 0 2 p r (by omega) (by omega) (by omega) a2.2.2,
      compute_distance2_on_axis 1 2 q r (by omega) (by omega) a2.1 (by omega)]
  rw [hstream]
  exact sort_three_edges S _ _ _ a1.2.1 a2.2.1

end SolveB

namespace SolveB

theorem last_edge_product_eq {points : List Point} {edges : List Edge} {t : Nat} {e : Edge}
    {st : Tracker}
    (hfind : find_last_edge edges (List.replicate points.length 0) = some (t, e, st))
    (ha : e.index_a < points.length) (hb : e.index_b < points.length) :
    last_edge_product points edges
      = some (Cpp.wrap_long
        ((points.getD e.index_a default).x * (points.getD e.index_b default).x)) := by
  unfold last_edge_product
  simp only [hfind, List.getElem?_eq_getElem ha, List.getElem?_eq_getElem hb,
    List.getD_eq_getElem _ _ ha, List.getD_eq_getElem _ _ hb]

end SolveB

/-- Two ascending orderings of the same edges have the same first `K` edges, up to order,
when position `K` does not split a run of equal squared distances. -/
theorem take_perm_of_gap {L1 L2 : List Edge} (hs1 : L1.Sorted edge_le) (hs2 : L2.Sorted edge_le)
    (hperm : L1.Perm L2) {K : Nat} (hK1 : 1 ≤ K) (hK : K < L1.length)
    (hgap : (L1.getD (K - 1) default).distance2 < (L1.getD K default).distance2) :
    (L1.take K).Perm (L2.take K) := by
  have hd : dists L1 = dists L2 :=
    List.eq_of_perm_of_sorted (r := (· ≤ ·)) (dists_perm hperm)
      (SolveA.dists_sorted_of_edge_le hs1) (SolveA.dists_sorted_of_edge_le hs2)
  have key : ∀ L : List Edge, L.Sorted edge_le → dists L = dists L1 →
      L.take K = L.filter (fun e => decide (e.distance2 ≤ (L1.getD (K - 1) default).distance2)) := by
    intro L hs hdL
    have hlen : L.length = L1.length := by
      have := congrArg List.length hdL
      simpa [dists] using this
    have hget : ∀ i, (L.getD i default).distance2 = (L1.getD i default).distance2 := by
      intro i
      rw [dists_getD, dists_getD, hdL]
    conv_rhs => rw [← List.take_append_drop K L]
    rw [List.filter_append]
    have h1 : (L.take K).filter
        (fun e => decide (e.distance2 ≤ (L1.getD (K - 1) default).distance2)) = L.take K := by
      rw [List.filter_eq_self]
      intro x hx
      obtain ⟨i, hi, rfl⟩ := List.getElem_of_mem hx
      have hi2 : i < K := by have := hi; simp at this; omega
      have hil : i < L.length := by omega
      have hkl : K - 1 < L.length := by omega
      rw [List.getElem_take, ← hget (K - 1), List.getD_eq_getElem _ _ hkl]
      have : edge_le L[i] L[K - 1] := by
        rcases Nat.lt_or_ge i (K - 1) with h | h
        · exact List.pairwise_iff_getElem.mp hs i (K - 1) hil hkl h
        · have h2 : i = K - 1 := by omega
          subst h2
          exact le_refl _
      simpa using this
    have h2 : (L.drop K).filter
        (fun e => decide (e.distance2 ≤ (L1.getD (K - 1) default).distance2)) = [] := by
      rw [List.filter_eq_nil_iff]
      intro x hx
      obtain ⟨i, hi, rfl⟩ := List.getElem_of_mem hx
      have hkl : K < L.length := by omega
      have hil : K + i < L.length := by have := hi; simp at this; omega
      rw [List.getElem_drop]
      have h3 : (L1.getD K default).distance2 ≤ L[K + i].distance2 := by
        rw [← hget K, List.getD_eq_getElem _ _ hkl]
        rcases Nat.eq_zero_or_pos i with h | h
        · subst h; exact le_refl _
        · exact List.pairwise_iff_getElem.mp hs K (K + i) hkl hil (by omega)
      simp only [decide_eq_true_eq, not_le]
      omega
    rw [h1, h2, List.append_nil]
  rw [key L1 hs1 rfl, key L2 hs2 hd.symm]
  exact hperm.filter _

/-! ## The claims -/

namespace SolveA

/-- C1: for `1 ≤ K ≤ N(N-1)/2`, the first `K` edges of the buffer left by variant A
`initialize_edges(points, edges, K)` (called on an empty buffer) carry the same multiset of
squared distances as the first `K` edges of any ascending ordering `ref` of all edges. -/
theorem initialize_edges_selects_k_smallest (S : EdgeSorter) (points : List Point) (K : Nat)
    (ref : List Edge) (hK1 : 1 ≤ K) (hK : K ≤ points.length * (points.length - 1) / 2)
    (href : ref.Perm (edge_stream points)) (hsorted : ref.Sorted edge_le) :
    (((initialize_edges S points [] K).take K).map (fun e => e.distance2)).Perm
      ((ref.take K).map (fun e => e.distance2)) := by
  have hinv := select_inv S points hK1
  have hlen := select_length_ge S points hK1 hK
  have hsm := (hinv.2 hlen).2.1
  have h1 : ((initialize_edges S points [] K).take K).map (fun e => e.distance2)
      = smallest K (dists (edge_stream points)) := by
    rw [← hsm, List.map_take]
    unfold initialize_edges
    rw [smallest_perm (dists_perm (S.perm (select S points [] K).edges)).symm,
      smallest_of_sorted (dists_sorted_of_sorter S _)]
    rfl
  have h2 : (ref.take K).map (fun e => e.distance2) = smallest K (dists (edge_stream points)) := by
    rw [smallest_perm (dists_perm href).symm, smallest_of_sorted (dists_sorted_of_edge_le hsorted),
      List.map_take]
    rfl
  rw [h1, h2]

theorem initialize_edges_selects_k_smallest_witness :
    (((initialize_edges stable_sorter [⟨0, 0, 0, 0⟩, ⟨1, 10, 0, 0⟩, ⟨2, 1, 0, 0⟩] [] 2).take 2).map
        (fun e => e.distance2)).Perm
      (([⟨1, 0, 2⟩, ⟨81, 1, 2⟩, ⟨100, 0, 1⟩].take 2).map (fun e : Edge => e.distance2)) :=
  initialize_edges_selects_k_smallest stable_sorter [⟨0, 0, 0, 0⟩, ⟨1, 10, 0, 0⟩, ⟨2, 1, 0, 0⟩] 2
    [⟨1, 0, 2⟩, ⟨81, 1, 2⟩, ⟨100, 0, 1⟩] (by decide) (by decide) (by decide!) (by decide)

end SolveA

namespace SolveB

/-- C2: for `N ≥ 2` points (each carrying its position as id) and any ascending ordering of
all their edges, variant B `find_last_edge` returns an edge of the list whose squared distance
`d` makes the graph of all edges of squared distance `≤ d` connected, while for every `d2 < d`
the graph of all edges of squared distance `≤ d2` is not connected. -/
theorem find_last_edge_connectivity_threshold (points : List Point) (hw : WellIndexed points)
    (hN : 2 ≤ points.length) (edges : List Edge) (hperm : edges.Perm (edge_stream points))
    (hsorted : edges.Sorted edge_le) :
    ∃ t e st, find_last_edge edges (List.replicate points.length 0) = some (t, e, st) ∧
      edges[t]? = some e ∧
      Connected points.length
        ((edge_stream points).filter (fun x => decide (x.distance2 ≤ e.distance2))) ∧
      ∀ d2, d2 < e.distance2 →
        ¬ Connected points.length
          ((edge_stream points).filter (fun x => decide (x.distance2 ≤ d2))) :=
  find_last_edge_threshold points hw hN edges hperm hsorted

theorem find_last_edge_connectivity_threshold_witness :
    ∃ t e st,
      find_last_edge [⟨25, 0, 1⟩, ⟨49, 1, 2⟩, ⟨144, 0, 2⟩] (List.replicate 3 0)
        = some (t, e, st) ∧
      ([⟨25, 0, 1⟩, ⟨49, 1, 2⟩, ⟨144, 0, 2⟩] : List Edge)[t]? = some e ∧
      Connected 3
        ((edge_stream [⟨0, 0, 0, 0⟩, ⟨1, 5, 0, 0⟩, ⟨2, 12, 0, 0⟩]).filter
          (fun x => decide (x.distance2 ≤ e.distance2))) ∧
      ∀ d2, d2 < e.distance2 →
        ¬ Connected 3
          ((edge_stream [⟨0, 0, 0, 0⟩, ⟨1, 5, 0, 0⟩, ⟨2, 12, 0, 0⟩]).filter
            (fun x => decide (x.distance2 ≤ d2))) :=
  find_last_edge_connectivity_threshold [⟨0, 0, 0, 0⟩, ⟨1, 5, 0, 0⟩, ⟨2, 12, 0, 0⟩]
    (by
      intro k hk
      have hk3 : k < 3 := hk
      interval_cases k <;> rfl)
    (by decide) [⟨25, 0, 1⟩, ⟨49, 1, 2⟩, ⟨144, 0, 2⟩] (by decide!) (by decide)

end SolveB

namespace SolveA

/-- C3: for edges with valid endpoints and `K` at most their number, `find_point_groups` run
on the all-zero vector returns, and afterwards two points hold the same non-zero group id
exactly when a path of one or more of the first `K` edges joins them, and a point holds `0`
exactly when it is an endpoint of none of the first `K` edges. -/
theorem find_point_groups_components (edges : List Edge) (n K : Nat) (hK : K ≤ edges.length)
    (hv : ∀ e ∈ edges, e.index_a < n ∧ e.index_b < n) :
    ∃ point_groups group_count,
      find_point_groups edges (List.replicate n 0) K = some (point_groups, group_count) ∧
      point_groups.length = n ∧
      (∀ p q, p < n → q < n →
        ((group_of point_groups p ≠ 0 ∧ group_of point_groups p = group_of point_groups q) ↔
          Joined (edges.take K) p q)) ∧
      (∀ p, p < n →
        (group_of point_groups p = 0 ↔
          ∀ e ∈ edges.take K, e.index_a ≠ p ∧ e.index_b ≠ p)) := by
  obtain ⟨st, hst, hinv⟩ := find_point_groups_inv edges n K hK
    (fun e he => hv e (List.mem_of_mem_take he))
  refine ⟨st.point_groups, st.group_counter - 1, hst, hinv.length, ?_, ?_⟩
  · intro p q _ _
    exact hinv.labels p q
  · intro p _
    have h1 := hinv.labels p p
    rw [joined_self_iff] at h1
    constructor
    · intro h0 e he
      by_contra hcon
      have : SameGroup (group_of st.point_groups) p p := h1.mpr ⟨e, he, by tauto⟩
      exact this.1 h0
    · intro hnone
      by_contra h0
      obtain ⟨e, he, h2⟩ := h1.mp ⟨h0, rfl⟩
      have := hnone e he
      tauto

theorem find_point_groups_components_witness :
    ∃ point_groups group_count,
      find_point_groups [⟨1, 0, 1⟩, ⟨1, 2, 3⟩, ⟨4, 1, 2⟩, ⟨9, 4, 0⟩] (List.replicate 6 0) 3
        = some (point_groups, group_count) ∧
      point_groups.length = 6 ∧
      (∀ p q, p < 6 → q < 6 →
        ((group_of point_groups p ≠ 0 ∧ group_of point_groups p = group_of point_groups q) ↔
          Joined (([⟨1, 0, 1⟩, ⟨1, 2, 3⟩, ⟨4, 1, 2⟩, ⟨9, 4, 0⟩] : List Edge).take 3) p q)) ∧
      (∀ p, p < 6 →
        (group_of point_groups p = 0 ↔
          ∀ e ∈ ([⟨1, 0, 1⟩, ⟨1, 2, 3⟩, ⟨4, 1, 2⟩, ⟨9, 4, 0⟩] : List Edge).take 3,
            e.index_a ≠ p ∧ e.index_b ≠ p)) :=
  find_point_groups_components [⟨1, 0, 1⟩, ⟨1, 2, 3⟩, ⟨4, 1, 2⟩, ⟨9, 4, 0⟩] 6 3 (by decide)
    (by decide)

/-- C4: in variant A `solve` (for `1 ≤ K ≤ N(N-1)/2` connections) `find_point_groups` and
`find_group_sizes` return, slot `g - 1` of the size table holds exactly the number of points
whose group id is `g` for every `1 ≤ g ≤ group_count`, and when at least three groups are
populated the result is `a * b * c` for the three largest entries `a ≥ b ≥ c` of the table
(every other entry is at most `c`). -/
theorem solve_with_product_of_three_largest (S : EdgeSorter) (points : List Point) (K : Nat)
    (hw : WellIndexed points) (hK1 : 1 ≤ K) (hK : K ≤ points.length * (points.length - 1) / 2) :
    ∃ point_groups group_count group_sizes,
      find_point_groups (initialize_edges S points [] K) (List.replicate points.length 0) K
        = some (point_groups, group_count) ∧
      find_group_sizes point_groups (List.replicate group_count 0) = some group_sizes ∧
      (∀ g, 1 ≤ g → g ≤ group_count → group_sizes[g - 1]? = some (point_groups.count g)) ∧
      (3 ≤ (group_ids point_groups).card →
        ∃ a b c rest, group_sizes.Perm (a :: b :: c :: rest) ∧ b ≤ a ∧ c ≤ b ∧
          (∀ x ∈ rest, x ≤ c) ∧ solve_with S points K = some (a * b * c)) := by
  obtain ⟨st, hfind, hinv⟩ := solve_groups S points K hw hK1 hK
  have hle := ginv_le_count hinv
  refine ⟨st.point_groups, st.group_counter - 1, size_table st.point_groups
    (st.group_counter - 1), hfind, find_group_sizes_eq _ _ hle,
    fun g h1 h2 => size_table_getElem? _ _ g h1 h2, ?_⟩
  intro h3
  have hcnt : 3 ≤ st.group_counter - 1 := le_trans h3 (group_ids_card_le hle)
  obtain ⟨a, b, c, rest, hsort, hperm, hba, hcb, hrest⟩ :=
    three_largest (size_table st.point_groups (st.group_counter - 1))
      (by rw [size_table_length]; exact hcnt)
  exact ⟨a, b, c, rest, hperm, hba, hcb, hrest, largest_groups_product_eq hfind hle hsort⟩

theorem solve_with_product_of_three_largest_witness :
    (∃ point_groups group_count group_sizes,
      find_point_groups
        (initialize_edges stable_sorter
          [⟨0, 0, 0, 0⟩, ⟨1, 1, 0, 0⟩, ⟨2, 10, 0, 0⟩, ⟨3, 12, 0, 0⟩, ⟨4, 30, 0, 0⟩,
            ⟨5, 34, 0, 0⟩] [] 3)
        (List.replicate 6 0) 3 = some (point_groups, group_count) ∧
      find_group_sizes point_groups (List.replicate group_count 0) = some group_sizes ∧
      (∀ g, 1 ≤ g → g ≤ group_count → group_sizes[g - 1]? = some (point_groups.count g)) ∧
      (3 ≤ (group_ids point_groups).card →
        ∃ a b c rest, group_sizes.Perm (a :: b :: c :: rest) ∧ b ≤ a ∧ c ≤ b ∧
          (∀ x ∈ rest, x ≤ c) ∧
          solve_with stable_sorter
            [⟨0, 0, 0, 0⟩, ⟨1, 1, 0, 0⟩, ⟨2, 10, 0, 0⟩, ⟨3, 12, 0, 0⟩, ⟨4, 30, 0, 0⟩,
              ⟨5, 34, 0, 0⟩] 3 = some (a * b * c))) ∧
    find_point_groups
      (initialize_edges stable_sorter
        [⟨0, 0, 0, 0⟩, ⟨1, 1, 0, 0⟩, ⟨2, 10, 0, 0⟩, ⟨3, 12, 0, 0⟩, ⟨4, 30, 0, 0⟩,
          ⟨5, 34, 0, 0⟩] [] 3)
      (List.replicate 6 0) 3 = some ([1, 1, 2, 2, 3, 3], 3) ∧
    3 ≤ (group_ids [1, 1, 2, 2, 3, 3]).card ∧
    solve_with stable_sorter
      [⟨0, 0, 0, 0⟩, ⟨1, 1, 0, 0⟩, ⟨2, 10, 0, 0⟩, ⟨3, 12, 0, 0⟩, ⟨4, 30, 0, 0⟩, ⟨5, 34, 0, 0⟩]
      3 = some 8 :=
  ⟨solve_with_product_of_three_largest stable_sorter
    [⟨0, 0, 0, 0⟩, ⟨1, 1, 0, 0⟩, ⟨2, 10, 0, 0⟩, ⟨3, 12, 0, 0⟩, ⟨4, 30, 0, 0⟩, ⟨5, 34, 0, 0⟩] 3
    (by
      intro k hk
      have hk6 : k < 6 := hk
      interval_cases k <;> rfl)
    (by decide) (by decide), by decide!⟩

/-- C5 (counterexample): on six points on a line with label "sample" (`K = 10`) three groups
are created and then merged into one, so a single group is populated; `solve` raises no
error and returns `0`. -/
theorem solve_returns_zero_instead_of_failing :
    find_point_groups
      (initialize_edges stable_sorter
        [⟨0, 0, 0, 0⟩, ⟨1, 1, 0, 0⟩, ⟨2, 10, 0, 0⟩, ⟨3, 12, 0, 0⟩, ⟨4, 30, 0, 0⟩,
          ⟨5, 34, 0, 0⟩] [] 10)
      (List.replicate 6 0) 10 = some ([1, 1, 1, 1, 1, 1], 3) ∧
    (group_ids [1, 1, 1, 1, 1, 1]).card = 1 ∧
    solve_points stable_sorter
      [⟨0, 0, 0, 0⟩, ⟨1, 1, 0, 0⟩, ⟨2, 10, 0, 0⟩, ⟨3, 12, 0, 0⟩, ⟨4, 30, 0, 0⟩, ⟨5, 34, 0, 0⟩]
      "sample" = some 0 := by
  decide!

/-- C5 (amended): in variant A `solve` (for `1 ≤ K ≤ N(N-1)/2` connections), when at least
three group ids were created but fewer than three of them are still populated, `solve` returns
`0`. -/
theorem solve_with_zero_when_groups_merged (S : EdgeSorter) (points : List Point) (K : Nat)
    (hw : WellIndexed points) (hK1 : 1 ≤ K) (hK : K ≤ points.length * (points.length - 1) / 2)
    (point_groups : List Nat) (group_count : Nat)
    (hfind : find_point_groups (initialize_edges S points [] K)
      (List.replicate points.length 0) K = some (point_groups, group_count))
    (hcount : 3 ≤ group_count) (hfew : (group_ids point_groups).card < 3) :
    solve_with S points K = some 0 := by
  obtain ⟨st, hfind2, hinv⟩ := solve_groups S points K hw hK1 hK
  rw [hfind] at hfind2
  have hpg : point_groups = st.point_groups := by
    have := Option.some.inj hfind2
    exact congrArg Prod.fst this
  have hcnt : group_count = st.group_counter - 1 := by
    have := Option.some.inj hfind2
    exact congrArg Prod.snd this
  have hle : ∀ g ∈ point_groups, g ≤ group_count := by
    rw [hpg, hcnt]; exact ginv_le_count hinv
  obtain ⟨a, b, c, rest, hsort, hperm, hba, hcb, _⟩ :=
    three_largest (size_table point_groups group_count) (by rw [size_table_length]; exact hcount)
  have hc := third_largest_zero hle hfew hperm hba hcb
  have := largest_groups_product_eq hfind hle hsort
  rw [hc, Nat.mul_zero] at this
  exact this

theorem solve_with_zero_when_groups_merged_witness :
    solve_with stable_sorter
      [⟨0, 0, 0, 0⟩, ⟨1, 1, 0, 0⟩, ⟨2, 10, 0, 0⟩, ⟨3, 12, 0, 0⟩, ⟨4, 30, 0, 0⟩, ⟨5, 34, 0, 0⟩]
      10 = some 0 :=
  solve_with_zero_when_groups_merged stable_sorter
    [⟨0, 0, 0, 0⟩, ⟨1, 1, 0, 0⟩, ⟨2, 10, 0, 0⟩, ⟨3, 12, 0, 0⟩, ⟨4, 30, 0, 0⟩, ⟨5, 34, 0, 0⟩] 10
    (by
      intro k hk
      have hk6 : k < 6 := hk
      interval_cases k <;> rfl)
    (by decide) (by decide) [1, 1, 1, 1, 1, 1] 3 (by decide!) (by decide) (by decide)

/-- C6 (counterexample): eight points on a line, `K = 4`. The edges `(0,6)` and `(6,7)` tie at
squared distance 25 in fourth place. The ordering that puts `(0,6)` first yields groups of
sizes 3, 2, 2 (product 12), the ordering that puts `(6,7)` first yields groups of sizes
2, 2, 2, 2 (product 8). -/
theorem largest_groups_product_depends_on_tie_order :
    tie_order_first.Perm (edge_stream tie_points) ∧
    tie_order_second.Perm (edge_stream tie_points) ∧
    tie_order_first.Sorted edge_le ∧ tie_order_second.Sorted edge_le ∧
    4 ≤ tie_points.length * (tie_points.length - 1) / 2 ∧
    largest_groups_product tie_order_first tie_points.length 4 = some 12 ∧
    largest_groups_product tie_order_second tie_points.length 4 = some 8 := by
  decide!

/-- C6 (amended): for any two ascending orderings of all edges whose first `K` edges are the
same edges up to order (as is the case when position `K` does not split a run of equal
squared distances, `take_perm_of_gap`), `find_point_groups` on the first `K` edges of either
populates the same number of groups, and when these are at least three the product of the
three largest group sizes is the same number for both orderings. -/
theorem largest_groups_product_same_first_k (points : List Point) (hw : WellIndexed points)
    (K : Nat) (hK : K ≤ points.length * (points.length - 1) / 2) (edges1 edges2 : List Edge)
    (hperm1 : edges1.Perm (edge_stream points)) (_hsorted1 : edges1.Sorted edge_le)
    (hperm2 : edges2.Perm (edge_stream points)) (_hsorted2 : edges2.Sorted edge_le)
    (hfirst : (edges1.take K).Perm (edges2.take K)) :
    ∃ pg1 cnt1 pg2 cnt2,
      find_point_groups edges1 (List.replicate points.length 0) K = some (pg1, cnt1) ∧
      find_point_groups edges2 (List.replicate points.length 0) K = some (pg2, cnt2) ∧
      (group_ids pg1).card = (group_ids pg2).card ∧
      (3 ≤ (group_ids pg1).card →
        ∃ r, largest_groups_product edges1 points.length K = some r ∧
          largest_groups_product edges2 points.length K = some r) := by
  have hlen1 : K ≤ edges1.length := by rw [hperm1.length_eq, edge_stream_length]; exact hK
  have hlen2 : K ≤ edges2.length := by rw [hperm2.length_eq, edge_stream_length]; exact hK
  have hv1 : ∀ e ∈ edges1.take K, e.index_a < points.length ∧ e.index_b < points.length := by
    intro e he
    have := edge_stream_valid hw (hperm1.mem_iff.mp (List.mem_of_mem_take he))
    omega
  have hv2 : ∀ e ∈ edges2.take K, e.index_a < points.length ∧ e.index_b < points.length := by
    intro e he
    have := edge_stream_valid hw (hperm2.mem_iff.mp (List.mem_of_mem_take he))
    omega
  obtain ⟨st1, hf1, hg1⟩ := find_point_groups_inv edges1 points.length K hlen1 hv1
  obtain ⟨st2, hf2, hg2⟩ := find_point_groups_inv edges2 points.length K hlen2 hv2
  have hsame : ∀ p q, SameGroup (group_of st1.point_groups) p q ↔
      SameGroup (group_of st2.point_groups) p q := by
    intro p q
    rw [hg1.labels p q, hg2.labels p q]
    exact joined_perm hfirst p q
  have hsizes := group_sizes_perm (hg1.length.trans hg2.length.symm) hsame
  have hle1 := ginv_le_count hg1
  have hle2 := ginv_le_count hg2
  have hn1 := size_table_nonzero st1.point_groups (st1.group_counter - 1) hle1
  have hn2 := size_table_nonzero st2.point_groups (st2.group_counter - 1) hle2
  have hcard : (group_ids st1.point_groups).card = (group_ids st2.point_groups).card := by
    have := hsizes.length_eq
    simpa using this
  refine ⟨_, _, _, _, hf1, hf2, hcard, ?_⟩
  intro h3
  have hc1 : 3 ≤ st1.group_counter - 1 := le_trans h3 (group_ids_card_le hle1)
  have hc2 : 3 ≤ st2.group_counter - 1 := le_trans (hcard ▸ h3) (group_ids_card_le hle2)
  obtain ⟨a1, b1, c1, r1, hs1, _⟩ :=
    three_largest (size_table st1.point_groups (st1.group_counter - 1))
      (by rw [size_table_length]; exact hc1)
  obtain ⟨a2, b2, c2, r2, hs2, _⟩ :=
    three_largest (size_table st2.point_groups (st2.group_counter - 1))
      (by rw [size_table_length]; exact hc2)
  have hnz : 3 ≤ ((size_table st1.point_groups (st1.group_counter - 1)).filter
      (fun s => decide (s ≠ 0))).length := by
    rw [hn1.length_eq]; simpa using h3
  obtain ⟨ha, hb, hc⟩ :=
    three_largest_of_nonzero_perm ((hn1.trans hsizes).trans hn2.symm) hnz hs1 hs2
  refine ⟨a1 * b1 * c1, largest_groups_product_eq hf1 hle1 hs1, ?_⟩
  rw [ha, hb, hc]
  exact largest_groups_product_eq hf2 hle2 hs2

theorem largest_groups_product_same_first_k_witness :
    (∃ pg1 cnt1 pg2 cnt2,
      find_point_groups tie_order_first (List.replicate tie_points.length 0) 5
        = some (pg1, cnt1) ∧
      find_point_groups tie_order_second (List.replicate tie_points.length 0) 5
        = some (pg2, cnt2) ∧
      (group_ids pg1).card = (group_ids pg2).card ∧
      (3 ≤ (group_ids pg1).card →
        ∃ r, largest_groups_product tie_order_first tie_points.length 5 = some r ∧
          largest_groups_product tie_order_second tie_points.length 5 = some r)) ∧
    largest_groups_product tie_order_first tie_points.length 5 = some 16 ∧
    largest_groups_product tie_order_second tie_points.length 5 = some 16 :=
  ⟨largest_groups_product_same_first_k tie_points
    (by
      intro k hk
      have hk8 : k < 8 := hk
      interval_cases k <;> rfl)
    5 (by decide) tie_order_first tie_order_second (by decide!) (by decide) (by decide!)
    (by decide) (by decide), by decide⟩

end SolveA

namespace SolveB

/-- C7 (counterexample): for the collinear points `x = 1, 2, 3` the edges `(0,1)` and `(1,2)`
have the same squared distance; both orders of the two are ascending, the first makes `(1,2)`
the last edge (result `2 * 3 = 6`), the second makes `(0,1)` the last edge (result
`1 * 2 = 2`). -/
theorem last_edge_product_depends_on_tie_order :
    ([⟨1, 0, 1⟩, ⟨1, 1, 2⟩, ⟨4, 0, 2⟩] : List Edge).Perm
      (edge_stream [⟨0, 1, 0, 0⟩, ⟨1, 2, 0, 0⟩, ⟨2, 3, 0, 0⟩]) ∧
    ([⟨1, 1, 2⟩, ⟨1, 0, 1⟩, ⟨4, 0, 2⟩] : List Edge).Perm
      (edge_stream [⟨0, 1, 0, 0⟩, ⟨1, 2, 0, 0⟩, ⟨2, 3, 0, 0⟩]) ∧
    ([⟨1, 0, 1⟩, ⟨1, 1, 2⟩, ⟨4, 0, 2⟩] : List Edge).Sorted edge_le ∧
    ([⟨1, 1, 2⟩, ⟨1, 0, 1⟩, ⟨4, 0, 2⟩] : List Edge).Sorted edge_le ∧
    last_edge_product [⟨0, 1, 0, 0⟩, ⟨1, 2, 0, 0⟩, ⟨2, 3, 0, 0⟩]
      [⟨1, 0, 1⟩, ⟨1, 1, 2⟩, ⟨4, 0, 2⟩] = some 6 ∧
    last_edge_product [⟨0, 1, 0, 0⟩, ⟨1, 2, 0, 0⟩, ⟨2, 3, 0, 0⟩]
      [⟨1, 1, 2⟩, ⟨1, 0, 1⟩, ⟨4, 0, 2⟩] = some 2 := by
  decide!

/-- C7 (amended): for `N ≥ 2` points and any two ascending orderings of all their edges,
`find_last_edge` returns on both, the two returned edges have the same squared distance, and
when no other edge has that squared distance the result of variant B (the product of the x
coordinates of the endpoints) is the same for both orderings. -/
theorem last_edge_distance_independent_of_tie_order (points : List Point)
    (hw : WellIndexed points) (hN : 2 ≤ points.length) (edges1 edges2 : List Edge)
    (hperm1 : edges1.Perm (edge_stream points)) (hsorted1 : edges1.Sorted edge_le)
    (hperm2 : edges2.Perm (edge_stream points)) (hsorted2 : edges2.Sorted edge_le) :
    ∃ t1 e1 st1 t2 e2 st2,
      find_last_edge edges1 (List.replicate points.length 0) = some (t1, e1, st1) ∧
      find_last_edge edges2 (List.replicate points.length 0) = some (t2, e2, st2) ∧
      e1.distance2 = e2.distance2 ∧
      ((∀ x ∈ edge_stream points, x.distance2 = e1.distance2 → x = e1) →
        ∃ r, last_edge_product points edges1 = some r ∧
          last_edge_product points edges2 = some r) := by
  obtain ⟨t1, e1, st1, hf1, hg1, hc1, hm1⟩ :=
    find_last_edge_threshold points hw hN edges1 hperm1 hsorted1
  obtain ⟨t2, e2, st2, hf2, hg2, hc2, hm2⟩ :=
    find_last_edge_threshold points hw hN edges2 hperm2 hsorted2
  have hd : e1.distance2 = e2.distance2 := by
    rcases lt_trichotomy e1.distance2 e2.distance2 with h | h | h
    · exact absurd hc1 (hm2 _ h)
    · exact h
    · exact absurd hc2 (hm1 _ h)
  refine ⟨t1, e1, st1, t2, e2, st2, hf1, hf2, hd, ?_⟩
  intro huniq
  have hmem1 : e1 ∈ edge_stream points := hperm1.mem_iff.mp (List.getElem?_mem hg1)
  have hmem2 : e2 ∈ edge_stream points := hperm2.mem_iff.mp (List.getElem?_mem hg2)
  have heq : e2 = e1 := huniq e2 hmem2 hd.symm
  have hv := edge_stream_valid hw hmem1
  refine ⟨_, last_edge_product_eq hf1 (by omega) hv.2, ?_⟩
  rw [last_edge_product_eq hf2 (by rw [heq]; omega) (by rw [heq]; exact hv.2), heq]

theorem last_edge_distance_independent_of_tie_order_witness :
    ∃ t1 e1 st1 t2 e2 st2,
      find_last_edge [⟨1, 0, 1⟩, ⟨1, 1, 2⟩, ⟨4, 0, 2⟩] (List.replicate 3 0)
        = some (t1, e1, st1) ∧
      find_last_edge [⟨1, 1, 2⟩, ⟨1, 0, 1⟩, ⟨4, 0, 2⟩] (List.replicate 3 0)
        = some (t2, e2, st2) ∧
      e1.distance2 = e2.distance2 ∧
      ((∀ x ∈ edge_stream [⟨0, 1, 0, 0⟩, ⟨1, 2, 0, 0⟩, ⟨2, 3, 0, 0⟩],
          x.distance2 = e1.distance2 → x = e1) →
        ∃ r, last_edge_product [⟨0, 1, 0, 0⟩, ⟨1, 2, 0, 0⟩, ⟨2, 3, 0, 0⟩]
            [⟨1, 0, 1⟩, ⟨1, 1, 2⟩, ⟨4, 0, 2⟩] = some r ∧
          last_edge_product [⟨0, 1, 0, 0⟩, ⟨1, 2, 0, 0⟩, ⟨2, 3, 0, 0⟩]
            [⟨1, 1, 2⟩, ⟨1, 0, 1⟩, ⟨4, 0, 2⟩] = some r) :=
  last_edge_distance_independent_of_tie_order [⟨0, 1, 0, 0⟩, ⟨1, 2, 0, 0⟩, ⟨2, 3, 0, 0⟩]
    (by
      intro k hk
      have hk3 : k < 3 := hk
      interval_cases k <;> rfl)
    (by decide) [⟨1, 0, 1⟩, ⟨1, 1, 2⟩, ⟨4, 0, 2⟩] [⟨1, 1, 2⟩, ⟨1, 0, 1⟩, ⟨4, 0, 2⟩]
    (by decide!) (by decide) (by decide!) (by decide)

end SolveB

namespace SolveA

/-- C9 (counterexample): with `K = 20` (margin 2) and seven points on a line, the edge of the
last pair is accepted after the buffer was filled and no truncation follows, so the buffer
holds 21 edges on return, not 20. -/
theorem initialize_edges_keeps_more_than_k :
    (1 ≤ 20 ∧ 20 ≤ 7 * (7 - 1) / 2) ∧
    (initialize_edges stable_sorter
      [⟨0, 0, 0, 0⟩, ⟨1, 100, 0, 0⟩, ⟨2, 200, 0, 0⟩, ⟨3, 300, 0, 0⟩, ⟨4, 400, 0, 0⟩,
        ⟨5, 500, 0, 0⟩, ⟨6, 501, 0, 0⟩] [] 20).length = 21 := by
  decide!

/-- C9 (amended): for `1 ≤ K ≤ N(N-1)/2` the buffer returned by variant A `initialize_edges`
holds at least `K` edges, fewer than `K + K/10` when `K ≥ 10`, in ascending order of squared
distance. -/
theorem initialize_edges_length_sorted (S : EdgeSorter) (points : List Point) (K : Nat)
    (hK1 : 1 ≤ K) (hK : K ≤ points.length * (points.length - 1) / 2) :
    K ≤ (initialize_edges S points [] K).length ∧
    (10 ≤ K → (initialize_edges S points [] K).length < K + K / 10) ∧
    (initialize_edges S points [] K).Sorted edge_le := by
  refine ⟨?_, ?_, sorter_sorted_edge_le S _⟩
  · unfold initialize_edges
    rw [(S.perm _).length_eq]
    exact select_length_ge S points hK1 hK
  · intro h10
    unfold initialize_edges
    rw [(S.perm _).length_eq]
    have hm : 1 ≤ K / 10 := by omega
    exact foldl_offer_length_lt S hm (edge_stream points) ⟨[], 0⟩ (by simp; omega)

theorem initialize_edges_length_sorted_witness :
    2 ≤ (initialize_edges stable_sorter [⟨0, 0, 0, 0⟩, ⟨1, 10, 0, 0⟩, ⟨2, 1, 0, 0⟩] [] 2).length ∧
    (10 ≤ 2 → (initialize_edges stable_sorter [⟨0, 0, 0, 0⟩, ⟨1, 10, 0, 0⟩, ⟨2, 1, 0, 0⟩] []
      2).length < 2 + 2 / 10) ∧
    (initialize_edges stable_sorter [⟨0, 0, 0, 0⟩, ⟨1, 10, 0, 0⟩, ⟨2, 1, 0, 0⟩] [] 2).Sorted
      edge_le :=
  initialize_edges_length_sorted stable_sorter [⟨0, 0, 0, 0⟩, ⟨1, 10, 0, 0⟩, ⟨2, 1, 0, 0⟩] 2
    (by decide) (by decide)

/-- C10 (counterexample): with `K = 1` the margin `K / 10` is `0`, the test
`edges.size() == max_connections + sort_margin` never holds after a `push_back`, and the
buffer grows to 3 edges, more than `K + max(1, K/10) = 2`; it is not truncated at size 2. -/
theorem buffer_exceeds_margin_for_small_k :
    buffer_sizes stable_sorter 1 (1 / 10) ⟨[], 0⟩
      (edge_stream [⟨0, 0, 0, 0⟩, ⟨1, 10, 0, 0⟩, ⟨2, 1, 0, 0⟩]) = [1, 1, 2, 2, 3, 3] ∧
    ¬ (∀ n ∈ buffer_sizes stable_sorter 1 (1 / 10) ⟨[], 0⟩
      (edge_stream [⟨0, 0, 0, 0⟩, ⟨1, 10, 0, 0⟩, ⟨2, 1, 0, 0⟩]), n ≤ 1 + max 1 (1 / 10)) := by
  decide!

/-- C10 (amended): for `K ≥ 10`, where `K / 10 = max(1, K/10)`, every size the edge buffer
takes during variant A `initialize_edges` is at most `K + K/10`, and an iteration whose
`push_back` brings the buffer to that size ends with the buffer truncated to `K` edges. -/
theorem buffer_bounded_by_margin (S : EdgeSorter) (points : List Point) (K : Nat)
    (hK : 10 ≤ K) :
    K / 10 = max 1 (K / 10) ∧
    (∀ n ∈ buffer_sizes S K (K / 10) ⟨[], 0⟩ (edge_stream points), n ≤ K + K / 10) ∧
    (∀ seen e rest, edge_stream points = seen ++ e :: rest →
      (after_push K (seen.foldl (offer S K (K / 10)) ⟨[], 0⟩) e).length = K + K / 10 →
      (offer S K (K / 10) (seen.foldl (offer S K (K / 10)) ⟨[], 0⟩) e).edges.length = K) := by
  have hm : 1 ≤ K / 10 := by omega
  refine ⟨by omega, ?_, ?_⟩
  · exact buffer_sizes_le S hm (edge_stream points) ⟨[], 0⟩ (by simp; omega)
  · intro seen e rest _ h
    exact offer_truncates S hm _ e (foldl_offer_length_lt S hm seen ⟨[], 0⟩ (by simp; omega)) h

theorem buffer_bounded_by_margin_witness :
    10 / 10 = max 1 (10 / 10) ∧
    (∀ n ∈ buffer_sizes stable_sorter 10 (10 / 10) ⟨[], 0⟩ (edge_stream tie_points),
      n ≤ 10 + 10 / 10) ∧
    (∀ seen e rest, edge_stream tie_points = seen ++ e :: rest →
      (after_push 10 (seen.foldl (offer stable_sorter 10 (10 / 10)) ⟨[], 0⟩) e).length
        = 10 + 10 / 10 →
      (offer stable_sorter 10 (10 / 10) (seen.foldl (offer stable_sorter 10 (10 / 10)) ⟨[], 0⟩)
        e).edges.length = 10) :=
  buffer_bounded_by_margin stable_sorter tie_points 10 (by decide)

/-- C11: for every edge list with valid endpoints and every `K` up to its length,
`find_point_groups` on the first `K` edges from the all-zero vector returns a vector `g`, and
running `find_point_groups` on the same `K` edges again from `g` returns `g` unchanged (and
counts no new group). -/
theorem find_point_groups_replay (edges : List Edge) (n K : Nat) (hK : K ≤ edges.length)
    (hv : ∀ e ∈ edges, e.index_a < n ∧ e.index_b < n) :
    ∃ g group_count,
      find_point_groups edges (List.replicate n 0) K = some (g, group_count) ∧
      find_point_groups edges g K = some (g, 0) := by
  obtain ⟨st, hst, hinv⟩ := find_point_groups_inv edges n K hK
    (fun e he => hv e (List.mem_of_mem_take he))
  refine ⟨st.point_groups, st.group_counter - 1, hst, ?_⟩
  have hsame : ∀ e ∈ edges.take K,
      e.index_a < (⟨st.point_groups, 1⟩ : Groups).point_groups.length ∧
      e.index_b < (⟨st.point_groups, 1⟩ : Groups).point_groups.length ∧
      SameGroup (group_of (⟨st.point_groups, 1⟩ : Groups).point_groups)
        e.index_a e.index_b := by
    intro e he
    have hve := hv e (List.mem_of_mem_take he)
    refine ⟨?_, ?_, ?_⟩
    · show e.index_a < st.point_groups.length
      rw [hinv.length]; exact hve.1
    · show e.index_b < st.point_groups.length
      rw [hinv.length]; exact hve.2
    · exact (hinv.labels e.index_a e.index_b).mpr
        (Relation.TransGen.single ⟨e, he, Or.inl ⟨rfl, rfl⟩⟩)
  rw [find_point_groups_eq edges st.point_groups K hK,
    foldlM_connect_same_group ⟨st.point_groups, 1⟩ (edges.take K) hsame]
  rfl

theorem find_point_groups_replay_witness :
    ∃ g group_count,
      find_point_groups [⟨1, 0, 1⟩, ⟨1, 2, 3⟩, ⟨4, 1, 2⟩, ⟨9, 4, 0⟩] (List.replicate 6 0) 3
        = some (g, group_count) ∧
      find_point_groups [⟨1, 0, 1⟩, ⟨1, 2, 3⟩, ⟨4, 1, 2⟩, ⟨9, 4, 0⟩] g 3 = some (g, 0) :=
  find_point_groups_replay [⟨1, 0, 1⟩, ⟨1, 2, 3⟩, ⟨4, 1, 2⟩, ⟨9, 4, 0⟩] 6 3 (by decide)
    (by decide)

end SolveA

/-- C12 (counterexample): on zero input lines variant A `solve`, and on one input line
variant B `solve`, raise no error: they read element 0 of the empty edge vector, which is
undefined behaviour and not an exception. -/
theorem solve_reads_empty_edge_vector :
    SolveA.solve stable_sorter [] "sample" = Outcome.undefined ∧
    SolveB.solve stable_sorter ["1,2,3".toList] "sample" = Outcome.undefined ∧
    SolveA.solve stable_sorter [] "sample" ≠ Outcome.thrown ∧
    SolveB.solve stable_sorter ["1,2,3".toList] "sample" ≠ Outcome.thrown := by
  decide

/-- C12 (amended): for every input of fewer than 2 lines (each of fewer than `2 ^ 64 - 1`
characters), under every label and every sorting routine, `solve` of variant A and `solve` of
variant B raise no error and return no result: parsing returns, the edge vector stays empty,
and element 0 of it is read, which is undefined behaviour. -/
theorem solve_undefined_of_few_points (S : EdgeSorter) (lines : List (List Char))
    (input_name : String) (hfew : lines.length < 2) (hl : ∀ l ∈ lines, l.length < npos) :
    SolveA.solve S lines input_name = Outcome.undefined ∧
    SolveB.solve S lines input_name = Outcome.undefined := by
  obtain ⟨points, hp, hlen, _⟩ := parse_points_returns lines hl
  have hfew2 : points.length < 2 := by omega
  constructor
  · unfold SolveA.solve
    rw [hp]
    simp only [SolveA.solve_points_of_few S hfew2 input_name]
  · unfold SolveB.solve
    rw [hp]
    simp only [SolveB.solve_points_none_of_few S hfew2]

theorem solve_undefined_of_few_points_witness :
    SolveA.solve stable_sorter ["7,8,9".toList] "input" = Outcome.undefined ∧
    SolveB.solve stable_sorter ["7,8,9".toList] "input" = Outcome.undefined :=
  solve_undefined_of_few_points stable_sorter ["7,8,9".toList] "input" (by decide) (by decide)

/-- C13 (counterexample): `Point::parse` and `parse_points` return a point for a line that is
not three comma-separated integers, and raise no error. The line `5` (no comma) gives the
point `(5, 5, 5)`, the line `1,abc,3` (a non-numeric field) gives `(1, 0, 3)` and the line
`1,2` (one comma) gives `(1, 2, 1)`. -/
theorem parse_accepts_malformed_lines :
    Point.parse 0 "5".toList = Outcome.returned ⟨0, 5, 5, 5⟩ ∧
    Point.parse 3 "1,abc,3".toList = Outcome.returned ⟨3, 1, 0, 3⟩ ∧
    parse_points ["1,2".toList] [default] = Outcome.returned [⟨0, 1, 2, 1⟩] ∧
    Point.parse 0 "5".toList ≠ Outcome.thrown ∧
    Point.parse 3 "1,abc,3".toList ≠ Outcome.thrown ∧
    parse_points ["1,2".toList] [default] ≠ Outcome.thrown := by
  decide

/-- C13 (amended): for lines of fewer than `2 ^ 64 - 1` characters `parse_points` returns one
point for every line and `Point::parse` returns a point with the given index for each of them,
without an error; a line `f1,f2,f3` whose first two fields hold no comma gives the point whose
coordinates are `string_view_to_long` of the three fields; and `string_view_to_long` gives `0`
for a field that does not start with a digit, or a minus sign and a digit. -/
theorem parse_points_never_fails (lines : List (List Char))
    (hl : ∀ l ∈ lines, l.length < npos) :
    (∃ points, parse_points lines (List.replicate lines.length default)
        = Outcome.returned points ∧ points.length = lines.length) ∧
    (∀ index, ∀ l ∈ lines, ∃ point, Point.parse index l = Outcome.returned point ∧
      point.i = index) ∧
    (∀ index f1 f2 f3, (f1 ++ ',' :: (f2 ++ ',' :: f3)) ∈ lines → ',' ∉ f1 → ',' ∉ f2 →
      Point.parse index (f1 ++ ',' :: (f2 ++ ',' :: f3)) =
        Outcome.returned
          { i := index, x := string_view_to_long f1, y := string_view_to_long f2,
            z := string_view_to_long f3 }) ∧
    (∀ field : List Char, (∀ c rest, field = c :: rest → c.isDigit = false) →
      (∀ c rest, field = '-' :: c :: rest → c.isDigit = false) →
      string_view_to_long field = 0) := by
  refine ⟨?_, ?_, ?_, ?_⟩
  · obtain ⟨points, h1, h2, _⟩ := parse_points_returns lines hl
    exact ⟨points, h1, h2⟩
  · intro index l hmem
    exact parse_returns index l (hl l hmem)
  · intro index f1 f2 f3 hmem h1 h2
    exact parse_three_fields index f1 f2 f3 h1 h2 (hl _ hmem)
  · intro field h1 h2
    exact from_chars_long_no_digit field 0 h1 h2

theorem parse_points_never_fails_witness :
    (∃ points, parse_points ["1,abc,3".toList, "5".toList]
        (List.replicate ["1,abc,3".toList, "5".toList].length default)
        = Outcome.returned points ∧ points.length = ["1,abc,3".toList, "5".toList].length) ∧
    (∀ index, ∀ l ∈ ["1,abc,3".toList, "5".toList], ∃ point,
      Point.parse index l = Outcome.returned point ∧ point.i = index) ∧
    (∀ index f1 f2 f3,
      (f1 ++ ',' :: (f2 ++ ',' :: f3)) ∈ ["1,abc,3".toList, "5".toList] → ',' ∉ f1 → ',' ∉ f2 →
      Point.parse index (f1 ++ ',' :: (f2 ++ ',' :: f3)) =
        Outcome.returned
          { i := index, x := string_view_to_long f1, y := string_view_to_long f2,
            z := string_view_to_long f3 }) ∧
    (∀ field : List Char, (∀ c rest, field = c :: rest → c.isDigit = false) →
      (∀ c rest, field = '-' :: c :: rest → c.isDigit = false) →
      string_view_to_long field = 0) :=
  parse_points_never_fails ["1,abc,3".toList, "5".toList] (by decide)

namespace SolveB

/-- C14: for `N >= 2` well-indexed points and the edge vector in any order, `find_last_edge`
returns at an edge index `t`; then every point holds one and the same non-zero group id; after
each earlier edge (index below `t`) a point was still ungrouped or two distinct non-zero group
ids were in use; and no edge of index above `t` has been read: the result is the same whatever
follows the first `t + 1` edges. -/
theorem find_last_edge_stops_at_first_single_group (points : List Point)
    (hw : WellIndexed points) (hN : 2 ≤ points.length) (edges : List Edge)
    (hperm : edges.Perm (edge_stream points)) :
    ∃ t e st, find_last_edge edges (List.replicate points.length 0) = some (t, e, st) ∧
      edges[t]? = some e ∧
      (∃ g, g ≠ 0 ∧ ∀ p, p < points.length → group_of st.point_groups p = g) ∧
      (∀ j, j < t → ∃ stj,
        run (edges.take (j + 1)) (start (List.replicate points.length 0)) = some stj ∧
        ((∃ p, p < points.length ∧ group_of stj.point_groups p = 0) ∨
          ∃ p q, p < points.length ∧ q < points.length ∧
            group_of stj.point_groups p ≠ 0 ∧ group_of stj.point_groups q ≠ 0 ∧
            group_of stj.point_groups p ≠ group_of stj.point_groups q)) ∧
      ∀ other, find_last_edge (edges.take (t + 1) ++ other) (List.replicate points.length 0)
        = some (t, e, st) := by
  obtain ⟨t, e, st, hfind, hget, _, _, hg, hc⟩ := find_last_edge_spec points hw hN edges hperm
  have hvalid : ∀ x ∈ edges, x.index_a < points.length ∧ x.index_b < points.length ∧
      x.index_a ≠ x.index_b := by
    intro x hx
    have := edge_stream_valid hw (hperm.mem_iff.mp hx)
    omega
  have hscan : scan edges 0 (start (List.replicate points.length 0)) = some (t, e, st) := hfind
  obtain ⟨k, hk, _, _, hterm, hmin⟩ := scan_some edges 0 _ t e st hscan
  have hkt : k = t := by omega
  subst hkt
  have hn1 : 1 ≤ points.length := by omega
  refine ⟨k, e, st, hfind, hget, terminal_all_same hg hc hn1 hterm, ?_, ?_⟩
  · intro j hj
    obtain ⟨stj, hrun, hnot⟩ := hmin j hj
    obtain ⟨st2, hrun2, hg2, hc2⟩ := run_inv (edges.take (j + 1)) []
      (start (List.replicate points.length 0)) (start_inv points.length).1
      (start_inv points.length).2 (fun x hx => hvalid x (List.mem_of_mem_take hx))
    have heq : stj = st2 := Option.some.inj (hrun.symm.trans hrun2)
    subst heq
    exact ⟨stj, hrun, not_terminal_cases hg2 hc2 hn1 hnot⟩
  · intro other
    have h0 : scan edges 0 (start (List.replicate points.length 0)) = some (0 + k, e, st) := by
      rw [hscan, Nat.zero_add]
    have := scan_append edges 0 _ k e st h0 other
    rw [Nat.zero_add] at this
    exact this

theorem find_last_edge_stops_at_first_single_group_witness :
    ∃ t e st, find_last_edge (edge_stream two_pairs) (List.replicate two_pairs.length 0)
        = some (t, e, st) ∧
      (edge_stream two_pairs)[t]? = some e ∧
      (∃ g, g ≠ 0 ∧ ∀ p, p < two_pairs.length → group_of st.point_groups p = g) ∧
      (∀ j, j < t → ∃ stj,
        run ((edge_stream two_pairs).take (j + 1)) (start (List.replicate two_pairs.length 0))
          = some stj ∧
        ((∃ p, p < two_pairs.length ∧ group_of stj.point_groups p = 0) ∨
          ∃ p q, p < two_pairs.length ∧ q < two_pairs.length ∧
            group_of stj.point_groups p ≠ 0 ∧ group_of stj.point_groups q ≠ 0 ∧
            group_of stj.point_groups p ≠ group_of stj.point_groups q)) ∧
      ∀ other, find_last_edge ((edge_stream two_pairs).take (t + 1) ++ other)
        (List.replicate two_pairs.length 0) = some (t, e, st) :=
  find_last_edge_stops_at_first_single_group two_pairs SolveA.two_pairs_wellIndexed (by decide)
    (edge_stream two_pairs) (List.Perm.refl _)

end SolveB

namespace SolveA

/-- C16: for every list of `N` points and every `K` with `N * (N - 1) / 2 < K`, variant A
`initialize_edges` rejects no edge: the buffer on return is the sorted vector of all edges, so
it holds each of the `N * (N - 1) / 2` edges once, in ascending order of squared distance. -/
theorem initialize_edges_keeps_all_of_few (S : EdgeSorter) (points : List Point) (K : Nat)
    (hK : points.length * (points.length - 1) / 2 < K) :
    initialize_edges S points [] K = S.sort (edge_stream points) ∧
    (initialize_edges S points [] K).Perm (edge_stream points) ∧
    (initialize_edges S points [] K).length = points.length * (points.length - 1) / 2 ∧
    (initialize_edges S points [] K).Sorted edge_le := by
  have h : initialize_edges S points [] K = S.sort (edge_stream points) := by
    unfold initialize_edges
    rw [select_all_of_few S points hK]
  rw [h]
  refine ⟨rfl, S.perm _, ?_, sorter_sorted_edge_le S _⟩
  rw [(S.perm _).length_eq, edge_stream_length]

theorem initialize_edges_keeps_all_of_few_witness :
    initialize_edges stable_sorter two_pairs [] 10
      = stable_sorter.sort (edge_stream two_pairs) ∧
    (initialize_edges stable_sorter two_pairs [] 10).Perm (edge_stream two_pairs) ∧
    (initialize_edges stable_sorter two_pairs [] 10).length
      = two_pairs.length * (two_pairs.length - 1) / 2 ∧
    (initialize_edges stable_sorter two_pairs [] 10).Sorted edge_le :=
  initialize_edges_keeps_all_of_few stable_sorter two_pairs 10 (by decide)

/-- C17: variant A `solve` uses `K = 10` connections when the input label is exactly
`sample` and `K = 1000` connections for every other label. -/
theorem solve_points_connection_count (S : EdgeSorter) (points : List Point)
    (input_name : String) :
    solve_points S points "sample" = solve_with S points 10 ∧
    (input_name ≠ "sample" → solve_points S points input_name = solve_with S points 1000) ∧
    ∀ lines, solve S lines input_name =
      match parse_points lines (List.replicate lines.length default) with
      | Outcome.returned pts =>
        match solve_with S pts (if input_name = "sample" then 10 else 1000) with
        | some result => Outcome.returned result
        | none => Outcome.undefined
      | Outcome.thrown => Outcome.thrown
      | Outcome.undefined => Outcome.undefined := by
  refine ⟨rfl, ?_, fun lines => rfl⟩
  intro hne
  unfold solve_points max_connections_of
  rw [if_neg hne]
  rfl

theorem solve_points_connection_count_witness :
    solve_points stable_sorter two_pairs "sample" = solve_with stable_sorter two_pairs 10 ∧
    ("input" ≠ "sample" →
      solve_points stable_sorter two_pairs "input" = solve_with stable_sorter two_pairs 1000) ∧
    ∀ lines, solve stable_sorter lines "input" =
      match parse_points lines (List.replicate lines.length default) with
      | Outcome.returned pts =>
        match solve_with stable_sorter pts (if "input" = "sample" then 10 else 1000) with
        | some result => Outcome.returned result
        | none => Outcome.undefined
      | Outcome.thrown => Outcome.thrown
      | Outcome.undefined => Outcome.undefined :=
  solve_points_connection_count stable_sorter two_pairs "input"

end SolveA

namespace SolveB

/-- C18 (counterexample): the three collinear points `x = 3037000500, 3037000501,
3037000503` satisfy the conditions of the claim, and `q * r = 9223372049148252003` is more
than a `long` holds: variant B `solve` returns `-9223372024561299613`. For
`x = 1, 2, 3037000501` the squared distance `3037000500^2` of the first and third point does
not fit a `long` either; the converted value is the smallest `long`, this edge is sorted to
the front, the terminal edge joins the first and second point, and `solve` returns
`1 * 2 = 2` where `q * r = 6074001002`. -/
theorem solve_three_collinear_overflows :
    ((3037000501 : Int) * 3037000503 = 9223372049148252003 ∧
      (9223372049148252003 : Int) > 2 ^ 63 - 1 ∧
      (∀ S : EdgeSorter,
        solve_points S [⟨0, 3037000500, 0, 0⟩, ⟨1, 3037000501, 0, 0⟩, ⟨2, 3037000503, 0, 0⟩]
          = some (-9223372024561299613)) ∧
      (∀ S : EdgeSorter,
        solve S ["3037000500,0,0".toList, "3037000501,0,0".toList, "3037000503,0,0".toList]
          "input" = Outcome.returned (-9223372024561299613))) ∧
    ((3037000500 : Int) ^ 2 > 2 ^ 63 - 1 ∧
      edge_stream [⟨0, 1, 0, 0⟩, ⟨1, 2, 0, 0⟩, ⟨2, 3037000501, 0, 0⟩]
        = [⟨1, 0, 1⟩, ⟨-9223372036854775808, 0, 2⟩, ⟨9223372030926248960, 1, 2⟩] ∧
      (∀ S : EdgeSorter, ∃ st,
        find_last_edge
          (S.sort (edge_stream [⟨0, 1, 0, 0⟩, ⟨1, 2, 0, 0⟩, ⟨2, 3037000501, 0, 0⟩]))
          (List.replicate 3 0) = some (1, ⟨1, 0, 1⟩, st)) ∧
      (∀ S : EdgeSorter,
        solve_points S [⟨0, 1, 0, 0⟩, ⟨1, 2, 0, 0⟩, ⟨2, 3037000501, 0, 0⟩] = some 2) ∧
      (∀ S : EdgeSorter,
        solve S ["1,0,0".toList, "2,0,0".toList, "3037000501,0,0".toList] "input"
          = Outcome.returned 2)) := by
  have h1 : ∀ S : EdgeSorter,
      solve_points S [⟨0, 3037000500, 0, 0⟩, ⟨1, 3037000501, 0, 0⟩, ⟨2, 3037000503, 0, 0⟩]
        = some (-9223372024561299613) := by
    intro S
    rw [solve_points_eq, sort_three_collinear S _ _ _ (by decide) (by decide) (by decide)
      (by decide)]
    rfl
  have hstream : edge_stream [⟨0, 1, 0, 0⟩, ⟨1, 2, 0, 0⟩, ⟨2, 3037000501, 0, 0⟩]
      = [⟨1, 0, 1⟩, ⟨-9223372036854775808, 0, 2⟩, ⟨9223372030926248960, 1, 2⟩] := by
    decide!
  have hsort : ∀ S : EdgeSorter,
      S.sort (edge_stream [⟨0, 1, 0, 0⟩, ⟨1, 2, 0, 0⟩, ⟨2, 3037000501, 0, 0⟩])
        = [⟨-9223372036854775808, 0, 2⟩, ⟨1, 0, 1⟩, ⟨9223372030926248960, 1, 2⟩] := by
    intro S
    rw [hstream]
    exact sort_eq_of_distinct S (by decide) (by decide) (by decide)
  have h2 : ∀ S : EdgeSorter,
      solve_points S [⟨0, 1, 0, 0⟩, ⟨1, 2, 0, 0⟩, ⟨2, 3037000501, 0, 0⟩] = some 2 := by
    intro S
    rw [solve_points_eq, hsort S]
    rfl
  refine ⟨⟨by decide, by decide, h1, ?_⟩, by decide, hstream, ?_, h2, ?_⟩
  · intro S
    have hparse : parse_points
        ["3037000500,0,0".toList, "3037000501,0,0".toList, "3037000503,0,0".toList]
        (List.replicate
          ["3037000500,0,0".toList, "3037000501,0,0".toList, "3037000503,0,0".toList].length
          default)
        = Outcome.returned
          [⟨0, 3037000500, 0, 0⟩, ⟨1, 3037000501, 0, 0⟩, ⟨2, 3037000503, 0, 0⟩] := by decide
    unfold solve
    rw [hparse]
    simp only [h1 S]
  · intro S
    rw [hsort S]
    exact ⟨_, rfl⟩
  · intro S
    have hparse : parse_points ["1,0,0".toList, "2,0,0".toList, "3037000501,0,0".toList]
        (List.replicate ["1,0,0".toList, "2,0,0".toList, "3037000501,0,0".toList].length
          default)
        = Outcome.returned [⟨0, 1, 0, 0⟩, ⟨1, 2, 0, 0⟩, ⟨2, 3037000501, 0, 0⟩] := by decide
    unfold solve
    rw [hparse]
    simp only [h2 S]

/-- C18 (amended): for three collinear points `(p,0,0)`, `(q,0,0)`, `(r,0,0)` given in this
order with `p < q < r` and `q - p < r - q`, whose largest squared distance `(r - p)^2` and
whose product `q * r` fit a `long`, under every sorting routine `find_last_edge` returns at
the second edge of the sorted vector, which joins the second and third point, and variant B
`solve` on the points returns `q * r`; for the input lines `0,0,0`, `5,0,0`, `12,0,0` the
terminal edge joins the points at 5 and 12 and `solve` returns 60. -/
theorem solve_three_collinear (S : EdgeSorter) (p q r : Int) (hpq : p < q) (hqr : q < r)
    (hgap : q - p < r - q) (hdist : (r - p) ^ 2 < 2 ^ 63)
    (hprod : -(2 ^ 63) ≤ q * r ∧ q * r < 2 ^ 63) (input_name : String) :
    (∃ st, find_last_edge (S.sort (edge_stream [⟨0, p, 0, 0⟩, ⟨1, q, 0, 0⟩, ⟨2, r, 0, 0⟩]))
        (List.replicate 3 0)
        = some (1, ⟨compute_distance2 ⟨1, q, 0, 0⟩ ⟨2, r, 0, 0⟩, 1, 2⟩, st)) ∧
    solve_points S [⟨0, p, 0, 0⟩, ⟨1, q, 0, 0⟩, ⟨2, r, 0, 0⟩] = some (q * r) ∧
    (∃ st, find_last_edge (S.sort (edge_stream [⟨0, 0, 0, 0⟩, ⟨1, 5, 0, 0⟩, ⟨2, 12, 0, 0⟩]))
        (List.replicate 3 0) = some (1, ⟨49, 1, 2⟩, st)) ∧
    solve S ["0,0,0".toList, "5,0,0".toList, "12,0,0".toList] input_name
      = Outcome.returned 60 := by
  have hgen : ∀ a b c : Int, a < b → b < c → b - a < c - b → (c - a) ^ 2 < 2 ^ 63 →
      (-(2 ^ 63) ≤ b * c ∧ b * c < 2 ^ 63) →
      (∃ st, find_last_edge (S.sort (edge_stream [⟨0, a, 0, 0⟩, ⟨1, b, 0, 0⟩, ⟨2, c, 0, 0⟩]))
        (List.replicate 3 0)
        = some (1, ⟨compute_distance2 ⟨1, b, 0, 0⟩ ⟨2, c, 0, 0⟩, 1, 2⟩, st)) ∧
      solve_points S [⟨0, a, 0, 0⟩, ⟨1, b, 0, 0⟩, ⟨2, c, 0, 0⟩] = some (b * c) := by
    intro a b c hab hbc hg hd hp
    have hcb : (c - b) ^ 2 < 2 ^ 63 := by nlinarith
    have hca : c - a ≤ 3037000499 := by
      by_contra hc
      have : (3037000500 : Int) * 3037000500 ≤ (c - a) * (c - a) := by nlinarith
      have e : (c - a) ^ 2 = (c - a) * (c - a) := by ring
      omega
    have a2 := pow2_long_lt (b - a) (c - b) (by omega) hg hcb
    have ed : compute_distance2 ⟨1, b, 0, 0⟩ ⟨2, c, 0, 0⟩ = pow2_long (c - b) :=
      compute_distance2_on_axis 1 2 b c (by omega) (by omega) (by omega) a2.2.2
    constructor
    · rw [sort_three_collinear S a b c hab hbc hg hd, ed]
      exact ⟨_, rfl⟩
    · rw [solve_points_eq, sort_three_collinear S a b c hab hbc hg hd]
      show some (wrap_long (b * c)) = some (b * c)
      rw [wrap_long_of_range hp.1 hp.2]
  obtain ⟨h1, h2⟩ := hgen p q r hpq hqr hgap hdist hprod
  obtain ⟨h3, h4⟩ := hgen 0 5 12 (by decide) (by decide) (by decide) (by decide)
    (by decide)
  refine ⟨h1, h2, ?_, ?_⟩
  · have e : compute_distance2 ⟨1, 5, 0, 0⟩ ⟨2, 12, 0, 0⟩ = 49 := by decide!
    rw [e] at h3
    exact h3
  have hparse : parse_points ["0,0,0".toList, "5,0,0".toList, "12,0,0".toList]
      (List.replicate ["0,0,0".toList, "5,0,0".toList, "12,0,0".toList].length default)
      = Outcome.returned [⟨0, 0, 0, 0⟩, ⟨1, 5, 0, 0⟩, ⟨2, 12, 0, 0⟩] := by decide
  unfold solve
  rw [hparse]
  simp only [h4]
  rfl

theorem solve_three_collinear_witness :
    (∃ st, find_last_edge
        (stable_sorter.sort (edge_stream [⟨0, 1, 0, 0⟩, ⟨1, 2, 0, 0⟩, ⟨2, 7, 0, 0⟩]))
        (List.replicate 3 0)
        = some (1, ⟨compute_distance2 ⟨1, 2, 0, 0⟩ ⟨2, 7, 0, 0⟩, 1, 2⟩, st)) ∧
    solve_points stable_sorter [⟨0, 1, 0, 0⟩, ⟨1, 2, 0, 0⟩, ⟨2, 7, 0, 0⟩] = some (2 * 7) ∧
    (∃ st, find_last_edge
        (stable_sorter.sort (edge_stream [⟨0, 0, 0, 0⟩, ⟨1, 5, 0, 0⟩, ⟨2, 12, 0, 0⟩]))
        (List.replicate 3 0) = some (1, ⟨49, 1, 2⟩, st)) ∧
    solve stable_sorter ["0,0,0".toList, "5,0,0".toList, "12,0,0".toList] "input"
      = Outcome.returned 60 :=
  solve_three_collinear stable_sorter 1 2 7 (by decide) (by decide) (by decide) (by decide)
    (by decide) "input"

end SolveB

namespace SolveA

/-- C19: for well-indexed points and `K >= 1`, when the `K` edges of smallest squared distance
(the list `T`) share no endpoint with each other and are all strictly shorter than every other
edge, `initialize_edges` followed by `find_point_groups` yields exactly `K` groups, each with
exactly 2 members, and a point is left ungrouped exactly when it is an endpoint of no edge of
`T`; for the points (0,0,0), (1,0,0), (100,0,0), (101,0,0) and `K = 2` this gives two groups
of size 2. -/
theorem well_separated_pairs_make_groups_of_two (S : EdgeSorter) (points : List Point)
    (hw : WellIndexed points) (K : Nat) (hK1 : 1 ≤ K) (T rest : List Edge)
    (hperm : (T ++ rest).Perm (edge_stream points)) (hT : T.length = K)
    (hmatch : T.Pairwise NoCommonEndpoint)
    (hgap : ∀ e ∈ T, ∀ f ∈ rest, e.distance2 < f.distance2) :
    (∃ point_groups,
      find_point_groups (initialize_edges S points [] K) (List.replicate points.length 0) K
        = some (point_groups, K) ∧
      find_group_sizes point_groups (List.replicate K 0) = some (List.replicate K 2) ∧
      ∀ p, p < points.length →
        (group_of point_groups p = 0 ↔ ∀ e ∈ T, e.index_a ≠ p ∧ e.index_b ≠ p)) ∧
    ∃ point_groups,
      find_point_groups (initialize_edges S two_pairs [] 2) (List.replicate 4 0) 2
        = some (point_groups, 2) ∧
      find_group_sizes point_groups [0, 0] = some [2, 2] :=
  ⟨groups_of_matching S hw hK1 T rest hperm hT hmatch hgap, two_pairs_groups S⟩

theorem well_separated_pairs_make_groups_of_two_witness :
    (∃ point_groups,
      find_point_groups (initialize_edges stable_sorter two_pairs [] 2)
        (List.replicate two_pairs.length 0) 2 = some (point_groups, 2) ∧
      find_group_sizes point_groups (List.replicate 2 0) = some (List.replicate 2 2) ∧
      ∀ p, p < two_pairs.length →
        (group_of point_groups p = 0 ↔
          ∀ e ∈ ([⟨1, 0, 1⟩, ⟨1, 2, 3⟩] : List Edge), e.index_a ≠ p ∧ e.index_b ≠ p)) ∧
    ∃ point_groups,
      find_point_groups (initialize_edges stable_sorter two_pairs [] 2) (List.replicate 4 0) 2
        = some (point_groups, 2) ∧
      find_group_sizes point_groups [0, 0] = some [2, 2] :=
  well_separated_pairs_make_groups_of_two stable_sorter two_pairs two_pairs_wellIndexed 2
    (by decide) [⟨1, 0, 1⟩, ⟨1, 2, 3⟩]
    [⟨10000, 0, 2⟩, ⟨10201, 0, 3⟩, ⟨9801, 1, 2⟩, ⟨10000, 1, 3⟩]
    (by decide!) rfl (by simp [NoCommonEndpoint]) (by decide)

end SolveA

end Day08

namespace Day02

open Cpp

/-- C20 (failing input): for the range `3000000000-3000099999`
function `solve_range` returns 0 at every depth of recursion allowed, although the number
3000030000, the block `30000` written twice, lies within the range: case B stores the
candidate in an `int`, where it becomes negative. -/
theorem solve_range_loses_ten_digit_id :
    (∀ fuel, solve_range (fuel + 1) "3000000000".toList "3000099999".toList = some 0) ∧
    compute_invalid_id 30000 100000 = 3000030000 ∧
    long_to_int 3000030000 = -1294937296 ∧
    string_view_to_long "3000000000".toList ≤ 3000030000 ∧
    3000030000 ≤ string_view_to_long "3000099999".toList ∧
    is_doubled 3000030000 := by
  refine ⟨fun fuel => ?_, by decide, by decide, by decide, by decide,
    ⟨"30000".toList, by decide, by decide⟩⟩
  unfold solve_range
  rw [if_neg (by decide), if_pos (by decide)]
  decide

end Day02

namespace Day09

open Cpp

/-- C21 (failing input): for the input lines `5,5`, `0,5`, `10,10` part A `solve` returns 36
under every sorting routine, although the points `(0,5)` and `(10,10)` span a rectangle of
area 66, the maximum over all pairs. The corner lists are seeded with the first and the last
point of the unsorted input; the point `(0,5)` has the same `y` as the seed `(5,5)` and enters
none of the four corner lists. -/
theorem solve_misses_largest_rectangle :
    parse_points ["5,5".toList, "0,5".toList, "10,10".toList] (List.replicate 3 default)
      = Outcome.returned [⟨5, 5⟩, ⟨0, 5⟩, ⟨10, 10⟩] ∧
    (∀ (S : PointSorter) (input_name : String),
      solve S ["5,5".toList, "0,5".toList, "10,10".toList] input_name = Outcome.returned 36) ∧
    area ⟨0, 5⟩ ⟨10, 10⟩ = 66 ∧
    all_pairs_max_area [⟨5, 5⟩, ⟨0, 5⟩, ⟨10, 10⟩] = 66 := by
  have hparse : parse_points ["5,5".toList, "0,5".toList, "10,10".toList]
      (List.replicate ["5,5".toList, "0,5".toList, "10,10".toList].length default)
      = Outcome.returned [⟨5, 5⟩, ⟨0, 5⟩, ⟨10, 10⟩] := by decide
  refine ⟨hparse, ?_, by decide, by decide⟩
  intro S input_name
  have hsort : S.sort [⟨5, 5⟩, ⟨0, 5⟩, ⟨10, 10⟩] = [⟨0, 5⟩, ⟨5, 5⟩, ⟨10, 10⟩] :=
    sort_eq_of_distinct_x S (by decide) (by decide) (by decide)
  unfold solve
  rw [hparse]
  simp only [solve_points, List.head?_cons, List.getLast?, hsort]
  decide

end Day09

namespace Day01

open Cpp

/-- C22 (counterexample): for the single move `R2147483647` the naive simulation counts
21474836 clicks at a multiple of 100, while in part B `solve` the position `50 + 2147483647`
overflows the `int` and the result is `-21474836`. -/
theorem solve_overflows_on_long_move :
    parse_line "R2147483647".toList = some 2147483647 ∧
    solve ["R2147483647".toList] "input" = Outcome.returned (-21474836) ∧
    naive_zeros [2147483647] = 21474836 := by
  refine ⟨by rfl, by rfl, ?_⟩
  rw [naive_zeros_single]
  decide

/-- C22 (amended): for every sequence of signed moves applied to a dial starting at 50 such
that every dial position lies strictly between `-2^31` and `2^31` and the count stays below
`2^31`, the total that part B `solve` computes from `count_zeros_pos` / `count_zeros_neg`
equals the count of the naive simulation that turns the dial one click at a time and counts
every click after which the position is a multiple of 100. -/
theorem solve_eq_naive_zeros (lines : List (List Char)) (moves : List Int)
    (input_name : String) (hparse : lines.map parse_line = moves.map some)
    (hpos : ∀ p ∈ positions 50 moves, -(2 ^ 31) < p ∧ p < 2 ^ 31)
    (hcount : (naive_zeros moves : Int) < 2 ^ 31) :
    solve lines input_name = Outcome.returned ((naive_zeros moves : Nat) : Int) := by
  unfold solve
  rw [foldlM_parse lines moves _ hparse]
  have h := foldl_count_zeros moves 50 0 (by norm_num) (by norm_num) hpos hcount
  have h0 : ({ current := 50, zeros := 0 } : Dial) = { current := 50, zeros := ((0 : Nat) : Int) } :=
    rfl
  rw [h0, h]
  rfl

theorem solve_eq_naive_zeros_witness :
    solve ["L68".toList, "L30".toList, "R48".toList, "L5".toList, "R60".toList, "L55".toList,
        "L1".toList, "L99".toList, "R14".toList, "L82".toList] "sample"
      = Outcome.returned ((naive_zeros [-68, -30, 48, -5, 60, -55, -1, -99, 14, -82] : Nat) : Int) :=
  solve_eq_naive_zeros _ [-68, -30, 48, -5, 60, -55, -1, -99, 14, -82] "sample" (by decide)
    (by decide) (by rw [naive_zeros_eq_sample]; decide)

end Day01

namespace Day03

open Cpp

namespace SolveB

/-- C23: for every line of at least 12 decimal digits (and `digit_to_int` giving the value of
a digit character), part B `solve_line` returns the largest 12-digit value obtainable by
choosing 12 of the digits of the line and keeping them in their original order: the value
returned is that of a subsequence `s` of 12 characters of the line, and no subsequence of 12
characters has a larger value. This holds whatever the read of `digits_tail[11]` past the end
of the vector yields in the last iteration. -/
theorem solve_line_largest_subsequence (digit_to_int : Char → Int)
    (hdigit : ∀ c : Char, c.isDigit = true → digit_to_int c = (c.toNat : Int) - 48)
    (past_end : Digit) (line : List Char) (hlen : 12 ≤ line.length)
    (hd : ∀ c ∈ line, c.isDigit = true) :
    ∃ s : List Char, s.Sublist line ∧ s.length = 12 ∧
      solve_line digit_to_int past_end line = Outcome.returned (digits_value s) ∧
      ∀ t : List Char, t.Sublist line → t.length = 12 → digits_value t ≤ digits_value s := by
  have h12 : OUTPUT_DIGITS = 12 := rfl
  have h11 : TAIL_LENGTH = 11 := rfl
  obtain ⟨P, lo, st, hfold, hp, _⟩ := select_loop digit_to_int hdigit past_end line
    (by rw [h12]; exact hlen) hd OUTPUT_DIGITS (le_refl _)
  have hsub : P.Sublist line := by
    have := hp.sub [] (List.nil_sublist _)
    rwa [List.append_nil] at this
  refine ⟨P, hsub, hp.len, ?_, ?_⟩
  · unfold solve_line
    rw [if_neg (by rw [h11]; omega), hfold]
    simp only
    rw [hp.out, Nat.sub_self, pow_zero, mul_one]
  · intro t ht htl
    rcases hp.best t ht htl with h | ⟨h, _⟩
    · rw [List.take_of_length_le (by rw [htl]; exact le_refl _)] at h
      exact le_of_lt h
    · rw [List.take_of_length_le (by rw [htl]; exact le_refl _)] at h
      rw [h]

theorem solve_line_largest_subsequence_witness :
    ∃ s : List Char, s.Sublist "987654321111111".toList ∧ s.length = 12 ∧
      solve_line (fun c => (c.toNat : Int) - 48) { value := 'x', pos := 7 }
        "987654321111111".toList = Outcome.returned (digits_value s) ∧
      ∀ t : List Char, t.Sublist "987654321111111".toList → t.length = 12 →
        digits_value t ≤ digits_value s :=
  solve_line_largest_subsequence (fun c => (c.toNat : Int) - 48) (fun _ _ => rfl)
    { value := 'x', pos := 7 } "987654321111111".toList (by decide) (by decide)

/-- Part B `solve_line` on the four sample lines of the puzzle, with two different values for
the element read past the end of `digits_tail`. -/
theorem solve_line_samples :
    solve_line (fun c => (c.toNat : Int) - 48) { value := '9', pos := 0 }
      "987654321111111".toList = Outcome.returned 987654321111 ∧
    solve_line (fun c => (c.toNat : Int) - 48) { value := '0', pos := 99 }
      "987654321111111".toList = Outcome.returned 987654321111 ∧
    solve_line (fun c => (c.toNat : Int) - 48) { value := '9', pos := 0 }
      "811111111111119".toList = Outcome.returned 811111111119 ∧
    solve_line (fun c => (c.toNat : Int) - 48) { value := '9', pos := 0 }
      "234234234234278".toList = Outcome.returned 434234234278 ∧
    solve_line (fun c => (c.toNat : Int) - 48) { value := '9', pos := 0 }
      "818181911112111".toList = Outcome.returned 888911112111 := by
  decide!

end SolveB
end Day03

namespace Day05

open Cpp

namespace SolveB

/-- C24 (counterexample): the single range `0-9223372036854775807` contains `2^63` integers;
part B `solve`, whose count is a `long`, returns `-2^63`. And for 17 lines `1-2`, whose union
contains the two integers 1 and 2, the vector holds 17 equal start nodes, which
`compare_nodes` orders in both directions: the call of `std::ranges::sort` is undefined. -/
theorem solve_overflows_on_full_range :
    ((create_nodes_from_ranges ["0-9223372036854775807".toList] []).2
        = range_nodes [(0, 9223372036854775807)] ∧
      solve insertion_sorter ["0-9223372036854775807".toList] "input"
        = Outcome.returned (-9223372036854775808) ∧
      (covered [(0, 9223372036854775807)]).card = 9223372036854775808) ∧
    ((create_nodes_from_ranges (List.replicate 17 "1-2".toList) []).2
        = range_nodes (List.replicate 17 (1, 2)) ∧
      compare_nodes { node_type := NodeType.RangeStart, id := 1 }
        { node_type := NodeType.RangeStart, id := 1 } = true ∧
      (∀ S : NodeSorter,
        solve S (List.replicate 17 "1-2".toList) "input" = Outcome.undefined) ∧
      (covered (List.replicate 17 (1, 2))).card = 2) := by
  refine ⟨⟨by decide, by decide, ?_⟩, by decide, by decide, ?_, by decide⟩
  · have e : covered [(0, 9223372036854775807)] = Finset.Icc 0 9223372036854775807 := by
      simp [covered]
    rw [e, Int.card_Icc]
    rfl
  · intro S
    have hparse : (create_nodes_from_ranges (List.replicate 17 "1-2".toList) []).2
        = range_nodes (List.replicate 17 (1, 2)) := by decide
    have hns : ¬ sortable (range_nodes (List.replicate 17 (1, 2))) := by decide
    unfold solve sort_nodes
    simp only [hparse, if_neg hns]

/-- C24 (amended): for every list of inclusive ranges `[start, end]` with `start <= end`, no
two of which have the same start, that together contain fewer than `2^63` integers, part B
`solve` returns the number of distinct integers contained in at least one range (the size of
the union), whether the ranges overlap, are nested, touch or are adjacent, and for every
sorting routine. -/
theorem solve_eq_card_covered (S : NodeSorter) (lines : List (List Char))
    (ranges : List (Int × Int)) (input_name : String)
    (hparse : (create_nodes_from_ranges lines []).2 = range_nodes ranges)
    (hv : ∀ r ∈ ranges, r.1 ≤ r.2) (hstarts : (ranges.map Prod.fst).Nodup)
    (hsize : ((covered ranges).card : Int) < 2 ^ 63) :
    solve S lines input_name = Outcome.returned (((covered ranges).card : Nat) : Int) := by
  have hs := sortable_range_nodes ranges hstarts
  unfold solve sort_nodes
  simp only [hparse, if_pos hs]
  rw [count_union_eq S ranges hv hsize hs]

theorem solve_eq_card_covered_witness :
    solve insertion_sorter
      ["3-5".toList, "10-14".toList, "16-20".toList, "12-18".toList, "".toList, "1".toList]
      "sample"
      = Outcome.returned (((covered [(3, 5), (10, 14), (16, 20), (12, 18)]).card : Nat) : Int) :=
  solve_eq_card_covered insertion_sorter _ [(3, 5), (10, 14), (16, 20), (12, 18)] "sample"
    (by decide) (by decide) (by decide) (by decide)

end SolveB

namespace SolveA

/-- C25 (code bug): for the lines `3-7`, an empty line and 17 lines `2` no ingredient id lies
in a range, so that the count is 0; the vector holds 17 equal ingredient nodes, which
`compare_nodes` orders in both directions, and the call of `std::ranges::sort` in part A
`solve` is undefined. -/
theorem solve_undefined_on_equal_ingredients :
    create_nodes_from_ingredients ("3-7".toList :: [] :: List.replicate 17 "2".toList)
        (create_nodes_from_ranges ("3-7".toList :: [] :: List.replicate 17 "2".toList) []).2
        (create_nodes_from_ranges ("3-7".toList :: [] :: List.replicate 17 "2".toList) []).1
      = range_nodes [(3, 7)] ++ ingredient_nodes (List.replicate 17 2) ∧
    compare_nodes { node_type := NodeType.Ingredient, id := 2 }
      { node_type := NodeType.Ingredient, id := 2 } = true ∧
    (∀ S : NodeSorter,
      solve S ("3-7".toList :: [] :: List.replicate 17 "2".toList) "input"
        = Outcome.undefined) ∧
    (List.replicate 17 (2 : Int)).countP
      (fun v => decide (∃ r ∈ ([(3, 7)] : List (Int × Int)), r.1 ≤ v ∧ v ≤ r.2)) = 0 := by
  have hparse : create_nodes_from_ingredients
      ("3-7".toList :: [] :: List.replicate 17 "2".toList)
      (create_nodes_from_ranges ("3-7".toList :: [] :: List.replicate 17 "2".toList) []).2
      (create_nodes_from_ranges ("3-7".toList :: [] :: List.replicate 17 "2".toList) []).1
      = range_nodes [(3, 7)] ++ ingredient_nodes (List.replicate 17 2) := by decide
  refine ⟨hparse, by decide, ?_, by decide⟩
  intro S
  have hns : ¬ sortable (range_nodes [(3, 7)] ++ ingredient_nodes (List.replicate 17 2)) := by
    decide
  unfold solve sort_nodes
  simp only [hparse, if_neg hns]

/-- Part A `solve` where the sort is defined: for every list of inclusive ranges
`[start, end]` with `start <= end`, no two of which have the same start, and every list of
pairwise distinct ingredient ids, it returns the number of ingredient lines whose id lies in at
least one range, the two ends of a range included, for every sorting routine. -/
theorem solve_counts_distinct_ids_in_ranges (S : NodeSorter) (lines : List (List Char))
    (ranges : List (Int × Int)) (ids : List Int) (input_name : String)
    (hparse : create_nodes_from_ingredients lines (create_nodes_from_ranges lines []).2
        (create_nodes_from_ranges lines []).1 = range_nodes ranges ++ ingredient_nodes ids)
    (hv : ∀ r ∈ ranges, r.1 ≤ r.2) (hstarts : (ranges.map Prod.fst).Nodup)
    (hids : ids.Nodup) :
    solve S lines input_name
      = Outcome.returned
        ((ids.countP (fun v => decide (∃ r ∈ ranges, r.1 ≤ v ∧ v ≤ r.2)) : Nat) : Int) := by
  have hs := sortable_nodes ranges ids hstarts hids
  unfold solve sort_nodes
  simp only [hparse, if_pos hs]
  rw [count_fresh_eq S ranges ids hv hs]
  congr 3
  funext v
  unfold in_some_range
  rw [Bool.eq_iff_iff, List.any_eq_true, decide_eq_true_iff]
  constructor
  · rintro ⟨r, hr, h⟩
    exact ⟨r, hr, by simpa using h⟩
  · rintro ⟨r, hr, h⟩
    exact ⟨r, hr, by simpa using h⟩

/-- Part A `solve` on the sample of the puzzle: three of the six ingredient ids are fresh. -/
theorem solve_sample_counts_three :
    solve insertion_sorter
      ["3-5".toList, "10-14".toList, "16-20".toList, "12-18".toList, "".toList, "1".toList,
        "5".toList, "8".toList, "11".toList, "17".toList, "32".toList] "sample"
      = Outcome.returned 3 := by
  rw [solve_counts_distinct_ids_in_ranges insertion_sorter _
    [(3, 5), (10, 14), (16, 20), (12, 18)] [1, 5, 8, 11, 17, 32] "sample"
    (by decide) (by decide) (by decide) (by decide)]
  decide

end SolveA
end Day05

namespace Day02

namespace SolveB

open Cpp

set_option maxRecDepth 10000 in
/-- C26 (counterexample): three ranges for which `solve_range` does not return the sum of the
repeated numbers. In `999999990999999990-999999999999999999` the repeated numbers are the ten
numbers `v v` for the nine-digit blocks `v = 999999990 .. 999999999`; their sum
`9999999954999999945` does not fit a `long`, and `solve_range` returns
`-8446744118709551671`. In `8888888888888888888-9223372036854775808` the only repeated number
is `8888888888888888888`; the upper limit `2^63` does not fit a `long`, `from_chars` leaves
its value 0, and `solve_range` returns 0. In `9999999999999999-10000000000000001` the only
repeated number is `9999999999999999`; the limits of the two sub-ranges pass through `double`,
which turns all of them into `10^16`, and `solve_range` returns 0. -/
theorem solve_range_sum_exceeds_long :
    (collect_invalid_ids
          (Range.parse "999999990999999990".toList "999999999999999999".toList)
        = [999999990999999990, 999999991999999991, 999999992999999992, 999999993999999993,
           999999994999999994, 999999995999999995, 999999996999999996, 999999997999999997,
           999999998999999998, 999999999999999999] ∧
      ∑ n ∈ (Finset.Icc 999999990999999990 999999999999999999).filter
          (fun n => is_repeated n), n = 9999999954999999945 ∧
      solve_range 2 (Range.parse "999999990999999990".toList "999999999999999999".toList)
        = some (-8446744118709551671)) ∧
    (∑ n ∈ (Finset.Icc 8888888888888888888 9223372036854775808).filter
          (fun n => is_repeated n), n = 8888888888888888888 ∧
      (Range.parse "8888888888888888888".toList "9223372036854775808".toList).max.value = 0 ∧
      solve_range 2 (Range.parse "8888888888888888888".toList "9223372036854775808".toList)
        = some 0) ∧
    (∑ n ∈ (Finset.Icc 9999999999999999 10000000000000001).filter
          (fun n => is_repeated n), n = 9999999999999999 ∧
      round_double 9999999999999999 = 10000000000000000 ∧
      round_double (pow_double 10 16 - 1) = 10000000000000000 ∧
      round_double 10000000000000001 = 10000000000000000 ∧
      solve_range 2 (Range.parse "9999999999999999".toList "10000000000000001".toList)
        = some 0) := by
  have hlist : collect_invalid_ids
        (Range.parse "999999990999999990".toList "999999999999999999".toList)
      = [999999990999999990, 999999991999999991, 999999992999999992, 999999993999999993,
         999999994999999994, 999999995999999995, 999999996999999996, 999999997999999997,
         999999998999999998, 999999999999999999] := by
    decide!
  refine ⟨⟨hlist, ?_, ?_⟩, ⟨?_, by decide!, by decide!⟩,
    ⟨?_, by decide!, by decide!, by decide!, by decide!⟩⟩
  · have h := list_sum_collect_same_length 999999990999999990 999999999999999999 18
      (Range.parse "999999990999999990".toList "999999999999999999".toList)
      (by decide!) (by decide!) (by norm_num) (by norm_num) (by decide!) (by decide!)
      (by norm_num)
      ((Finset.Icc 999999990999999990 999999999999999999).filter (fun n => is_repeated n))
      (fun n => by
        rw [Finset.mem_filter, Finset.mem_Icc, and_assoc])
    rw [hlist] at h
    have h2 : ([999999990999999990, 999999991999999991, 999999992999999992,
        999999993999999993, 999999994999999994, 999999995999999995, 999999996999999996,
        999999997999999997, 999999998999999998, 999999999999999999] : List Int).sum
        = 9999999954999999945 := by
      decide!
    rw [h2] at h
    exact_mod_cast h.symm
  · rw [solve_range, if_neg (by decide)]
    rw [hlist]
    decide!
  · have hnot : ¬ is_repeated 9223372036854775808 := by decide!
    have hIcc : Finset.Icc 8888888888888888888 9223372036854775808
        = insert 9223372036854775808
          (Finset.Icc 8888888888888888888 9223372036854775807) := by
      ext n
      simp only [Finset.mem_Icc, Finset.mem_insert]
      omega
    rw [hIcc, Finset.filter_insert, if_neg hnot]
    have h := list_sum_collect_same_length 8888888888888888888 9223372036854775807 19
      (Range.parse "8888888888888888888".toList "9223372036854775807".toList)
      (by decide!) (by decide!) (by norm_num) (by norm_num) (by decide!) (by decide!)
      (by norm_num)
      ((Finset.Icc 8888888888888888888 9223372036854775807).filter (fun n => is_repeated n))
      (fun n => by
        rw [Finset.mem_filter, Finset.mem_Icc, and_assoc])
    have hl : collect_invalid_ids
        (Range.parse "8888888888888888888".toList "9223372036854775807".toList)
        = [8888888888888888888] := by decide!
    rw [hl] at h
    have h2 : ([8888888888888888888] : List Int).sum = 8888888888888888888 := by decide!
    rw [h2] at h
    exact_mod_cast h.symm
  · have hIcc : Finset.Icc 9999999999999999 10000000000000001
        = insert 9999999999999999 (insert 10000000000000000 {10000000000000001}) := by
      ext n
      simp only [Finset.mem_Icc, Finset.mem_insert, Finset.mem_singleton]
      omega
    have h1 : is_repeated 9999999999999999 := by decide!
    have h2 : ¬ is_repeated 10000000000000000 := by decide!
    have h3 : ¬ is_repeated 10000000000000001 := by decide!
    rw [hIcc, Finset.filter_insert, if_pos h1, Finset.filter_insert, if_neg h2,
      Finset.filter_singleton, if_neg h3]
    decide!

/-- C26 (amended): for all numbers `1 <= lo <= hi < 2^63`, given by their decimal
representations without leading zeros, with `hi < 10^16` when `lo` and `hi` differ in their
number of digits, such that the sum of the repeated numbers of the range is below `2^63`,
`solve_range` returns the sum, each number counted once, of all integers `n` with
`lo <= n <= hi` whose decimal representation is a digit block repeated two or more times. -/
theorem solve_range_sums_repeated_numbers (lo hi fuel : Nat) (hlo : 1 ≤ lo) (hle : lo ≤ hi)
    (hhi : hi < 2 ^ 63)
    (hsplit : (Nat.toDigits 10 lo).length ≠ (Nat.toDigits 10 hi).length → hi < 10 ^ 16)
    (hsum : ∑ n ∈ (Finset.Icc lo hi).filter (fun n => is_repeated n), n < 2 ^ 63)
    (hfuel : 2 ≤ fuel) :
    solve_range fuel (Range.parse (Nat.toDigits 10 lo) (Nat.toDigits 10 hi))
      = some ((∑ n ∈ (Finset.Icc lo hi).filter (fun n => is_repeated n), n : Nat) : Int) := by
  apply solve_range_eq lo hi _ _ _ hlo hle hhi hsplit _ _ hsum fuel hfuel
  · unfold Range.parse Limit.parse string_view_to_long
    rw [from_chars_long_toDigits lo (by omega) 0]
  · unfold Range.parse Limit.parse string_view_to_long
    rw [from_chars_long_toDigits hi (by omega) 0]
  · intro n
    rw [Finset.mem_filter, Finset.mem_Icc]
    tauto

theorem solve_range_sums_repeated_numbers_witness :
    solve_range 2 (Range.parse (Nat.toDigits 10 95) (Nat.toDigits 10 115))
      = some ((∑ n ∈ (Finset.Icc 95 115).filter (fun n => is_repeated n), n : Nat) : Int) :=
  solve_range_sums_repeated_numbers 95 115 2 (by decide) (by decide) (by norm_num)
    (fun _ => by norm_num) (by decide) (by decide)

end SolveB

end Day02

namespace Day11

open Cpp

namespace SolveA

set_option maxRecDepth 1000000 in
/-- C27 (counterexample): a chain of 31 doubling stages from `you` to `out` (93 input lines)
has `2^31 = 2147483648` paths from `you` to `out`; part A `solve`, whose counts are `int`,
returns `-2147483648`. -/
theorem recurse_overflows_on_doubling_chain :
    (initialize_graph (doubling_lines "you".toList "out".toList 31)
        { node_to_inputs :=
            List.replicate ((doubling_lines "you".toList "out".toList 31).length + 1) [],
          label_to_index := [] }).map
      (fun g => (g.node_to_inputs, index_of "out".toList g.label_to_index,
        index_of "you".toList g.label_to_index))
      = some (doubling_graph 31, 93, 0) ∧
    path_count (doubling_graph 31) 200 93 0 = 2147483648 ∧
    solve 200 (doubling_lines "you".toList "out".toList 31) "input"
      = Outcome.returned (-2147483648) := by
  have hparse : initialize_graph (doubling_lines "you".toList "out".toList 31)
      { node_to_inputs :=
          List.replicate ((doubling_lines "you".toList "out".toList 31).length + 1) [],
        label_to_index := [] }
      = some { node_to_inputs := doubling_graph 31,
               label_to_index := doubling_labels "you".toList "out".toList 31 } := by
    decide!
  refine ⟨?_, ?_, ?_⟩
  · rw [hparse]
    decide
  · exact path_count_doubling (doubling_graph 31) 31 (by decide) 31 (le_refl _) 200
      (by decide)
  · unfold solve
    rw [hparse]
    decide

/-- C27 (amended): for every acyclic `node_to_inputs` graph (the inputs of a node have a
smaller rank than the node) in which the number of paths from the target node to each node is
below `2^31`, `recurse` started with a memo vector of all `-1` returns the number of directed
paths from the target node to the current node, that is the value of the recursion without
memoisation. -/
theorem recurse_eq_path_count (node_to_inputs : List (List Nat)) (rank : Nat → Nat)
    (target_node current_node fuel : Nat)
    (hacyclic : ∀ v, v < node_to_inputs.length → ∀ u ∈ node_to_inputs.getD v [],
      u < node_to_inputs.length ∧ rank u < rank v)
    (hbound : ∀ v, v < node_to_inputs.length →
      path_count node_to_inputs (rank v + 1) v target_node < 2 ^ 31)
    (hcur : current_node < node_to_inputs.length) (hfuel : rank current_node < fuel) :
    ∃ memo, recurse node_to_inputs fuel (List.replicate node_to_inputs.length (-1))
        current_node target_node
      = some (((path_count node_to_inputs fuel current_node target_node : Nat) : Int),
          memo) := by
  obtain ⟨memo, h, _⟩ := recurse_spec node_to_inputs rank target_node hacyclic hbound fuel
    current_node _ hcur hfuel (memoOK_init node_to_inputs rank target_node)
  refine ⟨memo, ?_⟩
  rw [h, path_count_fuel node_to_inputs rank target_node hacyclic fuel current_node hcur hfuel]

set_option maxRecDepth 100000 in
theorem recurse_eq_path_count_witness :
    ∃ memo, recurse (doubling_graph 3) 20 (List.replicate (doubling_graph 3).length (-1)) 9 0
      = some (((path_count (doubling_graph 3) 20 9 0 : Nat) : Int), memo) :=
  recurse_eq_path_count (doubling_graph 3) (fun v => v) 0 9 20 (by decide) (by decide)
    (by decide) (by decide)

end SolveA

namespace SolveB

set_option maxRecDepth 1000000 in
set_option maxHeartbeats 4000000 in
/-- C28 (failing input): a chain of 32 doubling stages from `svr` to `dac`, followed by the
lines `dac: fft` and `fft: out` (98 input lines). There are `2^32 = 4294967296` paths from
`svr` to `dac`, one from `dac` to `fft` and one from `fft` to `out`, so 4294967296 paths from
`svr` to `out`, all through `dac` and `fft`; part B `solve` returns 0. The count `2^31` of
junction 31 is stored in the `int` memo vector as `-2^31` and read back for the second node of
the last stage. With 3 stages the result is the expected 8. -/
theorem solve_truncates_memoised_counts :
    (initialize_graph (doubling_lines "svr".toList "dac".toList 32
          ++ ["dac: fft".toList, "fft: out".toList])
        { node_to_inputs := List.replicate
            ((doubling_lines "svr".toList "dac".toList 32
              ++ ["dac: fft".toList, "fft: out".toList]).length + 1) [],
          label_to_index := [] }).map
      (fun g => (g.node_to_inputs, index_of "svr".toList g.label_to_index,
        index_of "dac".toList g.label_to_index, index_of "fft".toList g.label_to_index,
        index_of "out".toList g.label_to_index))
      = some (doubling_graph 32 ++ [[96], [97]], 0, 96, 97, 98) ∧
    SolveA.path_count (doubling_graph 32 ++ [[96], [97]]) 200 96 0 = 4294967296 ∧
    SolveA.path_count (doubling_graph 32 ++ [[96], [97]]) 200 97 96 = 1 ∧
    SolveA.path_count (doubling_graph 32 ++ [[96], [97]]) 200 98 97 = 1 ∧
    SolveA.path_count (doubling_graph 32 ++ [[96], [97]]) 200 98 0 = 4294967296 ∧
    solve 200 (doubling_lines "svr".toList "dac".toList 32
        ++ ["dac: fft".toList, "fft: out".toList]) "input" = Outcome.returned 0 ∧
    solve 200 (doubling_lines "svr".toList "dac".toList 3
        ++ ["dac: fft".toList, "fft: out".toList]) "input" = Outcome.returned 8 := by
  have hparse : initialize_graph (doubling_lines "svr".toList "dac".toList 32
        ++ ["dac: fft".toList, "fft: out".toList])
      { node_to_inputs := List.replicate
          ((doubling_lines "svr".toList "dac".toList 32
            ++ ["dac: fft".toList, "fft: out".toList]).length + 1) [],
        label_to_index := [] }
      = some { node_to_inputs := doubling_graph 32 ++ [[96], [97]],
               label_to_index := doubling_labels "svr".toList "dac".toList 32
                 ++ [("fft".toList, 97), ("out".toList, 98)] } := by
    decide!
  have h96 : ∀ fuel, 64 < fuel →
      SolveA.path_count (doubling_graph 32 ++ [[96], [97]]) fuel 96 0 = 4294967296 := by
    intro fuel hfuel
    exact SolveA.path_count_doubling (doubling_graph 32 ++ [[96], [97]]) 32 (by decide) 32
      (le_refl _) fuel hfuel
  refine ⟨?_, h96 200 (by decide), by decide, by decide, ?_, ?_, by decide⟩
  · rw [hparse]
    decide
  · have e1 : SolveA.path_count (doubling_graph 32 ++ [[96], [97]]) 200 98 0
        = SolveA.path_count (doubling_graph 32 ++ [[96], [97]]) 199 97 0 := by
      rw [SolveA.path_count_succ, if_neg (by decide)]
      have : (doubling_graph 32 ++ [[96], [97]]).getD 98 [] = [97] := by decide
      rw [this]
      simp
    have e2 : SolveA.path_count (doubling_graph 32 ++ [[96], [97]]) 199 97 0
        = SolveA.path_count (doubling_graph 32 ++ [[96], [97]]) 198 96 0 := by
      rw [SolveA.path_count_succ, if_neg (by decide)]
      have : (doubling_graph 32 ++ [[96], [97]]).getD 97 [] = [96] := by decide
      rw [this]
      simp
    rw [e1, e2]
    exact h96 198 (by decide)
  · unfold solve
    rw [hparse]
    decide

end SolveB
end Day11

namespace Day04

open Cpp

/-- C29: for every rectangular grid (at least one row, all rows of the length of the first)
and every bound on the iterations above nine times the number of cells, part B `solve` leaves
its `while` loop with the queue exhausted; the positions whose cell still holds a roll (there
is no roll in another cell) are rolls of the input, each of them has at least four of its
eight neighbours among them, and they contain every set of rolls of the input with this
property; `solve` returns the number of rolls of the input minus the number of these
positions. -/
theorem solve_leaves_largest_stable_set (lines : List (List Char)) (input_name : String)
    (fuel : Nat) (hne : lines ≠ [])
    (hrect : ∀ line ∈ lines, line.length = (lines.headD []).length)
    (hfuel : 9 * ((lines.length + 2) * ((lines.headD []).length + 2)) < fuel) :
    ∃ st, remove_rolls fuel lines = Outcome.returned st ∧
      st.remove_index_queue.length ≤ st.queue_index ∧
      (∀ index, has_roll st.cells index = true →
        ∃ pos ∈ remaining st.cells lines.length (lines.headD []).length,
          index = cell_index (lines.headD []).length pos) ∧
      remaining st.cells lines.length (lines.headD []).length ⊆ roll_positions lines ∧
      Stable (remaining st.cells lines.length (lines.headD []).length) ∧
      (∀ rolls, rolls ⊆ roll_positions lines → Stable rolls →
        rolls ⊆ remaining st.cells lines.length (lines.headD []).length) ∧
      solve fuel lines input_name = Outcome.returned
        (((roll_positions lines).card : Int)
          - ((remaining st.cells lines.length (lines.headD []).length).card : Int)) := by
  obtain ⟨rc, hrc⟩ : ∃ rc, rc = lines.length := ⟨_, rfl⟩
  obtain ⟨cc, hcc⟩ : ∃ cc, cc = (lines.headD []).length := ⟨_, rfl⟩
  have hhead : lines.head? = some (lines.headD []) := by
    cases lines with
    | nil => exact absurd rfl hne
    | cons front rest => rfl
  rw [← hcc] at hrect hfuel
  rw [← hrc] at hfuel
  have hsubgrid := roll_positions_subset lines
  rw [← hrc, ← hcc] at hsubgrid
  obtain ⟨R0, hR0⟩ : ∃ R0, R0 = (roll_positions lines).image (cell_index cc) := ⟨_, rfl⟩
  have hgrid : ∀ r ∈ R0, InGrid rc cc r := by
    intro r hr
    rw [hR0] at hr
    obtain ⟨pos, hpos, rfl⟩ := Finset.mem_image.1 hr
    exact inGrid_cell_index rc cc pos (hsubgrid hpos)
  -- the two initialisations
  obtain ⟨cells1, h1, hlen1, hc1, hr1⟩ := initialize_rolls_rows lines cc
    ((rc + 2) * (cc + 2)) hrect (by rw [hrc]) lines.length (le_refl _)
  have hr1b : ∀ i, has_roll cells1 i = true ↔ i ∈ R0 := by
    intro i
    rw [hr1 i, hR0, Finset.mem_image]
    constructor
    · rintro ⟨row, col, hrow, hcol, hi, hch⟩
      refine ⟨(row, col), ?_, hi.symm⟩
      unfold roll_positions
      rw [Finset.mem_filter, mem_grid_positions, ← hcc]
      exact ⟨⟨hrow, hcol⟩, hch⟩
    · rintro ⟨pos, hpos, rfl⟩
      unfold roll_positions at hpos
      rw [Finset.mem_filter, mem_grid_positions, ← hcc] at hpos
      exact ⟨pos.1, pos.2, hpos.1.1, hpos.1.2, rfl, hpos.2⟩
  obtain ⟨cells2, h2, hlen2, hr2, hc2⟩ := initialize_counts_spec rc cc R0 hgrid cells1 hlen1
    hr1b hc1
  -- the loop
  have hinv0 := queueInv_init rc cc R0 cells2 hlen2 hr2 hc2
  have hq0 := initial_queue_length cells2
  have hcard0 : (roll_indices cells2).card ≤ cells2.length := by
    unfold roll_indices
    calc _ ≤ (Finset.range cells2.length).card := Finset.card_filter_le _ _
      _ = cells2.length := Finset.card_range _
  obtain ⟨st, h3, hinv, hend⟩ := remove_loop_spec rc cc R0 hgrid fuel _ hinv0 (by
    simp only
    omega)
  have hstable := stable_of_exhausted rc cc R0 hgrid st hinv hend
  have hrun : remove_rolls fuel lines = Outcome.returned st := by
    unfold remove_rolls
    simp only [hhead, ← hcc, ← hrc]
    rw [← hrc] at h1
    simp only [h1, h2, h3]
  -- from indices to positions
  have hremgrid : remaining st.cells rc cc ⊆ grid_positions rc cc := by
    unfold remaining
    exact Finset.filter_subset _ _
  have himage : (remaining st.cells rc cc).image (cell_index cc) = roll_indices st.cells := by
    ext i
    rw [Finset.mem_image, mem_roll_indices]
    constructor
    · rintro ⟨pos, hpos, rfl⟩
      unfold remaining at hpos
      exact (Finset.mem_filter.1 hpos).2
    · intro hi
      have hiR0 := hinv.rolls ((mem_roll_indices st.cells i).2 hi)
      rw [hR0] at hiR0
      obtain ⟨pos, hpos, rfl⟩ := Finset.mem_image.1 hiR0
      refine ⟨pos, ?_, rfl⟩
      unfold remaining
      exact Finset.mem_filter.2 ⟨hsubgrid hpos, hi⟩
  have hsub : remaining st.cells rc cc ⊆ roll_positions lines := by
    intro pos hpos
    have hi : cell_index cc pos ∈ roll_indices st.cells := by
      rw [← himage]
      exact Finset.mem_image_of_mem _ hpos
    have hiR0 := hinv.rolls hi
    rw [hR0] at hiR0
    obtain ⟨other, hother, heq⟩ := Finset.mem_image.1 hiR0
    have h1 := (mem_grid_positions rc cc other).1 (hsubgrid hother)
    have h2 := (mem_grid_positions rc cc pos).1 (hremgrid hpos)
    rw [← cell_index_inj cc other pos h1.2 h2.2 heq]
    exact hother
  have hcardR0 : R0.card = (roll_positions lines).card := by
    rw [hR0]
    exact Finset.card_image_of_injOn (cell_index_injOn rc cc _ hsubgrid)
  have hcardR : (roll_indices st.cells).card = (remaining st.cells rc cc).card := by
    rw [← himage]
    exact Finset.card_image_of_injOn (cell_index_injOn rc cc _ hremgrid)
  rw [← hrc, ← hcc]
  refine ⟨st, hrun, hend, ?_, hsub, ?_, ?_, ?_⟩
  · intro index hindex
    have : index ∈ (remaining st.cells rc cc).image (cell_index cc) := by
      rw [himage]
      exact (mem_roll_indices st.cells index).2 hindex
    obtain ⟨pos, hpos, heq⟩ := Finset.mem_image.1 this
    exact ⟨pos, hpos, heq.symm⟩
  · rw [stable_iff_indexStable rc cc _ hremgrid, himage]
    exact hstable
  · intro T hT hTstable
    have hTgrid : T ⊆ grid_positions rc cc := fun a ha => hsubgrid (hT ha)
    have hTR0 : T.image (cell_index cc) ⊆ R0 := by
      rw [hR0]
      exact Finset.image_subset_image hT
    have := hinv.largest _ hTR0 ((stable_iff_indexStable rc cc T hTgrid).1 hTstable)
    intro pos hpos
    have hi := this (Finset.mem_image_of_mem _ hpos)
    rw [← himage] at hi
    obtain ⟨other, hother, heq⟩ := Finset.mem_image.1 hi
    have h1 := (mem_grid_positions rc cc other).1 (hremgrid hother)
    have h2 := (mem_grid_positions rc cc pos).1 (hTgrid hpos)
    rw [← cell_index_inj cc other pos h1.2 h2.2 heq]
    exact hother
  · unfold solve
    rw [hrun]
    simp only
    have := hinv.removed
    rw [hcardR0, hcardR] at this
    congr 1
    omega

theorem solve_leaves_largest_stable_set_witness :
    ∃ st, remove_rolls 400 ["@@@@".toList, "@@@@".toList, "@@@@".toList, "@@@@".toList]
        = Outcome.returned st ∧
      st.remove_index_queue.length ≤ st.queue_index ∧
      (∀ index, has_roll st.cells index = true →
        ∃ pos ∈ remaining st.cells 4 4, index = cell_index 4 pos) ∧
      remaining st.cells 4 4
        ⊆ roll_positions ["@@@@".toList, "@@@@".toList, "@@@@".toList, "@@@@".toList] ∧
      Stable (remaining st.cells 4 4) ∧
      (∀ rolls,
        rolls ⊆ roll_positions ["@@@@".toList, "@@@@".toList, "@@@@".toList, "@@@@".toList] →
        Stable rolls → rolls ⊆ remaining st.cells 4 4) ∧
      solve 400 ["@@@@".toList, "@@@@".toList, "@@@@".toList, "@@@@".toList] "grid"
        = Outcome.returned
          (((roll_positions
              ["@@@@".toList, "@@@@".toList, "@@@@".toList, "@@@@".toList]).card : Int)
            - ((remaining st.cells 4 4).card : Int)) :=
  solve_leaves_largest_stable_set
    ["@@@@".toList, "@@@@".toList, "@@@@".toList, "@@@@".toList] "grid" 400 (by decide)
    (by decide) (by decide)

end Day04

namespace Day03

open Cpp

namespace SolveA

/-- C30: for every line of at least two decimal digits (and `digit_to_int` giving the value
of a digit character), `solve_line` returns the maximum of `10 * digit(i) + digit(j)` over all
positions `i < j` of the line: the value is taken at some pair of positions and no pair gives
a larger one. -/
theorem solve_line_best_pair (digit_to_int : Char → Int)
    (hdigit : ∀ c : Char, c.isDigit = true → digit_to_int c = (c.toNat : Int) - 48)
    (line : List Char) (hlen : 2 ≤ line.length) (hd : ∀ c ∈ line, c.isDigit = true) :
    ∃ v, solve_line digit_to_int line = some v ∧
      (∃ i j, i < j ∧ j < line.length ∧
        v = 10 * digit_to_int (line.getD i '0') + digit_to_int (line.getD j '0')) ∧
      ∀ i j, i < j → j < line.length →
        10 * digit_to_int (line.getD i '0') + digit_to_int (line.getD j '0') ≤ v := by
  have hmono : ∀ a b : Char, a.isDigit = true → b.isDigit = true → a ≤ b →
      digit_to_int a ≤ digit_to_int b := by
    intro a b ha hb hab
    rw [hdigit a ha, hdigit b hb]
    have : a.toNat ≤ b.toNat := hab
    omega
  have hnonneg : ∀ a : Char, a.isDigit = true → 0 ≤ digit_to_int a := by
    intro a ha
    rw [hdigit a ha]
    have := ((isDigit_iff a).mp ha).1
    omega
  obtain ⟨st, hpop, hinv⟩ := populate_spec line
  -- the running maxima are digits of the line
  have hfw : ∀ i, i < line.length - 1 → ∃ a, st.max_digits_fw[i]? = some a ∧
      a ∈ line.take (i + 1) ∧ ∀ c ∈ line.take (i + 1), c ≤ a := by
    intro i hi
    obtain ⟨a, ha, hmax⟩ := hinv.fw i (by omega)
    have hne : line.take (i + 1) ≠ [] := by
      intro h
      have h0 : (line.take (i + 1)).length = 0 := by rw [h]; rfl
      rw [List.length_take] at h0
      omega
    exact ⟨a, ha, isMaxOf_mem hmax hne (fun c hc => hd c (List.mem_of_mem_take hc)), hmax.2⟩
  have hbw : ∀ i, i < line.length - 1 → ∃ b, st.max_digits_bw[i + 1]? = some b ∧
      b ∈ line.drop (i + 1) ∧ ∀ c ∈ line.drop (i + 1), c ≤ b := by
    intro i hi
    obtain ⟨b, hb, hmax⟩ := hinv.bw (i + 1) (by omega) (by omega)
    have hne : line.drop (i + 1) ≠ [] := by
      intro h
      have h0 : (line.drop (i + 1)).length = 0 := by rw [h]; rfl
      rw [List.length_drop] at h0
      omega
    exact ⟨b, hb, isMaxOf_mem hmax hne (fun c hc => hd c (List.mem_of_mem_drop hc)), hmax.2⟩
  obtain ⟨v, hv, hle, hatt⟩ := combine_prefix digit_to_int st.max_digits_fw st.max_digits_bw
    (fun i => 10 * digit_to_int (st.max_digits_fw.getD i '0')
      + digit_to_int (st.max_digits_bw.getD (i + 1) '0')) (line.length - 1)
    (by
      intro i hi
      obtain ⟨a, ha, _⟩ := hfw i hi
      obtain ⟨b, hb, _⟩ := hbw i hi
      refine ⟨a, b, ha, hb, ?_⟩
      simp only [List.getD_eq_getElem?_getD, ha, hb]
      rfl)
    (line.length - 1) (le_refl _)
  -- the combined value at position `i` in terms of the line
  have hC : ∀ i, i < line.length - 1 → ∃ a b, a ∈ line.take (i + 1) ∧ b ∈ line.drop (i + 1) ∧
      (∀ c ∈ line.take (i + 1), c ≤ a) ∧ (∀ c ∈ line.drop (i + 1), c ≤ b) ∧
      10 * digit_to_int (st.max_digits_fw.getD i '0')
        + digit_to_int (st.max_digits_bw.getD (i + 1) '0')
        = 10 * digit_to_int a + digit_to_int b := by
    intro i hi
    obtain ⟨a, ha, ha1, ha2⟩ := hfw i hi
    obtain ⟨b, hb, hb1, hb2⟩ := hbw i hi
    refine ⟨a, b, ha1, hb1, ha2, hb2, ?_⟩
    simp only [List.getD_eq_getElem?_getD, ha, hb]
    rfl
  refine ⟨v, ?_, ?_, ?_⟩
  · unfold solve_line
    rw [hpop]
    simp only
    rw [if_neg (by omega)]
    exact hv
  · have hex : ∃ i, i < line.length - 1 ∧
        v = 10 * digit_to_int (st.max_digits_fw.getD i '0')
          + digit_to_int (st.max_digits_bw.getD (i + 1) '0') := by
      rcases hatt with h0 | h1
      · refine ⟨0, by omega, ?_⟩
        have h2 := hle 0 (by omega)
        obtain ⟨a, b, ha, hb, _, _, heq⟩ := hC 0 (by omega)
        have hna := hnonneg a (hd a (List.mem_of_mem_take ha))
        have hnb := hnonneg b (hd b (List.mem_of_mem_drop hb))
        simp only at h2
        omega
      · exact h1
    obtain ⟨i, hi, hvi⟩ := hex
    obtain ⟨a, b, ha, hb, _, _, heq⟩ := hC i hi
    obtain ⟨i2, hi2, _, hai⟩ := mem_take_index ha
    obtain ⟨j2, hj2, hj2len, hbj⟩ := mem_drop_index hb
    refine ⟨i2, j2, by omega, hj2len, ?_⟩
    rw [hvi, heq, hai, hbj]
  · intro i j hij hj
    obtain ⟨a, b, ha, hb, hamax, hbmax, heq⟩ := hC i (by omega)
    have h1 := hle i (by omega)
    simp only at h1
    rw [heq] at h1
    have hia : line.getD i '0' ≤ a := hamax _ (getD_mem_take (by omega) (by omega))
    have hjb : line.getD j '0' ≤ b := hbmax _ (getD_mem_drop (by omega) hj)
    have hdi : (line.getD i '0').isDigit = true :=
      hd _ (List.mem_of_mem_take (getD_mem_take (Nat.lt_succ_self i) (by omega)))
    have hdj : (line.getD j '0').isDigit = true :=
      hd _ (List.mem_of_mem_drop (getD_mem_drop (Nat.zero_le j) hj))
    have m1 := hmono _ _ hdi (hd a (List.mem_of_mem_take ha)) hia
    have m2 := hmono _ _ hdj (hd b (List.mem_of_mem_drop hb)) hjb
    omega

theorem solve_line_best_pair_witness :
    ∃ v, solve_line (fun c => (c.toNat : Int) - 48) "13524".toList = some v ∧
      (∃ i j, i < j ∧ j < "13524".toList.length ∧
        v = 10 * (fun c : Char => (c.toNat : Int) - 48) ("13524".toList.getD i '0')
          + (fun c : Char => (c.toNat : Int) - 48) ("13524".toList.getD j '0')) ∧
      ∀ i j, i < j → j < "13524".toList.length →
        10 * (fun c : Char => (c.toNat : Int) - 48) ("13524".toList.getD i '0')
          + (fun c : Char => (c.toNat : Int) - 48) ("13524".toList.getD j '0') ≤ v :=
  solve_line_best_pair (fun c => (c.toNat : Int) - 48) (fun _ _ => rfl) "13524".toList
    (by decide) (by decide)

end SolveA
end Day03

namespace Day01

open Cpp

namespace SolveA

/-- C31 (counterexample): for the moves `R2147483647`, `R3` the dial is at `2147483697` and
then at `2147483700`, a multiple of 100, so one move ends at a position divisible by 100; in
part A `solve` the sum `50 + 2147483647` overflows the `int`, the reduced position becomes
`-99` and then `-96`, and the result is 0. -/
theorem solve_overflows_on_long_move_a :
    ["R2147483647".toList, "R3".toList].map parse_line = [some 2147483647, some 3] ∧
    positions 50 [2147483647, 3] = [2147483697, 2147483700] ∧
    zero_stops [2147483647, 3] = 1 ∧
    solve ["R2147483647".toList, "R3".toList] "input" = Outcome.returned 0 := by
  refine ⟨by rfl, by rfl, by rfl, by rfl⟩

/-- C31 (amended): for every sequence of signed moves, each between `-(2^31 - 100)` and
`2^31 - 100`, applied to a dial starting at 50, and with fewer than `2^31` of them ending at
a multiple of 100, part A `solve` returns the number of moves after which 50 plus the sum of
the moves so far is divisible by 100, although the position is reduced with the truncating
`% 100` and can be negative. -/
theorem solve_counts_multiples_of_hundred (lines : List (List Char)) (moves : List Int)
    (input_name : String) (hparse : lines.map parse_line = moves.map some)
    (hmoves : ∀ v ∈ moves, -(2 ^ 31 - 100) ≤ v ∧ v ≤ 2 ^ 31 - 100)
    (hcount : (zero_stops moves : Int) < 2 ^ 31) :
    solve lines input_name = Outcome.returned ((zero_stops moves : Nat) : Int) := by
  unfold solve
  rw [foldlM_parse_a lines moves _ hparse]
  have h := foldl_count_zeros_a moves { current := 50, zeros := 0 } 50 0 rfl (by norm_num)
    (by norm_num) rfl hmoves (by
      unfold zero_stops at hcount
      simpa using hcount)
  simp only [h]
  unfold zero_stops
  simp

theorem solve_counts_multiples_of_hundred_witness :
    solve ["L68".toList, "L30".toList, "R48".toList, "L5".toList, "R60".toList,
        "L55".toList, "L1".toList, "L99".toList, "R14".toList, "L82".toList] "sample"
      = Outcome.returned ((zero_stops [-68, -30, 48, -5, 60, -55, -1, -99, 14, -82] : Nat) : Int) :=
  solve_counts_multiples_of_hundred _ [-68, -30, 48, -5, 60, -55, -1, -99, 14, -82] "sample"
    (by rfl) (by decide) (by decide)

end SolveA

end Day01

namespace Day08

open Cpp

namespace SolveB

/-- C32: for every list of `N >= 2` points (each carrying its position as id) and every
sorting routine, `find_last_edge` run on the sorted vector of all `N * (N - 1) / 2` edges
returns at an edge index `t` with `t + 1 <= N * (N - 1) / 2`: every index `0 .. t` it has read
is inside the vector. The loop has no bound check of its own: given only the `t` edges before
that one, it reads past the end (no result). -/
theorem find_last_edge_reads_inside_edge_vector (S : EdgeSorter) (points : List Point)
    (hw : WellIndexed points) (hN : 2 ≤ points.length) :
    ∃ edges t e st,
      initialize_edges S points
          (List.replicate (points.length * (points.length - 1) / 2) default) = some edges ∧
      edges.length = points.length * (points.length - 1) / 2 ∧
      find_last_edge edges (List.replicate points.length 0) = some (t, e, st) ∧
      t + 1 ≤ points.length * (points.length - 1) / 2 ∧
      (∀ j, j ≤ t → ∃ x, edges[j]? = some x) ∧
      find_last_edge (edges.take t) (List.replicate points.length 0) = none := by
  have hinit : initialize_edges S points
      (List.replicate (points.length * (points.length - 1) / 2) default)
      = some (S.sort (edge_stream points)) := by
    unfold initialize_edges
    rw [fill_edges_eq points _ (List.length_replicate _ _)]
    rfl
  have hperm := S.perm (edge_stream points)
  have hlen : (S.sort (edge_stream points)).length
      = points.length * (points.length - 1) / 2 := by
    rw [hperm.length_eq, edge_stream_length]
  obtain ⟨t, e, st, hfind, hget, _, _, _, _⟩ :=
    find_last_edge_spec points hw hN (S.sort (edge_stream points)) hperm
  have ht : t < (S.sort (edge_stream points)).length := (List.getElem?_eq_some_iff.mp hget).1
  refine ⟨S.sort (edge_stream points), t, e, st, hinit, hlen, hfind, by omega, ?_, ?_⟩
  · intro j hj
    exact ⟨_, List.getElem?_eq_getElem (by omega)⟩
  · have hscan : scan (S.sort (edge_stream points)) 0
        (start (List.replicate points.length 0)) = some (t, e, st) := hfind
    obtain ⟨k, hk, _, _, _, hmin⟩ := scan_some _ 0 _ t e st hscan
    have hkt : k = t := by omega
    subst hkt
    show scan ((S.sort (edge_stream points)).take k) 0
      (start (List.replicate points.length 0)) = none
    apply scan_none_of_not_terminal
    intro j hj
    rw [List.length_take] at hj
    have hjk : j < k := by omega
    obtain ⟨stj, hrun, hnot⟩ := hmin j hjk
    refine ⟨stj, ?_, hnot⟩
    rw [List.take_take, Nat.min_eq_left (by omega)]
    exact hrun

theorem find_last_edge_reads_inside_edge_vector_witness :
    ∃ edges t e st,
      initialize_edges stable_sorter two_pairs
          (List.replicate (two_pairs.length * (two_pairs.length - 1) / 2) default)
        = some edges ∧
      edges.length = two_pairs.length * (two_pairs.length - 1) / 2 ∧
      find_last_edge edges (List.replicate two_pairs.length 0) = some (t, e, st) ∧
      t + 1 ≤ two_pairs.length * (two_pairs.length - 1) / 2 ∧
      (∀ j, j ≤ t → ∃ x, edges[j]? = some x) ∧
      find_last_edge (edges.take t) (List.replicate two_pairs.length 0) = none :=
  find_last_edge_reads_inside_edge_vector stable_sorter two_pairs SolveA.two_pairs_wellIndexed
    (by decide)

/-- C33: starting from an all-zero vector of `n` group ids, after every edge that the loop of
`find_last_edge` has processed (the edges having valid, distinct endpoints),
`unassigned_points` is the number of points whose group id is 0 and `unique_group_count` is
the number of distinct non-zero group ids in `point_groups`; so it is in the state with which
`find_last_edge` returns. -/
theorem find_last_edge_counters_match_groups (n : Nat) (edges : List Edge)
    (hvalid : ∀ e ∈ edges, e.index_a < n ∧ e.index_b < n ∧ e.index_a ≠ e.index_b) :
    (∀ j, ∃ stj, run (edges.take j) (start (List.replicate n 0)) = some stj ∧
      stj.unassigned_points = stj.point_groups.count 0 ∧
      stj.unique_group_count = (group_ids stj.point_groups).card) ∧
    ∀ t e st, find_last_edge edges (List.replicate n 0) = some (t, e, st) →
      run (edges.take (t + 1)) (start (List.replicate n 0)) = some st ∧
      st.unassigned_points = st.point_groups.count 0 ∧
      st.unique_group_count = (group_ids st.point_groups).card := by
  have hall : ∀ j, ∃ stj, run (edges.take j) (start (List.replicate n 0)) = some stj ∧
      stj.unassigned_points = stj.point_groups.count 0 ∧
      stj.unique_group_count = (group_ids stj.point_groups).card := by
    intro j
    obtain ⟨stj, hrun, _, hc⟩ := run_inv (edges.take j) [] (start (List.replicate n 0))
      (start_inv n).1 (start_inv n).2 (fun x hx => hvalid x (List.mem_of_mem_take hx))
    exact ⟨stj, hrun, hc.unassigned, hc.unique⟩
  refine ⟨hall, ?_⟩
  intro t e st hfind
  have hscan : scan edges 0 (start (List.replicate n 0)) = some (t, e, st) := hfind
  obtain ⟨k, hk, _, hrun, _, _⟩ := scan_some edges 0 _ t e st hscan
  have hkt : k = t := by omega
  subst hkt
  obtain ⟨st2, hrun2, h1, h2⟩ := hall (k + 1)
  have : st = st2 := Option.some.inj (hrun.symm.trans hrun2)
  subst this
  exact ⟨hrun, h1, h2⟩

theorem find_last_edge_counters_match_groups_witness :
    (∀ j, ∃ stj, run ((edge_stream two_pairs).take j)
        (start (List.replicate two_pairs.length 0)) = some stj ∧
      stj.unassigned_points = stj.point_groups.count 0 ∧
      stj.unique_group_count = (group_ids stj.point_groups).card) ∧
    ∀ t e st, find_last_edge (edge_stream two_pairs) (List.replicate two_pairs.length 0)
        = some (t, e, st) →
      run ((edge_stream two_pairs).take (t + 1)) (start (List.replicate two_pairs.length 0))
        = some st ∧
      st.unassigned_points = st.point_groups.count 0 ∧
      st.unique_group_count = (group_ids st.point_groups).card :=
  find_last_edge_counters_match_groups two_pairs.length (edge_stream two_pairs)
    (fun e he => by
      have := edge_stream_valid SolveA.two_pairs_wellIndexed he
      omega)

end SolveB

/-- C34: when an edge is processed whose endpoints hold two different non-zero group ids `ga`
and `gb`, the step returns, in `find_point_groups` and in `find_last_edge` alike, a vector of
the same length in which every point that held `gb` holds `ga`, every point that held `ga`
still holds `ga`, and every point that held another id (or none) holds what it held; the
counter of new ids is unchanged. -/
theorem merge_relabels_group_of_second_endpoint (point_groups : List Nat) (edge : Edge)
    (ga gb : Nat) (ha : point_groups[edge.index_a]? = some ga)
    (hb : point_groups[edge.index_b]? = some gb) (hga : ga ≠ 0) (hgb : gb ≠ 0)
    (hne : ga ≠ gb) :
    (∀ group_counter, ∃ st2,
      connect { point_groups := point_groups, group_counter := group_counter } edge
        = some st2 ∧
      st2.group_counter = group_counter ∧
      st2.point_groups.length = point_groups.length ∧
      ∀ p, (group_of point_groups p = gb → group_of st2.point_groups p = ga) ∧
        (group_of point_groups p = ga → group_of st2.point_groups p = ga) ∧
        (group_of point_groups p ≠ gb →
          group_of st2.point_groups p = group_of point_groups p)) ∧
    ∀ unassigned_points unique_group_count group_counter, ∃ st2,
      SolveB.connect { point_groups := point_groups, unassigned_points := unassigned_points,
                       unique_group_count := unique_group_count,
                       group_counter := group_counter } edge = some st2 ∧
      st2.group_counter = group_counter ∧
      st2.point_groups.length = point_groups.length ∧
      ∀ p, (group_of point_groups p = gb → group_of st2.point_groups p = ga) ∧
        (group_of point_groups p = ga → group_of st2.point_groups p = ga) ∧
        (group_of point_groups p ≠ gb →
          group_of st2.point_groups p = group_of point_groups p) := by
  have hframe : ∀ p,
      (group_of point_groups p = gb →
        group_of (point_groups.map (fun g => if g = gb then ga else g)) p = ga) ∧
      (group_of point_groups p = ga →
        group_of (point_groups.map (fun g => if g = gb then ga else g)) p = ga) ∧
      (group_of point_groups p ≠ gb →
        group_of (point_groups.map (fun g => if g = gb then ga else g)) p
          = group_of point_groups p) := by
    intro p
    rw [group_of_map _ _ (by rw [if_neg (Ne.symm hgb)])]
    refine ⟨fun h => by rw [if_pos h], fun h => ?_, fun h => by rw [if_neg h]⟩
    rw [if_neg (by rw [h]; exact hne), h]
  have h00 : ¬ (ga = 0 ∧ gb = 0) := fun h => hga h.1
  constructor
  · intro group_counter
    refine ⟨⟨point_groups.map (fun g => if g = gb then ga else g), group_counter⟩, ?_, rfl,
      by simp, hframe⟩
    unfold connect
    simp only [ha, hb, if_neg h00, if_neg hga, if_neg hgb, if_pos hne]
  · intro unassigned_points unique_group_count group_counter
    refine ⟨{ point_groups := point_groups.map (fun g => if g = gb then ga else g),
              unassigned_points := unassigned_points,
              unique_group_count := unique_group_count - 1,
              group_counter := group_counter }, ?_, rfl, by simp, hframe⟩
    unfold SolveB.connect
    simp only [ha, hb, if_neg h00, if_neg hga, if_neg hgb, if_pos hne]

theorem merge_relabels_group_of_second_endpoint_witness :
    (∀ group_counter, ∃ st2,
      connect { point_groups := [1, 1, 2, 2, 0], group_counter := group_counter }
        { index_a := 3, index_b := 0, distance2 := 1 } = some st2 ∧
      st2.group_counter = group_counter ∧
      st2.point_groups.length = [1, 1, 2, 2, 0].length ∧
      ∀ p, (group_of [1, 1, 2, 2, 0] p = 1 → group_of st2.point_groups p = 2) ∧
        (group_of [1, 1, 2, 2, 0] p = 2 → group_of st2.point_groups p = 2) ∧
        (group_of [1, 1, 2, 2, 0] p ≠ 1 →
          group_of st2.point_groups p = group_of [1, 1, 2, 2, 0] p)) ∧
    ∀ unassigned_points unique_group_count group_counter, ∃ st2,
      SolveB.connect { point_groups := [1, 1, 2, 2, 0],
                       unassigned_points := unassigned_points,
                       unique_group_count := unique_group_count,
                       group_counter := group_counter }
        { index_a := 3, index_b := 0, distance2 := 1 } = some st2 ∧
      st2.group_counter = group_counter ∧
      st2.point_groups.length = [1, 1, 2, 2, 0].length ∧
      ∀ p, (group_of [1, 1, 2, 2, 0] p = 1 → group_of st2.point_groups p = 2) ∧
        (group_of [1, 1, 2, 2, 0] p = 2 → group_of st2.point_groups p = 2) ∧
        (group_of [1, 1, 2, 2, 0] p ≠ 1 →
          group_of st2.point_groups p = group_of [1, 1, 2, 2, 0] p) :=
  merge_relabels_group_of_second_endpoint [1, 1, 2, 2, 0]
    { index_a := 3, index_b := 0, distance2 := 1 } 2 1 (by rfl) (by rfl) (by decide)
    (by decide) (by decide)

namespace SolveA

/-- C35: in every run of `find_point_groups` from an all-zero vector that returns, take the
states after `i` and after `j` iterations, `i <= j`. Every group id held after `i` iterations
is below the counter after `j` iterations, and a group created by iteration `j + 1` receives
exactly this counter as its id: an id strictly greater than every id assigned before. When
iteration `i + 1` merges two groups (its edge joins two different non-zero ids), the id of
the second endpoint, which the merge relabels, is held by no point after `j > i`
iterations. -/
theorem find_point_groups_ids_increase_and_retire (edges : List Edge) (n K : Nat)
    (result : List Nat × Nat)
    (hrun : find_point_groups edges (List.replicate n 0) K = some result) (i j : Nat)
    (hij : i ≤ j) (hjK : j ≤ K) :
    ∃ st_i st_j,
      (List.range i).foldlM (connect_at edges) ⟨List.replicate n 0, 1⟩ = some st_i ∧
      (List.range j).foldlM (connect_at edges) ⟨List.replicate n 0, 1⟩ = some st_j ∧
      (∀ p, group_of st_i.point_groups p < st_j.group_counter) ∧
      (∀ e, j < K → edges[j]? = some e →
        group_of st_j.point_groups e.index_a = 0 →
        group_of st_j.point_groups e.index_b = 0 →
        ∃ st2, (List.range (j + 1)).foldlM (connect_at edges) ⟨List.replicate n 0, 1⟩
            = some st2 ∧
          group_of st2.point_groups e.index_a = st_j.group_counter ∧
          group_of st2.point_groups e.index_b = st_j.group_counter ∧
          st2.group_counter = st_j.group_counter + 1) ∧
      (∀ e, i < j → edges[i]? = some e →
        group_of st_i.point_groups e.index_a ≠ 0 →
        group_of st_i.point_groups e.index_b ≠ 0 →
        group_of st_i.point_groups e.index_a ≠ group_of st_i.point_groups e.index_b →
        ∀ p, group_of st_j.point_groups p ≠ group_of st_i.point_groups e.index_b) := by
  obtain ⟨stK, hK⟩ : ∃ stK,
      (List.range K).foldlM (connect_at edges) ⟨List.replicate n 0, 1⟩ = some stK := by
    unfold find_point_groups at hrun
    cases h : (List.range K).foldlM (connect_at edges) ⟨List.replicate n 0, 1⟩ with
    | none => rw [h] at hrun; simp at hrun
    | some stK => exact ⟨stK, rfl⟩
  have hfresh0 : ∀ p, group_of (⟨List.replicate n 0, 1⟩ : Groups).point_groups p
      < (⟨List.replicate n 0, 1⟩ : Groups).group_counter := by
    intro p
    simp only
    rw [group_of_replicate]
    omega
  -- the state after any number of iterations up to `K`, with its ids below its counter
  have hstate : ∀ m, m ≤ K → ∃ st,
      (List.range m).foldlM (connect_at edges) ⟨List.replicate n 0, 1⟩ = some st ∧
      ∀ p, group_of st.point_groups p < st.group_counter := by
    intro m hm
    obtain ⟨st, hst, _⟩ := foldlM_connect_at_split edges _ stK m K hm hK
    refine ⟨st, hst, ?_⟩
    have hle := foldlM_connect_at_le edges m _ st hst
    rw [foldlM_connect_at edges m _ hle] at hst
    exact (foldlM_connect_ids _ _ _ hst hfresh0).2.1
  obtain ⟨st_j, hj, hfreshj⟩ := hstate j hjK
  obtain ⟨st_i, hi, hseg⟩ := foldlM_connect_at_split edges _ st_j i j hij hj
  have hfreshi : ∀ p, group_of st_i.point_groups p < st_i.group_counter := by
    obtain ⟨st, hst, hf⟩ := hstate i (by omega)
    have : st = st_i := Option.some.inj (hst.symm.trans hi)
    subst this
    exact hf
  obtain ⟨hmono, _, _⟩ := foldlM_connect_ids _ _ _ hseg hfreshi
  refine ⟨st_i, st_j, hi, hj, ?_, ?_, ?_⟩
  · intro p
    have := hfreshi p
    omega
  · intro e hjlt he ha0 hb0
    obtain ⟨st2, hst2, _⟩ := hstate (j + 1) (by omega)
    have hstep : connect st_j e = some st2 := by
      rw [← foldlM_connect_at_succ edges _ st_j j e hj he]
      exact hst2
    obtain ⟨ha, hb⟩ := connect_valid hstep
    rw [connect_eq st_j e ha hb, if_pos ⟨ha0, hb0⟩] at hstep
    have h2 := Option.some.inj hstep
    subst h2
    have hlen : e.index_b < (st_j.point_groups.set e.index_a st_j.group_counter).length := by
      rw [List.length_set]; exact hb
    refine ⟨_, hst2, ?_, ?_, rfl⟩
    · simp only
      rw [group_of_set _ _ _ _ hlen, group_of_set _ _ _ _ ha]
      simp
    · simp only
      rw [group_of_set _ _ _ _ hlen]
      simp
  · intro e hilt he ha0 hb0 hne
    obtain ⟨st1, hst1, hseg1⟩ := foldlM_connect_at_split edges _ st_j (i + 1) j (by omega) hj
    have hstep : connect st_i e = some st1 := by
      rw [← foldlM_connect_at_succ edges _ st_i i e hi he]
      exact hst1
    have hids := connect_ids hstep hfreshi
    obtain ⟨ha, hb⟩ := connect_valid hstep
    rw [connect_eq st_i e ha hb, if_neg (fun h => ha0 h.1), if_neg ha0, if_neg hb0,
      if_pos hne] at hstep
    have h2 := Option.some.inj hstep
    have habsent : ∀ p, group_of st1.point_groups p ≠ group_of st_i.point_groups e.index_b := by
      intro p
      rw [← h2]
      simp only
      rw [group_of_map _ _ (by rw [if_neg (Ne.symm hb0)])]
      by_cases hp : group_of st_i.point_groups p = group_of st_i.point_groups e.index_b
      · rw [if_pos hp]
        exact hne
      · rw [if_neg hp]
        exact hp
    have hcounter : st1.group_counter = st_i.group_counter := by rw [← h2]
    exact (foldlM_connect_ids _ _ _ hseg1 hids.2.1).2.2 _
      (by rw [hcounter]; exact hfreshi e.index_b) habsent

theorem find_point_groups_ids_increase_and_retire_witness :
    ∃ st_i st_j,
      (List.range 2).foldlM
          (connect_at [⟨1, 0, 1⟩, ⟨1, 2, 3⟩, ⟨4, 1, 2⟩, ⟨9, 4, 5⟩])
          ⟨List.replicate 6 0, 1⟩ = some st_i ∧
      (List.range 3).foldlM
          (connect_at [⟨1, 0, 1⟩, ⟨1, 2, 3⟩, ⟨4, 1, 2⟩, ⟨9, 4, 5⟩])
          ⟨List.replicate 6 0, 1⟩ = some st_j ∧
      (∀ p, group_of st_i.point_groups p < st_j.group_counter) ∧
      (∀ e, 3 < 4 → ([⟨1, 0, 1⟩, ⟨1, 2, 3⟩, ⟨4, 1, 2⟩, ⟨9, 4, 5⟩] : List Edge)[3]? = some e →
        group_of st_j.point_groups e.index_a = 0 →
        group_of st_j.point_groups e.index_b = 0 →
        ∃ st2, (List.range (3 + 1)).foldlM
            (connect_at [⟨1, 0, 1⟩, ⟨1, 2, 3⟩, ⟨4, 1, 2⟩, ⟨9, 4, 5⟩])
            ⟨List.replicate 6 0, 1⟩ = some st2 ∧
          group_of st2.point_groups e.index_a = st_j.group_counter ∧
          group_of st2.point_groups e.index_b = st_j.group_counter ∧
          st2.group_counter = st_j.group_counter + 1) ∧
      (∀ e, 2 < 3 → ([⟨1, 0, 1⟩, ⟨1, 2, 3⟩, ⟨4, 1, 2⟩, ⟨9, 4, 5⟩] : List Edge)[2]? = some e →
        group_of st_i.point_groups e.index_a ≠ 0 →
        group_of st_i.point_groups e.index_b ≠ 0 →
        group_of st_i.point_groups e.index_a ≠ group_of st_i.point_groups e.index_b →
        ∀ p, group_of st_j.point_groups p ≠ group_of st_i.point_groups e.index_b) :=
  find_point_groups_ids_increase_and_retire
    [⟨1, 0, 1⟩, ⟨1, 2, 3⟩, ⟨4, 1, 2⟩, ⟨9, 4, 5⟩] 6 4 ([1, 1, 1, 1, 3, 3], 3) (by rfl) 2 3
    (by decide) (by decide)

end SolveA

end Day08

